import Mathlib

namespace GoMasking

/-!
go-masking: keyword trie, scanner and masking entry point

A shallow embedding of `internal/table.go`, `internal/trie.go` and
`internal/masking.go`.

Conventions of the embedding.

* A byte is a natural number below 256; Go strings and byte slices are lists of
  bytes.
* A `*TrieNode` is the index of the node in `Trie.Nodes` (the code itself
  indexes `nodes[r.State]`); a nil pointer is `none`.
* A `*Rule` stored in a trie node or a position is the registry name of the
  rule it points to: every rule object reachable from a trie is an entry of
  `cfg.Rules`, entries are updated in place and never replaced or removed.
* A Go panic is the result `none`.
* A Go map is an association list; the order of the list is the order in which
  `range` enumerates the map, which Go leaves unspecified.
-/


/-- Bytes of an ASCII string literal. -/
def ascii (s : String) : List Nat := s.data.map Char.toNat

/-! ## table.go -/

/-- The table `charTable` after `initCharTable`: the bitmap index of a key
byte, `-1` for every other byte. The Go array has 128 entries; callers that
index it without a guard are modelled with an explicit bound check. -/
def charTable (c : Nat) : Int :=
  if 97 ≤ c ∧ c ≤ 122 then (c : Int) - 97
  else if 65 ≤ c ∧ c ≤ 90 then (c : Int) - 65
  else if 48 ≤ c ∧ c ≤ 57 then (c : Int) - 48 + 26
  else if c = 45 then 36
  else if c = 95 then 37
  else if c = 64 then 38
  else -1

/-- The table `splitterTable` after `initSplitterTable`: true for every byte
except letters, digits, `-` and `_`. -/
def splitterTable (c : Nat) : Bool :=
  if 97 ≤ c ∧ c ≤ 122 then false
  else if 65 ≤ c ∧ c ≤ 90 then false
  else if 48 ≤ c ∧ c ≤ 57 then false
  else if c = 45 then false
  else if c = 95 then false
  else true

/-! ## trie.go: nodes and child lookup -/

def SectionCount : Nat := 7

structure CharState where
  Char : Nat
  State : Nat
deriving DecidableEq, Repr, Inhabited

structure TrieNode where
  State : Nat
  Child : List (List CharState)
  ChildBitMap : Nat
  Depth : Nat
  Rule : Option (List Nat)
  End : Bool
  AnyStart : Bool
  AnyEnd : Bool
  LastEnd : Option Nat
deriving DecidableEq, Repr

/-- The zero value `&TrieNode{}` with its seven empty child sections. -/
def TrieNode.zero : TrieNode :=
  { State := 0, Child := List.replicate SectionCount [], ChildBitMap := 0, Depth := 0,
    Rule := none, End := false, AnyStart := false, AnyEnd := false, LastEnd := none }

instance : Inhabited TrieNode := ⟨TrieNode.zero⟩

/-- The struct `Trie`; its field `Trie` (the root pointer) is named `Root`
here, the field name being taken by the type. -/
structure Trie where
  Nodes : List TrieNode
  Root : Nat
deriving DecidableEq, Repr

/-- Dereference of a node pointer. -/
def nodeAt (nodes : List TrieNode) (i : Nat) : TrieNode := nodes.getD i TrieNode.zero

/-- The slice `p.Child[section]`. -/
def TrieNode.sectionAt (p : TrieNode) (s : Nat) : List CharState := p.Child.getD s []

/-- The call `sort.Slice(x, func(i, j) bool { return x[i].Char < x[j].Char })`:
a section never holds more than ten entries, for which `sort.Slice` is a stable
insertion sort. -/
def sortSection (x : List CharState) : List CharState :=
  List.insertionSort (fun a b => a.Char ≤ b.Char) x

/-- One of the three non-default cases of `setNextNode`: sets the bit, appends
the entries `es` to the section and sorts it. -/
def addChildren (p : TrieNode) (c : Nat) (es : List CharState) : TrieNode :=
  let sec := (charTable c).toNat % SectionCount
  { p with
    ChildBitMap := p.ChildBitMap ||| (1 <<< (charTable c).toNat)
    Child := p.Child.set sec (sortSection (p.sectionAt sec ++ es)) }

/-- The function `setNextNode(p, c, n)`, returning the new value of `*p`;
`none` is the panic of `charTable[c]` for `c ≥ 128`. -/
def setNextNode (p : TrieNode) (c : Nat) (n : Nat) : Option TrieNode :=
  if 128 ≤ c then none
  else if 97 ≤ c ∧ c ≤ 122 then some (addChildren p c [⟨c, n⟩, ⟨c - 32, n⟩])
  else if 48 ≤ c ∧ c ≤ 57 then some (addChildren p c [⟨c, n⟩])
  else if c = 45 ∨ c = 95 ∨ c = 64 then some (addChildren p c [⟨c, n⟩])
  else some p

/-- The loop of `binarySearch` from the state `(i, j)`; every iteration
shrinks `j - i`, which `fuel` bounds. -/
def binarySearchLoop (x : List CharState) (c : Nat) : Nat → Nat → Nat → Int
  | 0, _, _ => -1
  | fuel + 1, i, j =>
    if i < j then
      let h := (i + j) / 2
      let t : Int := ((x.getD h default).Char : Int) - (c : Int)
      if t < 0 then binarySearchLoop x c fuel (h + 1) j
      else if t > 0 then binarySearchLoop x c fuel i h
      else (h : Int)
    else -1

/-- The function `binarySearch(x, c)`: index of the entry for `c`, or `-1`. -/
def binarySearch (x : List CharState) (c : Nat) : Int :=
  binarySearchLoop x c (x.length + 1) 0 x.length

/-- The tail of `getNextNode`: the search for byte `c` in the section `child`,
inline for the lengths 0, 1 and 2, by binary search from length 3 on. -/
def searchSection (child : List CharState) (c : Nat) : Option Nat :=
  match child with
  | [] => none
  | [p] => if p.Char = c then some p.State else none
  | [p, q] =>
    if p.Char = c then some p.State
    else if q.Char = c then some q.State
    else none
  | _ =>
    let i := binarySearch child c
    if i < 0 then none else some (child.getD i.toNat default).State

/-- The function `getNextNode(n, c)`: the child pointer for byte `c`, or nil. -/
def getNextNode (n : TrieNode) (c : Nat) : Option Nat :=
  if 128 ≤ c then none
  else
    let m := charTable c
    if m < 0 then none
    else if n.ChildBitMap &&& (1 <<< m.toNat) = 0 then none
    else searchSection (n.sectionAt (m.toNat % SectionCount)) c

/-! ## Go strings and maps -/

/-- Go's `<` on strings: the lexicographic order of the bytes. -/
def strLt : List Nat → List Nat → Bool
  | [], [] => false
  | [], _ :: _ => true
  | _ :: _, [] => false
  | a :: as, b :: bs => decide (a < b) || (decide (a = b) && strLt as bs)

/-- The assignment `m[k] = v` on a map. -/
def mapSet {β : Type} : List (List Nat × β) → List Nat → β → List (List Nat × β)
  | [], k, v => [(k, v)]
  | (k1, v1) :: rest, k, v => if k1 = k then (k, v) :: rest else (k1, v1) :: mapSet rest k v

/-- The lookup `m[k]` on a map; `none` when the key is absent. -/
def mapGet {β : Type} : List (List Nat × β) → List Nat → Option β
  | [], _ => none
  | (k1, v1) :: rest, k => if k1 = k then some v1 else mapGet rest k

/-- Modelled from the spec: `OrderedMapKeys` (declared in a file of package
`internal` that is not part of the sources at hand) returns the keys of a map
as a sorted list (the spec has rule names "processed in lexicographic order",
keys "deduplicated, sorted" and `DumpTrie` returning a "sorted list"). -/
def OrderedMapKeys {β : Type} (m : List (List Nat × β)) : List (List Nat) :=
  List.insertionSort (fun a b => strLt b a = false) (m.map Prod.fst)

/-- The call `strings.ToLower` on one byte of an ASCII string. -/
def lowerByte (c : Nat) : Nat := if 65 ≤ c ∧ c ≤ 90 then c + 32 else c

/-- The call `strings.ToLower(s)` for an ASCII string `s` (the only strings it
is applied to: keys that passed validation and trie paths). -/
def toLower (s : List Nat) : List Nat := s.map lowerByte

/-! ## trie.go: construction -/

/-- A redactor `func(b []byte)`: the window after the call, or `none` when the
call panics. The window is a slice of the caller's buffer: the call cannot
change its length (see `overlay`). -/
abbrev Masker := List Nat → Option (List Nat)

structure Rule where
  Desc : List Nat
  Masker : Option Masker
  Length : Int
  Keys : List (List Nat)

structure ParsedKey where
  key : List Nat
  anyStart : Bool
  anyEnd : Bool
deriving DecidableEq, Repr

/-- The method `ParsedKey.Key`. -/
def ParsedKey.Key (t : ParsedKey) : List Nat :=
  let s := t.key
  let s := if t.anyStart then 42 :: s else s
  if t.anyEnd then s ++ [42] else s

/-- The block of `sortRuleKeys` that strips the wildcards of one key; `none`
is the panic of `k[0]` or `k[n-1]` on an empty string. -/
def stripWildcards (k : List Nat) : Option ParsedKey :=
  match k with
  | [] => none
  | c :: rest =>
    let k1 := if c = 42 then rest else k
    match k1.getLast? with
    | none => none
    | some d =>
      some { key := if d = 42 then k1.dropLast else k1
             anyStart := decide (c = 42)
             anyEnd := decide (d = 42) }

/-- The inner loop of `sortRuleKeys` over `p`: merges the flags of `q` into the
first entry with the same stem; `none` when there is none (`found` false). -/
def mergeParsed : List ParsedKey → ParsedKey → Option (List ParsedKey)
  | [], _ => none
  | m :: rest, q =>
    if m.key ≠ q.key then (mergeParsed rest q).map (fun r => m :: r)
    else
      some ({ m with
              anyStart := if !m.anyStart && q.anyStart then q.anyStart else m.anyStart
              anyEnd := if !m.anyEnd && q.anyEnd then q.anyEnd else m.anyEnd } :: rest)

/-- The outer loop of `sortRuleKeys` over the keys the iterator yields, from
the accumulated list `p`. -/
def sortRuleKeysLoop : List (List Nat) → List ParsedKey → Option (List ParsedKey)
  | [], p => some p
  | k :: keys, p =>
    match stripWildcards k with
    | none => none
    | some q =>
      match mergeParsed p q with
      | some p1 => sortRuleKeysLoop keys p1
      | none => sortRuleKeysLoop keys (p ++ [q])

/-- The function `sortRuleKeys`, applied to the keys in iterator order. -/
def sortRuleKeys (keys : List (List Nat)) : Option (List ParsedKey) :=
  sortRuleKeysLoop keys []

/-- The flat table `krMap` of `ConstructTrie`: key to rule, filled in the
enumeration order of the rules. -/
def buildKrMap (rules : List (List Nat × Rule)) : List (List Nat × List Nat) :=
  rules.foldl (fun m nr => nr.2.Keys.foldl (fun m1 key => mapSet m1 key nr.1) m) []

/-- The comparison passed to `sort.Slice` in `ConstructTrie`: by length, then
by string order. -/
def keyLess (a b : List Nat) : Bool :=
  if a.length < b.length then true
  else if a.length > b.length then false
  else strLt a b

/-- The call `sort.Slice(keys, keyLess)`; the keys of a map are distinct, so
the sorted order is unique. -/
def sortKeys (keys : List (List Nat)) : List (List Nat) :=
  List.insertionSort (fun a b => keyLess b a = false) keys

/-- The first inner loop of `ConstructTrie` ("skips the existing prefixes")
on the rest of the stem from index `j`: the rest at the break, `j`,
`currState` and `lastEnd`. -/
def skipExisting (nodes : List TrieNode) :
    List Nat → Nat → Nat → Option Nat → List Nat × Nat × Nat × Option Nat
  | [], j, currState, lastEnd => ([], j, currState, lastEnd)
  | c :: rest, j, currState, lastEnd =>
    match getNextNode (nodeAt nodes currState) c with
    | none => (c :: rest, j, currState, lastEnd)
    | some r =>
      skipExisting nodes rest (j + 1) (nodeAt nodes r).State
        (if (nodeAt nodes r).End then some r else lastEnd)

/-- The second inner loop of `ConstructTrie` ("handles the non-existent
parts"): the new `nodes`, `currState` and `stateIndex`. The pointer to the
node appended is its index `len(nodes)`. -/
def appendNodes (lastEnd : Option Nat) :
    List Nat → Nat → List TrieNode → Nat → Nat → Option (List TrieNode × Nat × Nat)
  | [], _, nodes, currState, stateIndex => some (nodes, currState, stateIndex)
  | c :: rest, j, nodes, currState, stateIndex =>
    let n : TrieNode := { TrieNode.zero with State := stateIndex, Depth := j + 1, LastEnd := lastEnd }
    match setNextNode (nodeAt nodes currState) c nodes.length with
    | none => none
    | some p =>
      appendNodes lastEnd rest (j + 1) (nodes.set currState p ++ [n]) stateIndex (stateIndex + 1)

/-- One iteration of the loop of `ConstructTrie` over `p`. -/
def insertKey (krMap : List (List Nat × List Nat)) (nodes : List TrieNode) (stateIndex : Nat)
    (pk : ParsedKey) : Option (List TrieNode × Nat) :=
  match skipExisting nodes pk.key 0 0 none with
  | (rest, j, currState, lastEnd) =>
    match appendNodes lastEnd rest j nodes currState stateIndex with
    | none => none
    | some (nodes1, currState1, stateIndex1) =>
      some (nodes1.set currState1
              { nodeAt nodes1 currState1 with
                End := true
                Rule := mapGet krMap pk.Key
                AnyStart := pk.anyStart
                AnyEnd := pk.anyEnd },
            stateIndex1)

/-- The loop of `ConstructTrie` over `p`. -/
def insertKeys (krMap : List (List Nat × List Nat)) :
    List ParsedKey → List TrieNode → Nat → Option (List TrieNode × Nat)
  | [], nodes, stateIndex => some (nodes, stateIndex)
  | pk :: ps, nodes, stateIndex =>
    match insertKey krMap nodes stateIndex pk with
    | none => none
    | some (nodes1, stateIndex1) => insertKeys krMap ps nodes1 stateIndex1

/-- The parsed keys `p` of `ConstructTrie`. -/
def parsedKeys (rules : List (List Nat × Rule)) : Option (List ParsedKey) :=
  sortRuleKeys (sortKeys (OrderedMapKeys (buildKrMap rules)))

/-- The function `ConstructTrie(rules)`, the rules in enumeration order. -/
def ConstructTrie (rules : List (List Nat × Rule)) : Option Trie :=
  match parsedKeys rules with
  | none => none
  | some p =>
    match insertKeys (buildKrMap rules) p [TrieNode.zero] 1 with
    | none => none
    | some (nodes, _) => some { Nodes := nodes, Root := 0 }

/-! ## masking.go: the key filter -/

/-- A key filter `func(b []byte, start, end int, anyStart, anyEnd bool) bool`;
`none` when the call panics. -/
abbrev KeyFilter := List Nat → Int → Int → Bool → Bool → Option Bool

/-- The index expression `b[i]`; `none` is the panic for an index out of range. -/
def byteAt (b : List Nat) (i : Int) : Option Nat :=
  if 0 ≤ i then b.get? i.toNat else none

/-- The function `startSplitter`. -/
def startSplitter (b : List Nat) (start : Int) (anyStart : Bool) : Option Bool :=
  if start ≤ 0 then some true
  else
    match byteAt b (start - 1) with
    | none => none
    | some c1 =>
      if splitterTable c1 then some true
      else if anyStart then some true
      else if 3 ≤ start then
        match byteAt b (start - 3), byteAt b (start - 2) with
        | some c3, some c2 => some (decide (c3 = 37 ∧ c2 = 50 ∧ c1 = 50))
        | _, _ => none
      else some false

/-- The function `endSplitter`. -/
def endSplitter (t : List Nat) (e : Int) (andEnd : Bool) : Option Bool :=
  match byteAt t (e + 1) with
  | none => none
  | some c => if splitterTable c then some true else if andEnd then some true else some false

/-- The function `DefaultKeyFilter`; `&&` evaluates its right operand only when
the left one is true. -/
def DefaultKeyFilter : KeyFilter := fun b start e anyStart anyEnd =>
  match startSplitter b start anyStart with
  | none => none
  | some false => some false
  | some true => endSplitter b e anyEnd

/-! ## trie.go: the scanner -/

structure Position where
  Start : Int
  End : Int
  Rule : Option (List Nat)
deriving DecidableEq, Repr

/-- The condition `f == nil || f(b, p.Start, p.End, anyStart, anyEnd)` of
`testMatch`, followed by its two returns: `none` is a panic of the filter,
`some none` the return `Position{}, false`. -/
def filterPosition (b : List Nat) (f : Option KeyFilter) (p : Position)
    (anyStart anyEnd : Bool) : Option (Option Position) :=
  match f with
  | none => some (some p)
  | some g =>
    match g b p.Start p.End anyStart anyEnd with
    | none => none
    | some true => some (some p)
    | some false => some none

/-- The function `testMatch(b, c, pos, f)`. -/
def testMatch (b : List Nat) (nodes : List TrieNode) (c : Nat) (pos : Int)
    (f : Option KeyFilter) : Option (Option Position) :=
  let cn := nodeAt nodes c
  if cn.End then
    filterPosition b f ⟨pos - cn.Depth + 1, pos, cn.Rule⟩ cn.AnyStart cn.AnyEnd
  else
    match cn.LastEnd with
    | none => some none
    | some l =>
      let ln := nodeAt nodes l
      if !ln.AnyEnd then some none
      else
        filterPosition b f ⟨pos - cn.Depth + 1, pos - ((cn.Depth : Int) - (ln.Depth : Int)), ln.Rule⟩
          ln.AnyStart ln.AnyEnd

/-- Two's complement wrap-around of an `int64`. -/
def wrap64 (x : Int) : Int := (x + 2 ^ 63) % 2 ^ 64 - 2 ^ 63

/-- The test `MicroNow()-startTime > maxTime` at the `k`-th deadline check,
where `clock 0` is the reading taken at entry and `clock k` the reading of the
`k`-th check. -/
def exceeded (clock : Nat → Int) (maxTime : Int) (k : Nat) : Bool :=
  decide (wrap64 (clock k - clock 0) > maxTime)

/-- The two nested loops of `Match` as one recursion over the bytes from `pos`
on. The state is that of the source: `pos`, `count` (bytes consumed by the
current run of the inner loop, at most 128), `current`, `result`, and the
number `checks` of deadline checks made so far. With input left and `count` at
128 the inner loop breaks, the deadline is checked and, unless it is exceeded,
the outer loop starts the next run with `count = 0`. `MatchSleep` only lets
time pass and is subsumed by the clock. -/
def matchLoop (nodes : List TrieNode) (f : Option KeyFilter) (clock : Nat → Int) (maxTime : Int)
    (b : List Nat) :
    List Nat → Nat → Nat → Nat → Nat → List Position → Option (List Position × Bool)
  | [], _, _, _, _, result => some (result, false)
  | c :: rest, pos, count, checks, current, result =>
    if count = 128 ∧ exceeded clock maxTime (checks + 1) = true then some (result, true)
    else
      let checks1 := if count = 128 then checks + 1 else checks
      let count1 := if count = 128 then 0 else count
      match getNextNode (nodeAt nodes current) c with
      | some n => matchLoop nodes f clock maxTime b rest (pos + 1) (count1 + 1) checks1 n result
      | none =>
        if (nodeAt nodes current).Depth = 0 then
          matchLoop nodes f clock maxTime b rest (pos + 1) (count1 + 1) checks1 current result
        else
          match testMatch b nodes current ((pos : Int) - 1) f with
          | none => none
          | some none =>
            matchLoop nodes f clock maxTime b rest (pos + 1) (count1 + 1) checks1 0 result
          | some (some r) =>
            matchLoop nodes f clock maxTime b rest (pos + 1) (count1 + 1) checks1 0 (result ++ [r])

/-- The method `Trie.Match(b, f, maxTime)`: the positions and the intercepted
flag, `none` for a panic. -/
def Trie.Match (t : Trie) (b : List Nat) (f : Option KeyFilter) (clock : Nat → Int)
    (maxTime : Int) : Option (List Position × Bool) :=
  matchLoop t.Nodes f clock maxTime b b 0 0 0 0 []

/-! ## masking.go: rules and the entry point -/

/-- The package variable `cfg`. -/
structure Cfg where
  Rules : List (List Nat × Rule)
  Trie : Option Trie

/-- The initial value of `cfg`. -/
def Cfg.init : Cfg := { Rules := [], Trie := none }

/-- The validation of one key in `MergeRules`, byte by byte: `some true` when
no byte is rejected, `some false` when one is, `none` for the panic of
`charTable[key[j]]` on a byte that is not below 128. -/
def checkKey : List Nat → Option Bool
  | [] => some true
  | c :: rest =>
    if c ≠ 42 then
      if 128 ≤ c then none
      else if charTable c = -1 then some false
      else checkKey rest
    else checkKey rest

/-- The validation loop over the keys of one rule: `some (some key)` for the
first rejected key. -/
def checkKeys : List (List Nat) → Option (Option (List Nat))
  | [] => some none
  | key :: keys =>
    match checkKey key with
    | none => none
    | some false => some (some key)
    | some true => checkKeys keys

/-- The validation loop of `MergeRules` over the new rules, in enumeration
order. Rule pointers in the map are taken to be non-nil. -/
def checkRules : List (List Nat × Rule) → Option (Option (List Nat))
  | [] => some none
  | nr :: rules =>
    match checkKeys nr.2.Keys with
    | none => none
    | some (some key) => some (some key)
    | some none => checkRules rules

/-- The key set `ks` of `MergeRules` turned into a list: the strings of
`existing` and the lower-cased strings of `added`. -/
def mergeKeys (existing added : List (List Nat)) : List (List Nat) :=
  OrderedMapKeys
    (added.foldl (fun m s => mapSet m (toLower s) ())
      (existing.foldl (fun m s => mapSet m s ()) []))

/-- One iteration of the loop of `MergeRules` over the rule names: the
registry after the rule `r` named `name` was merged into it. -/
def upsertRule (reg : List (List Nat × Rule)) (name : List Nat) (r : Rule) :
    List (List Nat × Rule) :=
  match mapGet reg name with
  | some t =>
    mapSet reg name
      { Masker := if r.Masker.isSome then r.Masker else t.Masker
        Desc := if r.Desc ≠ [] then r.Desc else t.Desc
        Length := if r.Length > 0 then r.Length else t.Length
        Keys := if r.Keys.length > 0 then mergeKeys t.Keys r.Keys else t.Keys }
  | none =>
    mapSet reg name
      { Desc := r.Desc, Masker := r.Masker, Length := r.Length, Keys := mergeKeys [] r.Keys }

/-- The loop of `MergeRules` over `ruleNames`. -/
def upsertRules (rules : List (List Nat × Rule)) :
    List (List Nat) → List (List Nat × Rule) → List (List Nat × Rule)
  | [], reg => reg
  | name :: names, reg =>
    match mapGet rules name with
    | some r => upsertRules rules names (upsertRule reg name r)
    | none => upsertRules rules names reg

/-- How a call of `MergeRules` ends, with the value of `cfg` it leaves. -/
inductive MergeOutcome where
  | ok (cfg : Cfg)
  | error (msg : List Nat) (cfg : Cfg)
  | panicked (cfg : Cfg)

/-- The function `MergeRules(rules)` on the package state `cfg`. The list
`rules` is the new map in enumeration order; `enum` is the order in which
`ConstructTrie` enumerates the registry. -/
def MergeRules (enum : List (List Nat × Rule) → List (List Nat × Rule)) (cfg : Cfg)
    (rules : List (List Nat × Rule)) : MergeOutcome :=
  match checkRules rules with
  | none => MergeOutcome.panicked cfg
  | some (some key) => MergeOutcome.error (ascii "invalid key \x27" ++ key ++ ascii "\x27") cfg
  | some none =>
    let reg := upsertRules rules (OrderedMapKeys rules) cfg.Rules
    match ConstructTrie (enum reg) with
    | none => MergeOutcome.panicked { cfg with Rules := reg }
    | some t => MergeOutcome.ok { Rules := reg, Trie := some t }

/-- The effect on the buffer `b` of an in-place write of `w` through the slice
`b[lo:hi]`: bytes inside the slice take the value written, bytes outside are
left alone. A redactor is taken to write within the length of its argument; it
does not reslice the argument up to its capacity. -/
def overlay (b : List Nat) (lo hi : Nat) (w : List Nat) : List Nat :=
  b.mapIdx (fun i x => if lo ≤ i ∧ i < hi then w.getD (i - lo) x else x)

/-- One iteration of the loop of `Mask` over the positions: the buffer after
the redactor of `p` ran on its window, `none` for a panic (nil rule, slice
bounds out of range, nil or panicking redactor). -/
def maskOne (rules : List (List Nat × Rule)) (b : List Nat) (p : Position) : Option (List Nat) :=
  match p.Rule with
  | none => none
  | some name =>
    match mapGet rules name with
    | none => none
    | some r =>
      let l : Int := b.length
      let maxEnd0 := wrap64 (wrap64 (p.End + r.Length) + 1)
      let maxEnd := if maxEnd0 ≥ l then l else maxEnd0
      if 0 ≤ p.End + 1 ∧ p.End + 1 ≤ maxEnd then
        match r.Masker with
        | none => none
        | some m =>
          match m ((b.take maxEnd.toNat).drop (p.End + 1).toNat) with
          | none => none
          | some w => some (overlay b (p.End + 1).toNat maxEnd.toNat w)
      else none

/-- The loop `for i := len(arr) - 1; i >= 0; i--` of `Mask`, over the
positions in reverse order. -/
def maskLoop (rules : List (List Nat × Rule)) : List Position → List Nat → Option (List Nat)
  | [], b => some b
  | p :: ps, b =>
    match maskOne rules b p with
    | none => none
    | some b1 => maskLoop rules ps b1

/-- The body of `Mask` up to its return statements; `none` for a panic. -/
def maskBody (cfg : Cfg) (keyFilter : Option KeyFilter) (clock : Nat → Int) (b : List Nat)
    (maxTolerable : Int) : Option (List Nat × Bool) :=
  match cfg.Trie with
  | none => none
  | some t =>
    match t.Match b keyFilter clock maxTolerable with
    | none => none
    | some (arr, intercepted) =>
      if arr.length = 0 then some (b, intercepted)
      else
        match maskLoop cfg.Rules arr.reverse b with
        | none => none
        | some b1 => some (b1, intercepted)

/-- The function `Mask(b, maxTolerable)` with its deferred `recover`: after a
panic no return statement has run, so the unnamed first result still is the
nil slice (the empty list) and `intercepted` is set to true. -/
def Mask (cfg : Cfg) (keyFilter : Option KeyFilter) (clock : Nat → Int) (b : List Nat)
    (maxTolerable : Int) : List Nat × Bool :=
  match maskBody cfg keyFilter clock b maxTolerable with
  | some r => r
  | none => ([], true)

/-! ## Representation invariant of a node -/

/-- What `setNextNode` maintains in one child section `l` of a node with
bitmap `bm`: the section is strictly sorted by byte, holds only key bytes of
its own residue whose bit is set, and holds a letter together with its other
case, both pointing to the same node. -/
def SectionOK (bm : Nat) (s : Nat) (l : List CharState) : Prop :=
  l.Pairwise (fun a b => a.Char < b.Char) ∧
  (∀ e ∈ l, e.Char < 128 ∧ 0 ≤ charTable e.Char ∧
    (charTable e.Char).toNat % SectionCount = s ∧
    bm.testBit (charTable e.Char).toNat = true) ∧
  (∀ e ∈ l, 65 ≤ e.Char → e.Char ≤ 90 → (⟨e.Char + 32, e.State⟩ : CharState) ∈ l) ∧
  (∀ e ∈ l, 97 ≤ e.Char → e.Char ≤ 122 → (⟨e.Char - 32, e.State⟩ : CharState) ∈ l)

/-- The representation invariant of a trie node. -/
def NodeRep (p : TrieNode) : Prop :=
  p.Child.length = SectionCount ∧
  ∀ s, s < SectionCount → SectionOK p.ChildBitMap s (p.sectionAt s)

/-- The entries `setNextNode(p, c, n)` appends for a byte `c` it links. -/
def linkEntries (c n : Nat) : List CharState :=
  if 97 ≤ c ∧ c ≤ 122 then [⟨c, n⟩, ⟨c - 32, n⟩] else [⟨c, n⟩]

/-- A byte that `setNextNode` links: lower-case letter, digit, `-`, `_`, `@`. -/
def IsKeyByte (c : Nat) : Prop :=
  (97 ≤ c ∧ c ≤ 122) ∨ (48 ≤ c ∧ c ≤ 57) ∨ c = 45 ∨ c = 95 ∨ c = 64

instance (c : Nat) : Decidable (IsKeyByte c) := by unfold IsKeyByte; infer_instance

/-- The walk from node `i` along the bytes `w`, one `getNextNode` per byte. -/
def walk (nodes : List TrieNode) : Nat → List Nat → Option Nat
  | i, [] => some i
  | i, c :: w =>
    match getNextNode (nodeAt nodes i) c with
    | none => none
    | some k => walk nodes k w

/-- The invariant of the loop of `ConstructTrie` over the parsed keys. The
keys `insAll` are those whose insertion has started, `insDone` those whose
insertion is complete. Two ghost maps describe the nodes: `path i` is the
lower-case string that leads from the root to node `i`, `birth i` the index
in `insAll` of the key whose insertion created node `i`. -/
structure TrieInv (krMap : List (List Nat × List Nat)) (nodes : List TrieNode)
    (insAll insDone : List ParsedKey) (path : Nat → List Nat) (birth : Nat → Nat) : Prop where
  hlen : 0 < nodes.length
  hstate : ∀ i, i < nodes.length → (nodeAt nodes i).State = i
  hrep : ∀ i, i < nodes.length → NodeRep (nodeAt nodes i)
  hroot : path 0 = []
  hlink : ∀ i c k, i < nodes.length → getNextNode (nodeAt nodes i) c = some k →
    k < nodes.length ∧ path k = path i ++ [lowerByte c]
  hdepth : ∀ i, i < nodes.length → (nodeAt nodes i).Depth = (path i).length
  hend : ∀ i, i < nodes.length → (nodeAt nodes i).End = true →
    ∃ pk, pk ∈ insAll ∧ toLower pk.key = path i ∧
      (nodeAt nodes i).AnyStart = pk.anyStart ∧ (nodeAt nodes i).AnyEnd = pk.anyEnd ∧
      (nodeAt nodes i).Rule = mapGet krMap pk.Key
  hlast : ∀ i l, i < nodes.length → (nodeAt nodes i).LastEnd = some l →
    l < nodes.length ∧ (nodeAt nodes l).End = true ∧ (∃ t, path i = path l ++ t) ∧
      0 < (path l).length
  hcomp : ∀ pk, pk ∈ insDone → (∀ c ∈ pk.key, IsKeyByte c) →
    ∃ k, k < nodes.length ∧ walk nodes 0 pk.key = some k ∧ (nodeAt nodes k).End = true
  hbirth : ∀ i, i < nodes.length → i ≠ 0 →
    ∃ pk, insAll.get? (birth i) = some pk ∧ ∃ t, toLower pk.key = path i ++ t
  hlast2 : ∀ i a P, i < nodes.length → i ≠ 0 → a < birth i → insAll.get? a = some P →
    P.key ≠ [] → (∀ c ∈ P.key, IsKeyByte c) → (∃ t, path i = P.key ++ t) →
    P.key.length < (path i).length →
    ∃ l, (nodeAt nodes i).LastEnd = some l ∧ P.key.length ≤ (path l).length
  hlast3 : ∀ i l, i < nodes.length → (nodeAt nodes i).LastEnd = some l →
    (path l).length < (path i).length
  hreach : (∀ pk ∈ insAll, ∀ c ∈ pk.key, IsKeyByte c) →
    ∀ i, i < nodes.length → walk nodes 0 (path i) = some i

/-! ## Vocabulary of the specification -/

/-- A splitter in the words of the specification: any byte other than an ASCII
letter, a digit, `-` or `_`. -/
def IsSplitter (c : Nat) : Prop :=
  ¬ ((65 ≤ c ∧ c ≤ 90) ∨ (97 ≤ c ∧ c ≤ 122) ∨ (48 ≤ c ∧ c ≤ 57) ∨ c = 45 ∨ c = 95)

instance (c : Nat) : Decidable (IsSplitter c) := by unfold IsSplitter; infer_instance

/-- A key-legal byte in the words of the specification: ASCII letter, digit,
`-`, `_` or `@`. -/
def IsKeyLegal (c : Nat) : Prop :=
  (65 ≤ c ∧ c ≤ 90) ∨ (97 ≤ c ∧ c ≤ 122) ∨ (48 ≤ c ∧ c ≤ 57) ∨ c = 45 ∨ c = 95 ∨ c = 64

instance (c : Nat) : Decidable (IsKeyLegal c) := by unfold IsKeyLegal; infer_instance

/-- The start side of the default filter in the words of the specification. -/
def StartSide (b : List Nat) (start : Nat) (anyStart : Bool) : Prop :=
  start = 0 ∨ IsSplitter (b.getD (start - 1) 0) ∨ anyStart = true ∨
    (3 ≤ start ∧ b.getD (start - 3) 0 = 37 ∧ b.getD (start - 2) 0 = 50 ∧
      b.getD (start - 1) 0 = 50)

/-- The end side of the default filter in the words of the specification. -/
def EndSide (b : List Nat) (e : Nat) (anyEnd : Bool) : Prop :=
  IsSplitter (b.getD (e + 1) 0) ∨ anyEnd = true

instance (b : List Nat) (start : Nat) (anyStart : Bool) : Decidable (StartSide b start anyStart) := by
  unfold StartSide; infer_instance

instance (b : List Nat) (e : Nat) (anyEnd : Bool) : Decidable (EndSide b e anyEnd) := by
  unfold EndSide; infer_instance

/-- The bytes `b[s..e]`, both ends included. -/
def slice (b : List Nat) (s e : Nat) : List Nat := (b.take (e + 1)).drop s

/-- The budget is never exceeded: no deadline check of `Match` succeeds. -/
def NeverExceeded (clock : Nat → Int) (maxTime : Int) : Prop :=
  ∀ k, exceeded clock maxTime k = false

/-- The stem of a key: the key without one leading and one trailing `*`. -/
def stemOf (k : List Nat) : List Nat :=
  let k1 := if k.head? = some 42 then k.tail else k
  if k1.getLast? = some 42 then k1.dropLast else k1

/-- The key starts with the wildcard `*`. -/
def hasLeadingStar (k : List Nat) : Bool := decide (k.head? = some 42)

/-- The key, after a leading `*` is removed, ends with the wildcard `*`. -/
def hasTrailingStar (k : List Nat) : Bool :=
  decide ((if k.head? = some 42 then k.tail else k).getLast? = some 42)

/-- The window of a position in the words of the specification: from
`end + 1` to `min(end + 1 + rule.length, len(buf))`. -/
def specWindow (r : Rule) (len : Nat) (p : Position) : Nat × Nat :=
  ((p.End + 1).toNat, (min (p.End + 1 + r.Length) (len : Int)).toNat)

/-- One step of the masking in the words of the specification: the redactor of
the rule of `p` is applied in place to the window of `p`. -/
def specApply (rules : List (List Nat × Rule)) (b : List Nat) (p : Position) :
    Option (List Nat) :=
  match p.Rule with
  | none => none
  | some name =>
    match mapGet rules name with
    | none => none
    | some r =>
      match r.Masker with
      | none => none
      | some m =>
        match m ((b.take (specWindow r b.length p).2).drop (specWindow r b.length p).1) with
        | none => none
        | some w => some (overlay b (specWindow r b.length p).1 (specWindow r b.length p).2 w)

/-- The masking in the words of the specification: the positions `p_1..p_k`
are handled for `i = k` down to `1`. -/
def specMask (rules : List (List Nat × Rule)) : List Position → List Nat → Option (List Nat)
  | [], b => some b
  | p :: ps, b =>
    match specMask rules ps b with
    | none => none
    | some b1 => specApply rules b1 p

/-- The index `i` lies in the window of the position `p`. -/
def InWindow (rules : List (List Nat × Rule)) (len : Nat) (p : Position) (i : Nat) : Prop :=
  ∃ name r, p.Rule = some name ∧ mapGet rules name = some r ∧
    (specWindow r len p).1 ≤ i ∧ i < (specWindow r len p).2

/-- A valid key: its stem is not empty and consists of lower-case letters,
digits, `-`, `_` and `@`, so that `*` stands only first or last. -/
def ValidKey (k : List Nat) : Prop :=
  stemOf k ≠ [] ∧ ∀ c ∈ stemOf k, IsKeyByte c

/-- The parsed keys `p` hold the stem `K`, with the start flag if `s` and the
end flag if `e`. -/
def HasStem (p : List ParsedKey) (K : List Nat) (s e : Bool) : Prop :=
  ∃ pk, pk ∈ p ∧ pk.key = K ∧ (s = true → pk.anyStart = true) ∧ (e = true → pk.anyEnd = true)

instance (k : List Nat) : Decidable (ValidKey k) := by unfold ValidKey; infer_instance

/-- The keys of all rules of a registry. -/
def registeredKeys (rules : List (List Nat × Rule)) : List (List Nat) :=
  rules.flatMap (fun nr => nr.2.Keys)

/-! ## The configuration of the test suite -/

/-- A redactor that overwrites every byte of its window with `*`. -/
def starMasker : Masker := fun w => some (w.map (fun _ => 42))

/-- The rule `phone` of `masking_test.go`, with all the keys the two merges of
the test give it, a window of 30 bytes and the redactor `starMasker`. -/
def testRule : Rule where
  Desc := []
  Masker := some starMasker
  Length := 30
  Keys := ["phone", "phone1", "mobile", "telephone", "p_prefix_", "p_prefix_*", "_suffix_p",
    "*_suffix_p", "_content_", "*_content_*", "cell", "driver_phone", "spec-cell",
    "p_prefix_other_*"].map ascii

/-- The map passed to `MergeRules`. -/
def testRules : List (List Nat × Rule) := [(ascii "phone", testRule)]

/-- The registry after `MergeRules(testRules)` on the initial state. -/
def testRegistry : List (List Nat × Rule) :=
  upsertRules testRules (OrderedMapKeys testRules) Cfg.init.Rules

/-- The state after `MergeRules(testRules)` on the initial state. -/
def testCfg : Cfg := { Rules := testRegistry, Trie := ConstructTrie testRegistry }

/-- A map with the single rule `r`, holding the keys `keys`, a window of 30
bytes and the redactor `starMasker`. -/
def rulesWith (keys : List (List Nat)) : List (List Nat × Rule) :=
  [(ascii "r", { Desc := [], Masker := some starMasker, Length := 30, Keys := keys })]

/-- The state after `MergeRules(rulesWith keys)` on the initial state. -/
def cfgWith (keys : List (List Nat)) : Cfg :=
  { Rules := upsertRules (rulesWith keys) (OrderedMapKeys (rulesWith keys)) Cfg.init.Rules
    Trie := ConstructTrie
      (upsertRules (rulesWith keys) (OrderedMapKeys (rulesWith keys)) Cfg.init.Rules) }

/-- The trie of the test configuration. -/
def testTrie : Trie := (ConstructTrie testRegistry).getD { Nodes := [], Root := 0 }

/-- The buffer of the deadline test of `TestMask`: 256 bytes, the digits `0` to
`9` in turn. -/
def digits256 : List Nat := (List.range 256).map (fun i => 48 + i % 10)

/-- The clock of the deadline test: the hook `MatchSleep` sleeps 10 ms before
each deadline check, so every reading after the first is 10000 µs later than
the one before, up to a last reading. -/
def sleepClock : Nat → Int := fun k => 10000 * (min k 1000 : Nat)

/-- A key filter that panics on every call, as the one `TestMask` installs. -/
def panicFilter : KeyFilter := fun _ _ _ _ _ => none

/-- A map with the single rule `phone`, holding the key `cell`, without a
redactor: the struct literal `{Keys: []string{"cell"}}`. -/
def bareRules : List (List Nat × Rule) :=
  [(ascii "phone", { Desc := [], Masker := none, Length := 0, Keys := [ascii "cell"] })]

/-- The state after `MergeRules(bareRules)` on the initial state. -/
def bareCfg : Cfg :=
  { Rules := upsertRules bareRules (OrderedMapKeys bareRules) Cfg.init.Rules
    Trie := ConstructTrie (upsertRules bareRules (OrderedMapKeys bareRules) Cfg.init.Rules) }

/-- A clock that stands still. -/
def stillClock : Nat → Int := fun _ => 0

/-! ## trie.go: `DumpTrie` -/

/-- The entries the two loops `for _, child := range n.Child` and
`for _, c := range child` of `dumpTrie` visit, in order. -/
def TrieNode.entries (n : TrieNode) : List CharState := n.Child.flatten

/-- The string `s` that `dumpTrie` enters into the map for a terminal node `n`
reached along `pfx`. -/
def dumpKey (n : TrieNode) (pfx : List Nat) : List Nat :=
  let s := toLower pfx
  let s1 := if n.AnyStart then 42 :: s else s
  if n.AnyEnd then s1 ++ [42] else s1

/-- The function `dumpTrie(n, prefix, m)`, returning the map `m` after the
call. The recursion of the source follows the child pointers; here it is
bounded by `fuel`, and `none` means that the bound was reached. -/
def dumpTrie (nodes : List TrieNode) :
    Nat → Nat → List Nat → List (List Nat × Unit) → Option (List (List Nat × Unit))
  | 0, _, _, _ => none
  | fuel + 1, n, pfx, m =>
    (nodeAt nodes n).entries.foldl
      (fun acc c =>
        match acc with
        | none => none
        | some m2 => dumpTrie nodes fuel c.State (pfx ++ [c.Char]) m2)
      (some (if (nodeAt nodes n).End then mapSet m (dumpKey (nodeAt nodes n) pfx) () else m))

/-- The method `Trie.DumpTrie()`. A chain of child pointers in a trie of
`len(t.Nodes)` nodes that visits no node twice has at most that many nodes,
which is the bound given to `dumpTrie`. -/
def Trie.DumpTrie (t : Trie) : Option (List (List Nat)) :=
  match dumpTrie t.Nodes t.Nodes.length t.Root [] [] with
  | none => none
  | some m => some (OrderedMapKeys m)

/-- The function `DumpTrie()` of package `internal`: nil, the empty list, when
no trie is installed. -/
def DumpTrie (cfg : Cfg) : Option (List (List Nat)) :=
  match cfg.Trie with
  | none => some []
  | some t => t.DumpTrie

/-! ## Further test data -/

/-- A buffer of 155 bytes with the key `cell` at `[0, 3]` and again at
`[138, 141]`, the second one behind the first block of 128 bytes. -/
def twoHits : List Nat :=
  ascii "cell:12345678900 " ++ digits256.take 120 ++ ascii " cell:12345678900 "

/-- The map of the first call of `MergeRules` in `testMergeRules`: the rule
`phone` with the one key `cell ` (with a trailing blank). -/
def blankKeyRules : List (List Nat × Rule) :=
  [(ascii "phone", { Desc := [], Masker := none, Length := 0, Keys := [ascii "cell "] })]

/-- A map with the rule `phone` and the one key `电话` (two Chinese characters,
six bytes in UTF-8). -/
def nonAsciiKeyRules : List (List Nat × Rule) :=
  [(ascii "phone",
    { Desc := [], Masker := none, Length := 0, Keys := [[231, 148, 181, 232, 175, 157]] })]

/-- A map that updates the rule `phone`: a new description and the new key
`Cell2`, no redactor and no window length. -/
def updateRules : List (List Nat × Rule) :=
  [(ascii "phone",
    { Desc := ascii "mobile number", Masker := none, Length := 0, Keys := [ascii "Cell2"] })]

/-- The state after `MergeRules(updateRules)` on the test configuration. -/
def updatedCfg : Cfg :=
  { Rules := upsertRules updateRules (OrderedMapKeys updateRules) testCfg.Rules
    Trie := ConstructTrie (upsertRules updateRules (OrderedMapKeys updateRules) testCfg.Rules) }

/-- A map with the rule `phone` and the one key `""`. -/
def emptyKeyRules : List (List Nat × Rule) :=
  [(ascii "phone", { Desc := [], Masker := none, Length := 0, Keys := [[]] })]

/-! ## masker.go -/

/-- The table `idMaskerTable`: 1 for a digit, 2 for `x` and `X`, 3 for `%`,
0 for every other byte. -/
def idMaskerTable (c : Nat) : Nat :=
  if 48 ≤ c ∧ c ≤ 57 then 1
  else if c = 120 ∨ c = 88 then 2
  else if c = 37 then 3
  else 0

/-- The table `phoneMaskerTable`: 1 for a digit, 2 for `+`, 3 for `%`, 0 for
every other byte. -/
def phoneMaskerTable (c : Nat) : Nat :=
  if 48 ≤ c ∧ c ≤ 57 then 1
  else if c = 43 then 2
  else if c = 37 then 3
  else 0

/-- The statement `copy(t[off:], src)`: `none` is the panic of the slice
expression for an offset outside `0..len(t)`; `copy` itself stops at the end
of the shorter of the two slices. -/
def copyAt (t : List Nat) (off : Int) (src : List Nat) : Option (List Nat) :=
  if 0 ≤ off ∧ off ≤ (t.length : Int) then
    some (overlay t off.toNat (off.toNat + src.length) src)
  else none

/-- The loop `for ; i < l; i++ { if table[t[i]] != 1 { flag = false; break } }`
with `k = l - i` iterations to go: the values of `i` and `flag` after it,
`none` for an index out of range. -/
def digitLoop (table : Nat → Nat) (t : List Nat) : Nat → Nat → Option (Nat × Bool)
  | 0, i => some (i, true)
  | k + 1, i =>
    match t[i]? with
    | none => none
    | some c => if table c ≠ 1 then some (i, false) else digitLoop table t k (i + 1)

/-- The loop of `SimplePhoneMasker` from the index `i` on, at most `fuel`
iterations: the window after the call, `none` for a panic (index or slice
bounds out of range) or when `fuel` iterations were not enough. -/
def phoneLoop (t : List Nat) : Nat → Nat → Option (List Nat)
  | 0, _ => none
  | fuel + 1, i =>
    if ¬ i < t.length then some t
    else if (t.length : Int) - (i : Int) < 11 then some t
    else
      match t[i]? with
      | none => none
      | some b =>
        if phoneMaskerTable b = 0 then phoneLoop t fuel (i + 1)
        else if phoneMaskerTable b = 2 then phoneLoop t fuel (i + 2 + 1)
        else if phoneMaskerTable b = 3 then phoneLoop t fuel (i + 2 + 1)
        else
          match digitLoop phoneMaskerTable t (i + 10 - (i + 1)) (i + 1) with
          | none => none
          | some (j, false) => phoneLoop t fuel (j + 1)
          | some (j, true) => copyAt t ((j : Int) - 7) (ascii "****")

/-- The function `SimplePhoneMasker(t)`. Every iteration of its loop moves `i`
forward, so `len(t) + 1` iterations are enough. -/
def SimplePhoneMasker : Masker := fun t => phoneLoop t (t.length + 1) 0

/-- The end of an iteration of `SimpleIdMasker` from the statement `i++` after
the 17th digit on ("18位"), with `i` already incremented. -/
def idTail18 (t : List Nat) (i : Nat) : Option (List Nat) :=
  if i < t.length then
    match t[i]? with
    | none => none
    | some b =>
      if idMaskerTable b = 1 ∨ idMaskerTable b = 2 then
        copyAt t ((i : Int) - 11) (ascii "********")
      else copyAt t ((i : Int) - 11) (ascii "*****")
  else copyAt t ((i : Int) - 11) (ascii "*****")

/-- The end of an iteration of `SimpleIdMasker` from the statement `i++` after
the 16th digit on ("17位"), with `i` already incremented. -/
def idTail17 (t : List Nat) (i : Nat) : Option (List Nat) :=
  if i < t.length then
    match t[i]? with
    | none => none
    | some b =>
      if idMaskerTable b ≠ 1 then copyAt t ((i : Int) - 10) (ascii "*****")
      else idTail18 t (i + 1)
  else copyAt t ((i : Int) - 10) (ascii "*****")

/-- The end of an iteration of `SimpleIdMasker` from the statement `i++` after
the 15th digit on ("16位"), with `i` already incremented. -/
def idTail16 (t : List Nat) (i : Nat) : Option (List Nat) :=
  if i < t.length then
    match t[i]? with
    | none => none
    | some b =>
      if idMaskerTable b ≠ 1 then copyAt t ((i : Int) - 9) (ascii "*****")
      else idTail17 t (i + 1)
  else copyAt t ((i : Int) - 9) (ascii "*****")

/-- The loop of `SimpleIdMasker` from the index `i` on, at most `fuel`
iterations: the window after the call, `none` for a panic or when `fuel`
iterations were not enough. -/
def idLoop (t : List Nat) : Nat → Nat → Option (List Nat)
  | 0, _ => none
  | fuel + 1, i =>
    if ¬ i < t.length then some t
    else if (t.length : Int) - (i : Int) < 15 then some t
    else
      match t[i]? with
      | none => none
      | some b =>
        if idMaskerTable b = 0 ∨ idMaskerTable b = 2 then idLoop t fuel (i + 1)
        else if idMaskerTable b = 3 then idLoop t fuel (i + 2 + 1)
        else
          match digitLoop idMaskerTable t (i + 14 - (i + 1)) (i + 1) with
          | none => none
          | some (j, false) => idLoop t fuel (j + 1)
          | some (j, true) =>
            match t[j]? with
            | none => none
            | some b15 =>
              if idMaskerTable b15 = 2 then copyAt t ((j : Int) - 8) (ascii "*****")
              else if idMaskerTable b15 = 1 then idTail16 t (j + 1)
              else idLoop t fuel (j + 1)

/-- The function `SimpleIdMasker(t)`. Every iteration of its loop moves `i`
forward, so `len(t) + 1` iterations are enough. -/
def SimpleIdMasker : Masker := fun t => idLoop t (t.length + 1) 0

/-- An ASCII digit. -/
def IsDigit (c : Nat) : Prop := 48 ≤ c ∧ c ≤ 57

instance (c : Nat) : Decidable (IsDigit c) := by unfold IsDigit; infer_instance

/-- The window `t2` is the window `t` with the `k` bytes from offset `s` on,
all of them ASCII digits, overwritten with `*`, and nothing else changed. -/
def MaskedAt (t t2 : List Nat) (s k : Nat) : Prop :=
  s + k ≤ t.length ∧ t2.length = t.length ∧
  (∀ j, s ≤ j → j < s + k → IsDigit (t.getD j 0) ∧ t2.getD j 0 = 42) ∧
  ∀ j, ¬ (s ≤ j ∧ j < s + k) → t2.getD j 0 = t.getD j 0

/-- The window `t` holds a run of `k` consecutive ASCII digits. -/
def HasDigitRun (t : List Nat) (k : Nat) : Prop :=
  ∃ s, s < t.length + 1 ∧ s + k ≤ t.length ∧ ∀ j, j < k → IsDigit (t.getD (s + j) 0)

instance (t : List Nat) (k : Nat) : Decidable (HasDigitRun t k) := by
  unfold HasDigitRun; infer_instance

/-! ## Vocabulary for `DumpTrie` -/

/-- The canonical form of the key `k` among the registered keys `keys`: the
lower-cased stem of `k`, with `*` in front iff some registered key with that
stem has a leading `*`, and `*` behind iff some registered key with that stem
has a trailing `*`. -/
def canonKey (keys : List (List Nat)) (k : List Nat) : List Nat :=
  (if ∃ k2 ∈ keys, stemOf k2 = stemOf k ∧ hasLeadingStar k2 = true then [42] else []) ++
    toLower (stemOf k) ++
    (if ∃ k2 ∈ keys, stemOf k2 = stemOf k ∧ hasTrailingStar k2 = true then [42] else [])

/-! ## Vocabulary and data for the scanner and the `LastEnd` pointers -/

/-- The nodes met from node `i` on by following `LastEnd` pointers, nearest
first, at most `fuel` of them. -/
def lastEndChain (nodes : List TrieNode) : Nat → Nat → List Nat
  | 0, _ => []
  | fuel + 1, i =>
    match (nodeAt nodes i).LastEnd with
    | none => []
    | some l => l :: lastEndChain nodes fuel l

/-- Node `l` is reached from node `i` by following `LastEnd` pointers. A
pointer leads to a node of smaller depth, so the depth of `i` bounds the
number of pointers to follow. -/
def ReachedByLastEnd (nodes : List TrieNode) (i l : Nat) : Prop :=
  l ∈ lastEndChain nodes (nodeAt nodes i).Depth i

instance (nodes : List TrieNode) (i l : Nat) : Decidable (ReachedByLastEnd nodes i l) := by
  unfold ReachedByLastEnd; infer_instance

/-- The position `p` is a hit of the terminal node `k` on the bytes
`b[s..e]`, inside the buffer with one more byte behind it, which the filter
`f`, if there is one, accepted with the flags of that node. -/
def HitOf (nodes : List TrieNode) (f : Option KeyFilter) (b : List Nat) (p : Position)
    (k s e : Nat) : Prop :=
  p.Start = (s : Int) ∧ p.End = (e : Int) ∧ s ≤ e ∧ e + 1 < b.length ∧
  (nodeAt nodes k).End = true ∧ p.Rule = (nodeAt nodes k).Rule ∧
  ∀ g, f = some g →
    g b (s : Int) (e : Int) (nodeAt nodes k).AnyStart (nodeAt nodes k).AnyEnd = some true

/-- The filter `g` behind a bounds check: a call with a position that does not
lie inside the buffer with one more byte behind it, `0 ≤ start ≤ end` and
`end + 1 < len(b)`, panics. -/
def guardFilter (g : KeyFilter) : KeyFilter := fun b s e anyStart anyEnd =>
  if 0 ≤ s ∧ s ≤ e ∧ e + 1 < (b.length : Int) then g b s e anyStart anyEnd else none

/-- A map with the two rules `a` and `b`, which both hold the key `cell`. -/
def sharedKeyRules : List (List Nat × Rule) :=
  [(ascii "a", { Desc := [], Masker := some starMasker, Length := 30, Keys := [ascii "cell"] }),
   (ascii "b", { Desc := [], Masker := some starMasker, Length := 30, Keys := [ascii "cell"] })]

/-- The registry with the keys `a@` and `cd`. -/
def atRules : List (List Nat × Rule) := (cfgWith [ascii "a@", ascii "cd"]).Rules

/-- The trie of the keys `a@` and `cd`. -/
def atTrie : Trie := (ConstructTrie atRules).getD { Nodes := [], Root := 0 }

/-- The registry with the keys `ab*`, `abc` and `abcd`. -/
def chainRules : List (List Nat × Rule) :=
  (cfgWith [ascii "ab*", ascii "abc", ascii "abcd"]).Rules

/-- The trie of the keys `ab*`, `abc` and `abcd`. -/
def chainTrie : Trie := (ConstructTrie chainRules).getD { Nodes := [], Root := 0 }

/-- The registry with the keys `*ab*` and `abc`. -/
def starRules : List (List Nat × Rule) := (cfgWith [ascii "*ab*", ascii "abc"]).Rules

/-- The trie of the keys `*ab*` and `abc`. -/
def starTrie : Trie := (ConstructTrie starRules).getD { Nodes := [], Root := 0 }

/-! ## Order instances for sorting a child section -/

instance charLe_total : IsTotal CharState (fun a b => a.Char ≤ b.Char) :=
  ⟨fun a b => Nat.le_total a.Char b.Char⟩

instance charLe_trans : IsTrans CharState (fun a b => a.Char ≤ b.Char) :=
  ⟨fun _ _ _ h1 h2 => Nat.le_trans h1 h2⟩

/-! # Theorems -/

/-! ## Facts about the tables -/

theorem charTable_neg_of_ge (c : Nat) (h : 128 ≤ c) : charTable c = -1 := by
  rw [charTable, if_neg (by omega), if_neg (by omega), if_neg (by omega), if_neg (by omega),
    if_neg (by omega), if_neg (by omega)]

theorem lowerByte_of_ge (c : Nat) (h : 128 ≤ c) : lowerByte c = c := by
  rw [lowerByte, if_neg (by omega)]

theorem splitterTable_of_ge (c : Nat) (h : 128 ≤ c) : splitterTable c = true := by
  rw [splitterTable, if_neg (by omega), if_neg (by omega), if_neg (by omega), if_neg (by omega),
    if_neg (by omega)]

theorem tables_bounded :
    ∀ c, c < 128 →
      (charTable c < 39 ∧ (0 ≤ charTable c ↔ (IsKeyByte c ∨ (65 ≤ c ∧ c ≤ 90))) ∧
       charTable (lowerByte c) = charTable c ∧
       splitterTable (lowerByte c) = splitterTable c ∧
       (charTable c < 0 → charTable c = -1) ∧
       (splitterTable c = false → 0 ≤ charTable c) ∧
       (IsKeyByte c → lowerByte c = c) ∧
       (IsKeyByte (lowerByte c) ↔ 0 ≤ charTable c) ∧
       lowerByte c < 128 ∧ lowerByte (lowerByte c) = lowerByte c ∧
       (lowerByte c = c ∨ (65 ≤ c ∧ c ≤ 90 ∧ lowerByte c = c + 32))) := by
  decide

theorem charTable_lt (c : Nat) : charTable c < 39 := by
  by_cases h : c < 128
  · exact (tables_bounded c h).1
  · rw [charTable_neg_of_ge c (by omega)]; decide

theorem charTable_nonneg_iff (c : Nat) :
    0 ≤ charTable c ↔ (IsKeyByte c ∨ (65 ≤ c ∧ c ≤ 90)) := by
  by_cases h : c < 128
  · exact (tables_bounded c h).2.1
  · rw [charTable_neg_of_ge c (by omega)]; unfold IsKeyByte; omega

theorem charTable_lowerByte (c : Nat) : charTable (lowerByte c) = charTable c := by
  by_cases h : c < 128
  · exact (tables_bounded c h).2.2.1
  · rw [lowerByte_of_ge c (by omega)]

theorem splitterTable_lowerByte (c : Nat) : splitterTable (lowerByte c) = splitterTable c := by
  by_cases h : c < 128
  · exact (tables_bounded c h).2.2.2.1
  · rw [lowerByte_of_ge c (by omega)]

theorem charTable_neg (c : Nat) (h : charTable c < 0) : charTable c = -1 := by
  by_cases h1 : c < 128
  · exact (tables_bounded c h1).2.2.2.2.1 h
  · exact charTable_neg_of_ge c (by omega)

theorem charTable_nonneg_lt (c : Nat) (h : 0 ≤ charTable c) : c < 128 := by
  by_contra h1
  rw [charTable_neg_of_ge c (by omega)] at h
  omega

theorem splitter_of_not_legal (c : Nat) (h : charTable c < 0) : splitterTable c = true := by
  by_cases h1 : c < 128
  · by_contra h2
    have := (tables_bounded c h1).2.2.2.2.2.1 (by simpa using h2)
    omega
  · exact splitterTable_of_ge c (by omega)

theorem lowerByte_of_keyByte (c : Nat) (h : IsKeyByte c) : lowerByte c = c := by
  unfold IsKeyByte at h
  rw [lowerByte, if_neg (by omega)]

theorem lowerByte_idem (c : Nat) : lowerByte (lowerByte c) = lowerByte c := by
  by_cases h1 : c < 128
  · exact (tables_bounded c h1).2.2.2.2.2.2.2.2.2.1
  · rw [lowerByte_of_ge c (by omega), lowerByte_of_ge c (by omega)]

theorem lowerByte_cases (c : Nat) :
    lowerByte c = c ∨ (65 ≤ c ∧ c ≤ 90 ∧ lowerByte c = c + 32) := by
  by_cases h : 65 ≤ c ∧ c ≤ 90
  · right; exact ⟨h.1, h.2, by rw [lowerByte, if_pos h]⟩
  · left; rw [lowerByte, if_neg h]

theorem keyByte_lower_iff (c : Nat) : IsKeyByte (lowerByte c) ↔ 0 ≤ charTable c := by
  by_cases h1 : c < 128
  · exact (tables_bounded c h1).2.2.2.2.2.2.2.1
  · rw [lowerByte_of_ge c (by omega), charTable_neg_of_ge c (by omega)]
    unfold IsKeyByte; omega

theorem charTable_upper (c : Nat) (h1 : 65 ≤ c) (h2 : c ≤ 90) :
    charTable (c + 32) = charTable c := by
  have := charTable_lowerByte c
  rwa [lowerByte, if_pos ⟨h1, h2⟩] at this

theorem charTable_lower (c : Nat) (h1 : 97 ≤ c) (h2 : c ≤ 122) :
    charTable (c - 32) = charTable c := by
  have := charTable_upper (c - 32) (by omega) (by omega)
  rw [show c - 32 + 32 = c by omega] at this
  exact this.symm

/-! ## Binary search -/

theorem binarySearchLoop_spec (x : List CharState) (c : Nat)
    (hs : ∀ a b, a < b → b < x.length → (x.getD a default).Char < (x.getD b default).Char) :
    ∀ fuel i j, j ≤ x.length → j - i < fuel →
      (binarySearchLoop x c fuel i j = -1 ∧ ∀ h, i ≤ h → h < j → (x.getD h default).Char ≠ c) ∨
      (∃ h : Nat, binarySearchLoop x c fuel i j = (h : Int) ∧ i ≤ h ∧ h < j ∧
        (x.getD h default).Char = c) := by
  intro fuel
  induction fuel with
  | zero => intro i j _ h; omega
  | succ fuel ih =>
    intro i j hj hf
    unfold binarySearchLoop
    by_cases hij : i < j
    · simp only [hij, if_true]
      have hh1 : i ≤ (i + j) / 2 := by omega
      have hh2 : (i + j) / 2 < j := by omega
      by_cases ht : ((x.getD ((i + j) / 2) default).Char : Int) - (c : Int) < 0
      · simp only [ht, if_true]
        rcases ih ((i + j) / 2 + 1) j hj (by omega) with ⟨h1, h2⟩ | ⟨h, h1, h2, h3, h4⟩
        · left
          refine ⟨h1, ?_⟩
          intro h hi hlt
          by_cases hc : (i + j) / 2 + 1 ≤ h
          · exact h2 h hc hlt
          · by_cases he : h = (i + j) / 2
            · subst he; omega
            · have := hs h ((i + j) / 2) (by omega) (by omega)
              omega
        · right; exact ⟨h, h1, by omega, h3, h4⟩
      · simp only [ht, if_false]
        by_cases ht2 : ((x.getD ((i + j) / 2) default).Char : Int) - (c : Int) > 0
        · simp only [ht2, if_true]
          rcases ih i ((i + j) / 2) (by omega) (by omega) with ⟨h1, h2⟩ | ⟨h, h1, h2, h3, h4⟩
          · left
            refine ⟨h1, ?_⟩
            intro h hi hlt
            by_cases hc : h < (i + j) / 2
            · exact h2 h hi hc
            · by_cases he : h = (i + j) / 2
              · subst he; omega
              · have := hs ((i + j) / 2) h (by omega) (by omega)
                omega
          · right; exact ⟨h, h1, h2, by omega, h4⟩
        · simp only [ht2, if_false]
          right
          exact ⟨(i + j) / 2, rfl, hh1, hh2, by omega⟩
    · simp only [hij, if_false]
      left
      exact ⟨trivial, fun h h1 h2 => by omega⟩

theorem pairwise_getD (x : List CharState) (hx : x.Pairwise (fun a b => a.Char < b.Char)) :
    ∀ a b, a < b → b < x.length → (x.getD a default).Char < (x.getD b default).Char := by
  intro a b hab hb
  have ha : a < x.length := by omega
  rw [List.getD_eq_getElem x default ha, List.getD_eq_getElem x default hb]
  exact List.pairwise_iff_getElem.mp hx a b ha hb hab

theorem pairwise_char_unique (x : List CharState) (hx : x.Pairwise (fun a b => a.Char < b.Char))
    (e1 e2 : CharState) (h1 : e1 ∈ x) (h2 : e2 ∈ x) (h : e1.Char = e2.Char) : e1 = e2 := by
  induction x with
  | nil => cases h1
  | cons a l ih =>
    rw [List.pairwise_cons] at hx
    rcases List.mem_cons.mp h1 with r1 | r1 <;> rcases List.mem_cons.mp h2 with r2 | r2
    · rw [r1, r2]
    · have := hx.1 e2 r2; rw [← r1] at this; omega
    · have := hx.1 e1 r1; rw [← r2] at this; omega
    · exact ih hx.2 r1 r2

theorem binarySearch_spec (x : List CharState) (c : Nat)
    (hx : x.Pairwise (fun a b => a.Char < b.Char)) :
    (binarySearch x c = -1 ∧ ∀ e ∈ x, e.Char ≠ c) ∨
    (∃ h : Nat, binarySearch x c = (h : Int) ∧ h < x.length ∧ (x.getD h default).Char = c ∧
      x.getD h default ∈ x) := by
  unfold binarySearch
  rcases binarySearchLoop_spec x c (pairwise_getD x hx) (x.length + 1) 0 x.length
      (le_refl _) (by omega) with ⟨h1, h2⟩ | ⟨h, h1, _, h3, h4⟩
  · left
    refine ⟨h1, ?_⟩
    intro e he
    obtain ⟨n, hn, rfl⟩ := List.getElem_of_mem he
    have := h2 n (Nat.zero_le _) hn
    rwa [List.getD_eq_getElem x default hn] at this
  · right
    refine ⟨h, h1, h3, h4, ?_⟩
    rw [List.getD_eq_getElem x default h3]
    exact List.getElem_mem _

/-! ## Child lookup under the representation invariant -/

theorem and_shift_eq_zero (bm m : Nat) : bm &&& (1 <<< m) = 0 ↔ bm.testBit m = false := by
  rw [Nat.one_shiftLeft, Nat.and_two_pow]
  cases bm.testBit m <;> simp

theorem charState_eta (e : CharState) (c k : Nat) (h1 : e.Char = c) (h2 : e.State = k) :
    e = ⟨c, k⟩ := by
  cases e; simp_all

/-- The search of `getNextNode` in a strictly sorted section finds exactly the
entries of the section. -/
theorem section_search_iff (l : List CharState) (c k : Nat)
    (hl : l.Pairwise (fun a b => a.Char < b.Char)) :
    searchSection l c = some k ↔
    (⟨c, k⟩ : CharState) ∈ l := by
  rcases l with _ | ⟨p, _ | ⟨q, _ | ⟨r, rest⟩⟩⟩
  · simp [searchSection]
  · simp only [searchSection, List.mem_singleton]
    constructor
    · intro h
      split_ifs at h with h1
      · exact (charState_eta p c k h1 (by simpa using h)).symm
    · intro h
      subst h
      simp
  · simp only [searchSection, List.mem_cons, List.mem_singleton, List.not_mem_nil, or_false]
    rw [List.pairwise_cons] at hl
    have hpq := hl.1 q (List.mem_singleton.mpr rfl)
    constructor
    · intro h
      split_ifs at h with h1 h2
      · left; exact (charState_eta p c k h1 (by simpa using h)).symm
      · right; exact (charState_eta q c k h2 (by simpa using h)).symm
    · rintro (h | h)
      · subst h; simp
      · subst h
        have : ¬ p.Char = c := by simp only at hpq ⊢; omega
        simp [this]
  · simp only [searchSection]
    rcases binarySearch_spec (p :: q :: r :: rest) c hl with ⟨h1, h2⟩ | ⟨h, h1, h2, h3, h4⟩
    · rw [h1]
      simp only [show ((-1 : Int) < 0) from by decide, if_true]
      constructor
      · intro h; cases h
      · intro h; exact absurd rfl (h2 _ h)
    · rw [h1]
      simp only [show ¬ ((h : Int) < 0) from by omega, if_false, Int.toNat_ofNat]
      constructor
      · intro hk
        have hk1 : ((p :: q :: r :: rest).getD h default).State = k := by simpa using hk
        rw [← charState_eta _ c k h3 hk1]
        exact h4
      · intro hm
        have := pairwise_char_unique _ hl _ _ hm h4 (by rw [h3])
        rw [← this]

theorem getNextNode_eq_some_iff (p : TrieNode) (hp : NodeRep p) (c k : Nat) :
    getNextNode p c = some k ↔
      (⟨c, k⟩ : CharState) ∈ p.sectionAt ((charTable c).toNat % SectionCount) := by
  have hs : (charTable c).toNat % SectionCount < SectionCount := Nat.mod_lt _ (by decide)
  have hsec := hp.2 _ hs
  constructor
  · intro h
    simp only [getNextNode] at h
    split_ifs at h with h1 h2 h3
    exact (section_search_iff _ c k hsec.1).mp h
  · intro h
    obtain ⟨h1, h2, _, h4⟩ := hsec.2.1 _ h
    simp only at h1 h2 h4
    simp only [getNextNode]
    have h3 : ¬ (p.ChildBitMap &&& (1 <<< (charTable c).toNat) = 0) := by
      rw [and_shift_eq_zero, h4]; simp
    rw [if_neg (by omega), if_neg (by omega), if_neg h3]
    exact (section_search_iff _ c k hsec.1).mpr h

theorem getNextNode_none_iff (p : TrieNode) (hp : NodeRep p) (c : Nat) :
    getNextNode p c = none ↔
      ∀ e ∈ p.sectionAt ((charTable c).toNat % SectionCount), e.Char ≠ c := by
  constructor
  · intro h e he hc
    have : getNextNode p c = some e.State := by
      rw [getNextNode_eq_some_iff p hp]
      rw [← charState_eta e c e.State hc rfl]; exact he
    rw [h] at this; cases this
  · intro h
    cases hg : getNextNode p c with
    | none => rfl
    | some k =>
      rw [getNextNode_eq_some_iff p hp] at hg
      exact absurd rfl (h _ hg)

/-- Child lookup does not depend on the case of an ASCII letter. -/
theorem getNextNode_lowerByte (p : TrieNode) (hp : NodeRep p) (c : Nat) :
    getNextNode p (lowerByte c) = getNextNode p c := by
  rcases lowerByte_cases c with h | ⟨h1, h2, h3⟩
  · rw [h]
  · rw [h3]
    have hs : (charTable c).toNat % SectionCount < SectionCount := Nat.mod_lt _ (by decide)
    have hsec := hp.2 _ hs
    apply Option.ext
    intro k
    simp only [Option.mem_def]
    rw [getNextNode_eq_some_iff p hp, getNextNode_eq_some_iff p hp, charTable_upper c h1 h2]
    constructor
    · intro h
      have := hsec.2.2.2 _ h (by simp only; omega) (by simp only; omega)
      simpa using this
    · intro h
      exact hsec.2.2.1 _ h h1 h2

theorem getNextNode_none_of_not_legal (p : TrieNode) (c : Nat) (h : charTable c < 0) :
    getNextNode p c = none := by
  simp only [getNextNode]
  by_cases h1 : 128 ≤ c
  · rw [if_pos h1]
  · rw [if_neg h1, if_pos h]

/-! ## The effect of `setNextNode` -/

theorem setNextNode_keyByte (p : TrieNode) (c n : Nat) (hk : IsKeyByte c) :
    setNextNode p c n = some (addChildren p c (linkEntries c n)) := by
  unfold IsKeyByte at hk
  unfold setNextNode linkEntries
  by_cases h1 : 97 ≤ c ∧ c ≤ 122
  · rw [if_neg (by omega), if_pos h1, if_pos h1]
  · by_cases h2 : 48 ≤ c ∧ c ≤ 57
    · rw [if_neg (by omega), if_neg h1, if_pos h2, if_neg h1]
    · rw [if_neg (by omega), if_neg h1, if_neg h2, if_pos (by omega), if_neg h1]

theorem setNextNode_other (p : TrieNode) (c n : Nat) (h : c < 128) (hk : ¬ IsKeyByte c) :
    setNextNode p c n = some p := by
  unfold IsKeyByte at hk
  unfold setNextNode
  rw [if_neg (by omega), if_neg (by omega), if_neg (by omega), if_neg (by omega)]

theorem mem_linkEntries (c n : Nat) (hk : IsKeyByte c) (e : CharState) :
    e ∈ linkEntries c n ↔ (e.State = n ∧ lowerByte e.Char = c) := by
  unfold IsKeyByte at hk
  unfold linkEntries
  rcases e with ⟨ec, es⟩
  by_cases h1 : 97 ≤ c ∧ c ≤ 122
  · rw [if_pos h1]
    simp only [List.mem_cons, List.mem_singleton, List.not_mem_nil, or_false, CharState.mk.injEq]
    unfold lowerByte
    split_ifs <;> omega
  · rw [if_neg h1]
    simp only [List.mem_singleton, CharState.mk.injEq]
    unfold lowerByte
    split_ifs <;> omega

theorem mem_sortSection (l : List CharState) (e : CharState) : e ∈ sortSection l ↔ e ∈ l :=
  (List.perm_insertionSort _ l).mem_iff

theorem sortSection_pairwise (l : List CharState)
    (hl : l.Pairwise (fun a b => a.Char ≠ b.Char)) :
    (sortSection l).Pairwise (fun a b => a.Char < b.Char) := by
  have h1 : (sortSection l).Pairwise (fun a b => a.Char ≤ b.Char) :=
    List.sorted_insertionSort (fun a b : CharState => a.Char ≤ b.Char) l
  have h2 : (sortSection l).Pairwise (fun a b => a.Char ≠ b.Char) :=
    ((List.perm_insertionSort _ l).pairwise_iff (fun h => Ne.symm h)).mpr hl
  exact (h1.and h2).imp (fun h => lt_of_le_of_ne h.1 h.2)

theorem sectionAt_addChildren (p : TrieNode) (hp : p.Child.length = SectionCount) (c : Nat)
    (es : List CharState) (s : Nat) :
    (addChildren p c es).sectionAt s =
      if s = (charTable c).toNat % SectionCount then
        sortSection (p.sectionAt ((charTable c).toNat % SectionCount) ++ es)
      else p.sectionAt s := by
  have hs : (charTable c).toNat % SectionCount < p.Child.length := by
    rw [hp]; exact Nat.mod_lt _ (by decide)
  unfold TrieNode.sectionAt addChildren
  simp only [List.getD_eq_getElem?_getD]
  by_cases h : s = (charTable c).toNat % SectionCount
  · subst h
    rw [if_pos rfl, List.getElem?_set_self hs]
    simp [TrieNode.sectionAt]
  · rw [if_neg h, List.getElem?_set_ne (Ne.symm h)]

theorem testBit_or_shift_self (bm m : Nat) : (bm ||| (1 <<< m)).testBit m = true := by
  rw [Nat.testBit_or, Nat.one_shiftLeft, Nat.testBit_two_pow_self, Bool.or_true]

theorem testBit_or_mono (bm x m : Nat) (h : bm.testBit m = true) :
    (bm ||| x).testBit m = true := by
  rw [Nat.testBit_or, h, Bool.true_or]

theorem linkEntries_pairwise (c n : Nat) :
    (linkEntries c n).Pairwise (fun a b => a.Char ≠ b.Char) := by
  unfold linkEntries
  by_cases h1 : 97 ≤ c ∧ c ≤ 122
  · rw [if_pos h1]
    simp only [List.pairwise_cons, List.mem_singleton, forall_eq, List.not_mem_nil,
      IsEmpty.forall_iff, implies_true, List.Pairwise.nil, and_true]
    omega
  · rw [if_neg h1]
    simp

theorem no_entry_of_none (p : TrieNode) (hp : NodeRep p) (c : Nat) (hk : IsKeyByte c)
    (hnone : getNextNode p c = none) :
    ∀ a ∈ p.sectionAt ((charTable c).toNat % SectionCount), lowerByte a.Char ≠ c := by
  intro a ha hc
  have hs : (charTable c).toNat % SectionCount < SectionCount := Nat.mod_lt _ (by decide)
  have hsec := hp.2 _ hs
  have hno := (getNextNode_none_iff p hp c).mp hnone
  rcases lowerByte_cases a.Char with h | ⟨h1, h2, h3⟩
  · exact hno a ha (by rw [← h]; exact hc)
  · have := hsec.2.2.1 a ha h1 h2
    exact hno _ this (by simp only; omega)

theorem addChildren_nodeRep (p : TrieNode) (hp : NodeRep p) (c n : Nat) (hk : IsKeyByte c)
    (hnone : getNextNode p c = none) :
    NodeRep (addChildren p c (linkEntries c n)) := by
  have hc0 : 0 ≤ charTable c := (charTable_nonneg_iff c).mpr (Or.inl hk)
  have hcl : lowerByte c = c := lowerByte_of_keyByte c hk
  refine ⟨?_, ?_⟩
  · simp only [addChildren, List.length_set]; exact hp.1
  · intro s hs
    rw [sectionAt_addChildren p hp.1]
    have hbm : (addChildren p c (linkEntries c n)).ChildBitMap =
        p.ChildBitMap ||| (1 <<< (charTable c).toNat) := rfl
    rw [hbm]
    by_cases h : s = (charTable c).toNat % SectionCount
    · rw [if_pos h]
      have hsec := hp.2 _ (h ▸ hs)
      have hno := no_entry_of_none p hp c hk hnone
      refine ⟨?_, ?_, ?_, ?_⟩
      · apply sortSection_pairwise
        rw [List.pairwise_append]
        refine ⟨hsec.1.imp (fun h => Nat.ne_of_lt h), linkEntries_pairwise c n, ?_⟩
        intro a ha b hb hab
        have hb2 := ((mem_linkEntries c n hk b).mp hb).2
        exact hno a ha (by rw [hab]; exact hb2)
      · intro e he
        rw [mem_sortSection, List.mem_append] at he
        rcases he with he | he
        · obtain ⟨h1, h2, h3, h4⟩ := hsec.2.1 e he
          exact ⟨h1, h2, by rw [h3, h], testBit_or_mono _ _ _ h4⟩
        · have he2 := ((mem_linkEntries c n hk e).mp he).2
          have hce : charTable e.Char = charTable c := by
            rw [← charTable_lowerByte e.Char, he2]
          refine ⟨charTable_nonneg_lt _ (by rw [hce]; exact hc0), by rw [hce]; exact hc0,
            by rw [hce, h], by rw [hce]; exact testBit_or_shift_self _ _⟩
      · intro e he h1 h2
        rw [mem_sortSection, List.mem_append] at he ⊢
        rcases he with he | he
        · left; exact hsec.2.2.1 e he h1 h2
        · right
          have he2 := (mem_linkEntries c n hk e).mp he
          rw [mem_linkEntries c n hk]
          refine ⟨he2.1, ?_⟩
          have : lowerByte e.Char = e.Char + 32 := by rw [lowerByte, if_pos ⟨h1, h2⟩]
          simp only
          rw [← this, lowerByte_idem]; exact he2.2
      · intro e he h1 h2
        rw [mem_sortSection, List.mem_append] at he ⊢
        rcases he with he | he
        · left; exact hsec.2.2.2 e he h1 h2
        · right
          have he2 := (mem_linkEntries c n hk e).mp he
          rw [mem_linkEntries c n hk]
          refine ⟨he2.1, ?_⟩
          have h3 : lowerByte e.Char = e.Char := by rw [lowerByte, if_neg (by omega)]
          simp only
          rw [lowerByte, if_pos (by omega)]
          rw [← he2.2, h3]; omega
    · rw [if_neg h]
      have hsec := hp.2 _ hs
      refine ⟨hsec.1, ?_, hsec.2.2.1, hsec.2.2.2⟩
      intro e he
      obtain ⟨h1, h2, h3, h4⟩ := hsec.2.1 e he
      exact ⟨h1, h2, h3, testBit_or_mono _ _ _ h4⟩

theorem getNextNode_addChildren (p : TrieNode) (hp : NodeRep p) (c n : Nat) (hk : IsKeyByte c)
    (hnone : getNextNode p c = none) (d k : Nat) :
    getNextNode (addChildren p c (linkEntries c n)) d = some k ↔
      (getNextNode p d = some k ∨ (lowerByte d = c ∧ k = n)) := by
  rw [getNextNode_eq_some_iff _ (addChildren_nodeRep p hp c n hk hnone),
    getNextNode_eq_some_iff p hp, sectionAt_addChildren p hp.1]
  by_cases h : (charTable d).toNat % SectionCount = (charTable c).toNat % SectionCount
  · rw [if_pos h, mem_sortSection, List.mem_append, mem_linkEntries c n hk, h]
    simp only
    constructor
    · rintro (h1 | ⟨h1, h2⟩)
      · exact Or.inl h1
      · exact Or.inr ⟨h2, h1⟩
    · rintro (h1 | ⟨h1, h2⟩)
      · exact Or.inl h1
      · exact Or.inr ⟨h2, h1⟩
  · rw [if_neg h]
    constructor
    · intro h1; exact Or.inl h1
    · rintro (h1 | ⟨h1, _⟩)
      · exact h1
      · exfalso; apply h
        rw [← charTable_lowerByte d, h1]

/-- What a call `setNextNode(p, c, n)` does to a node without a child for the
key byte `c`: the invariant is kept, the byte and its upper-case form now lead
to `n`, every other lookup is unchanged. -/
theorem setNextNode_spec (p : TrieNode) (hp : NodeRep p) (c n : Nat) (hk : IsKeyByte c)
    (hnone : getNextNode p c = none) :
    ∃ q, setNextNode p c n = some q ∧ NodeRep q ∧
      (∀ d k, getNextNode q d = some k ↔ (getNextNode p d = some k ∨ (lowerByte d = c ∧ k = n))) ∧
      q.State = p.State ∧ q.Depth = p.Depth ∧ q.Rule = p.Rule ∧ q.End = p.End ∧
      q.AnyStart = p.AnyStart ∧ q.AnyEnd = p.AnyEnd ∧ q.LastEnd = p.LastEnd :=
  ⟨_, setNextNode_keyByte p c n hk, addChildren_nodeRep p hp c n hk hnone,
    getNextNode_addChildren p hp c n hk hnone, rfl, rfl, rfl, rfl, rfl, rfl, rfl⟩

theorem nodeRep_zero : NodeRep TrieNode.zero := by
  refine ⟨rfl, ?_⟩
  intro s hs
  have : TrieNode.zero.sectionAt s = [] := by
    unfold TrieNode.sectionAt TrieNode.zero
    simp only [List.getD_eq_getElem?_getD]
    rw [List.getElem?_replicate]
    split_ifs <;> rfl
  rw [this]
  exact ⟨List.Pairwise.nil, by simp, by simp, by simp⟩

theorem getNextNode_zero (c : Nat) : getNextNode TrieNode.zero c = none := by
  rw [getNextNode_none_iff _ nodeRep_zero]
  intro e he
  have : TrieNode.zero.sectionAt ((charTable c).toNat % SectionCount) = [] := by
    unfold TrieNode.sectionAt TrieNode.zero
    simp only [List.getD_eq_getElem?_getD]
    rw [List.getElem?_replicate]
    split_ifs <;> rfl
  rw [this] at he; cases he

/-! ## Node lists -/

theorem nodeAt_lt (nodes : List TrieNode) (k : Nat) (h : k < nodes.length) :
    nodeAt nodes k = nodes[k] := by
  unfold nodeAt; exact List.getD_eq_getElem nodes _ h

theorem nodeAt_ge (nodes : List TrieNode) (k : Nat) (h : nodes.length ≤ k) :
    nodeAt nodes k = TrieNode.zero := by
  unfold nodeAt; exact List.getD_eq_default nodes _ h

theorem nodeAt_set_self (nodes : List TrieNode) (i : Nat) (v : TrieNode) (h : i < nodes.length) :
    nodeAt (nodes.set i v) i = v := by
  unfold nodeAt
  rw [List.getD_eq_getElem?_getD, List.getElem?_set_self h]; rfl

theorem nodeAt_set_ne (nodes : List TrieNode) (i k : Nat) (v : TrieNode) (h : k ≠ i) :
    nodeAt (nodes.set i v) k = nodeAt nodes k := by
  unfold nodeAt
  rw [List.getD_eq_getElem?_getD, List.getD_eq_getElem?_getD, List.getElem?_set_ne (Ne.symm h)]

theorem nodeAt_append_lt (nodes : List TrieNode) (n : TrieNode) (k : Nat)
    (h : k < nodes.length) : nodeAt (nodes ++ [n]) k = nodeAt nodes k := by
  unfold nodeAt
  rw [List.getD_eq_getElem?_getD, List.getD_eq_getElem?_getD, List.getElem?_append_left h]

theorem nodeAt_append_eq (nodes : List TrieNode) (n : TrieNode) :
    nodeAt (nodes ++ [n]) nodes.length = n := by
  unfold nodeAt
  rw [List.getD_eq_getElem?_getD, List.getElem?_append_right (le_refl _)]
  simp

theorem set_nodeAt_self (nodes : List TrieNode) (i : Nat) :
    nodes.set i (nodeAt nodes i) = nodes := by
  by_cases h : i < nodes.length
  · apply List.ext_getElem?
    intro k
    by_cases hk : k = i
    · subst hk
      rw [List.getElem?_set_self h, nodeAt_lt nodes k h]
      exact (List.getElem?_eq_getElem h).symm
    · rw [List.getElem?_set_ne (Ne.symm hk)]
  · exact List.set_eq_of_length_le (by omega)

theorem getNextNode_congr (p q : TrieNode) (h1 : p.Child = q.Child)
    (h2 : p.ChildBitMap = q.ChildBitMap) (c : Nat) : getNextNode p c = getNextNode q c := by
  simp only [getNextNode, TrieNode.sectionAt, h1, h2]

theorem nodeRep_congr (p q : TrieNode) (h1 : p.Child = q.Child)
    (h2 : p.ChildBitMap = q.ChildBitMap) (h : NodeRep p) : NodeRep q := by
  unfold NodeRep TrieNode.sectionAt at *
  rw [← h1, ← h2]; exact h

/-! ## Walks -/

theorem walk_append (nodes : List TrieNode) (i : Nat) (u v : List Nat) :
    walk nodes i (u ++ v) = (walk nodes i u).bind (fun k => walk nodes k v) := by
  induction u generalizing i with
  | nil => simp [walk]
  | cons c u ih =>
    simp only [List.cons_append, walk]
    cases getNextNode (nodeAt nodes i) c with
    | none => simp
    | some k => simp [ih]

theorem walk_toLower (nodes : List TrieNode) (hrep : ∀ i, NodeRep (nodeAt nodes i)) (i : Nat)
    (w : List Nat) : walk nodes i (toLower w) = walk nodes i w := by
  induction w generalizing i with
  | nil => rfl
  | cons c w ih =>
    simp only [toLower, List.map_cons, walk]
    rw [getNextNode_lowerByte _ (hrep i)]
    cases getNextNode (nodeAt nodes i) c with
    | none => rfl
    | some k => exact ih k

theorem TrieInv.rep_all {krMap nodes insAll insDone path birth}
    (h : TrieInv krMap nodes insAll insDone path birth) (i : Nat) : NodeRep (nodeAt nodes i) := by
  by_cases hi : i < nodes.length
  · exact h.hrep i hi
  · rw [nodeAt_ge nodes i (by omega)]; exact nodeRep_zero

theorem TrieInv.walk_path {krMap nodes insAll insDone path birth}
    (h : TrieInv krMap nodes insAll insDone path birth) (w : List Nat) :
    ∀ i k, i < nodes.length → walk nodes i w = some k →
      k < nodes.length ∧ path k = path i ++ toLower w := by
  induction w with
  | nil =>
    intro i k hi hw
    simp only [walk, Option.some.injEq] at hw
    subst hw
    exact ⟨hi, by simp [toLower]⟩
  | cons c w ih =>
    intro i k hi hw
    simp only [walk] at hw
    cases hg : getNextNode (nodeAt nodes i) c with
    | none => rw [hg] at hw; cases hw
    | some m =>
      rw [hg] at hw
      obtain ⟨hm, hpm⟩ := h.hlink i c m hi hg
      obtain ⟨hk, hpk⟩ := ih m k hm hw
      refine ⟨hk, ?_⟩
      rw [hpk, hpm]
      simp [toLower]

/-! ## The first inner loop of `ConstructTrie` -/

theorem TrieInv.path_walk {krMap nodes insAll insDone path birth}
    (h : TrieInv krMap nodes insAll insDone path birth) (w : List Nat) (k : Nat)
    (hw : walk nodes 0 w = some k) : k < nodes.length ∧ path k = toLower w := by
  have := h.walk_path w 0 k h.hlen hw
  rw [h.hroot, List.nil_append] at this
  exact this

theorem toLower_length (w : List Nat) : (toLower w).length = w.length := by
  simp [toLower]

theorem toLower_append (u v : List Nat) : toLower (u ++ v) = toLower u ++ toLower v := by
  simp [toLower]

theorem skipExisting_spec {krMap nodes insAll insDone path birth}
    (h : TrieInv krMap nodes insAll insDone path birth) :
    ∀ (rest pre : List Nat) (j cur : Nat) (le : Option Nat),
      pre.length = j → walk nodes 0 pre = some cur →
      (∀ l, le = some l →
        l < nodes.length ∧ (nodeAt nodes l).End = true ∧ (∃ t, path cur = path l ++ t) ∧
          0 < (path l).length) →
      (∀ m k, 1 ≤ m → m ≤ j → walk nodes 0 (pre.take m) = some k →
        (nodeAt nodes k).End = true → ∃ l, le = some l ∧ m ≤ (path l).length) →
      ∀ rest1 j1 cur1 le1, skipExisting nodes rest j cur le = (rest1, j1, cur1, le1) →
        ∃ pre1, pre ++ rest = pre1 ++ rest1 ∧ pre1.length = j1 ∧
          walk nodes 0 pre1 = some cur1 ∧
          (∀ c r, rest1 = c :: r → getNextNode (nodeAt nodes cur1) c = none) ∧
          (∀ l, le1 = some l →
            l < nodes.length ∧ (nodeAt nodes l).End = true ∧ (∃ t, path cur1 = path l ++ t) ∧
            0 < (path l).length) ∧
          (∀ m k, 1 ≤ m → m ≤ j1 → walk nodes 0 (pre1.take m) = some k →
            (nodeAt nodes k).End = true → ∃ l, le1 = some l ∧ m ≤ (path l).length) := by
  intro rest
  induction rest with
  | nil =>
    intro pre j cur le hj hw hl hm rest1 j1 cur1 le1 hs
    simp only [skipExisting, Prod.mk.injEq] at hs
    obtain ⟨rfl, rfl, rfl, rfl⟩ := hs
    exact ⟨pre, rfl, hj, hw, fun c r hc => (by cases hc), hl, hm⟩
  | cons c rest ih =>
    intro pre j cur le hj hw hl hm rest1 j1 cur1 le1 hs
    simp only [skipExisting] at hs
    cases hg : getNextNode (nodeAt nodes cur) c with
    | none =>
      rw [hg] at hs
      simp only [Prod.mk.injEq] at hs
      obtain ⟨rfl, rfl, rfl, rfl⟩ := hs
      refine ⟨pre, rfl, hj, hw, ?_, hl, hm⟩
      intro c1 r hc
      simp only [List.cons.injEq] at hc
      rw [← hc.1]; exact hg
    | some r =>
      rw [hg] at hs
      simp only at hs
      have hcur := (h.path_walk pre cur hw).1
      obtain ⟨hr, hpr⟩ := h.hlink cur c r hcur hg
      rw [h.hstate r hr] at hs
      have hw2 : walk nodes 0 (pre ++ [c]) = some r := by
        rw [walk_append, hw]; simp [walk, hg]
      have hplen : (path r).length = j + 1 := by
        rw [(h.path_walk _ r hw2).2, toLower_length, List.length_append, hj]; rfl
      have := ih (pre ++ [c]) (j + 1) r (if (nodeAt nodes r).End then some r else le)
        (by rw [List.length_append, hj]; rfl) hw2 ?_ ?_ rest1 j1 cur1 le1 hs
      · obtain ⟨pre1, h1, h2⟩ := this
        exact ⟨pre1, by rw [← h1]; simp, h2⟩
      · intro l hle
        by_cases he : (nodeAt nodes r).End = true
        · rw [if_pos he] at hle
          cases hle
          exact ⟨hr, he, ⟨[], by simp⟩, by omega⟩
        · rw [if_neg he] at hle
          obtain ⟨a1, a2, ⟨t, a3⟩, a4⟩ := hl l hle
          exact ⟨a1, a2, ⟨t ++ [lowerByte c], by rw [hpr, a3, List.append_assoc]⟩, a4⟩
      · intro m k hm1 hm2 hwk hek
        by_cases hmj : m ≤ j
        · rw [List.take_append_of_le_length (by omega)] at hwk
          obtain ⟨l, a1, a2⟩ := hm m k hm1 hmj hwk hek
          by_cases he : (nodeAt nodes r).End = true
          · exact ⟨r, by rw [if_pos he], by omega⟩
          · exact ⟨l, by rw [if_neg he]; exact a1, a2⟩
        · have hmeq : m = j + 1 := by omega
          rw [List.take_of_length_le (by rw [List.length_append, hj]; simp; omega)] at hwk
          rw [hw2] at hwk
          cases hwk
          exact ⟨r, by rw [if_pos hek], by omega⟩

theorem skipExisting_start {krMap nodes insAll insDone path birth}
    (h : TrieInv krMap nodes insAll insDone path birth) (K rest1 : List Nat) (j1 cur1 : Nat)
    (le1 : Option Nat) (hs : skipExisting nodes K 0 0 none = (rest1, j1, cur1, le1)) :
    ∃ pre1, K = pre1 ++ rest1 ∧ pre1.length = j1 ∧ cur1 < nodes.length ∧
      walk nodes 0 pre1 = some cur1 ∧ path cur1 = toLower pre1 ∧
      (∀ c r, rest1 = c :: r → getNextNode (nodeAt nodes cur1) c = none) ∧
      (∀ l, le1 = some l →
        l < nodes.length ∧ (nodeAt nodes l).End = true ∧ (∃ t, path cur1 = path l ++ t) ∧
            0 < (path l).length) ∧
      (∀ m k, 1 ≤ m → m ≤ j1 → walk nodes 0 (pre1.take m) = some k →
        (nodeAt nodes k).End = true → ∃ l, le1 = some l ∧ m ≤ (path l).length) := by
  obtain ⟨pre1, h1, h2, h3, h4, h5, h6⟩ :=
    skipExisting_spec h K [] 0 0 none rfl rfl (fun l hl => by cases hl)
      (fun m k h1 h2 => by omega) rest1 j1 cur1 le1 hs
  have := h.path_walk pre1 cur1 h3
  exact ⟨pre1, by simpa using h1, h2, this.1, h3, this.2, h4, h5, h6⟩

/-! ## The second inner loop of `ConstructTrie` -/

theorem setNextNode_spec2 (p : TrieNode) (hp : NodeRep p) (c n : Nat)
    (hnone : getNextNode p c = none) (q : TrieNode) (hq : setNextNode p c n = some q) :
    NodeRep q ∧
      (∀ d k, getNextNode q d = some k ↔
        (getNextNode p d = some k ∨ (IsKeyByte c ∧ lowerByte d = c ∧ k = n))) ∧
      q.State = p.State ∧ q.Depth = p.Depth ∧ q.Rule = p.Rule ∧ q.End = p.End ∧
      q.AnyStart = p.AnyStart ∧ q.AnyEnd = p.AnyEnd ∧ q.LastEnd = p.LastEnd := by
  by_cases hk : IsKeyByte c
  · obtain ⟨q1, h1, h2, h3, h4⟩ := setNextNode_spec p hp c n hk hnone
    rw [h1] at hq
    cases hq
    refine ⟨h2, ?_, h4⟩
    intro d k
    rw [h3]
    constructor
    · rintro (a | ⟨a, b⟩)
      · exact Or.inl a
      · exact Or.inr ⟨hk, a, b⟩
    · rintro (a | ⟨_, a, b⟩)
      · exact Or.inl a
      · exact Or.inr ⟨a, b⟩
  · have hc : c < 128 := by
      by_contra hc
      unfold setNextNode at hq
      rw [if_pos (by omega)] at hq
      cases hq
    rw [setNextNode_other p c n hc hk] at hq
    cases hq
    refine ⟨hp, ?_, rfl, rfl, rfl, rfl, rfl, rfl, rfl⟩
    intro d k
    constructor
    · intro a; exact Or.inl a
    · rintro (a | ⟨a, _⟩)
      · exact a
      · exact absurd a hk

theorem nodeAt_step (nodes : List TrieNode) (cur : Nat) (q n : TrieNode) (i : Nat)
    (hcur : cur < nodes.length) :
    nodeAt (nodes.set cur q ++ [n]) i =
      if i = nodes.length then n else if i = cur then q else nodeAt nodes i := by
  have hl : (nodes.set cur q).length = nodes.length := List.length_set _ _ _
  by_cases h1 : i = nodes.length
  · rw [if_pos h1, h1, ← hl]; exact nodeAt_append_eq _ _
  · rw [if_neg h1]
    by_cases h2 : i < nodes.length
    · rw [nodeAt_append_lt _ _ _ (by rw [hl]; exact h2)]
      by_cases h3 : i = cur
      · rw [if_pos h3, h3]; exact nodeAt_set_self _ _ _ hcur
      · rw [if_neg h3]; exact nodeAt_set_ne _ _ _ _ h3
    · rw [if_neg (by omega), nodeAt_ge _ _ (by rw [List.length_append, hl]; simp; omega),
        nodeAt_ge _ _ (by omega)]

theorem walk_mono (nodes nodes1 : List TrieNode)
    (hin : ∀ i d k, i < nodes.length → getNextNode (nodeAt nodes i) d = some k → k < nodes.length)
    (hmono : ∀ i d k, i < nodes.length → getNextNode (nodeAt nodes i) d = some k →
      getNextNode (nodeAt nodes1 i) d = some k) :
    ∀ (w : List Nat) (i k : Nat), i < nodes.length → walk nodes i w = some k →
      walk nodes1 i w = some k := by
  intro w
  induction w with
  | nil => intro i k _ h; exact h
  | cons c w ih =>
    intro i k hi h
    simp only [walk] at h ⊢
    cases hg : getNextNode (nodeAt nodes i) c with
    | none => rw [hg] at h; cases h
    | some m =>
      rw [hg] at h
      rw [hmono i c m hi hg]
      exact ih m k (hin i c m hi hg) h

theorem newNode_getNextNode (si d : Nat) (le : Option Nat) (c : Nat) :
    getNextNode { TrieNode.zero with State := si, Depth := d, LastEnd := le } c = none := by
  exact (getNextNode_congr _ TrieNode.zero rfl rfl c).trans (getNextNode_zero c)

theorem newNode_rep (si d : Nat) (le : Option Nat) :
    NodeRep { TrieNode.zero with State := si, Depth := d, LastEnd := le } :=
  nodeRep_congr TrieNode.zero _ rfl rfl nodeRep_zero

set_option maxHeartbeats 800000 in
/-- One iteration of the second inner loop keeps the invariant: the node
appended for the byte `c` gets the path `pre ++ [c]` and the birth `b`. -/
theorem appendStep_inv {krMap nodes insAll insDone path birth}
    (h : TrieInv krMap nodes insAll insDone path birth)
    (K pre rest : List Nat) (c b : Nat) (pkK : ParsedKey) (lastEnd : Option Nat) (cur : Nat)
    (q n : TrieNode) (nodes1 : List TrieNode) (path1 : Nat → List Nat) (birth1 : Nat → Nat)
    (hb : insAll.get? b = some pkK) (hKk : pkK.key = K)
    (hK : K = pre ++ c :: rest) (hcur : cur < nodes.length)
    (hpc : path cur = toLower pre)
    (hnone : getNextNode (nodeAt nodes cur) c = none)
    (hq : setNextNode (nodeAt nodes cur) c nodes.length = some q)
    (hl : ∀ l, lastEnd = some l →
      l < nodes.length ∧ (nodeAt nodes l).End = true ∧ (∃ t, toLower pre = path l ++ t) ∧
        0 < (path l).length)
    (hl2 : ∀ a P, a < b → insAll.get? a = some P → P.key ≠ [] → (∀ c ∈ P.key, IsKeyByte c) →
      (∃ t, toLower K = P.key ++ t) → ∃ l, lastEnd = some l ∧ P.key.length ≤ (path l).length)
    (hn : n = { TrieNode.zero with
      State := nodes.length, Depth := pre.length + 1, LastEnd := lastEnd })
    (hnodes1 : nodes1 = nodes.set cur q ++ [n])
    (hpath1 : path1 = Function.update path nodes.length (toLower (pre ++ [c])))
    (hbirth1 : birth1 = Function.update birth nodes.length b) :
    TrieInv krMap nodes1 insAll insDone path1 birth1 ∧
    nodes1.length = nodes.length + 1 ∧
    (∀ i, i < nodes.length → path1 i = path i) ∧
    path1 nodes.length = toLower (pre ++ [c]) ∧
    (∀ i, i < nodes.length → (nodeAt nodes1 i).End = (nodeAt nodes i).End) ∧
    (∀ i d k, i < nodes.length → getNextNode (nodeAt nodes i) d = some k →
      getNextNode (nodeAt nodes1 i) d = some k) ∧
    (IsKeyByte c → getNextNode (nodeAt nodes1 cur) c = some nodes.length) ∧
    (∀ d, getNextNode (nodeAt nodes1 nodes.length) d = none) := by
  obtain ⟨hqrep, hqlook, hqS, hqD, hqR, hqE, hqAS, hqAE, hqL⟩ :=
    setNextNode_spec2 _ (h.hrep cur hcur) c nodes.length hnone q hq
  have hlen1 : nodes1.length = nodes.length + 1 := by
    rw [hnodes1, List.length_append, List.length_set]; rfl
  have hN : ∀ i, nodeAt nodes1 i =
      if i = nodes.length then n else if i = cur then q else nodeAt nodes i := by
    intro i; rw [hnodes1]; exact nodeAt_step nodes cur q n i hcur
  have hnew : nodeAt nodes1 nodes.length = n := by rw [hN, if_pos rfl]
  have hp1 : ∀ i, i < nodes.length → path1 i = path i := by
    intro i hi; rw [hpath1, Function.update_noteq (by omega)]
  have hp1n : path1 nodes.length = toLower (pre ++ [c]) := by
    rw [hpath1, Function.update_same]
  have hb1 : ∀ i, i < nodes.length → birth1 i = birth i := by
    intro i hi; rw [hbirth1, Function.update_noteq (by omega)]
  have hb1n : birth1 nodes.length = b := by rw [hbirth1, Function.update_same]
  have hold : ∀ i, i < nodes.length →
      (nodeAt nodes1 i).State = (nodeAt nodes i).State ∧
      (nodeAt nodes1 i).Depth = (nodeAt nodes i).Depth ∧
      (nodeAt nodes1 i).Rule = (nodeAt nodes i).Rule ∧
      (nodeAt nodes1 i).End = (nodeAt nodes i).End ∧
      (nodeAt nodes1 i).AnyStart = (nodeAt nodes i).AnyStart ∧
      (nodeAt nodes1 i).AnyEnd = (nodeAt nodes i).AnyEnd ∧
      (nodeAt nodes1 i).LastEnd = (nodeAt nodes i).LastEnd ∧
      NodeRep (nodeAt nodes1 i) ∧
      ∀ d k, getNextNode (nodeAt nodes1 i) d = some k ↔
        (getNextNode (nodeAt nodes i) d = some k ∨
          (i = cur ∧ IsKeyByte c ∧ lowerByte d = c ∧ k = nodes.length)) := by
    intro i hi
    rw [hN i, if_neg (by omega)]
    by_cases hic : i = cur
    · subst hic
      rw [if_pos rfl]
      refine ⟨hqS, hqD, hqR, hqE, hqAS, hqAE, hqL, hqrep, ?_⟩
      intro d k
      rw [hqlook]
      simp
    · rw [if_neg hic]
      refine ⟨rfl, rfl, rfl, rfl, rfl, rfl, rfl, h.hrep i hi, ?_⟩
      intro d k
      simp [hic]
  have hnewlook : ∀ d, getNextNode (nodeAt nodes1 nodes.length) d = none := by
    intro d; rw [hnew, hn]; exact newNode_getNextNode _ _ _ d
  have hmono : ∀ i d k, i < nodes.length → getNextNode (nodeAt nodes i) d = some k →
      getNextNode (nodeAt nodes1 i) d = some k := by
    intro i d k hi hg
    exact ((hold i hi).2.2.2.2.2.2.2.2 d k).mpr (Or.inl hg)
  have hplen : (toLower (pre ++ [c])).length = pre.length + 1 := by
    rw [toLower_length, List.length_append]; rfl
  have hlc : toLower (pre ++ [c]) = toLower pre ++ [lowerByte c] := by
    simp [toLower]
  refine ⟨?_, hlen1, hp1, hp1n, fun i hi => (hold i hi).2.2.2.1, hmono, ?_, hnewlook⟩
  · refine
      { hlen := by omega
        hstate := ?_
        hrep := ?_
        hroot := by rw [hp1 0 h.hlen]; exact h.hroot
        hlink := ?_
        hdepth := ?_
        hend := ?_
        hlast := ?_
        hcomp := ?_
        hbirth := ?_
        hlast2 := ?_
        hlast3 := ?_
        hreach := ?_ }
    · intro i hi
      rcases Nat.lt_succ_iff_lt_or_eq.mp (hlen1 ▸ hi) with hi1 | hi1
      · rw [(hold i hi1).1]; exact h.hstate i hi1
      · rw [hi1, hnew, hn]
    · intro i hi
      rcases Nat.lt_succ_iff_lt_or_eq.mp (hlen1 ▸ hi) with hi1 | hi1
      · exact (hold i hi1).2.2.2.2.2.2.2.1
      · rw [hi1, hnew, hn]; exact newNode_rep _ _ _
    · intro i d k hi hg
      rcases Nat.lt_succ_iff_lt_or_eq.mp (hlen1 ▸ hi) with hi1 | hi1
      · rcases ((hold i hi1).2.2.2.2.2.2.2.2 d k).mp hg with hg1 | ⟨a1, a2, a3, a4⟩
        · obtain ⟨b1, b2⟩ := h.hlink i d k hi1 hg1
          exact ⟨by omega, by rw [hp1 k b1, hp1 i hi1]; exact b2⟩
        · subst a4
          refine ⟨by omega, ?_⟩
          rw [hp1n, hp1 i hi1, a1, hpc, hlc, a3, lowerByte_of_keyByte c a2]
      · rw [hi1, hnewlook] at hg; cases hg
    · intro i hi
      rcases Nat.lt_succ_iff_lt_or_eq.mp (hlen1 ▸ hi) with hi1 | hi1
      · rw [(hold i hi1).2.1, hp1 i hi1]; exact h.hdepth i hi1
      · rw [hi1, hnew, hp1n, hplen, hn]
    · intro i hi he
      rcases Nat.lt_succ_iff_lt_or_eq.mp (hlen1 ▸ hi) with hi1 | hi1
      · obtain ⟨a1, a2, a3, a4, a5, a6, a7, _⟩ := hold i hi1
        rw [a4] at he
        obtain ⟨pk, b1, b2, b3, b4, b5⟩ := h.hend i hi1 he
        exact ⟨pk, b1, by rw [hp1 i hi1]; exact b2, by rw [a5]; exact b3, by rw [a6]; exact b4,
          by rw [a3]; exact b5⟩
      · rw [hi1, hnew, hn] at he; cases he
    · intro i l hi hle
      rcases Nat.lt_succ_iff_lt_or_eq.mp (hlen1 ▸ hi) with hi1 | hi1
      · rw [(hold i hi1).2.2.2.2.2.2.1] at hle
        obtain ⟨b1, b2, ⟨t, b3⟩, b4⟩ := h.hlast i l hi1 hle
        refine ⟨by omega, by rw [(hold l b1).2.2.2.1]; exact b2, ⟨t, ?_⟩,
          by rw [hp1 l b1]; exact b4⟩
        rw [hp1 i hi1, hp1 l b1]; exact b3
      · rw [hi1, hnew, hn] at hle
        obtain ⟨b1, b2, ⟨t, b3⟩, b4⟩ := hl l hle
        refine ⟨by omega, by rw [(hold l b1).2.2.2.1]; exact b2, ⟨t ++ [lowerByte c], ?_⟩,
          by rw [hp1 l b1]; exact b4⟩
        rw [hi1, hp1n, hp1 l b1, hlc, b3, List.append_assoc]
    · intro pk hpk hkb
      obtain ⟨k, b1, b2, b3⟩ := h.hcomp pk hpk hkb
      refine ⟨k, by omega, ?_, by rw [(hold k b1).2.2.2.1]; exact b3⟩
      exact walk_mono nodes nodes1 (fun i d k hi hg => (h.hlink i d k hi hg).1) hmono _ 0 k
        h.hlen b2
    · intro i hi hi0
      rcases Nat.lt_succ_iff_lt_or_eq.mp (hlen1 ▸ hi) with hi1 | hi1
      · obtain ⟨pk, b1, t, b2⟩ := h.hbirth i hi1 hi0
        exact ⟨pk, by rw [hb1 i hi1]; exact b1, t, by rw [hp1 i hi1]; exact b2⟩
      · refine ⟨pkK, by rw [hi1, hb1n]; exact hb, toLower rest, ?_⟩
        rw [hi1, hp1n, hKk, hK, ← toLower_append]
        simp
    · intro i a P hi hi0 ha hP hne hkb hpre hlt
      rcases Nat.lt_succ_iff_lt_or_eq.mp (hlen1 ▸ hi) with hi1 | hi1
      · rw [hb1 i hi1] at ha
        rw [hp1 i hi1] at hpre hlt
        obtain ⟨l, b1, b2⟩ := h.hlast2 i a P hi1 hi0 ha hP hne hkb hpre hlt
        have hll := (h.hlast i l hi1 b1).1
        exact ⟨l, by rw [(hold i hi1).2.2.2.2.2.2.1]; exact b1, by rw [hp1 l hll]; exact b2⟩
      · rw [hi1, hb1n] at ha
        rw [hi1, hp1n] at hpre
        obtain ⟨t, ht⟩ := hpre
        have : ∃ t, toLower K = P.key ++ t := by
          refine ⟨t ++ toLower rest, ?_⟩
          rw [hK, ← List.append_assoc, ← ht, ← toLower_append]
          simp
        obtain ⟨l, b1, b2⟩ := hl2 a P ha hP hne hkb this
        have hll := (hl l b1).1
        exact ⟨l, by rw [hi1, hnew, hn]; exact b1, by rw [hp1 l hll]; exact b2⟩
    · intro i l hi hle
      rcases Nat.lt_succ_iff_lt_or_eq.mp (hlen1 ▸ hi) with hi1 | hi1
      · rw [(hold i hi1).2.2.2.2.2.2.1] at hle
        have hll := (h.hlast i l hi1 hle).1
        rw [hp1 i hi1, hp1 l hll]
        exact h.hlast3 i l hi1 hle
      · rw [hi1, hnew, hn] at hle
        obtain ⟨b1, _, ⟨t, b3⟩, _⟩ := hl l hle
        rw [hi1, hp1n, hp1 l b1, hplen]
        have := congrArg List.length b3
        rw [toLower_length, List.length_append] at this
        omega
    · intro hall i hi
      rcases Nat.lt_succ_iff_lt_or_eq.mp (hlen1 ▸ hi) with hi1 | hi1
      · rw [hp1 i hi1]
        exact walk_mono nodes nodes1 (fun i d k hi hg => (h.hlink i d k hi hg).1) hmono _ 0 i
          h.hlen (h.hreach hall i hi1)
      · have hmem : pkK ∈ insAll := by
          rw [List.get?_eq_getElem?] at hb
          exact List.getElem?_mem hb
        have hkc : IsKeyByte c := hall pkK hmem c (by rw [hKk, hK]; simp)
        have hw0 := h.hreach hall cur hcur
        rw [hpc] at hw0
        have hw1 := walk_mono nodes nodes1 (fun i d k hi hg => (h.hlink i d k hi hg).1) hmono _ 0
          cur h.hlen hw0
        have hg := ((hold cur hcur).2.2.2.2.2.2.2.2 c nodes.length).mpr
          (Or.inr ⟨rfl, hkc, lowerByte_of_keyByte c hkc, rfl⟩)
        rw [hi1, hp1n, hlc, walk_append, hw1, lowerByte_of_keyByte c hkc]
        show walk nodes1 cur [c] = some nodes.length
        simp only [walk, hg]
  · intro hk
    exact ((hold cur hcur).2.2.2.2.2.2.2.2 c nodes.length).mpr
      (Or.inr ⟨rfl, hk, lowerByte_of_keyByte c hk, rfl⟩)

theorem walk_snoc (nodes : List TrieNode) (i cur k c : Nat) (pre : List Nat)
    (h1 : walk nodes i pre = some cur) (h2 : getNextNode (nodeAt nodes cur) c = some k) :
    walk nodes i (pre ++ [c]) = some k := by
  rw [walk_append, h1]
  show walk nodes cur [c] = some k
  simp only [walk, h2]

theorem appendNodes_spec (krMap : List (List Nat × List Nat)) (insAll insDone : List ParsedKey)
    (K : List Nat) (b : Nat) (pkK : ParsedKey) (hb : insAll.get? b = some pkK)
    (hKk : pkK.key = K) (lastEnd : Option Nat) :
    ∀ (rest pre : List Nat) (nodes : List TrieNode) (cur : Nat) (path : Nat → List Nat)
      (birth : Nat → Nat),
      TrieInv krMap nodes insAll insDone path birth →
      K = pre ++ rest → cur < nodes.length → path cur = toLower pre →
      (∀ c r, rest = c :: r → getNextNode (nodeAt nodes cur) c = none) →
      ((∀ c ∈ pre, IsKeyByte c) → walk nodes 0 pre = some cur) →
      (∀ l, lastEnd = some l →
        l < nodes.length ∧ (nodeAt nodes l).End = true ∧ (∃ t, toLower pre = path l ++ t) ∧
          0 < (path l).length) →
      (∀ a P, a < b → insAll.get? a = some P → P.key ≠ [] → (∀ c ∈ P.key, IsKeyByte c) →
        (∃ t, toLower K = P.key ++ t) →
        ∃ l, lastEnd = some l ∧ P.key.length ≤ (path l).length) →
      ∀ nodes1 cur1 si1,
        appendNodes lastEnd rest pre.length nodes cur nodes.length = some (nodes1, cur1, si1) →
        ∃ path1 birth1, TrieInv krMap nodes1 insAll insDone path1 birth1 ∧
          cur1 < nodes1.length ∧ si1 = nodes1.length ∧ path1 cur1 = toLower K ∧
          ((∀ c ∈ K, IsKeyByte c) → walk nodes1 0 K = some cur1) := by
  intro rest
  induction rest with
  | nil =>
    intro pre nodes cur path birth h hK hcur hpc _ hw _ _ nodes1 cur1 si1 hs
    simp only [appendNodes, Option.some.injEq, Prod.mk.injEq] at hs
    obtain ⟨rfl, rfl, rfl⟩ := hs
    rw [List.append_nil] at hK
    subst hK
    exact ⟨path, birth, h, hcur, rfl, hpc, hw⟩
  | cons c rest ih =>
    intro pre nodes cur path birth h hK hcur hpc hnone hw hl hl2 nodes1 cur1 si1 hs
    rw [appendNodes] at hs
    have hno := hnone c rest rfl
    cases hq : setNextNode (nodeAt nodes cur) c nodes.length with
    | none => rw [hq] at hs; cases hs
    | some q =>
      rw [hq] at hs
      simp only at hs
      obtain ⟨hinv, hlen1, hp1, hp1n, hend1, hmono, hnl, hnewlook⟩ :=
        appendStep_inv h K pre rest c b pkK lastEnd cur q _ _ _ _ hb hKk hK hcur hpc hno hq hl
          hl2 rfl rfl rfl rfl
      have e1 : (pre ++ [c]).length = pre.length + 1 := by
        rw [List.length_append]; rfl
      have := ih (pre ++ [c]) _ nodes.length _ _ hinv (by rw [hK]; simp) (by omega) hp1n
        (fun d r _ => hnewlook d) ?_ ?_ ?_ nodes1 cur1 si1 (by rw [e1, hlen1]; exact hs)
      · exact this
      · intro hkb
        have hkpre : ∀ x ∈ pre, IsKeyByte x := fun x hx => hkb x (List.mem_append_left _ hx)
        have hkc : IsKeyByte c := hkb c (List.mem_append_right _ (List.mem_singleton.mpr rfl))
        have hw1 := walk_mono nodes _ (fun i d k hi hg => (h.hlink i d k hi hg).1) hmono pre 0 cur
          h.hlen (hw hkpre)
        exact walk_snoc _ _ _ _ _ _ hw1 (hnl hkc)
      · intro l hle
        obtain ⟨a1, a2, ⟨t, a3⟩, a4⟩ := hl l hle
        refine ⟨by omega, by rw [hend1 l a1]; exact a2, ⟨t ++ [lowerByte c], ?_⟩,
          by rw [hp1 l a1]; exact a4⟩
        rw [hp1 l a1, toLower_append, a3, List.append_assoc]
        rfl
      · intro a P ha hP hne hkb hpre
        obtain ⟨l, a1, a2⟩ := hl2 a P ha hP hne hkb hpre
        exact ⟨l, a1, by rw [hp1 l (hl l a1).1]; exact a2⟩

theorem TrieInv.extend {krMap nodes ins path birth} (pk : ParsedKey)
    (h : TrieInv krMap nodes ins ins path birth) :
    TrieInv krMap nodes (ins ++ [pk]) ins path birth := by
  refine
    { hlen := h.hlen, hstate := h.hstate, hrep := h.hrep, hroot := h.hroot, hlink := h.hlink,
      hdepth := h.hdepth, hend := ?_, hlast := h.hlast, hcomp := h.hcomp, hbirth := ?_,
      hlast2 := ?_, hlast3 := h.hlast3, hreach := ?_ }
  · intro i hi he
    obtain ⟨q, a1, a2⟩ := h.hend i hi he
    exact ⟨q, List.mem_append_left _ a1, a2⟩
  · intro i hi hi0
    obtain ⟨q, a1, a2⟩ := h.hbirth i hi hi0
    refine ⟨q, ?_, a2⟩
    rw [List.get?_eq_getElem?] at a1 ⊢
    have hlt : birth i < ins.length := by
      by_contra hc
      rw [List.getElem?_eq_none (by omega)] at a1; cases a1
    rw [List.getElem?_append_left hlt]; exact a1
  · intro i a P hi hi0 ha hP
    obtain ⟨q, a1, _⟩ := h.hbirth i hi hi0
    rw [List.get?_eq_getElem?] at a1 hP
    have hlt : birth i < ins.length := by
      by_contra hc
      rw [List.getElem?_eq_none (by omega)] at a1; cases a1
    rw [List.getElem?_append_left (by omega)] at hP
    exact h.hlast2 i a P hi hi0 ha (by rw [List.get?_eq_getElem?]; exact hP)
  · intro hall i hi
    exact h.hreach (fun q hq => hall q (List.mem_append_left _ hq)) i hi

/-! ## Marking the terminal node, and the whole construction -/

theorem walk_congr (nodes nodes1 : List TrieNode)
    (hsame : ∀ i d, getNextNode (nodeAt nodes1 i) d = getNextNode (nodeAt nodes i) d) :
    ∀ (w : List Nat) (i : Nat), walk nodes1 i w = walk nodes i w := by
  intro w
  induction w with
  | nil => intro i; rfl
  | cons c w ih =>
    intro i
    simp only [walk, hsame]
    cases getNextNode (nodeAt nodes i) c with
    | none => rfl
    | some k => exact ih k

theorem setFlags_inv {krMap nodes insAll insDone path birth}
    (h : TrieInv krMap nodes insAll insDone path birth) (cur : Nat) (pk : ParsedKey)
    (hcur : cur < nodes.length) (hpk : pk ∈ insAll) (hpath : toLower pk.key = path cur)
    (hw : (∀ c ∈ pk.key, IsKeyByte c) → walk nodes 0 pk.key = some cur)
    (v : TrieNode) (nodes1 : List TrieNode)
    (hv : v = { nodeAt nodes cur with
      End := true, Rule := mapGet krMap pk.Key, AnyStart := pk.anyStart, AnyEnd := pk.anyEnd })
    (hnodes1 : nodes1 = nodes.set cur v) :
    TrieInv krMap nodes1 insAll (insDone ++ [pk]) path birth := by
  have hlen1 : nodes1.length = nodes.length := by rw [hnodes1, List.length_set]
  have hN : ∀ i, i ≠ cur → nodeAt nodes1 i = nodeAt nodes i := by
    intro i hi; rw [hnodes1]; exact nodeAt_set_ne _ _ _ _ hi
  have hNc : nodeAt nodes1 cur = v := by rw [hnodes1]; exact nodeAt_set_self _ _ _ hcur
  have hlook : ∀ i d, getNextNode (nodeAt nodes1 i) d = getNextNode (nodeAt nodes i) d := by
    intro i d
    by_cases hi : i = cur
    · rw [hi, hNc, hv]; exact getNextNode_congr _ _ rfl rfl d
    · rw [hN i hi]
  have hEnd : ∀ i, (nodeAt nodes i).End = true → (nodeAt nodes1 i).End = true := by
    intro i he
    by_cases hi : i = cur
    · rw [hi, hNc, hv]
    · rw [hN i hi]; exact he
  have hLast : ∀ i, (nodeAt nodes1 i).LastEnd = (nodeAt nodes i).LastEnd := by
    intro i
    by_cases hi : i = cur
    · rw [hi, hNc, hv]
    · rw [hN i hi]
  refine
    { hlen := by rw [hlen1]; exact h.hlen
      hstate := ?_
      hrep := ?_
      hroot := h.hroot
      hlink := ?_
      hdepth := ?_
      hend := ?_
      hlast := ?_
      hcomp := ?_
      hbirth := ?_
      hlast2 := ?_
      hlast3 := ?_
      hreach := ?_ }
  · intro i hi
    rw [hlen1] at hi
    by_cases hic : i = cur
    · rw [hic, hNc, hv]; exact h.hstate cur hcur
    · rw [hN i hic]; exact h.hstate i hi
  · intro i hi
    rw [hlen1] at hi
    by_cases hic : i = cur
    · rw [hic, hNc, hv]; exact nodeRep_congr _ _ rfl rfl (h.hrep cur hcur)
    · rw [hN i hic]; exact h.hrep i hi
  · intro i d k hi hg
    rw [hlen1] at hi ⊢
    rw [hlook] at hg
    exact h.hlink i d k hi hg
  · intro i hi
    rw [hlen1] at hi
    by_cases hic : i = cur
    · rw [hic, hNc, hv]; exact h.hdepth cur hcur
    · rw [hN i hic]; exact h.hdepth i hi
  · intro i hi he
    rw [hlen1] at hi
    by_cases hic : i = cur
    · rw [hic, hNc, hv]
      exact ⟨pk, hpk, hpath, rfl, rfl, rfl⟩
    · rw [hN i hic] at he ⊢; exact h.hend i hi he
  · intro i l hi hle
    rw [hlen1] at hi ⊢
    rw [hLast] at hle
    obtain ⟨a1, a2, a3⟩ := h.hlast i l hi hle
    exact ⟨a1, hEnd l a2, a3⟩
  · intro q hq hkb
    rw [hlen1]
    rcases List.mem_append.mp hq with hq1 | hq1
    · obtain ⟨k, a1, a2, a3⟩ := h.hcomp q hq1 hkb
      exact ⟨k, a1, by rw [walk_congr nodes nodes1 hlook]; exact a2, hEnd k a3⟩
    · rw [List.mem_singleton] at hq1
      subst hq1
      exact ⟨cur, hcur, by rw [walk_congr nodes nodes1 hlook]; exact hw hkb,
        by rw [hNc, hv]⟩
  · intro i hi hi0
    rw [hlen1] at hi
    exact h.hbirth i hi hi0
  · intro i a P hi hi0 ha hP hne hkb hpre hlt
    rw [hlen1] at hi
    rw [hLast]
    exact h.hlast2 i a P hi hi0 ha hP hne hkb hpre hlt
  · intro i l hi hle
    rw [hlen1] at hi
    rw [hLast] at hle
    exact h.hlast3 i l hi hle
  · intro hall i hi
    rw [hlen1] at hi
    rw [walk_congr nodes nodes1 hlook]
    exact h.hreach hall i hi

theorem toLower_take (w : List Nat) (m : Nat) : toLower (w.take m) = (toLower w).take m := by
  simp [toLower, List.map_take]

theorem insertKey_inv {krMap nodes ins path birth}
    (h : TrieInv krMap nodes ins ins path birth) (pk : ParsedKey) (nodes2 : List TrieNode)
    (si2 : Nat) (hres : insertKey krMap nodes nodes.length pk = some (nodes2, si2)) :
    ∃ path2 birth2, TrieInv krMap nodes2 (ins ++ [pk]) (ins ++ [pk]) path2 birth2 ∧
      si2 = nodes2.length := by
  have h1 := h.extend pk
  unfold insertKey at hres
  cases hsk : skipExisting nodes pk.key 0 0 none with
  | mk rest1 r1 =>
    obtain ⟨j1, cur1, le1⟩ := r1
    rw [hsk] at hres
    simp only at hres
    obtain ⟨pre1, hK, hj, hcur, hw, hpc, hnone, hl, hm⟩ :=
      skipExisting_start h1 pk.key rest1 j1 cur1 le1 hsk
    cases hap : appendNodes le1 rest1 j1 nodes cur1 nodes.length with
    | none => rw [hap] at hres; cases hres
    | some r2 =>
      obtain ⟨nodes1, cur2, si1⟩ := r2
      rw [hap] at hres
      simp only [Option.some.injEq, Prod.mk.injEq] at hres
      obtain ⟨hn2, hs2⟩ := hres
      have hget : (ins ++ [pk]).get? ins.length = some pk := by
        rw [List.get?_eq_getElem?, List.getElem?_append_right (le_refl _)]; simp
      have hl2 : ∀ a P, a < ins.length → (ins ++ [pk]).get? a = some P → P.key ≠ [] →
          (∀ c ∈ P.key, IsKeyByte c) → (∃ t, toLower pk.key = P.key ++ t) →
          ∃ l, le1 = some l ∧ P.key.length ≤ (path l).length := by
        intro a P ha hP hne hkb hpre
        rw [List.get?_eq_getElem?, List.getElem?_append_left ha] at hP
        have hPin : P ∈ ins := List.getElem?_mem hP
        obtain ⟨k, a1, a2, a3⟩ := h.hcomp P hPin hkb
        obtain ⟨t, ht⟩ := hpre
        have hlenK : P.key.length ≤ pk.key.length := by
          have := congrArg List.length ht
          rw [toLower_length, List.length_append] at this
          omega
        have hPt : toLower (pk.key.take P.key.length) = P.key := by
          rw [toLower_take, ht, List.take_left]
        have hwalk : walk nodes 0 (pk.key.take P.key.length) = some k := by
          rw [← walk_toLower nodes h.rep_all, hPt]; exact a2
        have hmj : P.key.length ≤ j1 := by
          by_contra hc
          have hc1 : j1 < P.key.length := by omega
          rcases rest1 with _ | ⟨c, r⟩
          · rw [List.append_nil] at hK
            rw [hK, hj] at hlenK
            omega
          · have hno := hnone c r rfl
            obtain ⟨d, hd⟩ : ∃ d, P.key.length - j1 = d + 1 :=
              ⟨P.key.length - j1 - 1, by omega⟩
            have : pk.key.take P.key.length = pre1 ++ c :: r.take d := by
              rw [hK, List.take_append_eq_append_take, List.take_of_length_le (by omega), hj, hd,
                List.take_succ_cons]
            rw [this, walk_append, hw] at hwalk
            have hw0 : walk nodes cur1 (c :: r.take d) = none := by
              simp only [walk, hno]
            rw [Option.some_bind, hw0] at hwalk
            cases hwalk
        have hpos : 1 ≤ P.key.length := by
          cases hk : P.key with
          | nil => exact absurd hk hne
          | cons x xs => simp
        have htk : pre1.take P.key.length = pk.key.take P.key.length := by
          rw [hK, List.take_append_of_le_length (by omega)]
        exact hm P.key.length k hpos hmj (by rw [htk]; exact hwalk) a3
      have hj2 : pre1.length = j1 := hj
      rw [← hj2] at hap
      obtain ⟨path1, birth1, hinv, hc2, hsi, hp2, hw2⟩ :=
        appendNodes_spec krMap (ins ++ [pk]) ins pk.key ins.length pk hget rfl le1 rest1 pre1
          nodes cur1 path birth h1 hK hcur hpc hnone (fun _ => hw)
          (fun l hle => by rw [← hpc]; exact hl l hle) hl2 nodes1 cur2 si1 hap
      refine ⟨path1, birth1, ?_, ?_⟩
      · rw [← hn2]
        exact setFlags_inv hinv cur2 pk hc2 (List.mem_append_right _ (List.mem_singleton.mpr rfl))
          hp2.symm hw2 _ _ rfl rfl
      · rw [← hn2, ← hs2, List.length_set]; exact hsi

theorem insertKeys_inv (krMap : List (List Nat × List Nat)) :
    ∀ (ps ins : List ParsedKey) (nodes : List TrieNode) (path : Nat → List Nat)
      (birth : Nat → Nat),
      TrieInv krMap nodes ins ins path birth →
      ∀ nodes2 si2, insertKeys krMap ps nodes nodes.length = some (nodes2, si2) →
        ∃ path2 birth2, TrieInv krMap nodes2 (ins ++ ps) (ins ++ ps) path2 birth2 := by
  intro ps
  induction ps with
  | nil =>
    intro ins nodes path birth h nodes2 si2 hres
    simp only [insertKeys, Option.some.injEq, Prod.mk.injEq] at hres
    rw [← hres.1, List.append_nil]
    exact ⟨path, birth, h⟩
  | cons pk ps ih =>
    intro ins nodes path birth h nodes2 si2 hres
    rw [insertKeys] at hres
    cases hk : insertKey krMap nodes nodes.length pk with
    | none => rw [hk] at hres; cases hres
    | some r =>
      obtain ⟨nodes1, si1⟩ := r
      rw [hk] at hres
      simp only at hres
      obtain ⟨path1, birth1, hinv, hsi⟩ := insertKey_inv h pk nodes1 si1 hk
      rw [hsi] at hres
      have := ih (ins ++ [pk]) nodes1 path1 birth1 hinv nodes2 si2 hres
      rw [List.append_assoc] at this
      exact this

theorem trieInv_init (krMap : List (List Nat × List Nat)) :
    TrieInv krMap [TrieNode.zero] [] [] (fun _ => []) (fun _ => 0) := by
  have h0 : ∀ i, i < [TrieNode.zero].length → nodeAt [TrieNode.zero] i = TrieNode.zero := by
    intro i hi
    simp only [List.length_singleton, Nat.lt_one_iff] at hi
    subst hi; rfl
  refine
    { hlen := by simp
      hstate := ?_
      hrep := fun i hi => by rw [h0 i hi]; exact nodeRep_zero
      hroot := rfl
      hlink := fun i c k hi hg => by rw [h0 i hi, getNextNode_zero] at hg; cases hg
      hdepth := fun i hi => by rw [h0 i hi]; rfl
      hend := fun i hi he => by rw [h0 i hi] at he; cases he
      hlast := fun i l hi hle => by rw [h0 i hi] at hle; cases hle
      hcomp := fun pk hpk => by cases hpk
      hbirth := ?_
      hlast2 := ?_
      hlast3 := fun i l hi hle => by rw [h0 i hi] at hle; cases hle
      hreach := ?_ }
  · intro i hi
    rw [h0 i hi]
    simp only [List.length_singleton, Nat.lt_one_iff] at hi
    subst hi; rfl
  · intro i hi hi0
    simp only [List.length_singleton, Nat.lt_one_iff] at hi
    exact absurd hi hi0
  · intro i a P hi hi0
    simp only [List.length_singleton, Nat.lt_one_iff] at hi
    exact absurd hi hi0
  · intro _ i hi
    simp only [List.length_singleton, Nat.lt_one_iff] at hi
    subst hi; rfl

/-- The invariant holds of every trie `ConstructTrie` returns. -/
theorem ConstructTrie_inv (rules : List (List Nat × Rule)) (t : Trie)
    (ht : ConstructTrie rules = some t) :
    ∃ p path birth, parsedKeys rules = some p ∧ t.Root = 0 ∧
      TrieInv (buildKrMap rules) t.Nodes p p path birth := by
  unfold ConstructTrie at ht
  cases hp : parsedKeys rules with
  | none => rw [hp] at ht; cases ht
  | some p =>
    rw [hp] at ht
    simp only at ht
    cases hi : insertKeys (buildKrMap rules) p [TrieNode.zero] 1 with
    | none => rw [hi] at ht; cases ht
    | some r =>
      obtain ⟨nodes, si⟩ := r
      rw [hi] at ht
      simp only [Option.some.injEq] at ht
      obtain ⟨path, birth, hinv⟩ :=
        insertKeys_inv (buildKrMap rules) p [] [TrieNode.zero] _ _ (trieInv_init _) nodes si hi
      rw [List.nil_append] at hinv
      rw [← ht]
      exact ⟨p, path, birth, rfl, rfl, hinv⟩

/-! ## The default key filter -/

theorem splitterTable_iff (c : Nat) : splitterTable c = true ↔ IsSplitter c := by
  unfold splitterTable IsSplitter
  by_cases h1 : 97 ≤ c ∧ c ≤ 122
  · rw [if_pos h1]; simp only [Bool.false_eq_true, false_iff, not_not]; omega
  · rw [if_neg h1]
    by_cases h2 : 65 ≤ c ∧ c ≤ 90
    · rw [if_pos h2]; simp only [Bool.false_eq_true, false_iff, not_not]; omega
    · rw [if_neg h2]
      by_cases h3 : 48 ≤ c ∧ c ≤ 57
      · rw [if_pos h3]; simp only [Bool.false_eq_true, false_iff, not_not]; omega
      · rw [if_neg h3]
        by_cases h4 : c = 45
        · rw [if_pos h4]; simp only [Bool.false_eq_true, false_iff, not_not]; omega
        · rw [if_neg h4]
          by_cases h5 : c = 95
          · rw [if_pos h5]; simp only [Bool.false_eq_true, false_iff, not_not]; omega
          · rw [if_neg h5]; simp only [true_iff]; omega

theorem byteAt_nat (b : List Nat) (n : Nat) (h : n < b.length) :
    byteAt b (n : Int) = some (b.getD n 0) := by
  unfold byteAt
  rw [if_pos (by omega), Int.toNat_ofNat, List.get?_eq_getElem?, List.getElem?_eq_getElem h,
    List.getD_eq_getElem _ _ h]

theorem startSplitter_spec (b : List Nat) (start : Nat) (anyStart : Bool)
    (h1 : start ≤ b.length) :
    startSplitter b (start : Int) anyStart = some (decide (StartSide b start anyStart)) := by
  unfold startSplitter StartSide
  by_cases h0 : start = 0
  · subst h0; simp
  · rw [if_neg (by omega)]
    have e1 : (start : Int) - 1 = ((start - 1 : Nat) : Int) := by omega
    rw [e1, byteAt_nat b (start - 1) (by omega)]
    simp only []
    by_cases hs : splitterTable (b.getD (start - 1) 0) = true
    · rw [if_pos hs, decide_eq_true (Or.inr (Or.inl ((splitterTable_iff _).mp hs)))]
    · rw [if_neg hs]
      have hns : ¬ IsSplitter (b.getD (start - 1) 0) := fun hx => hs ((splitterTable_iff _).mpr hx)
      by_cases ha : anyStart = true
      · rw [if_pos ha, decide_eq_true (Or.inr (Or.inr (Or.inl ha)))]
      · rw [if_neg ha]
        by_cases h3 : 3 ≤ start
        · have e3 : (start : Int) - 3 = ((start - 3 : Nat) : Int) := by omega
          have e2 : (start : Int) - 2 = ((start - 2 : Nat) : Int) := by omega
          rw [if_pos (by omega), e3, e2, byteAt_nat b (start - 3) (by omega),
            byteAt_nat b (start - 2) (by omega)]
          simp only [h0, hns, ha, h3, false_or, true_and, Bool.false_eq_true]
        · rw [if_neg (by omega)]
          simp only [h0, hns, ha, h3, false_or, false_and, decide_False, Bool.false_eq_true, or_self]

theorem endSplitter_spec (b : List Nat) (e : Nat) (anyEnd : Bool) (h2 : e + 1 < b.length) :
    endSplitter b (e : Int) anyEnd = some (decide (EndSide b e anyEnd)) := by
  unfold endSplitter EndSide
  have e1 : (e : Int) + 1 = ((e + 1 : Nat) : Int) := by omega
  rw [e1, byteAt_nat b (e + 1) h2]
  simp only []
  by_cases hs : splitterTable (b.getD (e + 1) 0) = true
  · rw [if_pos hs, decide_eq_true (Or.inl ((splitterTable_iff _).mp hs))]
  · rw [if_neg hs]
    have hns : ¬ IsSplitter (b.getD (e + 1) 0) := fun hx => hs ((splitterTable_iff _).mpr hx)
    by_cases ha : anyEnd = true
    · rw [if_pos ha, decide_eq_true (Or.inr ha)]
    · rw [if_neg ha]
      simp only [hns, ha, false_or, decide_False, Bool.false_eq_true]

theorem defaultKeyFilter_eq (b : List Nat) (start e : Nat) (anyStart anyEnd : Bool)
    (h1 : start ≤ b.length) (h2 : e + 1 < b.length) :
    DefaultKeyFilter b (start : Int) (e : Int) anyStart anyEnd =
      some (decide (StartSide b start anyStart ∧ EndSide b e anyEnd)) := by
  unfold DefaultKeyFilter
  rw [startSplitter_spec b start anyStart h1]
  by_cases hs : StartSide b start anyStart
  · simp only [hs, decide_True, true_and]
    exact endSplitter_spec b e anyEnd h2
  · simp [hs]

/-! ## The scanner -/

theorem filterPosition_default (b : List Nat) (start e : Nat) (r : Option (List Nat))
    (anyStart anyEnd : Bool) (h1 : start ≤ b.length) (h2 : e + 1 < b.length) :
    filterPosition b (some DefaultKeyFilter) ⟨(start : Int), (e : Int), r⟩ anyStart anyEnd =
      if StartSide b start anyStart ∧ EndSide b e anyEnd then
        some (some ⟨(start : Int), (e : Int), r⟩)
      else some none := by
  unfold filterPosition
  simp only []
  rw [defaultKeyFilter_eq b start e anyStart anyEnd h1 h2]
  by_cases hc : StartSide b start anyStart ∧ EndSide b e anyEnd
  · rw [if_pos hc, decide_eq_true hc]
  · rw [if_neg hc, decide_eq_false hc]

theorem TrieInv.depth_walk {krMap nodes insAll insDone path birth}
    (h : TrieInv krMap nodes insAll insDone path birth) (w : List Nat) (k : Nat)
    (hw : walk nodes 0 w = some k) : (nodeAt nodes k).Depth = w.length := by
  obtain ⟨h1, h2⟩ := h.path_walk w k hw
  rw [h.hdepth k h1, h2, toLower_length]

/-- What `testMatch` returns under the default filter when the scanner sits
on the node reached by the bytes `w` that follow the bytes `u`. -/
theorem testMatch_default {krMap nodes insAll insDone path birth}
    (h : TrieInv krMap nodes insAll insDone path birth) (b u w : List Nat) (cur : Nat)
    (hw : walk nodes 0 w = some cur) (hwne : w ≠ []) (hlen : (u ++ w).length < b.length) :
    testMatch b nodes cur (((u ++ w).length : Int) - 1) (some DefaultKeyFilter) =
      if (nodeAt nodes cur).End = true then
        (if StartSide b u.length (nodeAt nodes cur).AnyStart ∧
            EndSide b (u.length + w.length - 1) (nodeAt nodes cur).AnyEnd then
          some (some ⟨(u.length : Int), ((u.length + w.length - 1 : Nat) : Int),
            (nodeAt nodes cur).Rule⟩)
        else some none)
      else
        match (nodeAt nodes cur).LastEnd with
        | none => some none
        | some l =>
          if (nodeAt nodes l).AnyEnd = true then
            (if StartSide b u.length (nodeAt nodes l).AnyStart ∧
                EndSide b (u.length + (nodeAt nodes l).Depth - 1) (nodeAt nodes l).AnyEnd then
              some (some ⟨(u.length : Int), ((u.length + (nodeAt nodes l).Depth - 1 : Nat) : Int),
                (nodeAt nodes l).Rule⟩)
            else some none)
          else some none := by
  have hd := h.depth_walk w cur hw
  have hcur := (h.path_walk w cur hw).1
  have hwl : 1 ≤ w.length := by
    cases w with
    | nil => exact absurd rfl hwne
    | cons x xs => simp
  rw [List.length_append] at hlen
  unfold testMatch
  simp only []
  by_cases he : (nodeAt nodes cur).End = true
  · rw [if_pos he, if_pos he]
    have e1 : (((u ++ w).length : Int) - 1 - ((nodeAt nodes cur).Depth : Int) + 1) =
        (u.length : Int) := by
      rw [hd, List.length_append]; push_cast; omega
    have e2 : (((u ++ w).length : Int) - 1) = ((u.length + w.length - 1 : Nat) : Int) := by
      rw [List.length_append]; push_cast; omega
    rw [e1, e2]
    exact filterPosition_default b _ _ _ _ _ (by omega) (by omega)
  · rw [if_neg he, if_neg he]
    cases hle : (nodeAt nodes cur).LastEnd with
    | none => rfl
    | some l =>
      simp only []
      obtain ⟨a1, a2, ⟨t, a3⟩, a4⟩ := h.hlast cur l hcur hle
      have hdl : (nodeAt nodes l).Depth = (path l).length := h.hdepth l a1
      have hdc : (nodeAt nodes cur).Depth = (path cur).length := h.hdepth cur hcur
      have hle2 : (nodeAt nodes l).Depth ≤ w.length := by
        have := congrArg List.length a3
        rw [List.length_append] at this
        omega
      by_cases hae : (nodeAt nodes l).AnyEnd = true
      · rw [if_pos hae]
        simp only [hae, Bool.not_true, Bool.false_eq_true, if_false]
        have e1 : (((u ++ w).length : Int) - 1 - ((nodeAt nodes cur).Depth : Int) + 1) =
            (u.length : Int) := by
          rw [hd, List.length_append]; push_cast; omega
        have e2 : (((u ++ w).length : Int) - 1 -
            (((nodeAt nodes cur).Depth : Int) - ((nodeAt nodes l).Depth : Int))) =
            ((u.length + (nodeAt nodes l).Depth - 1 : Nat) : Int) := by
          rw [hd, List.length_append]; push_cast; omega
        rw [e1, e2]
        exact filterPosition_default b _ _ _ _ _ (by omega) (by omega)
      · rw [if_neg hae]
        simp only [hae, Bool.not_false, if_true]

theorem matchLoop_cons_eq (nodes : List TrieNode) (f : Option KeyFilter) (clock : Nat → Int)
    (maxTime : Int) (hne : NeverExceeded clock maxTime) (b : List Nat) (c : Nat)
    (rest : List Nat) (pos count checks cur : Nat) (result : List Position) :
    ∃ count1 checks1,
      matchLoop nodes f clock maxTime b (c :: rest) pos count checks cur result =
        match getNextNode (nodeAt nodes cur) c with
        | some n => matchLoop nodes f clock maxTime b rest (pos + 1) count1 checks1 n result
        | none =>
          if (nodeAt nodes cur).Depth = 0 then
            matchLoop nodes f clock maxTime b rest (pos + 1) count1 checks1 cur result
          else
            match testMatch b nodes cur ((pos : Int) - 1) f with
            | none => none
            | some none =>
              matchLoop nodes f clock maxTime b rest (pos + 1) count1 checks1 0 result
            | some (some r) =>
              matchLoop nodes f clock maxTime b rest (pos + 1) count1 checks1 0 (result ++ [r]) := by
  refine ⟨(if count = 128 then 0 else count) + 1, if count = 128 then checks + 1 else checks, ?_⟩
  rw [matchLoop]
  have : ¬ (count = 128 ∧ exceeded clock maxTime (checks + 1) = true) := by
    rw [hne (checks + 1)]; simp
  rw [if_neg this]

theorem walk_nil_root {krMap nodes insAll insDone path birth}
    (h : TrieInv krMap nodes insAll insDone path birth) (w : List Nat) (cur : Nat)
    (hw : walk nodes 0 w = some cur) (hd : (nodeAt nodes cur).Depth = 0) : w = [] ∧ cur = 0 := by
  have := h.depth_walk w cur hw
  rw [hd] at this
  have hwn : w = [] := List.eq_nil_of_length_eq_zero this.symm
  subst hwn
  simp only [walk, Option.some.injEq] at hw
  exact ⟨rfl, hw.symm⟩

/-- One byte of the scan under the default filter and a budget that is never
exceeded: the scan goes on, on the child if there is one, else from the root
after the emission attempt of `testMatch`. -/
theorem scan_step {krMap nodes insAll insDone path birth}
    (h : TrieInv krMap nodes insAll insDone path birth) (clock : Nat → Int) (maxTime : Int)
    (hne : NeverExceeded clock maxTime) (b done rest : List Nat) (c : Nat)
    (hb : b = done ++ c :: rest) (cur : Nat) (u w : List Nat) (hdone : done = u ++ w)
    (hw : walk nodes 0 w = some cur) (count checks : Nat) (result : List Position) :
    ∃ count1 checks1 cur1 t u1 w1,
      matchLoop nodes (some DefaultKeyFilter) clock maxTime b (c :: rest) done.length count checks
          cur result =
        matchLoop nodes (some DefaultKeyFilter) clock maxTime b rest (done ++ [c]).length count1
          checks1 cur1 (result ++ t) ∧
      done ++ [c] = u1 ++ w1 ∧ walk nodes 0 w1 = some cur1 ∧
      (∀ n, getNextNode (nodeAt nodes cur) c = some n →
        cur1 = n ∧ t = [] ∧ u1 = u ∧ w1 = w ++ [c]) ∧
      (getNextNode (nodeAt nodes cur) c = none → cur1 = 0 ∧ w1 = [] ∧ (w = [] → t = []) ∧
        (w ≠ [] → ∃ r, testMatch b nodes cur ((done.length : Int) - 1) (some DefaultKeyFilter) =
          some r ∧ t = r.toList)) := by
  obtain ⟨count1, checks1, heq⟩ := matchLoop_cons_eq nodes (some DefaultKeyFilter) clock maxTime
    hne b c rest done.length count checks cur result
  have hl1 : (done ++ [c]).length = done.length + 1 := by rw [List.length_append]; rfl
  rw [hl1]
  cases hg : getNextNode (nodeAt nodes cur) c with
  | some n =>
    rw [hg] at heq
    refine ⟨count1, checks1, n, [], u, w ++ [c], ?_, ?_, ?_, ?_, ?_⟩
    · rw [List.append_nil]; exact heq
    · rw [hdone, List.append_assoc]
    · exact walk_snoc nodes 0 cur n c w hw hg
    · intro m hm; cases hm; exact ⟨rfl, rfl, rfl, rfl⟩
    · intro hx; cases hx
  | none =>
    rw [hg] at heq
    simp only at heq
    by_cases hd : (nodeAt nodes cur).Depth = 0
    · rw [if_pos hd] at heq
      obtain ⟨hwn, hc0⟩ := walk_nil_root h w cur hw hd
      refine ⟨count1, checks1, 0, [], done ++ [c], [], ?_, ?_, rfl, ?_, ?_⟩
      · rw [List.append_nil, heq, hc0]
      · rw [List.append_nil]
      · intro m hm; cases hm
      · intro _
        exact ⟨rfl, rfl, fun _ => rfl, fun hx => absurd hwn hx⟩
    · rw [if_neg hd] at heq
      have hwne : w ≠ [] := by
        intro hx
        subst hx
        simp only [walk, Option.some.injEq] at hw
        rw [← hw] at hd
        exact hd (by rw [h.hdepth 0 h.hlen, h.hroot]; rfl)
      have hlen : (u ++ w).length < b.length := by
        rw [hb, ← hdone, List.length_append]; simp
      have htm := testMatch_default h b u w cur hw hwne hlen
      rw [← hdone] at htm
      have hsome : ∃ r, testMatch b nodes cur ((done.length : Int) - 1) (some DefaultKeyFilter) =
          some r := by
        rw [htm]
        by_cases he : (nodeAt nodes cur).End = true
        · rw [if_pos he]
          split_ifs
          · exact ⟨_, rfl⟩
          · exact ⟨_, rfl⟩
        · rw [if_neg he]
          cases (nodeAt nodes cur).LastEnd with
          | none => exact ⟨_, rfl⟩
          | some l =>
            simp only []
            split_ifs
            · exact ⟨_, rfl⟩
            · exact ⟨_, rfl⟩
            · exact ⟨_, rfl⟩
      obtain ⟨r, hr⟩ := hsome
      rw [hr] at heq
      cases r with
      | none =>
        simp only at heq
        refine ⟨count1, checks1, 0, [], done ++ [c], [], ?_, ?_, rfl, ?_, ?_⟩
        · rw [List.append_nil]; exact heq
        · rw [List.append_nil]
        · intro m hm; cases hm
        · intro _
          exact ⟨rfl, rfl, fun _ => rfl, fun _ => ⟨none, hr, rfl⟩⟩
      | some p =>
        simp only at heq
        refine ⟨count1, checks1, 0, [p], done ++ [c], [], heq, ?_, rfl, ?_, ?_⟩
        · rw [List.append_nil]
        · intro m hm; cases hm
        · intro _
          exact ⟨rfl, rfl, fun hx => absurd hx hwne, fun _ => ⟨some p, hr, rfl⟩⟩

/-- Several bytes of the scan: as `scan_step`, and along a path of the trie
the scan follows the path. -/
theorem scan_steps {krMap nodes insAll insDone path birth}
    (h : TrieInv krMap nodes insAll insDone path birth) (clock : Nat → Int) (maxTime : Int)
    (hne : NeverExceeded clock maxTime) (b : List Nat) :
    ∀ (A done rest : List Nat) (cur : Nat) (u w : List Nat) (count checks : Nat)
      (result : List Position),
      b = done ++ A ++ rest → done = u ++ w → walk nodes 0 w = some cur →
      ∃ count1 checks1 cur1 t u1 w1,
        matchLoop nodes (some DefaultKeyFilter) clock maxTime b (A ++ rest) done.length count
            checks cur result =
          matchLoop nodes (some DefaultKeyFilter) clock maxTime b rest (done ++ A).length count1
            checks1 cur1 (result ++ t) ∧
        done ++ A = u1 ++ w1 ∧ walk nodes 0 w1 = some cur1 ∧
        (∀ k, walk nodes cur A = some k → cur1 = k ∧ u1 = u ∧ w1 = w ++ A) := by
  intro A
  induction A with
  | nil =>
    intro done rest cur u w count checks result _ hdone hw
    refine ⟨count, checks, cur, [], u, w, ?_, ?_, hw, ?_⟩
    · simp
    · simp [hdone]
    · intro k hk
      simp only [walk, Option.some.injEq] at hk
      exact ⟨hk, rfl, by simp⟩
  | cons c A ih =>
    intro done rest cur u w count checks result hb hdone hw
    obtain ⟨count1, checks1, cur1, t1, u1, w1, e1, d1, hw1, hs1, _⟩ :=
      scan_step h clock maxTime hne b done (A ++ rest) c (by rw [hb]; simp) cur u w hdone hw
        count checks result
    obtain ⟨count2, checks2, cur2, t2, u2, w2, e2, d2, hw2, hs2⟩ :=
      ih (done ++ [c]) rest cur1 u1 w1 count1 checks1 (result ++ t1) (by rw [hb]; simp) d1 hw1
    refine ⟨count2, checks2, cur2, t1 ++ t2, u2, w2, ?_, ?_, hw2, ?_⟩
    · rw [List.cons_append, e1, e2]
      simp
    · rw [← d2]; simp
    · intro k hk
      simp only [walk] at hk
      cases hg : getNextNode (nodeAt nodes cur) c with
      | none => rw [hg] at hk; cases hk
      | some n =>
        rw [hg] at hk
        obtain ⟨a1, _, a3, a4⟩ := hs1 n hg
        obtain ⟨b1, b2, b3⟩ := hs2 k (by rw [a1]; exact hk)
        exact ⟨b1, by rw [b2, a3], by rw [b3, a4]; simp⟩

/-- Under the default filter and a budget that is never exceeded the scan of
the rest of the buffer neither panics nor is intercepted, and keeps what it
has emitted. -/
theorem scan_run {krMap nodes insAll insDone path birth}
    (h : TrieInv krMap nodes insAll insDone path birth) (clock : Nat → Int) (maxTime : Int)
    (hne : NeverExceeded clock maxTime) (b A done : List Nat) (cur : Nat) (u w : List Nat)
    (count checks : Nat) (result : List Position)
    (hb : b = done ++ A) (hdone : done = u ++ w) (hw : walk nodes 0 w = some cur) :
    ∃ t, matchLoop nodes (some DefaultKeyFilter) clock maxTime b A done.length count checks cur
      result = some (result ++ t, false) := by
  obtain ⟨count1, checks1, cur1, t, u1, w1, e1, _, _, _⟩ :=
    scan_steps h clock maxTime hne b A done [] cur u w count checks result (by rw [hb]; simp)
      hdone hw
  rw [List.append_nil] at e1
  exact ⟨t, by rw [e1]; rfl⟩

/-- The scan reaches the index after the bytes `A` at the root when `A` is
empty or ends with a byte that no node has a child for. -/
theorem scan_to_root {krMap nodes insAll insDone path birth}
    (h : TrieInv krMap nodes insAll insDone path birth) (clock : Nat → Int) (maxTime : Int)
    (hne : NeverExceeded clock maxTime) (b A rest : List Nat) (hb : b = A ++ rest)
    (hA : A = [] ∨ ∃ A1 x, A = A1 ++ [x] ∧ ∀ i, getNextNode (nodeAt nodes i) x = none) :
    ∃ count1 checks1 r1,
      matchLoop nodes (some DefaultKeyFilter) clock maxTime b b 0 0 0 0 [] =
        matchLoop nodes (some DefaultKeyFilter) clock maxTime b rest A.length count1 checks1 0
          r1 := by
  rcases hA with hA | ⟨A1, x, hA, hx⟩
  · subst hA
    rw [List.nil_append] at hb
    exact ⟨0, 0, [], by rw [← hb]; rfl⟩
  · obtain ⟨count1, checks1, cur1, t1, u1, w1, e1, d1, hw1, _⟩ :=
      scan_steps h clock maxTime hne b A1 [] (x :: rest) 0 [] [] 0 0 []
        (by rw [hb, hA]; simp) rfl rfl
    obtain ⟨count2, checks2, cur2, t2, u2, w2, e2, d2, hw2, _, hs2⟩ :=
      scan_step h clock maxTime hne b A1 rest x (by rw [hb, hA]; simp) cur1 u1 w1
        (by simpa using d1) hw1 count1 checks1 ([] ++ t1)
    obtain ⟨hc2, _⟩ := hs2 (hx cur1)
    refine ⟨count2, checks2, [] ++ t1 ++ t2, ?_⟩
    have hb2 : b = A1 ++ x :: rest := by rw [hb, hA]; simp
    have e1b : matchLoop nodes (some DefaultKeyFilter) clock maxTime b b 0 0 0 0 [] =
        matchLoop nodes (some DefaultKeyFilter) clock maxTime b (x :: rest) A1.length count1
          checks1 cur1 ([] ++ t1) := by
      have := e1
      simp only [List.nil_append, List.length_nil] at this
      rw [← hb2] at this
      simpa using this
    rw [e1b, e2, hc2, hA]

/-- The emission lemma: a path `w` of the trie that the scan enters at the
root and that is followed by a byte `y` without a child is submitted to
`testMatch`, and what `testMatch` returns is part of the result. -/
theorem scan_emit {krMap nodes insAll insDone path birth}
    (h : TrieInv krMap nodes insAll insDone path birth) (clock : Nat → Int) (maxTime : Int)
    (hne : NeverExceeded clock maxTime) (b A w v : List Nat) (y : Nat)
    (hb : b = A ++ w ++ y :: v)
    (hA : A = [] ∨ ∃ A1 x, A = A1 ++ [x] ∧ ∀ i, getNextNode (nodeAt nodes i) x = none)
    (k : Nat) (hw : walk nodes 0 w = some k) (hwne : w ≠ [])
    (hy : getNextNode (nodeAt nodes k) y = none) (p : Position)
    (hp : testMatch b nodes k (((A ++ w).length : Int) - 1) (some DefaultKeyFilter) =
      some (some p)) :
    ∃ arr, matchLoop nodes (some DefaultKeyFilter) clock maxTime b b 0 0 0 0 [] =
      some (arr, false) ∧ p ∈ arr := by
  obtain ⟨count1, checks1, r1, e1⟩ :=
    scan_to_root h clock maxTime hne b A (w ++ y :: v) (by rw [hb]; simp) hA
  obtain ⟨count2, checks2, cur2, t2, u2, w2, e2, d2, hw2, hs2⟩ :=
    scan_steps h clock maxTime hne b w A (y :: v) 0 A [] count1 checks1 r1
      (by rw [hb]) (by simp) rfl
  obtain ⟨hc2, hu2, hw2e⟩ := hs2 k hw
  rw [List.nil_append] at hw2e
  subst hc2 hu2 hw2e
  obtain ⟨count3, checks3, cur3, t3, u3, w3, e3, d3, hw3, _, hs3⟩ :=
    scan_step h clock maxTime hne b (u2 ++ w2) v y hb cur2 u2 w2 rfl hw count2 checks2
      (r1 ++ t2)
  obtain ⟨_, _, _, ht3⟩ := hs3 hy
  obtain ⟨r, hr, htr⟩ := ht3 hwne
  rw [hp] at hr
  cases hr
  obtain ⟨t4, e4⟩ :=
    scan_run h clock maxTime hne b v (u2 ++ w2 ++ [y]) cur3 u3 w3 count3 checks3
      (r1 ++ t2 ++ t3) (by rw [hb]; simp) d3 hw3
  refine ⟨r1 ++ t2 ++ t3 ++ t4, ?_, ?_⟩
  · rw [e1]
    have e2b : (w2 ++ y :: v) = w2 ++ (y :: v) := rfl
    rw [e2, e3, e4]
  · rw [htr]
    simp

/-! ## From the registry to the parsed keys -/

theorem mapSet_keys {β : Type} (m : List (List Nat × β)) (k : List Nat) (v : β) (k1 : List Nat) :
    k1 ∈ (mapSet m k v).map Prod.fst ↔ (k1 = k ∨ k1 ∈ m.map Prod.fst) := by
  induction m with
  | nil => simp [mapSet]
  | cons a m ih =>
    obtain ⟨ka, va⟩ := a
    simp only [mapSet]
    by_cases h : ka = k
    · rw [if_pos h]
      simp only [List.map_cons, List.mem_cons]
      subst h
      tauto
    · rw [if_neg h]
      simp only [List.map_cons, List.mem_cons, ih]
      tauto

theorem foldl_mapSet_keys {β : Type} (keys : List (List Nat)) (f : List Nat → List Nat) (v : β)
    (m : List (List Nat × β)) (k1 : List Nat) :
    k1 ∈ (keys.foldl (fun m1 key => mapSet m1 (f key) v) m).map Prod.fst ↔
      (k1 ∈ keys.map f ∨ k1 ∈ m.map Prod.fst) := by
  induction keys generalizing m with
  | nil => simp
  | cons a keys ih =>
    simp only [List.foldl_cons, ih, mapSet_keys, List.map_cons, List.mem_cons]
    tauto

theorem buildKrMap_keys_aux (rules : List (List Nat × Rule)) (m : List (List Nat × List Nat))
    (k1 : List Nat) :
    k1 ∈ (rules.foldl
        (fun m nr => nr.2.Keys.foldl (fun m1 key => mapSet m1 key nr.1) m) m).map Prod.fst ↔
      (k1 ∈ registeredKeys rules ∨ k1 ∈ m.map Prod.fst) := by
  induction rules generalizing m with
  | nil => simp [registeredKeys]
  | cons a rules ih =>
    simp only [List.foldl_cons, ih]
    have := foldl_mapSet_keys a.2.Keys id a.1 m k1
    simp only [id, List.map_id] at this
    rw [this]
    simp only [registeredKeys, List.flatMap_cons, List.mem_append]
    tauto

theorem buildKrMap_keys (rules : List (List Nat × Rule)) (k1 : List Nat) :
    k1 ∈ (buildKrMap rules).map Prod.fst ↔ k1 ∈ registeredKeys rules := by
  unfold buildKrMap
  rw [buildKrMap_keys_aux]
  simp

theorem mem_sortedKeys (rules : List (List Nat × Rule)) (k1 : List Nat) :
    k1 ∈ sortKeys (OrderedMapKeys (buildKrMap rules)) ↔ k1 ∈ registeredKeys rules := by
  unfold sortKeys OrderedMapKeys
  rw [(List.perm_insertionSort _ _).mem_iff, (List.perm_insertionSort _ _).mem_iff]
  exact buildKrMap_keys rules k1

theorem stripWildcards_spec (k : List Nat) (q : ParsedKey) (h : stripWildcards k = some q) :
    q.key = stemOf k ∧ q.anyStart = hasLeadingStar k ∧ q.anyEnd = hasTrailingStar k := by
  cases k with
  | nil => simp [stripWildcards] at h
  | cons c rest =>
    simp only [stripWildcards] at h
    have e1 : (if (c :: rest).head? = some 42 then (c :: rest).tail else c :: rest) =
        (if c = 42 then rest else c :: rest) := by
      simp
    have e2 : decide ((c :: rest).head? = some 42) = decide (c = 42) := by
      simp
    unfold stemOf hasLeadingStar hasTrailingStar
    rw [e1, e2]
    cases hl : (if c = 42 then rest else c :: rest).getLast? with
    | none => rw [hl] at h; cases h
    | some d =>
      rw [hl] at h
      simp only [Option.some.injEq] at h
      subst h
      simp only [hl, Option.some.injEq]
      exact ⟨trivial, trivial, trivial⟩

theorem mergeParsed_none (p : List ParsedKey) (q : ParsedKey) (h : mergeParsed p q = none) :
    ∀ m ∈ p, m.key ≠ q.key := by
  induction p with
  | nil => intro m hm; cases hm
  | cons a p ih =>
    simp only [mergeParsed] at h
    by_cases hk : a.key ≠ q.key
    · rw [if_pos hk] at h
      simp only [Option.map_eq_none'] at h
      intro m hm
      rcases List.mem_cons.mp hm with r | r
      · rw [r]; exact hk
      · exact ih h m r
    · rw [if_neg hk] at h; cases h

theorem mergeParsed_some (p : List ParsedKey) (q : ParsedKey) (p1 : List ParsedKey)
    (h : mergeParsed p q = some p1) :
    p1.map ParsedKey.key = p.map ParsedKey.key ∧
    (∀ K s e, HasStem p K s e → HasStem p1 K s e) ∧
    HasStem p1 q.key q.anyStart q.anyEnd ∧
    (∀ pk1 ∈ p1, ∃ pk ∈ p, pk.key = pk1.key ∧
      (pk1.anyStart = true → pk.anyStart = true ∨ (q.key = pk1.key ∧ q.anyStart = true)) ∧
      (pk1.anyEnd = true → pk.anyEnd = true ∨ (q.key = pk1.key ∧ q.anyEnd = true))) := by
  induction p generalizing p1 with
  | nil => simp [mergeParsed] at h
  | cons a p ih =>
    simp only [mergeParsed] at h
    by_cases hk : a.key ≠ q.key
    · rw [if_pos hk] at h
      cases hm : mergeParsed p q with
      | none => rw [hm] at h; cases h
      | some r =>
        rw [hm] at h
        simp only [Option.map_some', Option.some.injEq] at h
        subst h
        obtain ⟨i1, i2, i3, i4⟩ := ih r hm
        refine ⟨by simp [i1], ?_, ?_, ?_⟩
        · rintro K s e ⟨pk, hpk, h1, h2⟩
          rcases List.mem_cons.mp hpk with r1 | r1
          · exact ⟨pk, by rw [r1]; exact List.mem_cons_self _ _, h1, h2⟩
          · obtain ⟨pk2, a1, a2⟩ := i2 K s e ⟨pk, r1, h1, h2⟩
            exact ⟨pk2, List.mem_cons_of_mem _ a1, a2⟩
        · obtain ⟨pk2, a1, a2⟩ := i3
          exact ⟨pk2, List.mem_cons_of_mem _ a1, a2⟩
        · intro pk1 hpk1
          rcases List.mem_cons.mp hpk1 with r1 | r1
          · exact ⟨a, List.mem_cons_self _ _, by rw [r1], fun hx => Or.inl (by rw [← r1]; exact hx),
              fun hx => Or.inl (by rw [← r1]; exact hx)⟩
          · obtain ⟨pk, a1, a2⟩ := i4 pk1 r1
            exact ⟨pk, List.mem_cons_of_mem _ a1, a2⟩
    · rw [if_neg hk] at h
      simp only [Option.some.injEq] at h
      subst h
      have hk2 : a.key = q.key := by
        by_contra hc; exact hk hc
      refine ⟨by simp, ?_, ?_, ?_⟩
      · rintro K s e ⟨pk, hpk, h1, h2, h3⟩
        rcases List.mem_cons.mp hpk with r1 | r1
        · subst r1
          refine ⟨_, List.mem_cons_self _ _, h1, ?_, ?_⟩
          · intro hs
            have := h2 hs
            simp [this]
          · intro hs
            have := h3 hs
            simp [this]
        · exact ⟨pk, List.mem_cons_of_mem _ r1, h1, h2, h3⟩
      · refine ⟨_, List.mem_cons_self _ _, hk2, ?_, ?_⟩
        · intro hs
          cases ha : a.anyStart <;> simp [hs]
        · intro hs
          cases ha : a.anyEnd <;> simp [hs]
      · intro pk1 hpk1
        rcases List.mem_cons.mp hpk1 with r1 | r1
        · subst r1
          refine ⟨a, List.mem_cons_self _ _, rfl, ?_, ?_⟩
          · intro hx
            cases ha : a.anyStart
            · right
              simp only [ha, Bool.not_false, Bool.true_and] at hx
              refine ⟨hk2.symm, ?_⟩
              cases hq : q.anyStart
              · simp [hq] at hx
              · rfl
            · left; rfl
          · intro hx
            cases ha : a.anyEnd
            · right
              simp only [ha, Bool.not_false, Bool.true_and] at hx
              refine ⟨hk2.symm, ?_⟩
              cases hq : q.anyEnd
              · simp [hq] at hx
              · rfl
            · left; rfl
        · exact ⟨pk1, List.mem_cons_of_mem _ r1, rfl, fun hx => Or.inl hx, fun hx => Or.inl hx⟩

theorem sortRuleKeysLoop_cons (key : List Nat) (keys : List (List Nat)) (p : List ParsedKey)
    (q : ParsedKey) (h : stripWildcards key = some q) :
    sortRuleKeysLoop (key :: keys) p =
      sortRuleKeysLoop keys ((mergeParsed p q).getD (p ++ [q])) := by
  rw [sortRuleKeysLoop, h]
  simp only []
  cases hm : mergeParsed p q with
  | none => rfl
  | some r => rfl

/-- One iteration of the loop of `sortRuleKeys`: the stem of the key is in the
list afterwards, with its flags added to those the stem already had. -/
theorem parsedStep_spec (p0 : List ParsedKey) (q : ParsedKey) :
    (∀ K s e, HasStem p0 K s e → HasStem ((mergeParsed p0 q).getD (p0 ++ [q])) K s e) ∧
    HasStem ((mergeParsed p0 q).getD (p0 ++ [q])) q.key q.anyStart q.anyEnd ∧
    (∀ pk1 ∈ (mergeParsed p0 q).getD (p0 ++ [q]),
      (∃ pk ∈ p0, pk.key = pk1.key) ∨ q.key = pk1.key) ∧
    (∀ pk1 ∈ (mergeParsed p0 q).getD (p0 ++ [q]), pk1.anyStart = true →
      (∃ pk ∈ p0, pk.key = pk1.key ∧ pk.anyStart = true) ∨
        (q.key = pk1.key ∧ q.anyStart = true)) ∧
    (∀ pk1 ∈ (mergeParsed p0 q).getD (p0 ++ [q]), pk1.anyEnd = true →
      (∃ pk ∈ p0, pk.key = pk1.key ∧ pk.anyEnd = true) ∨ (q.key = pk1.key ∧ q.anyEnd = true)) ∧
    ((p0.map ParsedKey.key).Nodup →
      (((mergeParsed p0 q).getD (p0 ++ [q])).map ParsedKey.key).Nodup) ∧
    (∃ p2, ((mergeParsed p0 q).getD (p0 ++ [q])).map ParsedKey.key =
      p0.map ParsedKey.key ++ p2) := by
  cases hm : mergeParsed p0 q with
  | some p1 =>
    simp only [Option.getD_some]
    obtain ⟨i1, i2, i3, i4⟩ := mergeParsed_some p0 q p1 hm
    refine ⟨i2, i3, ?_, ?_, ?_, ?_, ⟨[], by rw [i1, List.append_nil]⟩⟩
    · intro pk1 h1
      obtain ⟨pk, a1, a2, _⟩ := i4 pk1 h1
      exact Or.inl ⟨pk, a1, a2⟩
    · intro pk1 h1 hs
      obtain ⟨pk, a1, a2, a3, _⟩ := i4 pk1 h1
      rcases a3 hs with r | r
      · exact Or.inl ⟨pk, a1, a2, r⟩
      · exact Or.inr r
    · intro pk1 h1 hs
      obtain ⟨pk, a1, a2, _, a4⟩ := i4 pk1 h1
      rcases a4 hs with r | r
      · exact Or.inl ⟨pk, a1, a2, r⟩
      · exact Or.inr r
    · intro hn; rw [i1]; exact hn
  | none =>
    simp only [Option.getD_none]
    have hno := mergeParsed_none p0 q hm
    refine ⟨?_, ?_, ?_, ?_, ?_, ?_, ⟨[q.key], by simp⟩⟩
    · rintro K s e ⟨pk, a1, a2⟩
      exact ⟨pk, List.mem_append_left _ a1, a2⟩
    · exact ⟨q, List.mem_append_right _ (List.mem_singleton.mpr rfl), rfl, id, id⟩
    · intro pk1 h1
      rcases List.mem_append.mp h1 with r | r
      · exact Or.inl ⟨pk1, r, rfl⟩
      · rw [List.mem_singleton.mp r]; exact Or.inr rfl
    · intro pk1 h1 hs
      rcases List.mem_append.mp h1 with r | r
      · exact Or.inl ⟨pk1, r, rfl, hs⟩
      · rw [List.mem_singleton.mp r] at hs ⊢; exact Or.inr ⟨rfl, hs⟩
    · intro pk1 h1 hs
      rcases List.mem_append.mp h1 with r | r
      · exact Or.inl ⟨pk1, r, rfl, hs⟩
      · rw [List.mem_singleton.mp r] at hs ⊢; exact Or.inr ⟨rfl, hs⟩
    · intro hn
      rw [List.map_append, List.nodup_append]
      refine ⟨hn, by simp, ?_⟩
      intro a ha hb
      simp only [List.map_cons, List.map_nil, List.mem_singleton] at hb
      obtain ⟨m, hm1, hm2⟩ := List.mem_map.mp ha
      exact hno m hm1 (by rw [hm2, hb])

/-- What `sortRuleKeys` returns: the stems of the keys, each once, with the
flags of all keys of the stem; stems that were in the list before keep their
place. -/
theorem sortRuleKeysLoop_spec :
    ∀ (keys : List (List Nat)) (p0 p : List ParsedKey), sortRuleKeysLoop keys p0 = some p →
      (∀ K s e, HasStem p0 K s e → HasStem p K s e) ∧
      (∀ key ∈ keys, ∃ q, stripWildcards key = some q ∧
        HasStem p q.key q.anyStart q.anyEnd) ∧
      (∀ pk ∈ p, (∃ pk0 ∈ p0, pk0.key = pk.key) ∨
        (∃ key ∈ keys, ∃ q, stripWildcards key = some q ∧ q.key = pk.key)) ∧
      (∀ pk ∈ p, pk.anyStart = true → (∃ pk0 ∈ p0, pk0.key = pk.key ∧ pk0.anyStart = true) ∨
        (∃ key ∈ keys, ∃ q, stripWildcards key = some q ∧ q.key = pk.key ∧
          q.anyStart = true)) ∧
      (∀ pk ∈ p, pk.anyEnd = true → (∃ pk0 ∈ p0, pk0.key = pk.key ∧ pk0.anyEnd = true) ∨
        (∃ key ∈ keys, ∃ q, stripWildcards key = some q ∧ q.key = pk.key ∧
          q.anyEnd = true)) ∧
      ((p0.map ParsedKey.key).Nodup → (p.map ParsedKey.key).Nodup) ∧
      (∃ p2, p.map ParsedKey.key = p0.map ParsedKey.key ++ p2) := by
  intro keys
  induction keys with
  | nil =>
    intro p0 p h
    simp only [sortRuleKeysLoop, Option.some.injEq] at h
    subst h
    refine ⟨fun _ _ _ hx => hx, fun key hk => (by cases hk),
      fun pk hpk => Or.inl ⟨pk, hpk, rfl⟩,
      fun pk hpk hs => Or.inl ⟨pk, hpk, rfl, hs⟩, fun pk hpk hs => Or.inl ⟨pk, hpk, rfl, hs⟩,
      id, ⟨[], by simp⟩⟩
  | cons key keys ih =>
    intro p0 p h
    cases hq : stripWildcards key with
    | none => rw [sortRuleKeysLoop, hq] at h; cases h
    | some q =>
      rw [sortRuleKeysLoop_cons key keys p0 q hq] at h
      obtain ⟨s1, s2, s3, s4, s5, s6, ⟨e1, s7⟩⟩ := parsedStep_spec p0 q
      obtain ⟨i1, i2, i3, i4, i5, i6, ⟨e2, i7⟩⟩ := ih _ p h
      refine ⟨fun K s e hx => i1 K s e (s1 K s e hx), ?_, ?_, ?_, ?_, fun hn => i6 (s6 hn),
        ⟨e1 ++ e2, by rw [i7, s7, List.append_assoc]⟩⟩
      · intro k1 hk1
        rcases List.mem_cons.mp hk1 with r | r
        · rw [r]; exact ⟨q, hq, i1 _ _ _ s2⟩
        · exact i2 k1 r
      · intro pk hpk
        rcases i3 pk hpk with ⟨pk1, a1, a2⟩ | ⟨k1, a1, q1, a2, a3⟩
        · rcases s3 pk1 a1 with ⟨pk0, b1, b2⟩ | b1
          · exact Or.inl ⟨pk0, b1, by rw [b2, a2]⟩
          · exact Or.inr ⟨key, List.mem_cons_self _ _, q, hq, by rw [b1, a2]⟩
        · exact Or.inr ⟨k1, List.mem_cons_of_mem _ a1, q1, a2, a3⟩
      · intro pk hpk hs
        rcases i4 pk hpk hs with ⟨pk1, a1, a2, a3⟩ | ⟨k1, a1, q1, a2, a3⟩
        · rcases s4 pk1 a1 a3 with ⟨pk0, b1, b2, b3⟩ | ⟨b1, b2⟩
          · exact Or.inl ⟨pk0, b1, by rw [b2, a2], b3⟩
          · exact Or.inr ⟨key, List.mem_cons_self _ _, q, hq, by rw [b1, a2], b2⟩
        · exact Or.inr ⟨k1, List.mem_cons_of_mem _ a1, q1, a2, a3⟩
      · intro pk hpk hs
        rcases i5 pk hpk hs with ⟨pk1, a1, a2, a3⟩ | ⟨k1, a1, q1, a2, a3⟩
        · rcases s5 pk1 a1 a3 with ⟨pk0, b1, b2, b3⟩ | ⟨b1, b2⟩
          · exact Or.inl ⟨pk0, b1, by rw [b2, a2], b3⟩
          · exact Or.inr ⟨key, List.mem_cons_self _ _, q, hq, by rw [b1, a2], b2⟩
        · exact Or.inr ⟨k1, List.mem_cons_of_mem _ a1, q1, a2, a3⟩

/-- The parsed keys of `ConstructTrie` against the registered keys. -/
theorem parsedKeys_spec (rules : List (List Nat × Rule)) (p : List ParsedKey)
    (h : parsedKeys rules = some p) :
    (∀ key ∈ registeredKeys rules,
      HasStem p (stemOf key) (hasLeadingStar key) (hasTrailingStar key)) ∧
    (∀ pk ∈ p, ∃ key ∈ registeredKeys rules, stemOf key = pk.key) ∧
    (∀ pk ∈ p, pk.anyStart = true →
      ∃ key ∈ registeredKeys rules, stemOf key = pk.key ∧ hasLeadingStar key = true) ∧
    (∀ pk ∈ p, pk.anyEnd = true →
      ∃ key ∈ registeredKeys rules, stemOf key = pk.key ∧ hasTrailingStar key = true) ∧
    (p.map ParsedKey.key).Nodup := by
  unfold parsedKeys sortRuleKeys at h
  obtain ⟨_, i2, i3, i4, i5, i6, _⟩ := sortRuleKeysLoop_spec _ [] p h
  refine ⟨?_, ?_, ?_, ?_, i6 List.nodup_nil⟩
  · intro key hk
    obtain ⟨q, a1, a2⟩ := i2 key ((mem_sortedKeys rules key).mpr hk)
    obtain ⟨b1, b2, b3⟩ := stripWildcards_spec key q a1
    rw [← b1, ← b2, ← b3]; exact a2
  · intro pk hpk
    rcases i3 pk hpk with ⟨pk0, a1, _⟩ | ⟨key, a1, q, a2, a3⟩
    · cases a1
    · exact ⟨key, (mem_sortedKeys rules key).mp a1, by
        rw [← (stripWildcards_spec key q a2).1]; exact a3⟩
  · intro pk hpk hs
    rcases i4 pk hpk hs with ⟨pk0, a1, _⟩ | ⟨key, a1, q, a2, a3, a4⟩
    · cases a1
    · obtain ⟨b1, b2, _⟩ := stripWildcards_spec key q a2
      exact ⟨key, (mem_sortedKeys rules key).mp a1, by rw [← b1]; exact a3, by
        rw [← b2]; exact a4⟩
  · intro pk hpk hs
    rcases i5 pk hpk hs with ⟨pk0, a1, _⟩ | ⟨key, a1, q, a2, a3, a4⟩
    · cases a1
    · obtain ⟨b1, _, b3⟩ := stripWildcards_spec key q a2
      exact ⟨key, (mem_sortedKeys rules key).mp a1, by rw [← b1]; exact a3, by
        rw [← b3]; exact a4⟩

/-! ## Bridges: slices of the buffer, `MergeRules`, key-legal bytes -/

theorem slice_length (b : List Nat) (s e : Nat) (hse : s ≤ e) (he : e < b.length) :
    (slice b s e).length = e + 1 - s := by
  unfold slice
  rw [List.length_drop, List.length_take]
  omega

theorem buffer_split (b : List Nat) (s e : Nat) (hse : s ≤ e) (he : e + 1 < b.length) :
    b = b.take s ++ slice b s e ++ b.getD (e + 1) 0 :: b.drop (e + 2) := by
  unfold slice
  have h1 : b.take s ++ (b.take (e + 1)).drop s = b.take (e + 1) := by
    have : b.take s = (b.take (e + 1)).take s := by
      rw [List.take_take, min_eq_left (by omega)]
    rw [this, List.take_append_drop]
  rw [h1]
  have h2 : b.getD (e + 1) 0 :: b.drop (e + 2) = b.drop (e + 1) := by
    rw [List.getD_eq_getElem _ _ he]
    exact (List.drop_eq_getElem_cons he).symm
  rw [h2, List.take_append_drop]

theorem take_snoc (b : List Nat) (s : Nat) (h1 : 1 ≤ s) (h2 : s ≤ b.length) :
    b.take s = b.take (s - 1) ++ [b.getD (s - 1) 0] := by
  have hlt : s - 1 < b.length := by omega
  rw [List.getD_eq_getElem _ _ hlt]
  have := List.take_succ (l := b) (n := s - 1)
  rw [show s - 1 + 1 = s by omega] at this
  rw [this, List.getElem?_eq_getElem hlt]
  rfl

theorem slice_take (b u w rest : List Nat) (hb : b = u ++ w ++ rest) (m : Nat) (h1 : 1 ≤ m)
    (h2 : m ≤ w.length) : slice b u.length (u.length + m - 1) = w.take m := by
  unfold slice
  rw [hb, List.append_assoc, show u.length + m - 1 + 1 = u.length + m by omega,
    List.take_append, List.drop_left, List.take_append_of_le_length h2]

theorem keyLegal_iff (c : Nat) : IsKeyLegal c ↔ 0 ≤ charTable c := by
  rw [charTable_nonneg_iff]
  unfold IsKeyLegal IsKeyByte
  omega

theorem splitter_of_not_keyLegal (c : Nat) (h : ¬ IsKeyLegal c) : IsSplitter c := by
  unfold IsKeyLegal at h
  unfold IsSplitter
  omega

theorem getNextNode_none_of_not_keyLegal (p : TrieNode) (c : Nat) (h : ¬ IsKeyLegal c) :
    getNextNode p c = none := by
  apply getNextNode_none_of_not_legal
  rw [keyLegal_iff] at h
  omega

theorem toLower_of_keyBytes (w : List Nat) (h : ∀ c ∈ w, IsKeyByte c) : toLower w = w := by
  induction w with
  | nil => rfl
  | cons c w ih =>
    simp only [toLower, List.map_cons]
    rw [lowerByte_of_keyByte c (h c (List.mem_cons_self _ _))]
    congr 1
    exact ih (fun d hd => h d (List.mem_cons_of_mem _ hd))

theorem MergeRules_ok (enum : List (List Nat × Rule) → List (List Nat × Rule)) (cfg cfg1 : Cfg)
    (rules : List (List Nat × Rule)) (h : MergeRules enum cfg rules = MergeOutcome.ok cfg1) :
    ∃ t, cfg1.Trie = some t ∧ ConstructTrie (enum cfg1.Rules) = some t := by
  unfold MergeRules at h
  cases hc : checkRules rules with
  | none => rw [hc] at h; cases h
  | some r =>
    rw [hc] at h
    cases r with
    | some key => cases h
    | none =>
      simp only at h
      cases ht : ConstructTrie (enum (upsertRules rules (OrderedMapKeys rules) cfg.Rules)) with
      | none => rw [ht] at h; cases h
      | some t =>
        rw [ht] at h
        simp only [MergeOutcome.ok.injEq] at h
        subst h
        exact ⟨t, rfl, ht⟩

theorem registeredKeys_perm (l1 l2 : List (List Nat × Rule)) (h : l1.Perm l2) (k : List Nat) :
    k ∈ registeredKeys l1 ↔ k ∈ registeredKeys l2 := by
  unfold registeredKeys
  simp only [List.mem_flatMap]
  constructor
  · rintro ⟨a, h1, h2⟩; exact ⟨a, h.mem_iff.mp h1, h2⟩
  · rintro ⟨a, h1, h2⟩; exact ⟨a, h.mem_iff.mpr h1, h2⟩

/-- The trie installed by a successful `MergeRules`, with the construction
invariant and the relation of its parsed keys to the registered keys. -/
theorem MergeRules_trie (enum : List (List Nat × Rule) → List (List Nat × Rule))
    (henum : ∀ l, (enum l).Perm l) (cfg cfg1 : Cfg) (rules : List (List Nat × Rule))
    (h : MergeRules enum cfg rules = MergeOutcome.ok cfg1) :
    ∃ t p path birth, cfg1.Trie = some t ∧ t.Root = 0 ∧
      TrieInv (buildKrMap (enum cfg1.Rules)) t.Nodes p p path birth ∧
      (∀ key ∈ registeredKeys cfg1.Rules,
        HasStem p (stemOf key) (hasLeadingStar key) (hasTrailingStar key)) ∧
      (∀ pk ∈ p, ∃ key ∈ registeredKeys cfg1.Rules, stemOf key = pk.key) ∧
      (∀ pk ∈ p, pk.anyStart = true →
        ∃ key ∈ registeredKeys cfg1.Rules, stemOf key = pk.key ∧ hasLeadingStar key = true) ∧
      (∀ pk ∈ p, pk.anyEnd = true →
        ∃ key ∈ registeredKeys cfg1.Rules, stemOf key = pk.key ∧ hasTrailingStar key = true) ∧
      (p.map ParsedKey.key).Nodup ∧ parsedKeys (enum cfg1.Rules) = some p := by
  obtain ⟨t, ht, hc⟩ := MergeRules_ok enum cfg cfg1 rules h
  obtain ⟨p, path, birth, hp, hroot, hinv⟩ := ConstructTrie_inv _ t hc
  obtain ⟨a1, a2, a3, a4, a5⟩ := parsedKeys_spec _ p hp
  have hperm := registeredKeys_perm _ _ (henum cfg1.Rules)
  refine ⟨t, p, path, birth, ht, hroot, hinv, ?_, ?_, ?_, ?_, a5, hp⟩
  · intro key hk; exact a1 key ((hperm key).mpr hk)
  · intro pk hpk
    obtain ⟨key, b1, b2⟩ := a2 pk hpk
    exact ⟨key, (hperm key).mp b1, b2⟩
  · intro pk hpk hs
    obtain ⟨key, b1, b2⟩ := a3 pk hpk hs
    exact ⟨key, (hperm key).mp b1, b2⟩
  · intro pk hpk hs
    obtain ⟨key, b1, b2⟩ := a4 pk hpk hs
    exact ⟨key, (hperm key).mp b1, b2⟩

/-! ## Hits of the scanner -/

/-- A stem occurrence that the scan enters at the root and that ends before a
byte without a child is emitted when its terminal node passes the default
filter. -/
theorem hit_at_terminal {krMap nodes insAll insDone path birth}
    (h : TrieInv krMap nodes insAll insDone path birth) (clock : Nat → Int) (maxTime : Int)
    (hne : NeverExceeded clock maxTime) (b : List Nat) (s e : Nat) (hse : s ≤ e)
    (he : e + 1 < b.length) (k : Nat) (hw : walk nodes 0 (slice b s e) = some k)
    (hend : (nodeAt nodes k).End = true)
    (hleft : s = 0 ∨ ∀ i, getNextNode (nodeAt nodes i) (b.getD (s - 1) 0) = none)
    (hright : getNextNode (nodeAt nodes k) (b.getD (e + 1) 0) = none)
    (hstart : StartSide b s (nodeAt nodes k).AnyStart)
    (hfin : EndSide b e (nodeAt nodes k).AnyEnd) :
    ∃ arr, matchLoop nodes (some DefaultKeyFilter) clock maxTime b b 0 0 0 0 [] =
      some (arr, false) ∧ (⟨(s : Int), (e : Int), (nodeAt nodes k).Rule⟩ : Position) ∈ arr := by
  have hsplit := buffer_split b s e hse he
  have hlw := slice_length b s e hse (by omega)
  have hlu : (b.take s).length = s := by rw [List.length_take]; omega
  have hwne : slice b s e ≠ [] := by
    intro hx
    rw [hx] at hlw
    simp at hlw
    omega
  have hA : b.take s = [] ∨ ∃ A1 x, b.take s = A1 ++ [x] ∧
      ∀ i, getNextNode (nodeAt nodes i) x = none := by
    rcases hleft with h0 | h0
    · left; rw [h0]; rfl
    · by_cases hs0 : s = 0
      · left; rw [hs0]; rfl
      · right
        exact ⟨b.take (s - 1), b.getD (s - 1) 0, take_snoc b s (by omega) (by omega), h0⟩
  have htm := testMatch_default h b (b.take s) (slice b s e) k hw hwne
    (by rw [List.length_append, hlu, hlw]; omega)
  rw [if_pos hend, hlu, hlw, show s + (e + 1 - s) - 1 = e by omega, if_pos ⟨hstart, hfin⟩] at htm
  exact scan_emit h clock maxTime hne b (b.take s) (slice b s e) (b.drop (e + 2))
    (b.getD (e + 1) 0) hsplit hA k hw hwne hright _ htm

/-- The terminal node of a registered valid key. -/
theorem terminal_of_key {krMap nodes p path birth}
    (h : TrieInv krMap nodes p p path birth) (key : List Nat) (s e : Bool)
    (hstem : HasStem p (stemOf key) s e) (hvalid : ValidKey key) (w : List Nat)
    (hocc : toLower w = toLower (stemOf key)) :
    ∃ k, k < nodes.length ∧ walk nodes 0 w = some k ∧ (nodeAt nodes k).End = true ∧
      path k = stemOf key := by
  obtain ⟨pk, hpk, hk1, _, _⟩ := hstem
  obtain ⟨k, a1, a2, a3⟩ := h.hcomp pk hpk (by rw [hk1]; exact hvalid.2)
  rw [hk1] at a2
  have hlow := toLower_of_keyBytes _ hvalid.2
  refine ⟨k, a1, ?_, a3, ?_⟩
  · rw [← walk_toLower nodes h.rep_all, hocc, hlow]; exact a2
  · rw [(h.path_walk _ k a2).2, hlow]

/-! ## Claims C1, C4 and C6 -/

/-- C1: a keyword hit with hard boundaries is always found. For the trie
installed by a successful `MergeRules`, every registered valid key and every
buffer `b`: if `b[s..e]` equals the stem of the key up to ASCII letter case,
`s = 0` or `b[s-1]` is not key-legal, and `b[e+1]` exists and is not key-legal,
then `Match` with `DefaultKeyFilter` and a budget that is never exceeded
returns, without interception, a position with `Start = s` and `End = e`. -/
theorem C1_hard_boundary_hit (enum : List (List Nat × Rule) → List (List Nat × Rule))
    (henum : ∀ l, (enum l).Perm l) (cfg cfg1 : Cfg) (rules : List (List Nat × Rule))
    (hm : MergeRules enum cfg rules = MergeOutcome.ok cfg1)
    (key : List Nat) (hkey : key ∈ registeredKeys cfg1.Rules) (hvalid : ValidKey key)
    (b : List Nat) (s e : Nat) (hse : s ≤ e) (he : e + 1 < b.length)
    (hocc : toLower (slice b s e) = toLower (stemOf key))
    (hleft : s = 0 ∨ ¬ IsKeyLegal (b.getD (s - 1) 0))
    (hright : ¬ IsKeyLegal (b.getD (e + 1) 0))
    (clock : Nat → Int) (maxTime : Int) (hne : NeverExceeded clock maxTime) :
    ∃ t arr p, cfg1.Trie = some t ∧
      t.Match b (some DefaultKeyFilter) clock maxTime = some (arr, false) ∧
      p ∈ arr ∧ p.Start = (s : Int) ∧ p.End = (e : Int) := by
  obtain ⟨t, p, path, birth, ht, _, hinv, hstems, _⟩ := MergeRules_trie enum henum cfg cfg1 rules hm
  obtain ⟨k, _, hw, hend, _⟩ := terminal_of_key hinv key _ _ (hstems key hkey) hvalid _ hocc
  have hstart : StartSide b s (nodeAt t.Nodes k).AnyStart := by
    rcases hleft with h0 | h0
    · exact Or.inl h0
    · exact Or.inr (Or.inl (splitter_of_not_keyLegal _ h0))
  have hfin : EndSide b e (nodeAt t.Nodes k).AnyEnd := Or.inl (splitter_of_not_keyLegal _ hright)
  have hl2 : s = 0 ∨ ∀ i, getNextNode (nodeAt t.Nodes i) (b.getD (s - 1) 0) = none := by
    rcases hleft with h0 | h0
    · exact Or.inl h0
    · exact Or.inr (fun i => getNextNode_none_of_not_keyLegal _ _ h0)
  obtain ⟨arr, ha, hp⟩ := hit_at_terminal hinv clock maxTime hne b s e hse he k hw hend hl2
    (getNextNode_none_of_not_keyLegal _ _ hright) hstart hfin
  exact ⟨t, arr, _, ht, ha, hp, rfl, rfl⟩

set_option maxRecDepth 100000 in
/-- Witness of C1: the key `cell` of the test configuration in the buffer
`{CELL:12345678900}`, where it stands at `[1, 4]` between `{` and `:`. -/
theorem C1_hard_boundary_hit_witness :
    ∃ t arr p, testCfg.Trie = some t ∧
      t.Match (ascii "\x7bCELL:12345678900\x7d") (some DefaultKeyFilter) stillClock 2000 =
        some (arr, false) ∧
      p ∈ arr ∧ p.Start = ((1 : Nat) : Int) ∧ p.End = ((4 : Nat) : Int) :=
  C1_hard_boundary_hit id (fun l => List.Perm.refl l) Cfg.init testCfg testRules rfl
    (ascii "cell") (by decide) (by decide) (ascii "\x7bCELL:12345678900\x7d") 1 4 (by decide)
    (by decide) (by decide) (Or.inr (by decide)) (by decide) stillClock 2000 (fun _ => rfl)

/-- C4: for indices inside the buffer (`start ≤ len(b)`, `end + 1 < len(b)`),
`DefaultKeyFilter(b, start, end, anyStart, anyEnd)` returns true exactly when
the start side holds (`start = 0`, or `b[start-1]` is a splitter, or
`anyStart`, or the three bytes before `start` are `%22`) and the end side
holds (`b[end+1]` is a splitter, or `anyEnd`), a splitter being any byte other
than an ASCII letter, a digit, `-` or `_`. -/
theorem C4_default_key_filter (b : List Nat) (start e : Nat) (anyStart anyEnd : Bool)
    (h1 : start ≤ b.length) (h2 : e + 1 < b.length) :
    DefaultKeyFilter b (start : Int) (e : Int) anyStart anyEnd =
      some (decide (StartSide b start anyStart ∧ EndSide b e anyEnd)) :=
  defaultKeyFilter_eq b start e anyStart anyEnd h1 h2

/-- Witness of C4: `%22cell%22:12345678900`, the key at `[3, 6]`: accepted
through the `%22` before it and the splitter `%` after it. -/
theorem C4_default_key_filter_witness :
    DefaultKeyFilter (ascii "%22cell%22:12345678900") ((3 : Nat) : Int) ((6 : Nat) : Int)
        false false =
      some (decide (StartSide (ascii "%22cell%22:12345678900") 3 false ∧
        EndSide (ascii "%22cell%22:12345678900") 6 false)) ∧
    (StartSide (ascii "%22cell%22:12345678900") 3 false ∧
      EndSide (ascii "%22cell%22:12345678900") 6 false) :=
  ⟨C4_default_key_filter (ascii "%22cell%22:12345678900") 3 6 false false (by decide)
    (by decide), by decide⟩

/-! ## Wildcard flags of terminal nodes, and claim C6 -/

/-- When all registered keys are valid, the terminal node of a stem carries
the flags of the parsed key of that stem. -/
theorem terminal_flags {krMap nodes p path birth}
    (h : TrieInv krMap nodes p p path birth) (hnd : (p.map ParsedKey.key).Nodup)
    (hlow : ∀ pk ∈ p, ∀ c ∈ pk.key, IsKeyByte c)
    (pk : ParsedKey) (hpk : pk ∈ p) (k : Nat) (hk : k < nodes.length)
    (hend : (nodeAt nodes k).End = true) (hpath : path k = pk.key) :
    (nodeAt nodes k).AnyStart = pk.anyStart ∧ (nodeAt nodes k).AnyEnd = pk.anyEnd ∧
      (nodeAt nodes k).Rule = mapGet krMap pk.Key := by
  obtain ⟨pk1, a1, a2, a3, a4, a5⟩ := h.hend k hk hend
  have : pk1.key = pk.key := by
    rw [← hpath, ← a2, toLower_of_keyBytes _ (hlow pk1 a1)]
  have hpp : pk1 = pk := List.inj_on_of_nodup_map hnd a1 hpk this
  rw [hpp] at a3 a4 a5
  exact ⟨a3, a4, a5⟩

/-- No node has a child for a byte that occurs in no parsed key. -/
theorem no_child_of_absent {krMap nodes p path birth}
    (h : TrieInv krMap nodes p p path birth) (x : Nat)
    (hx : ∀ pk ∈ p, lowerByte x ∉ toLower pk.key) (i : Nat) :
    getNextNode (nodeAt nodes i) x = none := by
  by_cases hi : i < nodes.length
  · cases hg : getNextNode (nodeAt nodes i) x with
    | none => rfl
    | some m =>
      exfalso
      obtain ⟨hm, hpm⟩ := h.hlink i x m hi hg
      have hm0 : m ≠ 0 := by
        intro h0
        rw [h0, h.hroot] at hpm
        simp at hpm
      obtain ⟨pk, a1, t, a2⟩ := h.hbirth m hm hm0
      apply hx pk (List.get?_mem a1)
      rw [a2, hpm]
      simp
  · rw [nodeAt_ge nodes i (by omega)]; exact getNextNode_zero x

/-- C6, as amended: a leading wildcard removes the left-boundary requirement
of the filter. For the trie installed by a successful `MergeRules` whose
registered keys are all valid, a registered key with a leading `*` and stem
`S`, and a buffer `b` in which `S` occurs (up to ASCII case) at `[s, e]` with
`b[e+1]` inside the buffer and not key-legal: if `s = 0` or `b[s-1]` is a byte
that occurs, up to case, in no registered stem, then `Match` with
`DefaultKeyFilter` and a budget that is never exceeded returns a position with
`Start = s` and `End = e`. -/
theorem C6_leading_wildcard_hit (enum : List (List Nat × Rule) → List (List Nat × Rule))
    (henum : ∀ l, (enum l).Perm l) (cfg cfg1 : Cfg) (rules : List (List Nat × Rule))
    (hm : MergeRules enum cfg rules = MergeOutcome.ok cfg1)
    (hall : ∀ k ∈ registeredKeys cfg1.Rules, ValidKey k)
    (key : List Nat) (hkey : key ∈ registeredKeys cfg1.Rules)
    (hstar : hasLeadingStar key = true)
    (b : List Nat) (s e : Nat) (hse : s ≤ e) (he : e + 1 < b.length)
    (hocc : toLower (slice b s e) = toLower (stemOf key))
    (hleft : s = 0 ∨ ∀ k ∈ registeredKeys cfg1.Rules,
      lowerByte (b.getD (s - 1) 0) ∉ toLower (stemOf k))
    (hright : ¬ IsKeyLegal (b.getD (e + 1) 0))
    (clock : Nat → Int) (maxTime : Int) (hne : NeverExceeded clock maxTime) :
    ∃ t arr p, cfg1.Trie = some t ∧
      t.Match b (some DefaultKeyFilter) clock maxTime = some (arr, false) ∧
      p ∈ arr ∧ p.Start = (s : Int) ∧ p.End = (e : Int) := by
  obtain ⟨t, p, path, birth, ht, _, hinv, hstems, hreg, _, _, hnd, _⟩ :=
    MergeRules_trie enum henum cfg cfg1 rules hm
  have hlow : ∀ pk ∈ p, ∀ c ∈ pk.key, IsKeyByte c := by
    intro pk hpk
    obtain ⟨k1, a1, a2⟩ := hreg pk hpk
    rw [← a2]; exact (hall k1 a1).2
  obtain ⟨k, hk, hw, hend, hpath⟩ :=
    terminal_of_key hinv key _ _ (hstems key hkey) (hall key hkey) _ hocc
  obtain ⟨pk, hpk, hk1, hs1, _⟩ := hstems key hkey
  obtain ⟨f1, _, _⟩ := terminal_flags hinv hnd hlow pk hpk k hk hend (by rw [hpath, hk1])
  have hstart : StartSide b s (nodeAt t.Nodes k).AnyStart :=
    Or.inr (Or.inr (Or.inl (by rw [f1]; exact hs1 hstar)))
  have hfin : EndSide b e (nodeAt t.Nodes k).AnyEnd := Or.inl (splitter_of_not_keyLegal _ hright)
  have hl2 : s = 0 ∨ ∀ i, getNextNode (nodeAt t.Nodes i) (b.getD (s - 1) 0) = none := by
    rcases hleft with h0 | h0
    · exact Or.inl h0
    · right
      apply no_child_of_absent hinv
      intro pk1 hpk1
      obtain ⟨k1, a1, a2⟩ := hreg pk1 hpk1
      rw [← a2]; exact h0 k1 a1
  obtain ⟨arr, ha, hp⟩ := hit_at_terminal hinv clock maxTime hne b s e hse he k hw hend hl2
    (getNextNode_none_of_not_keyLegal _ _ hright) hstart hfin
  exact ⟨t, arr, _, ht, ha, hp, rfl, rfl⟩

set_option maxRecDepth 100000 in
/-- Witness of C6: `123_suffix_p:12345678900` in the test configuration; the
stem of `*_suffix_p` stands at `[3, 11]` after the byte `3`, which occurs in no
registered stem. -/
theorem C6_leading_wildcard_hit_witness :
    ∃ t arr p, testCfg.Trie = some t ∧
      t.Match (ascii "123_suffix_p:12345678900") (some DefaultKeyFilter) stillClock 2000 =
        some (arr, false) ∧
      p ∈ arr ∧ p.Start = ((3 : Nat) : Int) ∧ p.End = ((11 : Nat) : Int) :=
  C6_leading_wildcard_hit id (fun l => List.Perm.refl l) Cfg.init testCfg testRules rfl
    (by decide) (ascii "*_suffix_p") (by decide) (by decide) (ascii "123_suffix_p:12345678900")
    3 11 (by decide) (by decide) (by decide) (Or.inr (by decide)) (by decide) stillClock 2000
    (fun _ => rfl)

set_option maxRecDepth 100000 in
/-- Counterexample to C6 as stated: with the single key `*bc`, the buffer
`bbc:` holds the stem `bc` at `[1, 2]` before the byte `:`, which is not
key-legal, and `Match` returns no position at all: the first `b` moves the
scanner off the root, the second `b` is consumed by the reset. -/
theorem C6_counterexample :
    MergeRules id Cfg.init (rulesWith [ascii "*bc"]) = MergeOutcome.ok (cfgWith [ascii "*bc"]) ∧
    ascii "*bc" ∈ registeredKeys (cfgWith [ascii "*bc"]).Rules ∧
    (∀ k ∈ registeredKeys (cfgWith [ascii "*bc"]).Rules, ValidKey k) ∧
    hasLeadingStar (ascii "*bc") = true ∧
    toLower (slice (ascii "bbc:") 1 2) = toLower (stemOf (ascii "*bc")) ∧
    ¬ IsKeyLegal ((ascii "bbc:").getD (2 + 1) 0) ∧
    ((cfgWith [ascii "*bc"]).Trie.bind
      (fun t => t.Match (ascii "bbc:") (some DefaultKeyFilter) stillClock 2000)) =
      some ([], false) :=
  ⟨rfl, by decide, by decide, by decide, by decide, by decide, by decide⟩

/-! ## Claim C2: no keyword, no change -/

/-- When no part of the buffer equals a parsed stem up to case, `testMatch`
never gets to call the filter and the scan emits nothing, whatever the
filter. -/
theorem scan_none {krMap nodes insAll insDone path birth}
    (h : TrieInv krMap nodes insAll insDone path birth) (clock : Nat → Int) (maxTime : Int)
    (hne : NeverExceeded clock maxTime) (f : Option KeyFilter) (b : List Nat)
    (hno : ∀ pk ∈ insAll, ∀ e, e < b.length → ∀ s, s ≤ e →
      toLower (slice b s e) ≠ toLower pk.key) :
    ∀ (rest done : List Nat) (cur : Nat) (u w : List Nat) (count checks : Nat)
      (result : List Position),
      b = done ++ rest → done = u ++ w → walk nodes 0 w = some cur →
      matchLoop nodes f clock maxTime b rest done.length count checks cur result =
        some (result, false) := by
  intro rest
  induction rest with
  | nil => intro done cur u w count checks result _ _ _; rfl
  | cons c rest ih =>
    intro done cur u w count checks result hb hdone hw
    obtain ⟨count1, checks1, heq⟩ := matchLoop_cons_eq nodes f clock maxTime hne b c rest
      done.length count checks cur result
    have hl1 : done.length + 1 = (done ++ [c]).length := by rw [List.length_append]; rfl
    have hb1 : b = (done ++ [c]) ++ rest := by rw [hb]; simp
    rw [heq, hl1]
    cases hg : getNextNode (nodeAt nodes cur) c with
    | some n =>
      simp only []
      exact ih (done ++ [c]) n u (w ++ [c]) count1 checks1 result hb1
        (by rw [hdone, List.append_assoc]) (walk_snoc nodes 0 cur n c w hw hg)
    | none =>
      simp only []
      by_cases hd : (nodeAt nodes cur).Depth = 0
      · rw [if_pos hd]
        obtain ⟨_, hc0⟩ := walk_nil_root h w cur hw hd
        exact ih (done ++ [c]) cur (done ++ [c]) [] count1 checks1 result hb1 (by simp)
          (by rw [hc0]; rfl)
      · rw [if_neg hd]
        have hcur := (h.path_walk w cur hw).1
        have hpw := (h.path_walk w cur hw).2
        have hdw := h.depth_walk w cur hw
        have hwl : 1 ≤ w.length := by omega
        have hbl : b = u ++ w ++ (c :: rest) := by rw [hb, hdone]
        have hblen : u.length + w.length < b.length := by
          rw [hbl]; simp
        have hne1 : (nodeAt nodes cur).End = false := by
          cases he : (nodeAt nodes cur).End with
          | false => rfl
          | true =>
            exfalso
            obtain ⟨pk, a1, a2, _⟩ := h.hend cur hcur he
            apply hno pk a1 (u.length + w.length - 1) (by omega) u.length (by omega)
            rw [slice_take b u w _ hbl w.length hwl (le_refl _), List.take_length, a2, hpw]
        have hne2 : (nodeAt nodes cur).LastEnd = none := by
          cases hle : (nodeAt nodes cur).LastEnd with
          | none => rfl
          | some l =>
            exfalso
            obtain ⟨b1, b2, ⟨t, b3⟩, b4⟩ := h.hlast cur l hcur hle
            obtain ⟨pk, a1, a2, _⟩ := h.hend l b1 b2
            have hml : (path l).length ≤ w.length := by
              have := congrArg List.length b3
              rw [hpw, toLower_length, List.length_append] at this
              omega
            apply hno pk a1 (u.length + (path l).length - 1) (by omega) u.length (by omega)
            rw [slice_take b u w _ hbl (path l).length b4 hml, toLower_take, ← hpw, b3,
              List.take_left, a2]
        have htm : testMatch b nodes cur ((done.length : Int) - 1) f = some none := by
          unfold testMatch
          simp only [hne1, hne2, Bool.false_eq_true, if_false]
        rw [htm]
        simp only []
        exact ih (done ++ [c]) 0 (done ++ [c]) [] count1 checks1 result hb1 (by simp) rfl

/-- C2: for the state left by a successful `MergeRules` and every buffer `B`
no part of which equals, up to ASCII letter case, the stem of a registered
key, `Mask(B, t)` with a budget that is never exceeded returns `B` unchanged
and `intercepted = false`, whatever key filter is installed. -/
theorem C2_no_keyword_no_change (enum : List (List Nat × Rule) → List (List Nat × Rule))
    (henum : ∀ l, (enum l).Perm l) (cfg cfg1 : Cfg) (rules : List (List Nat × Rule))
    (hm : MergeRules enum cfg rules = MergeOutcome.ok cfg1)
    (keyFilter : Option KeyFilter) (b : List Nat)
    (hno : ∀ key ∈ registeredKeys cfg1.Rules, ∀ e, e < b.length → ∀ s, s ≤ e →
      toLower (slice b s e) ≠ toLower (stemOf key))
    (clock : Nat → Int) (maxTime : Int) (hne : NeverExceeded clock maxTime) :
    Mask cfg1 keyFilter clock b maxTime = (b, false) := by
  obtain ⟨t, p, path, birth, ht, _, hinv, _, hreg, _⟩ :=
    MergeRules_trie enum henum cfg cfg1 rules hm
  have hno2 : ∀ pk ∈ p, ∀ e, e < b.length → ∀ s, s ≤ e →
      toLower (slice b s e) ≠ toLower pk.key := by
    intro pk hpk
    obtain ⟨key, a1, a2⟩ := hreg pk hpk
    rw [← a2]; exact hno key a1
  have hmatch : t.Match b keyFilter clock maxTime = some ([], false) :=
    scan_none hinv clock maxTime hne keyFilter b hno2 b [] 0 [] [] 0 0 [] rfl rfl rfl
  unfold Mask maskBody
  rw [ht]
  simp only [hmatch, List.length_nil, if_true]

set_option maxRecDepth 100000 in
/-- Witness of C2: `{KELL:12345678900}` in the test configuration. -/
theorem C2_no_keyword_no_change_witness :
    Mask testCfg (some DefaultKeyFilter) stillClock (ascii "\x7bKELL:12345678900\x7d") 2000 =
      (ascii "\x7bKELL:12345678900\x7d", false) :=
  C2_no_keyword_no_change id (fun l => List.Perm.refl l) Cfg.init testCfg testRules rfl
    (some DefaultKeyFilter) (ascii "\x7bKELL:12345678900\x7d") (by decide) stillClock 2000
    (fun _ => rfl)

/-! ## Claim C3: matching is case-insensitive -/

theorem lowerByte_eq_fixed (c d n : Nat) (h : lowerByte c = lowerByte d)
    (hn : n < 65 ∨ (90 < n ∧ n < 97)) : c = n ↔ d = n := by
  unfold lowerByte at h
  split_ifs at h <;> omega

theorem byteAt_toLower (b b2 : List Nat) (h : toLower b = toLower b2) (i : Int) :
    (byteAt b i).map lowerByte = (byteAt b2 i).map lowerByte := by
  unfold byteAt
  by_cases hi : 0 ≤ i
  · rw [if_pos hi, if_pos hi]
    have h1 : (toLower b).get? i.toNat = (b.get? i.toNat).map lowerByte := by
      simp [toLower, List.get?_eq_getElem?]
    have h2 : (toLower b2).get? i.toNat = (b2.get? i.toNat).map lowerByte := by
      simp [toLower, List.get?_eq_getElem?]
    rw [← h1, ← h2, h]
  · rw [if_neg hi, if_neg hi]

theorem byteAt_cases (b b2 : List Nat) (h : toLower b = toLower b2) (i : Int) :
    (byteAt b i = none ∧ byteAt b2 i = none) ∨
    (∃ c d, byteAt b i = some c ∧ byteAt b2 i = some d ∧ lowerByte c = lowerByte d) := by
  have := byteAt_toLower b b2 h i
  cases h1 : byteAt b i with
  | none =>
    cases h2 : byteAt b2 i with
    | none => exact Or.inl ⟨rfl, rfl⟩
    | some d => rw [h1, h2] at this; cases this
  | some c =>
    cases h2 : byteAt b2 i with
    | none => rw [h1, h2] at this; cases this
    | some d =>
      rw [h1, h2] at this
      simp only [Option.map_some', Option.some.injEq] at this
      exact Or.inr ⟨c, d, rfl, rfl, this⟩

theorem splitterTable_congr (c d : Nat) (h : lowerByte c = lowerByte d) :
    splitterTable c = splitterTable d := by
  rw [← splitterTable_lowerByte c, ← splitterTable_lowerByte d, h]

theorem startSplitter_congr (b b2 : List Nat) (h : toLower b = toLower b2) (start : Int)
    (anyStart : Bool) : startSplitter b start anyStart = startSplitter b2 start anyStart := by
  unfold startSplitter
  by_cases h0 : start ≤ 0
  · rw [if_pos h0, if_pos h0]
  · rw [if_neg h0, if_neg h0]
    rcases byteAt_cases b b2 h (start - 1) with ⟨a1, a2⟩ | ⟨c1, d1, a1, a2, a3⟩
    · rw [a1, a2]
    · rw [a1, a2]
      simp only []
      rw [splitterTable_congr c1 d1 a3]
      by_cases hs : splitterTable d1 = true
      · rw [if_pos hs, if_pos hs]
      · rw [if_neg hs, if_neg hs]
        by_cases ha : anyStart = true
        · rw [if_pos ha, if_pos ha]
        · rw [if_neg ha, if_neg ha]
          by_cases h3 : 3 ≤ start
          · rw [if_pos h3, if_pos h3]
            rcases byteAt_cases b b2 h (start - 3) with ⟨e1, e2⟩ | ⟨c3, d3, e1, e2, e3⟩
            · rw [e1, e2]
            · rcases byteAt_cases b b2 h (start - 2) with ⟨g1, g2⟩ | ⟨c2, d2, g1, g2, g3⟩
              · rw [e1, e2, g1, g2]
              · rw [e1, e2, g1, g2]
                simp only [Option.some.injEq]
                have i3 := lowerByte_eq_fixed c3 d3 37 e3 (Or.inl (by decide))
                have i2 := lowerByte_eq_fixed c2 d2 50 g3 (Or.inl (by decide))
                have i1 := lowerByte_eq_fixed c1 d1 50 a3 (Or.inl (by decide))
                simp only [i3, i2, i1]
          · rw [if_neg h3, if_neg h3]

theorem endSplitter_congr (b b2 : List Nat) (h : toLower b = toLower b2) (e : Int)
    (anyEnd : Bool) : endSplitter b e anyEnd = endSplitter b2 e anyEnd := by
  unfold endSplitter
  rcases byteAt_cases b b2 h (e + 1) with ⟨a1, a2⟩ | ⟨c1, d1, a1, a2, a3⟩
  · rw [a1, a2]
  · rw [a1, a2]
    simp only []
    rw [splitterTable_congr c1 d1 a3]

theorem defaultKeyFilter_congr (b b2 : List Nat) (h : toLower b = toLower b2) (start e : Int)
    (anyStart anyEnd : Bool) :
    DefaultKeyFilter b start e anyStart anyEnd = DefaultKeyFilter b2 start e anyStart anyEnd := by
  unfold DefaultKeyFilter
  rw [startSplitter_congr b b2 h, endSplitter_congr b b2 h]

theorem testMatch_congr (nodes : List TrieNode) (b b2 : List Nat) (h : toLower b = toLower b2)
    (c : Nat) (pos : Int) :
    testMatch b nodes c pos (some DefaultKeyFilter) =
      testMatch b2 nodes c pos (some DefaultKeyFilter) := by
  unfold testMatch filterPosition
  simp only [defaultKeyFilter_congr b b2 h]

theorem matchLoop_congr (nodes : List TrieNode) (hrep : ∀ i, NodeRep (nodeAt nodes i))
    (clock : Nat → Int) (maxTime : Int) (b b2 : List Nat) (h : toLower b = toLower b2) :
    ∀ (rest rest2 : List Nat), toLower rest = toLower rest2 →
      ∀ (pos count checks cur : Nat) (result : List Position),
        matchLoop nodes (some DefaultKeyFilter) clock maxTime b rest pos count checks cur result =
          matchLoop nodes (some DefaultKeyFilter) clock maxTime b2 rest2 pos count checks cur
            result := by
  intro rest
  induction rest with
  | nil =>
    intro rest2 hr pos count checks cur result
    cases rest2 with
    | nil => rfl
    | cons d r2 => simp [toLower] at hr
  | cons c rest ih =>
    intro rest2 hr pos count checks cur result
    cases rest2 with
    | nil => simp [toLower] at hr
    | cons d r2 =>
      simp only [toLower, List.map_cons, List.cons.injEq] at hr
      obtain ⟨hcd, hr2⟩ := hr
      have hg : getNextNode (nodeAt nodes cur) c = getNextNode (nodeAt nodes cur) d := by
        rw [← getNextNode_lowerByte _ (hrep cur) c, ← getNextNode_lowerByte _ (hrep cur) d, hcd]
      rw [matchLoop, matchLoop, hg, testMatch_congr nodes b b2 h]
      simp only [ih r2 hr2]

/-- C3: matching is case-insensitive. For the trie installed by a successful
`MergeRules` and two buffers that differ only in the case of ASCII letters,
`Match` with `DefaultKeyFilter` and a budget that is never exceeded returns on
both buffers, without interception, the same list of positions (the same
`Start`, `End` and `Rule`). -/
theorem C3_case_insensitive (enum : List (List Nat × Rule) → List (List Nat × Rule))
    (henum : ∀ l, (enum l).Perm l) (cfg cfg1 : Cfg) (rules : List (List Nat × Rule))
    (hm : MergeRules enum cfg rules = MergeOutcome.ok cfg1)
    (b b2 : List Nat) (hb : toLower b = toLower b2) (clock : Nat → Int) (maxTime : Int)
    (hne : NeverExceeded clock maxTime) :
    ∃ t arr, cfg1.Trie = some t ∧
      t.Match b (some DefaultKeyFilter) clock maxTime = some (arr, false) ∧
      t.Match b2 (some DefaultKeyFilter) clock maxTime = some (arr, false) := by
  obtain ⟨t, p, path, birth, ht, _, hinv, _⟩ := MergeRules_trie enum henum cfg cfg1 rules hm
  obtain ⟨arr, ha⟩ := scan_run hinv clock maxTime hne b b [] 0 [] [] 0 0 [] rfl rfl rfl
  have he : t.Match b (some DefaultKeyFilter) clock maxTime =
      t.Match b2 (some DefaultKeyFilter) clock maxTime :=
    matchLoop_congr t.Nodes hinv.rep_all clock maxTime b b2 hb b b2 hb 0 0 0 0 []
  have h1 : t.Match b (some DefaultKeyFilter) clock maxTime = some (arr, false) := ha
  exact ⟨t, arr, ht, h1, by rw [← he]; exact h1⟩

/-- Witness of C3: `cell:12345678900` and `CELL:12345678900` in the test
configuration. -/
theorem C3_case_insensitive_witness :
    ∃ t arr, testCfg.Trie = some t ∧
      t.Match (ascii "cell:12345678900") (some DefaultKeyFilter) stillClock 2000 =
        some (arr, false) ∧
      t.Match (ascii "CELL:12345678900") (some DefaultKeyFilter) stillClock 2000 =
        some (arr, false) :=
  C3_case_insensitive id (fun l => List.Perm.refl l) Cfg.init testCfg testRules rfl
    (ascii "cell:12345678900") (ascii "CELL:12345678900") (by decide) stillClock 2000
    (fun _ => rfl)

/-! ## Claim C10: the deadline -/

theorem matchLoop_flag (nodes : List TrieNode) (f : Option KeyFilter) (clock : Nat → Int)
    (maxTime : Int) (b : List Nat) :
    ∀ (rest : List Nat) (pos count checks cur : Nat) (result arr : List Position) (flag : Bool),
      count ≤ 128 →
      matchLoop nodes f clock maxTime b rest pos count checks cur result = some (arr, flag) →
      (flag = true ↔ ∃ j, 1 ≤ j ∧ 128 * j - count < rest.length ∧
        exceeded clock maxTime (checks + j) = true) := by
  intro rest
  induction rest with
  | nil =>
    intro pos count checks cur result arr flag _ h
    simp only [matchLoop, Option.some.injEq, Prod.mk.injEq] at h
    rw [← h.2]
    simp
  | cons c rest ih =>
    intro pos count checks cur result arr flag hc h
    rw [matchLoop] at h
    by_cases hx : count = 128 ∧ exceeded clock maxTime (checks + 1) = true
    · rw [if_pos hx] at h
      simp only [Option.some.injEq, Prod.mk.injEq] at h
      rw [← h.2]
      simp only [true_iff]
      exact ⟨1, le_refl _, by rw [hx.1]; simp, hx.2⟩
    · rw [if_neg hx] at h
      simp only [] at h
      have key : ∀ (cur1 : Nat) (res1 : List Position),
          matchLoop nodes f clock maxTime b rest (pos + 1) ((if count = 128 then 0 else count) + 1)
            (if count = 128 then checks + 1 else checks) cur1 res1 = some (arr, flag) →
          (flag = true ↔ ∃ j, 1 ≤ j ∧ 128 * j - count < (c :: rest).length ∧
            exceeded clock maxTime (checks + j) = true) := by
        intro cur1 res1 h1
        have := ih (pos + 1) _ _ cur1 res1 arr flag (by split_ifs <;> omega) h1
        rw [this]
        by_cases h128 : count = 128
        · simp only [h128, if_true, List.length_cons]
          have hne1 : ¬ exceeded clock maxTime (checks + 1) = true := fun hh => hx ⟨h128, hh⟩
          constructor
          · rintro ⟨j, a1, a2, a3⟩
            exact ⟨j + 1, by omega, by omega, by rw [← a3]; congr 1; omega⟩
          · rintro ⟨j, a1, a2, a3⟩
            have hj : j ≠ 1 := by
              intro hj1; rw [hj1] at a3; exact hne1 a3
            exact ⟨j - 1, by omega, by omega, by rw [← a3]; congr 1; omega⟩
        · simp only [h128, if_false, List.length_cons]
          constructor
          · rintro ⟨j, a1, a2, a3⟩
            exact ⟨j, a1, by omega, a3⟩
          · rintro ⟨j, a1, a2, a3⟩
            exact ⟨j, a1, by omega, a3⟩
      cases hg : getNextNode (nodeAt nodes cur) c with
      | some n => rw [hg] at h; exact key _ _ h
      | none =>
        rw [hg] at h
        simp only [] at h
        by_cases hd : (nodeAt nodes cur).Depth = 0
        · rw [if_pos hd] at h; exact key _ _ h
        · rw [if_neg hd] at h
          cases htm : testMatch b nodes cur ((pos : Int) - 1) f with
          | none => rw [htm] at h; cases h
          | some r =>
            rw [htm] at h
            cases r with
            | none => exact key _ _ h
            | some p => exact key _ _ h

theorem wrap64_id (x : Int) (h1 : -9223372036854775808 ≤ x) (h2 : x < 9223372036854775808) :
    wrap64 x = x := by
  unfold wrap64
  norm_num
  omega

/-- C10: with clock readings that are non-negative `int64` values (`clock 0`
taken at entry, `clock k` at the `k`-th deadline check), a run of `Match` that
does not panic reports `intercepted = true` exactly when, after some block of
128 consumed bytes with input still remaining, the reading exceeds the reading
at entry by more than the budget; a buffer of at most 128 bytes is never
reported intercepted. -/
theorem C10_intercepted_iff (t : Trie) (b : List Nat) (f : Option KeyFilter)
    (clock : Nat → Int) (maxTime : Int)
    (hclock : ∀ k, 0 ≤ clock k ∧ clock k < 9223372036854775808)
    (arr : List Position) (flag : Bool)
    (hm : t.Match b f clock maxTime = some (arr, flag)) :
    (flag = true ↔ ∃ k, 1 ≤ k ∧ 128 * k < b.length ∧ clock k - clock 0 > maxTime) ∧
    (b.length ≤ 128 → flag = false) := by
  have h1 := matchLoop_flag t.Nodes f clock maxTime b b 0 0 0 0 [] arr flag (by omega) hm
  have h2 : flag = true ↔ ∃ k, 1 ≤ k ∧ 128 * k < b.length ∧ clock k - clock 0 > maxTime := by
    rw [h1]
    constructor
    · rintro ⟨j, a1, a2, a3⟩
      refine ⟨j, a1, by omega, ?_⟩
      unfold exceeded at a3
      rw [Nat.zero_add, wrap64_id _ (by have := hclock j; have := hclock 0; omega)
        (by have := hclock j; have := hclock 0; omega)] at a3
      exact of_decide_eq_true a3
    · rintro ⟨j, a1, a2, a3⟩
      refine ⟨j, a1, by omega, ?_⟩
      unfold exceeded
      rw [Nat.zero_add, wrap64_id _ (by have := hclock j; have := hclock 0; omega)
        (by have := hclock j; have := hclock 0; omega)]
      exact decide_eq_true a3
  refine ⟨h2, ?_⟩
  intro hlen
  cases hf : flag with
  | false => rfl
  | true =>
    exfalso
    obtain ⟨k, a1, a2, _⟩ := h2.mp hf
    omega

theorem sleepClock_range (k : Nat) : 0 ≤ sleepClock k ∧ sleepClock k < 9223372036854775808 := by
  unfold sleepClock
  have : min k 1000 ≤ 1000 := Nat.min_le_right _ _
  omega

set_option maxRecDepth 100000 in
/-- Witness of C10: the 256-byte buffer of the test, a clock that moves 10 ms
before each check and a budget of 2000 µs: the check after the first 128 bytes
finds the budget exceeded. -/
theorem C10_intercepted_iff_witness :
    testTrie.Match digits256 (some DefaultKeyFilter) sleepClock 2000 = some ([], true) ∧
    ((true = true ↔ ∃ k, 1 ≤ k ∧ 128 * k < digits256.length ∧
        sleepClock k - sleepClock 0 > 2000) ∧
      (digits256.length ≤ 128 → true = false)) :=
  ⟨by decide, C10_intercepted_iff testTrie digits256 (some DefaultKeyFilter) sleepClock 2000
    sleepClock_range [] true (by decide)⟩

/-! ## Claims C8 and C9: panics inside `Mask` -/

theorem filterPosition_none (b : List Nat) (f : Option KeyFilter) (p : Position) (as ae : Bool)
    (h : filterPosition b f p as ae = none) :
    ∃ g, f = some g ∧ g b p.Start p.End as ae = none := by
  unfold filterPosition at h
  cases f with
  | none => cases h
  | some g =>
    refine ⟨g, rfl, ?_⟩
    simp only [] at h
    cases hg : g b p.Start p.End as ae with
    | none => rfl
    | some v => rw [hg] at h; cases v <;> cases h

theorem testMatch_none (b : List Nat) (nodes : List TrieNode) (c : Nat) (pos : Int)
    (f : Option KeyFilter) (h : testMatch b nodes c pos f = none) :
    ∃ g s e as ae, f = some g ∧ g b s e as ae = none := by
  unfold testMatch at h
  simp only [] at h
  split at h
  · obtain ⟨g, hg, hn⟩ := filterPosition_none _ _ _ _ _ h
    exact ⟨g, _, _, _, _, hg, hn⟩
  · split at h
    · cases h
    · split at h
      · cases h
      · obtain ⟨g, hg, hn⟩ := filterPosition_none _ _ _ _ _ h
        exact ⟨g, _, _, _, _, hg, hn⟩

/-- The scan panics only through a panic of the key filter. -/
theorem matchLoop_none (nodes : List TrieNode) (f : Option KeyFilter) (clock : Nat → Int)
    (maxTime : Int) (b : List Nat) :
    ∀ (rest : List Nat) (pos count checks cur : Nat) (result : List Position),
      matchLoop nodes f clock maxTime b rest pos count checks cur result = none →
      ∃ g s e as ae, f = some g ∧ g b s e as ae = none := by
  intro rest
  induction rest with
  | nil => intro pos count checks cur result h; simp only [matchLoop] at h; cases h
  | cons c rest ih =>
    intro pos count checks cur result h
    rw [matchLoop] at h
    split at h
    · cases h
    · simp only [] at h
      cases hg : getNextNode (nodeAt nodes cur) c with
      | some n => rw [hg] at h; exact ih _ _ _ _ _ h
      | none =>
        rw [hg] at h
        simp only [] at h
        by_cases hd : (nodeAt nodes cur).Depth = 0
        · rw [if_pos hd] at h; exact ih _ _ _ _ _ h
        · rw [if_neg hd] at h
          cases htm : testMatch b nodes cur ((pos : Int) - 1) f with
          | none => exact testMatch_none _ _ _ _ _ htm
          | some r =>
            rw [htm] at h
            cases r with
            | none => exact ih _ _ _ _ _ h
            | some p => exact ih _ _ _ _ _ h

/-- C9: `Mask` is a total function, and whenever its body panics (no trie is
installed, the key filter panics during the scan, or the loop over the
positions panics: nil rule, nil or panicking redactor, slice bounds out of
range) it reports `intercepted = true`. -/
theorem C9_mask_recovers (cfg : Cfg) (keyFilter : Option KeyFilter) (clock : Nat → Int)
    (b : List Nat) (maxTolerable : Int)
    (hpanic : cfg.Trie = none ∨ ∃ t, cfg.Trie = some t ∧
      (t.Match b keyFilter clock maxTolerable = none ∨
        ∃ arr flag, t.Match b keyFilter clock maxTolerable = some (arr, flag) ∧
          maskLoop cfg.Rules arr.reverse b = none)) :
    (Mask cfg keyFilter clock b maxTolerable).2 = true := by
  have hb : maskBody cfg keyFilter clock b maxTolerable = none := by
    unfold maskBody
    rcases hpanic with h | ⟨t, ht, h | ⟨arr, flag, hm, hl⟩⟩
    · rw [h]
    · rw [ht]; simp only []; rw [h]
    · rw [ht]; simp only []; rw [hm]; simp only []
      have hne : ¬ arr.length = 0 := by
        intro h0
        have : arr = [] := List.length_eq_zero.mp h0
        rw [this] at hl
        simp only [List.reverse_nil, maskLoop] at hl
        cases hl
      rw [if_neg hne, hl]
  unfold Mask
  rw [hb]

set_option maxRecDepth 100000 in
/-- Witness of C9: the test of `TestMask` with a key filter that panics, on the
buffer `cell:123`. -/
theorem C9_mask_recovers_witness :
    testTrie.Match (ascii "cell:123") (some panicFilter) stillClock 2000 = none ∧
    (Mask testCfg (some panicFilter) stillClock (ascii "cell:123") 2000).2 = true :=
  ⟨by decide, C9_mask_recovers testCfg (some panicFilter) stillClock (ascii "cell:123") 2000
    (Or.inr ⟨testTrie, by decide, Or.inl (by decide)⟩)⟩

set_option maxRecDepth 100000 in
/-- C8 fails in the code: with the rules of the test registered and a key
filter that panics, `Mask` on the 8-byte buffer `cell:123` returns the nil
slice, of length 0, together with `intercepted = true`. -/
theorem C8_panic_returns_nil :
    MergeRules id Cfg.init testRules = MergeOutcome.ok testCfg ∧
    Mask testCfg (some panicFilter) stillClock (ascii "cell:123") 2000 = ([], true) ∧
    (Mask testCfg (some panicFilter) stillClock (ascii "cell:123") 2000).1.length
      ≠ (ascii "cell:123").length :=
  ⟨rfl, by decide, by decide⟩

/-! ## Claim C7: the loop over the positions -/

theorem overlay_length (b : List Nat) (lo hi : Nat) (w : List Nat) :
    (overlay b lo hi w).length = b.length := by
  unfold overlay
  exact List.length_mapIdx

theorem overlay_outside (b : List Nat) (lo hi : Nat) (w : List Nat) (i : Nat)
    (h : ¬ (lo ≤ i ∧ i < hi)) : (overlay b lo hi w).getD i 0 = b.getD i 0 := by
  unfold overlay
  rw [List.getD_eq_getElem?_getD, List.getD_eq_getElem?_getD, List.getElem?_mapIdx]
  cases b[i]? with
  | none => rfl
  | some x => simp only [Option.map_some', Option.getD_some, if_neg h]

theorem window_eq (e len l : Int) (h0 : 0 ≤ e + 1)
    (hl1 : -9223372036854775808 ≤ len) (hl2 : len < 9223372036854775808)
    (hb1 : 0 ≤ l) (hb2 : l < 9223372036854775808)
    (h1 : e + 1 ≤ (if wrap64 (wrap64 (e + len) + 1) ≥ l then l else wrap64 (wrap64 (e + len) + 1))) :
    (if wrap64 (wrap64 (e + len) + 1) ≥ l then l else wrap64 (wrap64 (e + len) + 1))
      = min (e + 1 + len) l := by
  unfold wrap64 at h1 ⊢
  norm_num at h1 ⊢
  split_ifs at h1 ⊢ <;> omega

theorem maskOne_spec (rules : List (List Nat × Rule)) (b b1 : List Nat) (p : Position)
    (hlen : ∀ name r, mapGet rules name = some r →
      -9223372036854775808 ≤ r.Length ∧ r.Length < 9223372036854775808)
    (hb : (b.length : Int) < 9223372036854775808)
    (h : maskOne rules b p = some b1) :
    specApply rules b p = some b1 ∧ b1.length = b.length ∧
      ∀ i, ¬ InWindow rules b.length p i → b1.getD i 0 = b.getD i 0 := by
  unfold maskOne at h
  cases hr : p.Rule with
  | none => rw [hr] at h; cases h
  | some name =>
    rw [hr] at h
    simp only [] at h
    cases hg : mapGet rules name with
    | none => rw [hg] at h; cases h
    | some r =>
      rw [hg] at h
      simp only [] at h
      by_cases hc : 0 ≤ p.End + 1 ∧ p.End + 1 ≤
          (if wrap64 (wrap64 (p.End + r.Length) + 1) ≥ (b.length : Int) then (b.length : Int)
            else wrap64 (wrap64 (p.End + r.Length) + 1))
      · rw [if_pos hc] at h
        have hw := window_eq p.End r.Length b.length hc.1 (hlen name r hg).1 (hlen name r hg).2
          (Int.natCast_nonneg _) hb hc.2
        rw [hw] at h
        cases hmk : r.Masker with
        | none => rw [hmk] at h; cases h
        | some m =>
          rw [hmk] at h
          simp only [] at h
          cases hm : m (List.drop (p.End + 1).toNat
              (List.take (min (p.End + 1 + r.Length) (b.length : Int)).toNat b)) with
          | none => rw [hm] at h; cases h
          | some w =>
            rw [hm] at h
            simp only [Option.some.injEq] at h
            refine ⟨?_, ?_, ?_⟩
            · unfold specApply
              rw [hr]; simp only []; rw [hg]; simp only []; rw [hmk]
              simp only [specWindow]
              rw [hm]
              simp only []
              rw [h]
            · rw [← h, overlay_length]
            · intro i hi
              rw [← h]
              apply overlay_outside
              intro hin
              exact hi ⟨name, r, hr, hg, hin.1, hin.2⟩
      · rw [if_neg hc] at h; cases h

theorem maskLoop_append (rules : List (List Nat × Rule)) (p : Position) :
    ∀ (ps : List Position) (b : List Nat),
      maskLoop rules (ps ++ [p]) b =
        match maskLoop rules ps b with
        | none => none
        | some b1 => maskOne rules b1 p := by
  intro ps
  induction ps with
  | nil =>
    intro b
    simp only [List.nil_append, maskLoop]
    cases maskOne rules b p <;> rfl
  | cons q qs ih =>
    intro b
    simp only [List.cons_append, maskLoop]
    cases maskOne rules b q with
    | none => rfl
    | some b1 => exact ih b1

theorem maskLoop_spec (rules : List (List Nat × Rule))
    (hlen : ∀ name r, mapGet rules name = some r →
      -9223372036854775808 ≤ r.Length ∧ r.Length < 9223372036854775808)
    (b : List Nat) (hb : (b.length : Int) < 9223372036854775808) :
    ∀ (arr : List Position) (b1 : List Nat), maskLoop rules arr.reverse b = some b1 →
      specMask rules arr b = some b1 ∧ b1.length = b.length ∧
      ∀ i, (∀ p ∈ arr, ¬ InWindow rules b.length p i) → b1.getD i 0 = b.getD i 0 := by
  intro arr
  induction arr with
  | nil =>
    intro b1 h
    simp only [List.reverse_nil, maskLoop, Option.some.injEq] at h
    rw [← h]
    exact ⟨rfl, rfl, fun _ _ => rfl⟩
  | cons p ps ih =>
    intro b1 h
    rw [List.reverse_cons, maskLoop_append] at h
    cases h2 : maskLoop rules ps.reverse b with
    | none => rw [h2] at h; cases h
    | some b2 =>
      rw [h2] at h
      simp only [] at h
      obtain ⟨i1, i2, i3⟩ := ih b2 h2
      obtain ⟨j1, j2, j3⟩ := maskOne_spec rules b2 b1 p hlen (by rw [i2]; exact hb) h
      refine ⟨?_, by rw [j2, i2], ?_⟩
      · simp only [specMask]
        rw [i1]
        exact j1
      · intro i hi
        rw [j3 i (by rw [i2]; exact hi p (List.mem_cons_self _ _))]
        exact i3 i (fun q hq => hi q (List.mem_cons_of_mem _ hq))

set_option maxRecDepth 100000 in
/-- Counterexample to C7: a rule registered without a redactor
(`&Rule\x7bKeys: []string\x7b"cell"\x7d\x7d`) and the buffer `cell:123`. The scan
returns the one position `(0, 3)` with the flag false and without a panic, but
the call of the nil redactor panics, so `Mask` reports `intercepted = true` and
returns the nil slice. -/
theorem C7_counterexample :
    MergeRules id Cfg.init bareRules = MergeOutcome.ok bareCfg ∧
    (bareCfg.Trie.map
        (fun t => t.Match (ascii "cell:123") (some DefaultKeyFilter) stillClock 2000)) =
      some (some ([{ Start := 0, End := 3, Rule := some (ascii "phone") }], false)) ∧
    Mask bareCfg (some DefaultKeyFilter) stillClock (ascii "cell:123") 2000 = ([], true) :=
  ⟨rfl, by decide, by decide⟩

/-- C7 (amended): when the scan returns the positions `arr` with the flag
`flag` and no step of the loop over the positions panics (every rule has a
redactor, no redactor panics, no window is out of range), `Mask` returns the
buffer the specification describes (the redactors applied in reverse order of
occurrence, each to the window from `End + 1` to
`min(End + 1 + Length, len(b))`) together with the scanner's flag; that buffer
has the length of `b` and agrees with `b` outside the windows. The lengths are
`int64` values. -/
theorem C7_mask_applies_redactors (cfg : Cfg) (keyFilter : Option KeyFilter)
    (clock : Nat → Int) (b : List Nat) (maxTolerable : Int)
    (t : Trie) (arr : List Position) (flag : Bool) (b1 : List Nat)
    (ht : cfg.Trie = some t)
    (hmatch : t.Match b keyFilter clock maxTolerable = some (arr, flag))
    (hloop : maskLoop cfg.Rules arr.reverse b = some b1)
    (hlen : ∀ name r, mapGet cfg.Rules name = some r →
      -9223372036854775808 ≤ r.Length ∧ r.Length < 9223372036854775808)
    (hb : (b.length : Int) < 9223372036854775808) :
    Mask cfg keyFilter clock b maxTolerable = (b1, flag) ∧
    specMask cfg.Rules arr b = some b1 ∧
    b1.length = b.length ∧
    ∀ i, (∀ p ∈ arr, ¬ InWindow cfg.Rules b.length p i) → b1.getD i 0 = b.getD i 0 := by
  refine ⟨?_, maskLoop_spec cfg.Rules hlen b hb arr b1 hloop⟩
  unfold Mask maskBody
  rw [ht]; simp only []; rw [hmatch]; simp only []
  by_cases h0 : arr.length = 0
  · rw [if_pos h0]
    have : arr = [] := List.length_eq_zero.mp h0
    rw [this] at hloop
    simp only [List.reverse_nil, maskLoop, Option.some.injEq] at hloop
    rw [hloop]
  · rw [if_neg h0, hloop]

set_option maxRecDepth 100000 in
theorem testCfg_lengths : ∀ name r, mapGet testCfg.Rules name = some r →
    -9223372036854775808 ≤ r.Length ∧ r.Length < 9223372036854775808 := by
  intro name r h
  have e : testCfg.Rules =
      [(ascii "phone", (testCfg.Rules.headD (ascii "phone", testRule)).2)] := rfl
  rw [e] at h
  simp only [mapGet] at h
  split at h
  · simp only [Option.some.injEq] at h
    rw [← h]
    exact ⟨by decide, by decide⟩
  · cases h

set_option maxRecDepth 100000 in
/-- Witness of C7: the rules of the test and the buffer `cell:12345678900`; the
one position is `(0, 3)` and its window, the colon and the eleven digits, is overwritten. -/
theorem C7_mask_applies_redactors_witness :
    Mask testCfg (some DefaultKeyFilter) stillClock (ascii "cell:12345678900") 2000 =
      (ascii "cell************", false) ∧
    specMask testCfg.Rules [{ Start := 0, End := 3, Rule := some (ascii "phone") }]
      (ascii "cell:12345678900") = some (ascii "cell************") ∧
    (ascii "cell************").length = (ascii "cell:12345678900").length ∧
    ∀ i, (∀ p ∈ [({ Start := 0, End := 3, Rule := some (ascii "phone") } : Position)],
        ¬ InWindow testCfg.Rules (ascii "cell:12345678900").length p i) →
      (ascii "cell************").getD i 0 = (ascii "cell:12345678900").getD i 0 :=
  C7_mask_applies_redactors testCfg (some DefaultKeyFilter) stillClock
    (ascii "cell:12345678900") 2000 testTrie
    [{ Start := 0, End := 3, Rule := some (ascii "phone") }] false (ascii "cell************")
    (by decide) (by decide) (by decide) testCfg_lengths (by decide)

/-! ## The order of the parsed keys -/

theorem strLt_negtrans : ∀ (c a b : List Nat),
    strLt b a = false → strLt c b = false → strLt c a = false := by
  intro c
  induction c with
  | nil =>
    intro a b h1 h2
    cases b with
    | nil => exact h1
    | cons z bs => simp [strLt] at h2
  | cons x cs ih =>
    intro a b h1 h2
    cases a with
    | nil => rfl
    | cons y ys =>
      cases b with
      | nil => simp [strLt] at h1
      | cons z bs =>
        simp only [strLt, Bool.or_eq_false_iff, decide_eq_false_iff_not,
          Bool.and_eq_false_imp, decide_eq_true_eq] at h1 h2 ⊢
        refine ⟨by omega, ?_⟩
        intro hxy
        exact ih ys bs (h1.2 (by omega)) (h2.2 (by omega))

theorem strLt_asymm : ∀ (a b : List Nat), strLt a b = true → strLt b a = false := by
  intro a
  induction a with
  | nil =>
    intro b _
    cases b <;> rfl
  | cons x xs ih =>
    intro b h
    cases b with
    | nil => simp [strLt] at h
    | cons y ys =>
      simp only [strLt, Bool.or_eq_true, decide_eq_true_eq, Bool.and_eq_true] at h
      simp only [strLt, Bool.or_eq_false_iff, decide_eq_false_iff_not,
        Bool.and_eq_false_imp, decide_eq_true_eq]
      rcases h with h | ⟨h1, h2⟩
      · exact ⟨by omega, fun hh => by omega⟩
      · exact ⟨by omega, fun _ => ih ys h2⟩

theorem keyLess_total (a b : List Nat) : keyLess b a = false ∨ keyLess a b = false := by
  unfold keyLess
  by_cases h1 : a.length < b.length
  · left
    rw [if_neg (by omega), if_pos (by omega)]
  · by_cases h2 : b.length < a.length
    · right
      rw [if_neg (by omega), if_pos (by omega)]
    · rw [if_neg h2, if_neg (by omega), if_neg h1, if_neg (by omega)]
      cases h : strLt a b with
      | false => right; rfl
      | true => left; exact strLt_asymm a b h

theorem keyLess_false_iff (a b : List Nat) :
    keyLess b a = false ↔ a.length < b.length ∨ (a.length = b.length ∧ strLt b a = false) := by
  unfold keyLess
  by_cases h1 : b.length < a.length
  · rw [if_pos h1]
    constructor
    · intro h; cases h
    · rintro (h | ⟨h, _⟩) <;> omega
  · rw [if_neg h1]
    by_cases h2 : b.length > a.length
    · rw [if_pos h2]
      exact ⟨fun _ => Or.inl h2, fun _ => rfl⟩
    · rw [if_neg h2]
      constructor
      · intro h; exact Or.inr ⟨by omega, h⟩
      · rintro (h | ⟨_, h⟩)
        · omega
        · exact h

theorem keyLess_trans (a b c : List Nat) (h1 : keyLess b a = false) (h2 : keyLess c b = false) :
    keyLess c a = false := by
  rw [keyLess_false_iff] at h1 h2 ⊢
  rcases h1 with h1 | ⟨h1, h1s⟩
  · rcases h2 with h2 | ⟨h2, _⟩
    · left; omega
    · left; omega
  · rcases h2 with h2 | ⟨h2, h2s⟩
    · left; omega
    · right; exact ⟨by omega, strLt_negtrans c a b h1s h2s⟩

theorem sortKeys_sorted (l : List (List Nat)) :
    (sortKeys l).Pairwise (fun a b => keyLess b a = false) :=
  @List.sorted_insertionSort _ (fun a b => keyLess b a = false) _
    ⟨fun a b => keyLess_total a b⟩ ⟨fun a b c h1 h2 => keyLess_trans a b c h1 h2⟩ l

theorem stemOf_length (k : List Nat) :
    k.length ≤ (stemOf k).length + 2 ∧
    (k.length = (stemOf k).length + 2 → k.head? = some 42) ∧
    (stemOf k).length ≤ k.length ∧
    ((stemOf k).length = k.length → stemOf k = k) := by
  unfold stemOf
  simp only []
  by_cases h1 : k.head? = some 42
  · rw [if_pos h1]
    have hk : k ≠ [] := by
      intro hx; rw [hx] at h1; cases h1
    have hl : 0 < k.length := List.length_pos.mpr hk
    by_cases h2 : k.tail.getLast? = some 42
    · rw [if_pos h2]
      simp only [List.length_dropLast, List.length_tail]
      exact ⟨by omega, fun _ => h1, by omega, fun h => by omega⟩
    · rw [if_neg h2]
      simp only [List.length_tail]
      exact ⟨by omega, fun _ => h1, by omega, fun h => by omega⟩
  · rw [if_neg h1]
    by_cases h2 : k.getLast? = some 42
    · rw [if_pos h2]
      have hk : k ≠ [] := by
        intro hx; rw [hx] at h2; cases h2
      have hl : 0 < k.length := List.length_pos.mpr hk
      simp only [List.length_dropLast]
      exact ⟨by omega, fun h => by omega, by omega, fun h => by omega⟩
    · rw [if_neg h2]
      exact ⟨by omega, fun h => by omega, le_refl _, fun _ => rfl⟩

/-- A key sorts before every valid key whose stem is at least two bytes longer
than its own stem. -/
theorem keyLess_of_longer (k1 k3 : List Nat) (hv : ValidKey k3)
    (hlen : (stemOf k1).length + 2 ≤ (stemOf k3).length) : keyLess k1 k3 = true := by
  obtain ⟨a1, a2, _, _⟩ := stemOf_length k1
  obtain ⟨_, _, b3, b4⟩ := stemOf_length k3
  unfold keyLess
  by_cases h : k1.length < k3.length
  · rw [if_pos h]
  · rw [if_neg h, if_neg (by omega)]
    have e3 : stemOf k3 = k3 := b4 (by omega)
    have h42 := a2 (by omega)
    cases k1 with
    | nil => cases h42
    | cons x xs =>
      simp only [List.head?_cons, Option.some.injEq] at h42
      cases hk3 : k3 with
      | nil => exact absurd (by rw [hk3]; rfl) hv.1
      | cons y ys =>
        have hy : IsKeyByte y := hv.2 y (by rw [e3, hk3]; exact List.mem_cons_self _ _)
        unfold IsKeyByte at hy
        simp only [strLt, Bool.or_eq_true, decide_eq_true_eq]
        left; omega

theorem parsedStep_keys (p0 : List ParsedKey) (q : ParsedKey) :
    (((mergeParsed p0 q).getD (p0 ++ [q])).map ParsedKey.key = p0.map ParsedKey.key ∧
      q.key ∈ p0.map ParsedKey.key) ∨
    ((mergeParsed p0 q).getD (p0 ++ [q])).map ParsedKey.key = p0.map ParsedKey.key ++ [q.key] := by
  cases hm : mergeParsed p0 q with
  | some p1 =>
    left
    simp only [Option.getD_some]
    obtain ⟨i1, _, ⟨pk, a1, a2, _⟩, _⟩ := mergeParsed_some p0 q p1 hm
    refine ⟨i1, ?_⟩
    rw [← i1, ← a2]
    exact List.mem_map_of_mem _ a1
  | none =>
    right
    simp only [Option.getD_none, List.map_append, List.map_cons, List.map_nil]

/-- The stems are listed by `sortRuleKeys` in the order of their first key:
the stem at index `j` comes from a key `k2` before which no key has that stem,
and every stem listed before index `j` is the stem of a key before `k2`. -/
theorem sortRuleKeysLoop_first :
    ∀ (keys : List (List Nat)) (p0 p : List ParsedKey), sortRuleKeysLoop keys p0 = some p →
      (p0.map ParsedKey.key).Nodup →
      ∀ (j : Nat) (K2 : List Nat), (p.map ParsedKey.key)[j]? = some K2 → p0.length ≤ j →
        ∃ pre k2 post, keys = pre ++ k2 :: post ∧ stemOf k2 = K2 ∧
          (∀ k ∈ pre, stemOf k ≠ K2) ∧
          ∀ (i : Nat) (K1 : List Nat), i < j → (p.map ParsedKey.key)[i]? = some K1 →
            K1 ∈ p0.map ParsedKey.key ∨ ∃ k1 ∈ pre, stemOf k1 = K1 := by
  intro keys
  induction keys with
  | nil =>
    intro p0 p h _ j K2 hj hlen
    simp only [sortRuleKeysLoop, Option.some.injEq] at h
    subst h
    have : (p0.map ParsedKey.key)[j]? = none := by
      rw [List.getElem?_eq_none_iff, List.length_map]; exact hlen
    rw [this] at hj; cases hj
  | cons key keys ih =>
    intro p0 p h hnd j K2 hj hlen
    cases hq : stripWildcards key with
    | none => rw [sortRuleKeysLoop, hq] at h; cases h
    | some q =>
      rw [sortRuleKeysLoop_cons key keys p0 q hq] at h
      have hstem : stemOf key = q.key := (stripWildcards_spec key q hq).1.symm
      obtain ⟨_, _, _, _, _, s6, _⟩ := parsedStep_spec p0 q
      have hnd1 := s6 hnd
      obtain ⟨_, _, _, _, _, i6, ⟨e2, i7⟩⟩ := sortRuleKeysLoop_spec keys _ p h
      have hndp := i6 hnd1
      have hkeys := parsedStep_keys p0 q
      have hqmem : q.key ∈ ((mergeParsed p0 q).getD (p0 ++ [q])).map ParsedKey.key := by
        rcases hkeys with ⟨r1, r2⟩ | r
        · rw [r1]; exact r2
        · rw [r]; simp
      have hsub : ∀ K, K ∈ ((mergeParsed p0 q).getD (p0 ++ [q])).map ParsedKey.key →
          K ∈ p0.map ParsedKey.key ∨ K = q.key := by
        intro K hK
        rcases hkeys with ⟨r1, _⟩ | r
        · rw [r1] at hK; exact Or.inl hK
        · rw [r] at hK
          rcases List.mem_append.mp hK with r2 | r2
          · exact Or.inl r2
          · exact Or.inr (List.mem_singleton.mp r2)
      by_cases hbig : ((mergeParsed p0 q).getD (p0 ++ [q])).length ≤ j
      · obtain ⟨pre, k2, post, a1, a2, a3, a4⟩ := ih _ p h hnd1 j K2 hj hbig
        refine ⟨key :: pre, k2, post, by rw [a1]; rfl, a2, ?_, ?_⟩
        · intro k hk
          rcases List.mem_cons.mp hk with r | r
          · rw [r, hstem]
            intro heq
            have hK2 : K2 ∈ e2 := by
              rw [i7, List.getElem?_append_right (by rw [List.length_map]; exact hbig)] at hj
              exact List.getElem?_mem hj
            rw [i7] at hndp
            exact (List.nodup_append.mp hndp).2.2 hqmem (by rw [heq]; exact hK2)
          · exact a3 k r
        · intro i K1 hi hK1
          rcases a4 i K1 hi hK1 with r | ⟨k1, r1, r2⟩
          · rcases hsub K1 r with r3 | r3
            · exact Or.inl r3
            · exact Or.inr ⟨key, List.mem_cons_self _ _, by rw [hstem, r3]⟩
          · exact Or.inr ⟨k1, List.mem_cons_of_mem _ r1, r2⟩
      · have hk1 : ((mergeParsed p0 q).getD (p0 ++ [q])).map ParsedKey.key =
            p0.map ParsedKey.key ++ [q.key] := by
          rcases hkeys with ⟨r1, _⟩ | r
          · exfalso
            have := congrArg List.length r1
            simp only [List.length_map] at this
            omega
          · exact r
        have hl1 : ((mergeParsed p0 q).getD (p0 ++ [q])).length = p0.length + 1 := by
          have := congrArg List.length hk1
          simpa using this
        have hj0 : j = p0.length := by omega
        have hpk : p.map ParsedKey.key = p0.map ParsedKey.key ++ ([q.key] ++ e2) := by
          rw [i7, hk1, List.append_assoc]
        refine ⟨[], key, keys, rfl, ?_, (fun k hk => (by cases hk)), ?_⟩
        · rw [hpk, List.getElem?_append_right (by rw [List.length_map]; omega),
            List.length_map, hj0, Nat.sub_self] at hj
          simp only [List.singleton_append, List.getElem?_cons_zero, Option.some.injEq] at hj
          rw [hstem, hj]
        · intro i K1 hi hK1
          left
          rw [hpk, List.getElem?_append_left (by rw [List.length_map]; omega)] at hK1
          exact List.getElem?_mem hK1

/-- The order of the parsed keys of `ConstructTrie`: a stem listed before
another has a registered key that sorts before every registered key of the
other. -/
theorem parsedKeys_order (rules : List (List Nat × Rule)) (p : List ParsedKey)
    (h : parsedKeys rules = some p) (i j : Nat) (q1 q2 : ParsedKey)
    (h1 : p[i]? = some q1) (h2 : p[j]? = some q2) (hij : i < j) :
    ∃ k1 ∈ registeredKeys rules, stemOf k1 = q1.key ∧
      ∀ k2 ∈ registeredKeys rules, stemOf k2 = q2.key → keyLess k2 k1 = false := by
  have hs := sortKeys_sorted (OrderedMapKeys (buildKrMap rules))
  unfold parsedKeys sortRuleKeys at h
  obtain ⟨pre, kf, post, a1, a2, a3, a4⟩ := sortRuleKeysLoop_first _ [] p h List.nodup_nil j q2.key
    (by rw [List.getElem?_map, h2]; rfl) (Nat.zero_le _)
  rcases a4 i q1.key hij (by rw [List.getElem?_map, h1]; rfl) with r | ⟨k1, r1, r2⟩
  · cases r
  · have hk1 : k1 ∈ sortKeys (OrderedMapKeys (buildKrMap rules)) := by
      rw [a1]; exact List.mem_append_left _ r1
    refine ⟨k1, (mem_sortedKeys rules k1).mp hk1, r2, ?_⟩
    intro k2 hk2 hst
    have hk2s := (mem_sortedKeys rules k2).mpr hk2
    rw [a1] at hk2s hs
    rcases List.mem_append.mp hk2s with r3 | r3
    · exact absurd hst (a3 k2 r3)
    · exact (List.pairwise_append.mp hs).2.2 k1 r1 k2 r3

/-- A stem is listed before every stem that is at least two bytes longer. -/
theorem stem_index_lt (rules : List (List Nat × Rule)) (p : List ParsedKey)
    (h : parsedKeys rules = some p) (hall : ∀ k ∈ registeredKeys rules, ValidKey k)
    (a j : Nat) (qP q3 : ParsedKey) (h1 : p[a]? = some qP) (h2 : p[j]? = some q3)
    (hlen : qP.key.length + 2 ≤ q3.key.length) : a < j := by
  by_contra hc
  have hne : a ≠ j := by
    intro e
    rw [e, h2] at h1
    simp only [Option.some.injEq] at h1
    rw [h1] at hlen
    omega
  obtain ⟨k1, b1, b2, b3⟩ := parsedKeys_order rules p h j a q3 qP h2 h1 (by omega)
  obtain ⟨_, s2, _⟩ := parsedKeys_spec rules p h
  obtain ⟨kP, c1, c2⟩ := s2 qP (List.getElem?_mem h1)
  have := keyLess_of_longer kP k1 (hall k1 b1) (by rw [c2, b2]; exact hlen)
  rw [b3 kP c1 c2] at this
  cases this

/-! ## Hits through a trailing wildcard -/

/-- A walk along bytes of which one has no child anywhere stops at some byte
without a child. -/
theorem walk_stop (nodes : List TrieNode) :
    ∀ (tail : List Nat) (k : Nat),
      (∃ y ∈ tail, ∀ i, getNextNode (nodeAt nodes i) y = none) →
      ∃ t1 y t2 c, tail = t1 ++ y :: t2 ∧ walk nodes k t1 = some c ∧
        getNextNode (nodeAt nodes c) y = none := by
  intro tail
  induction tail with
  | nil => rintro k ⟨y, hy, _⟩; cases hy
  | cons x xs ih =>
    rintro k ⟨y, hy, hno⟩
    cases hg : getNextNode (nodeAt nodes k) x with
    | none => exact ⟨[], x, xs, k, rfl, rfl, hg⟩
    | some n =>
      have hy2 : y ∈ xs := by
        rcases List.mem_cons.mp hy with r | r
        · have hk := hno k
          rw [r, hg] at hk; cases hk
        · exact r
      obtain ⟨t1, y1, t2, c, a1, a2, a3⟩ := ih n ⟨y, hy2, hno⟩
      refine ⟨x :: t1, y1, t2, c, by rw [a1]; rfl, ?_, a3⟩
      simp only [walk, hg]
      exact a2

/-- The scan emits a position at the byte where a walk from the root stops,
when the start side of the filter holds whatever the flag and the node reached,
or else its `LastEnd` node, is a terminal with the end flag. -/
theorem hit_with_any_end {krMap nodes insAll insDone path birth}
    (h : TrieInv krMap nodes insAll insDone path birth) (clock : Nat → Int) (maxTime : Int)
    (hne : NeverExceeded clock maxTime) (b A w v : List Nat) (y : Nat)
    (hb : b = A ++ w ++ y :: v)
    (hA : A = [] ∨ ∃ A1 x, A = A1 ++ [x] ∧ ∀ i, getNextNode (nodeAt nodes i) x = none)
    (c : Nat) (hw : walk nodes 0 w = some c) (hwne : w ≠ [])
    (hy : getNextNode (nodeAt nodes c) y = none)
    (hst : ∀ f, StartSide b A.length f) (d : Nat)
    (hflag : ((nodeAt nodes c).End = true ∧ (nodeAt nodes c).AnyEnd = true ∧ d = w.length) ∨
      ((nodeAt nodes c).End = false ∧ ∃ l, (nodeAt nodes c).LastEnd = some l ∧
        (nodeAt nodes l).AnyEnd = true ∧ d = (nodeAt nodes l).Depth)) :
    ∃ arr pos, matchLoop nodes (some DefaultKeyFilter) clock maxTime b b 0 0 0 0 [] =
      some (arr, false) ∧ pos ∈ arr ∧ pos.Start = (A.length : Int) ∧
      pos.End = ((A.length + d - 1 : Nat) : Int) := by
  have hlen : (A ++ w).length < b.length := by
    rw [hb]; simp only [List.length_append, List.length_cons]; omega
  have htm := testMatch_default h b A w c hw hwne hlen
  rcases hflag with ⟨f1, f2, f3⟩ | ⟨f1, l, f2, f3, f4⟩
  · rw [if_pos f1, if_pos ⟨hst _, Or.inr f2⟩] at htm
    obtain ⟨arr, a1, a2⟩ := scan_emit h clock maxTime hne b A w v y hb hA c hw hwne hy _ htm
    exact ⟨arr, _, a1, a2, rfl, by rw [f3]⟩
  · rw [if_neg (by rw [f1]; exact Bool.false_ne_true), f2] at htm
    simp only [] at htm
    rw [if_pos f3, if_pos ⟨hst _, Or.inr f3⟩] at htm
    obtain ⟨arr, a1, a2⟩ := scan_emit h clock maxTime hne b A w v y hb hA c hw hwne hy _ htm
    exact ⟨arr, _, a1, a2, rfl, by rw [f4]⟩

theorem buffer_split3 (b : List Nat) (s e : Nat) (hse : s ≤ e) :
    b = b.take s ++ slice b s e ++ b.drop (e + 1) := by
  unfold slice
  have h1 : b.take s = (b.take (e + 1)).take s := by
    rw [List.take_take, Nat.min_eq_left (by omega)]
  rw [h1, List.take_append_drop, List.take_append_drop]

theorem prefix_of_longer (P x L t : List Nat) (h : P ++ x = L ++ t) (hl : P.length ≤ L.length) :
    ∃ t1, L = P ++ t1 := by
  rcases List.append_eq_append_iff.mp h with ⟨a, h1, _⟩ | ⟨a, h1, _⟩
  · exact ⟨a, h1⟩
  · have : a = [] := by
      have := congrArg List.length h1
      simp only [List.length_append] at this
      exact List.length_eq_zero.mp (by omega)
    rw [this, List.append_nil] at h1
    exact ⟨[], by rw [h1, List.append_nil]⟩

/-! ## Claim C5 -/

theorem end_bound (s e d : Nat) (h1 : s ≤ e) (h2 : e + 1 - s ≤ d) : e ≤ s + d - 1 := by
  omega

/-- C5, as amended: a trailing wildcard removes the right-boundary
requirement, provided the longer stems have the wildcard too. For the trie
installed by a successful `MergeRules` whose registered keys are all valid, a
registered key with a trailing `*` and stem `P` such that every registered
stem that strictly extends `P` is also registered with a trailing `*`, and a
buffer `b` in which `P` occurs (up to ASCII case) at `[s, e]` with `s = 0` or
`b[s-1]` not key-legal and with a byte `b[j]`, `j > e`, that is not key-legal:
`Match` with `DefaultKeyFilter` and a budget that is never exceeded returns a
position with `Start = s`, and its `End` is not before `e`. -/
theorem C5_trailing_wildcard_hit (enum : List (List Nat × Rule) → List (List Nat × Rule))
    (henum : ∀ l, (enum l).Perm l) (cfg cfg1 : Cfg) (rules : List (List Nat × Rule))
    (hm : MergeRules enum cfg rules = MergeOutcome.ok cfg1)
    (hall : ∀ k ∈ registeredKeys cfg1.Rules, ValidKey k)
    (key : List Nat) (hkey : key ∈ registeredKeys cfg1.Rules)
    (hstar : hasTrailingStar key = true)
    (hext : ∀ k ∈ registeredKeys cfg1.Rules, stemOf key <+: stemOf k →
      stemOf k ≠ stemOf key →
      ∃ k2 ∈ registeredKeys cfg1.Rules, stemOf k2 = stemOf k ∧ hasTrailingStar k2 = true)
    (b : List Nat) (s e j : Nat) (hse : s ≤ e) (hej : e < j) (hj : j < b.length)
    (hocc : toLower (slice b s e) = toLower (stemOf key))
    (hleft : s = 0 ∨ ¬ IsKeyLegal (b.getD (s - 1) 0))
    (hafter : ¬ IsKeyLegal (b.getD j 0))
    (clock : Nat → Int) (maxTime : Int) (hne : NeverExceeded clock maxTime) :
    ∃ t arr p, cfg1.Trie = some t ∧
      t.Match b (some DefaultKeyFilter) clock maxTime = some (arr, false) ∧
      p ∈ arr ∧ p.Start = (s : Int) ∧ (e : Int) ≤ p.End := by
  obtain ⟨t, p, path, birth, ht, _, hinv, hstems, hreg, _, _, hnd, hpk⟩ :=
    MergeRules_trie enum henum cfg cfg1 rules hm
  have hlow : ∀ pk ∈ p, ∀ c ∈ pk.key, IsKeyByte c := by
    intro pk hpk
    obtain ⟨k1, a1, a2⟩ := hreg pk hpk
    rw [← a2]; exact (hall k1 a1).2
  have hallE : ∀ k ∈ registeredKeys (enum cfg1.Rules), ValidKey k :=
    fun k hk => hall k ((registeredKeys_perm _ _ (henum _) k).mp hk)
  have hvalid := hall key hkey
  have hPlow : toLower (stemOf key) = stemOf key := toLower_of_keyBytes _ hvalid.2
  obtain ⟨kP, hkP, hwP, hendP, hpathP⟩ :=
    terminal_of_key hinv key _ _ (hstems key hkey) hvalid _ hocc
  have hany : ∀ l, l < t.Nodes.length → (nodeAt t.Nodes l).End = true →
      stemOf key <+: path l → (nodeAt t.Nodes l).AnyEnd = true := by
    intro l hl hend hpre
    obtain ⟨pk1, a1, a2, _, a4, _⟩ := hinv.hend l hl hend
    have hk1 : pk1.key = path l := by rw [← a2, toLower_of_keyBytes _ (hlow pk1 a1)]
    obtain ⟨k1, b1, b2⟩ := hreg pk1 a1
    have hk2 : ∃ k2 ∈ registeredKeys cfg1.Rules,
        stemOf k2 = stemOf k1 ∧ hasTrailingStar k2 = true := by
      by_cases heq : stemOf k1 = stemOf key
      · exact ⟨key, hkey, heq.symm, hstar⟩
      · exact hext k1 b1 (by rw [b2, hk1]; exact hpre) heq
    obtain ⟨k2, c1, c2, c3⟩ := hk2
    obtain ⟨pk2, d1, d2, _, d4⟩ := hstems k2 c1
    have hpp : pk2 = pk1 := List.inj_on_of_nodup_map hnd d1 a1 (by rw [d2, c2, b2])
    rw [a4, ← hpp]; exact d4 c3
  have hsplit := buffer_split3 b s e hse
  have hymem : b.getD j 0 ∈ b.drop (e + 1) := by
    have hx : (b.drop (e + 1))[j - (e + 1)]? = some (b.getD j 0) := by
      rw [List.getElem?_drop, show e + 1 + (j - (e + 1)) = j by omega,
        List.getD_eq_getElem?_getD, List.getElem?_eq_getElem hj]
      rfl
    exact List.getElem?_mem hx
  obtain ⟨t1, y, t2, c, e1, e2, e3⟩ := walk_stop t.Nodes (b.drop (e + 1)) kP
    ⟨_, hymem, fun i => getNextNode_none_of_not_keyLegal _ _ hafter⟩
  have hw : walk t.Nodes 0 (slice b s e ++ t1) = some c := by
    rw [walk_append, hwP]; exact e2
  have hb : b = b.take s ++ (slice b s e ++ t1) ++ y :: t2 := by
    have h3 := hsplit
    rw [e1] at h3
    simp only [List.append_assoc] at h3 ⊢
    exact h3
  have hlA : (b.take s).length = s := by rw [List.length_take]; omega
  have hlw := slice_length b s e hse (by omega)
  have hwne : slice b s e ++ t1 ≠ [] := by
    intro hx
    have := congrArg List.length hx
    simp only [List.length_append, List.length_nil] at this
    omega
  have hA : b.take s = [] ∨ ∃ A1 x, b.take s = A1 ++ [x] ∧
      ∀ i, getNextNode (nodeAt t.Nodes i) x = none := by
    by_cases hs0 : s = 0
    · left; rw [hs0]; rfl
    · right
      rcases hleft with h0 | h0
      · exact absurd h0 hs0
      · exact ⟨b.take (s - 1), b.getD (s - 1) 0, take_snoc b s (by omega) (by omega),
          fun i => getNextNode_none_of_not_keyLegal _ _ h0⟩
  have hst : ∀ f, StartSide b (b.take s).length f := by
    intro f
    rw [hlA]
    rcases hleft with h0 | h0
    · exact Or.inl h0
    · exact Or.inr (Or.inl (splitter_of_not_keyLegal _ h0))
  obtain ⟨hc, hpc0⟩ := hinv.path_walk _ c hw
  have hpc : path c = stemOf key ++ toLower t1 := by
    rw [hpc0, toLower_append, hocc, hPlow]
  have hPlen : (stemOf key).length = e + 1 - s := by
    rw [← hlw, ← toLower_length (slice b s e), hocc, hPlow]
  have hflag : ∃ d, e + 1 - s ≤ d ∧
      (((nodeAt t.Nodes c).End = true ∧ (nodeAt t.Nodes c).AnyEnd = true ∧
          d = (slice b s e ++ t1).length) ∨
        ((nodeAt t.Nodes c).End = false ∧ ∃ l, (nodeAt t.Nodes c).LastEnd = some l ∧
          (nodeAt t.Nodes l).AnyEnd = true ∧ d = (nodeAt t.Nodes l).Depth)) := by
    cases hce : (nodeAt t.Nodes c).End with
    | true =>
      refine ⟨_, ?_, Or.inl ⟨rfl, hany c hc hce ⟨_, hpc.symm⟩, rfl⟩⟩
      rw [List.length_append, hlw]; omega
    | false =>
      have ht1 : t1 ≠ [] := by
        intro hx
        rw [hx] at e2
        simp only [walk, Option.some.injEq] at e2
        rw [← e2, hendP] at hce
        cases hce
      have ht1l : 0 < t1.length := List.length_pos.mpr ht1
      have hc0 : c ≠ 0 := by
        intro hx
        rw [hx, hinv.hroot] at hpc
        have := congrArg List.length hpc
        simp only [List.length_nil, List.length_append, toLower_length] at this
        omega
      obtain ⟨pkP, hpkP, hkeyP, _, _⟩ := hstems key hkey
      obtain ⟨a, ha⟩ := List.getElem?_of_mem hpkP
      obtain ⟨pk3, g1, tt, g2⟩ := hinv.hbirth c hc hc0
      have hpk3 : pk3 ∈ p := List.get?_mem g1
      have hk3 : pk3.key = path c ++ tt := by
        rw [← g2, toLower_of_keyBytes _ (hlow pk3 hpk3)]
      have htt : tt ≠ [] := by
        intro hx
        rw [hx, List.append_nil] at hk3
        obtain ⟨k3, _, w3, end3⟩ := hinv.hcomp pk3 hpk3 (hlow pk3 hpk3)
        rw [hk3, hpc0, walk_toLower t.Nodes hinv.rep_all, hw] at w3
        simp only [Option.some.injEq] at w3
        rw [← w3, hce] at end3
        cases end3
      have httl : 0 < tt.length := List.length_pos.mpr htt
      have hlt : a < birth c := by
        apply stem_index_lt (enum cfg1.Rules) p hpk hallE a (birth c) pkP pk3 ha
          (by rw [← List.get?_eq_getElem?]; exact g1)
        rw [hk3, hpc, hkeyP]
        simp only [List.length_append, toLower_length]
        omega
      obtain ⟨l, m1, m2⟩ := hinv.hlast2 c a pkP hc hc0 hlt
        (by rw [List.get?_eq_getElem?]; exact ha) (by rw [hkeyP]; exact hvalid.1)
        (by rw [hkeyP]; exact hvalid.2) ⟨toLower t1, by rw [hkeyP]; exact hpc⟩
        (by rw [hkeyP, hpc, List.length_append, toLower_length]; omega)
      obtain ⟨n1, n2, ⟨t3, n3⟩, _⟩ := hinv.hlast c l hc m1
      rw [hkeyP] at m2
      obtain ⟨t4, n4⟩ := prefix_of_longer (stemOf key) (toLower t1) (path l) t3
        (by rw [← hpc, n3]) m2
      refine ⟨_, ?_, Or.inr ⟨rfl, l, m1, hany l n1 n2 ⟨t4, n4.symm⟩, rfl⟩⟩
      rw [hinv.hdepth l n1, ← hPlen]
      exact m2
  obtain ⟨d, hd, hfl⟩ := hflag
  obtain ⟨arr, pos, r1, r2, r3, r4⟩ := hit_with_any_end hinv clock maxTime hne b (b.take s)
    (slice b s e ++ t1) t2 y hb hA c hw hwne e3 hst d hfl
  refine ⟨t, arr, pos, ht, r1, r2, by rw [r3, hlA], ?_⟩
  rw [r4, hlA]
  exact Int.ofNat_le.mpr (end_bound s e d hse hd)

set_option maxRecDepth 100000 in
/-- Witness of C5: `p_prefix_oth:12345678900` in the test configuration; the
stem of `p_prefix_*` stands at `[0, 8]`, the bytes `oth` follow, and the byte
`:` at index 12 is not key-legal. The one longer stem, `p_prefix_other_`, has
the wildcard too. -/
theorem C5_trailing_wildcard_hit_witness :
    ∃ t arr p, testCfg.Trie = some t ∧
      t.Match (ascii "p_prefix_oth:12345678900") (some DefaultKeyFilter) stillClock 2000 =
        some (arr, false) ∧
      p ∈ arr ∧ p.Start = ((0 : Nat) : Int) ∧ ((8 : Nat) : Int) ≤ p.End :=
  C5_trailing_wildcard_hit id (fun l => List.Perm.refl l) Cfg.init testCfg testRules rfl
    (by decide) (ascii "p_prefix_*") (by decide) (by decide) (by decide)
    (ascii "p_prefix_oth:12345678900") 0 8 12 (by decide) (by decide) (by decide) (by decide)
    (Or.inl rfl) (by decide) stillClock 2000 (fun _ => rfl)

set_option maxRecDepth 100000 in
/-- Counterexample to C5 as stated: with the keys `ab*` and `abc`, the buffer
`abcd:` holds the stem `ab` at `[0, 1]`, at the very start, and the byte `:`
after it is not key-legal, yet `Match` returns no position: the scan walks on
to the terminal node of `abc`, which has no end flag and fails the filter on
the byte `d`, and `testMatch` does not fall back on the node of `ab`. -/
theorem C5_counterexample :
    MergeRules id Cfg.init (rulesWith [ascii "ab*", ascii "abc"]) =
      MergeOutcome.ok (cfgWith [ascii "ab*", ascii "abc"]) ∧
    ascii "ab*" ∈ registeredKeys (cfgWith [ascii "ab*", ascii "abc"]).Rules ∧
    (∀ k ∈ registeredKeys (cfgWith [ascii "ab*", ascii "abc"]).Rules, ValidKey k) ∧
    hasTrailingStar (ascii "ab*") = true ∧
    toLower (slice (ascii "abcd:") 0 1) = toLower (stemOf (ascii "ab*")) ∧
    ¬ IsKeyLegal ((ascii "abcd:").getD 4 0) ∧
    ((cfgWith [ascii "ab*", ascii "abc"]).Trie.bind
      (fun t => t.Match (ascii "abcd:") (some DefaultKeyFilter) stillClock 2000)) =
      some ([], false) :=
  ⟨rfl, by decide, by decide, by decide, by decide, by decide, by decide⟩

/-! ## Claim C11: what an intercepted scan returns -/

/-- The positions found so far are never dropped. -/
theorem matchLoop_acc_prefix (nodes : List TrieNode) (f : Option KeyFilter) (clock : Nat → Int)
    (maxTime : Int) (b : List Nat) :
    ∀ (rest : List Nat) (pos count checks cur : Nat) (result arr : List Position) (flag : Bool),
      matchLoop nodes f clock maxTime b rest pos count checks cur result = some (arr, flag) →
      result <+: arr := by
  intro rest
  induction rest with
  | nil =>
    intro pos count checks cur result arr flag h
    simp only [matchLoop, Option.some.injEq, Prod.mk.injEq] at h
    rw [← h.1]
  | cons c rest ih =>
    intro pos count checks cur result arr flag h
    rw [matchLoop] at h
    split at h
    · simp only [Option.some.injEq, Prod.mk.injEq] at h
      rw [← h.1]
    · simp only [] at h
      cases hg : getNextNode (nodeAt nodes cur) c with
      | some n => rw [hg] at h; exact ih _ _ _ _ _ _ _ h
      | none =>
        rw [hg] at h
        simp only [] at h
        by_cases hd : (nodeAt nodes cur).Depth = 0
        · rw [if_pos hd] at h; exact ih _ _ _ _ _ _ _ h
        · rw [if_neg hd] at h
          cases htm : testMatch b nodes cur ((pos : Int) - 1) f with
          | none => rw [htm] at h; cases h
          | some r =>
            rw [htm] at h
            cases r with
            | none => exact ih _ _ _ _ _ _ _ h
            | some p =>
              exact (List.prefix_append result [p]).trans (ih _ _ _ _ _ _ _ h)

/-- With a budget that is never exceeded the scan is not intercepted. -/
theorem matchLoop_never_flag (nodes : List TrieNode) (f : Option KeyFilter) (clock : Nat → Int)
    (maxTime : Int) (hne : NeverExceeded clock maxTime) (b : List Nat) :
    ∀ (rest : List Nat) (pos count checks cur : Nat) (result arr : List Position) (flag : Bool),
      matchLoop nodes f clock maxTime b rest pos count checks cur result = some (arr, flag) →
      flag = false := by
  intro rest
  induction rest with
  | nil =>
    intro pos count checks cur result arr flag h
    simp only [matchLoop, Option.some.injEq, Prod.mk.injEq] at h
    exact h.2.symm
  | cons c rest ih =>
    intro pos count checks cur result arr flag h
    obtain ⟨c2, k2, e2⟩ := matchLoop_cons_eq nodes f clock maxTime hne b c rest pos count
      checks cur result
    rw [e2] at h
    cases hg : getNextNode (nodeAt nodes cur) c with
    | some n => rw [hg] at h; exact ih _ _ _ _ _ _ _ h
    | none =>
      rw [hg] at h
      simp only [] at h
      by_cases hd : (nodeAt nodes cur).Depth = 0
      · rw [if_pos hd] at h; exact ih _ _ _ _ _ _ _ h
      · rw [if_neg hd] at h
        cases htm : testMatch b nodes cur ((pos : Int) - 1) f with
        | none => rw [htm] at h; cases h
        | some r =>
          rw [htm] at h
          cases r with
          | none => exact ih _ _ _ _ _ _ _ h
          | some p => exact ih _ _ _ _ _ _ _ h

/-- Two runs of the scanner from the same byte, node and list of positions, the
second with a budget that is never exceeded: what the first returns is a
prefix of what the second returns. -/
theorem matchLoop_cut_prefix (nodes : List TrieNode) (f : Option KeyFilter)
    (clock clock2 : Nat → Int) (maxTime maxTime2 : Int) (hne : NeverExceeded clock2 maxTime2)
    (b : List Nat) :
    ∀ (rest : List Nat) (pos count checks count2 checks2 cur : Nat)
      (result arr arr2 : List Position) (flag flag2 : Bool),
      matchLoop nodes f clock maxTime b rest pos count checks cur result = some (arr, flag) →
      matchLoop nodes f clock2 maxTime2 b rest pos count2 checks2 cur result =
        some (arr2, flag2) →
      arr <+: arr2 ∧ flag2 = false ∧ (flag = false → arr = arr2) := by
  intro rest
  induction rest with
  | nil =>
    intro pos count checks count2 checks2 cur result arr arr2 flag flag2 h h2
    simp only [matchLoop, Option.some.injEq, Prod.mk.injEq] at h h2
    rw [← h.1, ← h2.1, ← h2.2]
    exact ⟨List.prefix_refl _, rfl, fun _ => rfl⟩
  | cons c rest ih =>
    intro pos count checks count2 checks2 cur result arr arr2 flag flag2 h h2
    have hacc := matchLoop_acc_prefix nodes f clock2 maxTime2 b _ _ _ _ _ _ _ _ h2
    have hfl := matchLoop_never_flag nodes f clock2 maxTime2 hne b _ _ _ _ _ _ _ _ h2
    obtain ⟨c2, k2, e2⟩ := matchLoop_cons_eq nodes f clock2 maxTime2 hne b c rest pos count2
      checks2 cur result
    rw [e2] at h2
    rw [matchLoop] at h
    split at h
    · simp only [Option.some.injEq, Prod.mk.injEq] at h
      rw [← h.1, ← h.2]
      exact ⟨hacc, hfl, fun hx => (by cases hx)⟩
    · simp only [] at h
      cases hg : getNextNode (nodeAt nodes cur) c with
      | some n =>
        rw [hg] at h h2
        exact ih _ _ _ _ _ _ _ _ _ _ _ h h2
      | none =>
        rw [hg] at h h2
        simp only [] at h h2
        by_cases hd : (nodeAt nodes cur).Depth = 0
        · rw [if_pos hd] at h h2
          exact ih _ _ _ _ _ _ _ _ _ _ _ h h2
        · rw [if_neg hd] at h h2
          cases htm : testMatch b nodes cur ((pos : Int) - 1) f with
          | none => rw [htm] at h; cases h
          | some r =>
            rw [htm] at h h2
            cases r with
            | none => exact ih _ _ _ _ _ _ _ _ _ _ _ h h2
            | some p => exact ih _ _ _ _ _ _ _ _ _ _ _ h h2

/-- C11: partial results are genuine results. For every trie, key filter,
buffer and clock: when a call of `Match` is cut short by the deadline and
returns the positions `arr`, and the call on the same trie, filter and buffer
with a budget that is never exceeded returns the positions `arr2`, then `arr`
is a prefix of `arr2` (and the second call is not intercepted). -/
theorem C11_partial_results_prefix (t : Trie) (b : List Nat) (f : Option KeyFilter)
    (clock clock2 : Nat → Int) (maxTime maxTime2 : Int)
    (hne : NeverExceeded clock2 maxTime2) (arr arr2 : List Position) (flag2 : Bool)
    (hcut : t.Match b f clock maxTime = some (arr, true))
    (hfull : t.Match b f clock2 maxTime2 = some (arr2, flag2)) :
    arr <+: arr2 ∧ flag2 = false := by
  obtain ⟨h1, h2, _⟩ := matchLoop_cut_prefix t.Nodes f clock clock2 maxTime maxTime2 hne b b 0 0 0
    0 0 0 [] arr arr2 true flag2 hcut hfull
  exact ⟨h1, h2⟩

set_option maxRecDepth 100000 in
/-- Witness of C11: the buffer `twoHits` in the test configuration. With a
clock that moves 10 ms before each check the scan is cut after 128 bytes and
returns the first position; with a clock that stands still it returns both. -/
theorem C11_partial_results_prefix_witness :
    [({ Start := 0, End := 3, Rule := some (ascii "phone") } : Position)] <+:
      [{ Start := 0, End := 3, Rule := some (ascii "phone") },
        { Start := 138, End := 141, Rule := some (ascii "phone") }] ∧ false = false :=
  C11_partial_results_prefix testTrie twoHits (some DefaultKeyFilter) sleepClock stillClock
    2000 2000 (fun _ => rfl) _ _ false (by decide) (by decide)

/-! ## Claims C12 and C13: the validation of `MergeRules` -/

theorem checkKey_false (key : List Nat) (h : checkKey key = some false) :
    ∃ c ∈ key, c ≠ 42 ∧ c < 128 ∧ ¬ IsKeyLegal c := by
  induction key with
  | nil => simp [checkKey] at h
  | cons c rest ih =>
    rw [checkKey] at h
    by_cases h42 : c ≠ 42
    · rw [if_pos h42] at h
      by_cases h128 : 128 ≤ c
      · rw [if_pos h128] at h; cases h
      · rw [if_neg h128] at h
        by_cases hc : charTable c = -1
        · refine ⟨c, List.mem_cons_self _ _, h42, by omega, ?_⟩
          intro hl
          have := (keyLegal_iff c).mp hl
          omega
        · rw [if_neg hc] at h
          obtain ⟨d, hd, r⟩ := ih h
          exact ⟨d, List.mem_cons_of_mem _ hd, r⟩
    · rw [if_neg h42] at h
      obtain ⟨d, hd, r⟩ := ih h
      exact ⟨d, List.mem_cons_of_mem _ hd, r⟩

theorem checkKeys_some (keys : List (List Nat)) (key : List Nat)
    (h : checkKeys keys = some (some key)) : key ∈ keys ∧ checkKey key = some false := by
  induction keys with
  | nil => simp [checkKeys] at h
  | cons k ks ih =>
    rw [checkKeys] at h
    cases hk : checkKey k with
    | none => rw [hk] at h; cases h
    | some v =>
      rw [hk] at h
      cases v with
      | false =>
        simp only [Option.some.injEq] at h
        rw [← h]
        exact ⟨List.mem_cons_self _ _, hk⟩
      | true =>
        obtain ⟨a, b⟩ := ih h
        exact ⟨List.mem_cons_of_mem _ a, b⟩

theorem checkRules_some (rules : List (List Nat × Rule)) (key : List Nat)
    (h : checkRules rules = some (some key)) :
    key ∈ registeredKeys rules ∧ checkKey key = some false := by
  induction rules with
  | nil => simp [checkRules] at h
  | cons nr rest ih =>
    rw [checkRules] at h
    cases hk : checkKeys nr.2.Keys with
    | none => rw [hk] at h; cases h
    | some v =>
      rw [hk] at h
      cases v with
      | some k1 =>
        simp only [Option.some.injEq] at h
        rw [h] at hk
        obtain ⟨a, b⟩ := checkKeys_some _ _ hk
        refine ⟨?_, b⟩
        unfold registeredKeys
        rw [List.flatMap_cons]
        exact List.mem_append_left _ a
      | none =>
        obtain ⟨a, b⟩ := ih h
        refine ⟨?_, b⟩
        unfold registeredKeys at a ⊢
        rw [List.flatMap_cons]
        exact List.mem_append_right _ a

/-- What an error of `MergeRules` says: the key it names is a key of the new
rules and holds an ASCII byte that is neither `*` nor key-legal; the state is
the one before the call. -/
theorem MergeRules_error (enum : List (List Nat × Rule) → List (List Nat × Rule))
    (cfg cfg1 : Cfg) (rules : List (List Nat × Rule)) (msg : List Nat)
    (h : MergeRules enum cfg rules = MergeOutcome.error msg cfg1) :
    cfg1 = cfg ∧ ∃ key ∈ registeredKeys rules,
      msg = ascii "invalid key \x27" ++ key ++ ascii "\x27" ∧
      ∃ c ∈ key, c ≠ 42 ∧ c < 128 ∧ ¬ IsKeyLegal c := by
  unfold MergeRules at h
  cases hc : checkRules rules with
  | none => rw [hc] at h; cases h
  | some v =>
    rw [hc] at h
    cases v with
    | some key =>
      simp only [MergeOutcome.error.injEq] at h
      obtain ⟨a, b⟩ := checkRules_some rules key hc
      exact ⟨h.2.symm, key, a, h.1.symm, checkKey_false key b⟩
    | none =>
      simp only [] at h
      cases ht : ConstructTrie (enum (upsertRules rules (OrderedMapKeys rules) cfg.Rules)) with
      | none => rw [ht] at h; cases h
      | some t => rw [ht] at h; cases h

set_option maxRecDepth 100000 in
/-- C12 fails in the code: a key with a byte that is not ASCII, the empty key
and the key `*` make `MergeRules` panic instead of returning the error
`invalid key`; for the last two the registry has been changed by then. -/
theorem C12_bad_key_panics :
    MergeRules id Cfg.init nonAsciiKeyRules = MergeOutcome.panicked Cfg.init ∧
    MergeRules id Cfg.init emptyKeyRules =
      MergeOutcome.panicked
        { Rules := upsertRules emptyKeyRules (OrderedMapKeys emptyKeyRules) [], Trie := none } ∧
    MergeRules id Cfg.init (rulesWith [ascii "*"]) =
      MergeOutcome.panicked
        { Rules := upsertRules (rulesWith [ascii "*"]) (OrderedMapKeys (rulesWith [ascii "*"])) [],
          Trie := none } ∧
    (upsertRules emptyKeyRules (OrderedMapKeys emptyKeyRules) []).length = 1 :=
  ⟨rfl, rfl, rfl, by decide⟩

/-- C13: `MergeRules` is atomic on failure. Whenever it returns an error, the
rule registry and the installed trie are those before the call, and so is what
`DumpTrie()` returns. -/
theorem C13_merge_error_atomic (enum : List (List Nat × Rule) → List (List Nat × Rule))
    (cfg cfg1 : Cfg) (rules : List (List Nat × Rule)) (msg : List Nat)
    (h : MergeRules enum cfg rules = MergeOutcome.error msg cfg1) :
    cfg1.Rules = cfg.Rules ∧ cfg1.Trie = cfg.Trie ∧ DumpTrie cfg1 = DumpTrie cfg := by
  obtain ⟨e, _⟩ := MergeRules_error enum cfg cfg1 rules msg h
  rw [e]
  exact ⟨rfl, rfl, rfl⟩

set_option maxRecDepth 100000 in
/-- Witness of C13: the call of `testMergeRules` with the key `cell `, made on
the test configuration: it returns the error `invalid key 'cell '`. -/
theorem C13_merge_error_atomic_witness :
    MergeRules id testCfg blankKeyRules =
      MergeOutcome.error (ascii "invalid key \x27cell \x27") testCfg ∧
    (testCfg.Rules = testCfg.Rules ∧ testCfg.Trie = testCfg.Trie ∧
      DumpTrie testCfg = DumpTrie testCfg) :=
  ⟨rfl, C13_merge_error_atomic id testCfg testCfg blankKeyRules (ascii "invalid key \x27cell \x27")
    rfl⟩

/-! ## Claim C14: the upsert policy of `MergeRules` -/

theorem mapGet_mapSet_self {β : Type} (m : List (List Nat × β)) (k : List Nat) (v : β) :
    mapGet (mapSet m k v) k = some v := by
  induction m with
  | nil => simp [mapSet, mapGet]
  | cons a m ih =>
    obtain ⟨k1, v1⟩ := a
    simp only [mapSet]
    by_cases h : k1 = k
    · rw [if_pos h]; simp [mapGet]
    · rw [if_neg h]; simp only [mapGet, if_neg h]; exact ih

theorem mapGet_mapSet_ne {β : Type} (m : List (List Nat × β)) (k k2 : List Nat) (v : β)
    (hne : k2 ≠ k) : mapGet (mapSet m k v) k2 = mapGet m k2 := by
  induction m with
  | nil => simp [mapSet, mapGet, Ne.symm hne]
  | cons a m ih =>
    obtain ⟨k1, v1⟩ := a
    simp only [mapSet]
    by_cases h : k1 = k
    · rw [if_pos h]
      simp only [mapGet]
      rw [if_neg (Ne.symm hne), if_neg (by rw [h]; exact Ne.symm hne)]
    · rw [if_neg h]
      simp only [mapGet]
      by_cases h2 : k1 = k2
      · rw [if_pos h2, if_pos h2]
      · rw [if_neg h2, if_neg h2]; exact ih

theorem mapGet_none_iff {β : Type} (m : List (List Nat × β)) (k : List Nat) :
    mapGet m k = none ↔ k ∉ m.map Prod.fst := by
  induction m with
  | nil => simp [mapGet]
  | cons a m ih =>
    obtain ⟨k1, v1⟩ := a
    simp only [mapGet, List.map_cons, List.mem_cons, not_or]
    by_cases h : k1 = k
    · rw [if_pos h]
      simp [h]
    · rw [if_neg h, ih]
      exact ⟨fun hx => ⟨fun e => h e.symm, hx⟩, fun hx => hx.2⟩

theorem mem_OrderedMapKeys {β : Type} (m : List (List Nat × β)) (k : List Nat) :
    k ∈ OrderedMapKeys m ↔ k ∈ m.map Prod.fst := by
  unfold OrderedMapKeys
  exact (List.perm_insertionSort _ _).mem_iff

theorem mem_mergeKeys (existing added : List (List Nat)) (k : List Nat) :
    k ∈ mergeKeys existing added ↔ k ∈ existing ∨ k ∈ added.map toLower := by
  unfold mergeKeys
  rw [mem_OrderedMapKeys, foldl_mapSet_keys added toLower ()]
  have h := foldl_mapSet_keys existing (fun x => x) () ([] : List (List Nat × Unit)) k
  simp only [List.map_id_fun', id_eq, List.map_nil, List.not_mem_nil, or_false] at h
  rw [h]
  exact or_comm

theorem upsertRule_ne (reg : List (List Nat × Rule)) (name name2 : List Nat) (r : Rule)
    (hne : name2 ≠ name) : mapGet (upsertRule reg name r) name2 = mapGet reg name2 := by
  unfold upsertRule
  cases mapGet reg name with
  | none => exact mapGet_mapSet_ne _ _ _ _ hne
  | some t => exact mapGet_mapSet_ne _ _ _ _ hne

theorem upsertRule_congr (reg reg2 : List (List Nat × Rule)) (name : List Nat) (r : Rule)
    (h : mapGet reg name = mapGet reg2 name) :
    mapGet (upsertRule reg name r) name = mapGet (upsertRule reg2 name r) name := by
  unfold upsertRule
  rw [← h]
  cases mapGet reg name with
  | none => simp only []; rw [mapGet_mapSet_self, mapGet_mapSet_self]
  | some t => simp only []; rw [mapGet_mapSet_self, mapGet_mapSet_self]

/-- The loop of `MergeRules` over distinct rule names: an entry of the registry
is touched by the iteration of its own name only. -/
theorem upsertRules_get (rules : List (List Nat × Rule)) (name : List Nat) :
    ∀ (names : List (List Nat)) (reg : List (List Nat × Rule)), names.Nodup →
      mapGet (upsertRules rules names reg) name =
        if name ∈ names then
          match mapGet rules name with
          | some r => mapGet (upsertRule reg name r) name
          | none => mapGet reg name
        else mapGet reg name := by
  intro names
  induction names with
  | nil => intro reg _; simp [upsertRules]
  | cons n ns ih =>
    intro reg hnd
    have hn : n ∉ ns := (List.nodup_cons.mp hnd).1
    have hns : ns.Nodup := (List.nodup_cons.mp hnd).2
    rw [upsertRules]
    by_cases he : name = n
    · subst he
      rw [if_pos (List.mem_cons_self _ _)]
      cases hr : mapGet rules name with
      | none => simp only []; rw [ih reg hns, if_neg hn]
      | some r => simp only []; rw [ih _ hns, if_neg hn]
    · have hmem : name ∈ n :: ns ↔ name ∈ ns := by
        simp [he]
      cases hr : mapGet rules n with
      | none =>
        simp only []
        rw [ih reg hns]
        by_cases hx : name ∈ ns
        · rw [if_pos hx, if_pos (hmem.mpr hx)]
        · rw [if_neg hx, if_neg (fun h => hx (hmem.mp h))]
      | some r =>
        simp only []
        rw [ih _ hns]
        by_cases hx : name ∈ ns
        · rw [if_pos hx, if_pos (hmem.mpr hx)]
          cases hr2 : mapGet rules name with
          | none => simp only []; exact upsertRule_ne reg n name r he
          | some r2 =>
            simp only []
            exact upsertRule_congr _ _ name r2 (upsertRule_ne reg n name r he)
        · rw [if_neg hx, if_neg (fun h => hx (hmem.mp h))]
          exact upsertRule_ne reg n name r he

theorem MergeRules_registry (enum : List (List Nat × Rule) → List (List Nat × Rule))
    (cfg cfg1 : Cfg) (rules : List (List Nat × Rule))
    (h : MergeRules enum cfg rules = MergeOutcome.ok cfg1) :
    cfg1.Rules = upsertRules rules (OrderedMapKeys rules) cfg.Rules := by
  unfold MergeRules at h
  cases hc : checkRules rules with
  | none => rw [hc] at h; cases h
  | some v =>
    rw [hc] at h
    cases v with
    | some key => cases h
    | none =>
      simp only [] at h
      cases ht : ConstructTrie (enum (upsertRules rules (OrderedMapKeys rules) cfg.Rules)) with
      | none => rw [ht] at h; cases h
      | some t =>
        rw [ht] at h
        simp only [MergeOutcome.ok.injEq] at h
        rw [← h]

/-- C14: the upsert policy. When `MergeRules` succeeds on a map of rules (a Go
map: the names are distinct), a rule `r` of the map whose name is in the
registry with the stored rule `t` leaves there a rule with the description of
`r` if that is not empty and of `t` otherwise, the redactor of `r` if that is
not nil and of `t` otherwise, the window length of `r` if that is positive and
of `t` otherwise, and as keys the keys of `t` together with the lower-cased
keys of `r`; the rules of the registry under names that the map does not hold
stay as they are. -/
theorem C14_upsert_policy (enum : List (List Nat × Rule) → List (List Nat × Rule))
    (cfg cfg1 : Cfg) (rules : List (List Nat × Rule))
    (hnd : (rules.map Prod.fst).Nodup)
    (hm : MergeRules enum cfg rules = MergeOutcome.ok cfg1) :
    (∀ name r t, mapGet rules name = some r → mapGet cfg.Rules name = some t →
      ∃ t1, mapGet cfg1.Rules name = some t1 ∧
        t1.Desc = (if r.Desc ≠ [] then r.Desc else t.Desc) ∧
        t1.Masker = (if r.Masker.isSome then r.Masker else t.Masker) ∧
        t1.Length = (if r.Length > 0 then r.Length else t.Length) ∧
        ∀ k, k ∈ t1.Keys ↔ (k ∈ t.Keys ∨ k ∈ r.Keys.map toLower)) ∧
    (∀ name, mapGet rules name = none → mapGet cfg1.Rules name = mapGet cfg.Rules name) := by
  have hreg := MergeRules_registry enum cfg cfg1 rules hm
  have hndk : (OrderedMapKeys rules).Nodup := by
    unfold OrderedMapKeys
    exact (List.perm_insertionSort _ _).nodup_iff.mpr hnd
  have hget := fun name => upsertRules_get rules name (OrderedMapKeys rules) cfg.Rules hndk
  constructor
  · intro name r t hr ht
    have hmem : name ∈ OrderedMapKeys rules := by
      rw [mem_OrderedMapKeys]
      by_contra hx
      rw [(mapGet_none_iff rules name).mpr hx] at hr
      cases hr
    rw [hreg, hget name, if_pos hmem, hr]
    simp only []
    unfold upsertRule
    rw [ht]
    simp only []
    rw [mapGet_mapSet_self]
    refine ⟨_, rfl, rfl, rfl, rfl, ?_⟩
    intro k
    simp only []
    by_cases hk : r.Keys.length > 0
    · rw [if_pos hk]; exact mem_mergeKeys t.Keys r.Keys k
    · rw [if_neg hk]
      have : r.Keys = [] := List.length_eq_zero.mp (by omega)
      rw [this]
      simp
  · intro name hr
    rw [hreg, hget name, hr]
    simp only []
    split_ifs <;> rfl

set_option maxRecDepth 100000 in
/-- Witness of C14: the rule `phone` of the test configuration updated with a
new description and the key `Cell2`, without redactor and window length. -/
theorem C14_upsert_policy_witness :
    (mapGet updatedCfg.Rules (ascii "phone")).map
        (fun r => (r.Desc, r.Length, r.Masker.isSome, decide (ascii "cell2" ∈ r.Keys),
          decide (ascii "cell" ∈ r.Keys), r.Keys.length)) =
      some (ascii "mobile number", 30, true, true, true, 15) ∧
    ((∀ name r t, mapGet updateRules name = some r → mapGet testCfg.Rules name = some t →
      ∃ t1, mapGet updatedCfg.Rules name = some t1 ∧
        t1.Desc = (if r.Desc ≠ [] then r.Desc else t.Desc) ∧
        t1.Masker = (if r.Masker.isSome then r.Masker else t.Masker) ∧
        t1.Length = (if r.Length > 0 then r.Length else t.Length) ∧
        ∀ k, k ∈ t1.Keys ↔ (k ∈ t.Keys ∨ k ∈ r.Keys.map toLower)) ∧
    (∀ name, mapGet updateRules name = none →
      mapGet updatedCfg.Rules name = mapGet testCfg.Rules name)) :=
  ⟨by decide, C14_upsert_policy id testCfg updatedCfg updateRules (by decide) rfl⟩

/-! ## The redactors: common lemmas -/

theorem getD_of_getElem? (t : List Nat) (i c : Nat) (h : t[i]? = some c) : t.getD i 0 = c := by
  rw [List.getD_eq_getElem?_getD, h]; rfl

theorem getElem?_of_lt (t : List Nat) (i : Nat) (h : i < t.length) :
    t[i]? = some (t.getD i 0) := by
  rw [List.getD_eq_getElem?_getD, List.getElem?_eq_getElem h]; rfl

theorem phoneTable_digit (c : Nat) : phoneMaskerTable c = 1 ↔ IsDigit c := by
  unfold phoneMaskerTable IsDigit
  constructor
  · intro h
    split_ifs at h with h1
    · exact h1
    all_goals omega
  · intro h
    rw [if_pos h]

theorem idTable_digit (c : Nat) : idMaskerTable c = 1 ↔ IsDigit c := by
  unfold idMaskerTable IsDigit
  constructor
  · intro h
    split_ifs at h with h1
    · exact h1
    all_goals omega
  · intro h
    rw [if_pos h]

/-- The inner loop of the redactors stays inside the window and stops at the
first byte that is not a digit. -/
theorem digitLoop_spec (table : Nat → Nat) (t : List Nat) :
    ∀ (k i : Nat), i + k ≤ t.length →
      ∃ j flag, digitLoop table t k i = some (j, flag) ∧
        (flag = true → j = i + k ∧ ∀ x, i ≤ x → x < i + k → table (t.getD x 0) = 1) ∧
        (flag = false → i ≤ j ∧ j < i + k ∧ table (t.getD j 0) ≠ 1) := by
  intro k
  induction k with
  | zero =>
    intro i _
    exact ⟨i, true, rfl, fun _ => ⟨rfl, fun x h1 h2 => (by omega)⟩, fun h => (by cases h)⟩
  | succ k ih =>
    intro i hi
    rw [digitLoop, getElem?_of_lt t i (by omega)]
    simp only []
    by_cases hc : table (t.getD i 0) ≠ 1
    · rw [if_pos hc]
      exact ⟨i, false, rfl, fun h => (by cases h), fun _ => ⟨le_refl _, by omega, hc⟩⟩
    · rw [if_neg hc]
      obtain ⟨j, flag, a1, a2, a3⟩ := ih (i + 1) (by omega)
      refine ⟨j, flag, a1, ?_, ?_⟩
      · intro hf
        obtain ⟨b1, b2⟩ := a2 hf
        refine ⟨by omega, ?_⟩
        intro x h1 h2
        by_cases hx : x = i
        · rw [hx]; exact not_not.mp hc
        · exact b2 x (by omega) (by omega)
      · intro hf
        obtain ⟨b1, b2, b3⟩ := a3 hf
        exact ⟨by omega, by omega, b3⟩

theorem digitLoop_true (table : Nat → Nat) (t : List Nat) (k i : Nat) (hi : i + k ≤ t.length)
    (hd : ∀ x, i ≤ x → x < i + k → table (t.getD x 0) = 1) :
    digitLoop table t k i = some (i + k, true) := by
  obtain ⟨j, flag, a1, a2, a3⟩ := digitLoop_spec table t k i hi
  cases flag with
  | true => rw [a1, (a2 rfl).1]
  | false =>
    obtain ⟨b1, b2, b3⟩ := a3 rfl
    exact absurd (hd j b1 b2) b3

theorem copyAt_eq (t : List Nat) (s : Nat) (src : List Nat) (off : Int) (ho : off = (s : Int))
    (hs : s ≤ t.length) : copyAt t off src = some (overlay t s (s + src.length) src) := by
  unfold copyAt
  rw [ho, if_pos ⟨Int.natCast_nonneg _, Int.ofNat_le.mpr hs⟩, Int.toNat_ofNat]

theorem overlay_inside (b : List Nat) (lo hi : Nat) (w : List Nat) (i : Nat) (h1 : lo ≤ i)
    (h2 : i < hi) (h3 : i < b.length) :
    (overlay b lo hi w).getD i 0 = w.getD (i - lo) (b.getD i 0) := by
  unfold overlay
  rw [List.getD_eq_getElem?_getD, List.getElem?_mapIdx, List.getElem?_eq_getElem h3]
  simp only [Option.map_some', Option.getD_some, if_pos (And.intro h1 h2)]
  rw [List.getD_eq_getElem?_getD b, List.getElem?_eq_getElem h3]
  rfl

/-- Stars written over digits. -/
theorem maskedAt_overlay (t : List Nat) (s k : Nat) (stars : List Nat) (hk : stars.length = k)
    (hstar : ∀ c ∈ stars, c = 42) (hs : s + k ≤ t.length)
    (hd : ∀ j, s ≤ j → j < s + k → IsDigit (t.getD j 0)) :
    MaskedAt t (overlay t s (s + stars.length) stars) s k := by
  refine ⟨hs, overlay_length _ _ _ _, ?_, ?_⟩
  · intro j h1 h2
    refine ⟨hd j h1 h2, ?_⟩
    rw [overlay_inside t s _ stars j h1 (by omega) (by omega)]
    have hlt : j - s < stars.length := by omega
    rw [List.getD_eq_getElem?_getD, List.getElem?_eq_getElem hlt]
    exact hstar _ (List.getElem_mem hlt)
  · intro j hj
    rw [hk]
    exact overlay_outside t s (s + k) stars j hj

/-! ## `SimplePhoneMasker`: claims C16 and C17 -/

/-- An iteration of `SimplePhoneMasker` that starts on ten digits with one more
byte behind them writes the four stars and returns. -/
theorem phoneLoop_hit (t : List Nat) (fuel i : Nat) (hlen : i + 11 ≤ t.length)
    (hd : ∀ x, i ≤ x → x < i + 10 → IsDigit (t.getD x 0)) :
    phoneLoop t (fuel + 1) i = some (overlay t (i + 3) (i + 3 + 4) (ascii "****")) := by
  rw [phoneLoop, if_neg (by omega), if_neg (by omega), getElem?_of_lt t i (by omega)]
  simp only []
  have h1 : phoneMaskerTable (t.getD i 0) = 1 :=
    (phoneTable_digit _).mpr (hd i (le_refl _) (by omega))
  rw [if_neg (by omega), if_neg (by omega), if_neg (by omega)]
  rw [digitLoop_true phoneMaskerTable t (i + 10 - (i + 1)) (i + 1) (by omega)
    (fun x a b => (phoneTable_digit _).mpr (hd x (by omega) (by omega)))]
  simp only []
  exact copyAt_eq t (i + 3) (ascii "****") _ (by push_cast; omega) (by omega)

/-- The loop of `SimplePhoneMasker` returns, and what it returns is the window
itself or the window with four digits overwritten. -/
theorem phoneLoop_total (t : List Nat) :
    ∀ (fuel i : Nat), 1 ≤ fuel → t.length + 1 ≤ fuel + i →
      ∃ t2, phoneLoop t fuel i = some t2 ∧ (t2 = t ∨ ∃ s, MaskedAt t t2 s 4) := by
  intro fuel
  induction fuel with
  | zero => intro i h; omega
  | succ fuel ih =>
    intro i _ hf
    rw [phoneLoop]
    by_cases h1 : ¬ i < t.length
    · rw [if_pos h1]; exact ⟨t, rfl, Or.inl rfl⟩
    · rw [if_neg h1]
      by_cases h2 : (t.length : Int) - (i : Int) < 11
      · rw [if_pos h2]; exact ⟨t, rfl, Or.inl rfl⟩
      · rw [if_neg h2, getElem?_of_lt t i (by omega)]
        simp only []
        have hrec : ∀ i2, i + 1 ≤ i2 →
            ∃ t2, phoneLoop t fuel i2 = some t2 ∧ (t2 = t ∨ ∃ s, MaskedAt t t2 s 4) :=
          fun i2 hi2 => ih i2 (by omega) (by omega)
        by_cases c0 : phoneMaskerTable (t.getD i 0) = 0
        · rw [if_pos c0]; exact hrec _ (by omega)
        · rw [if_neg c0]
          by_cases c2 : phoneMaskerTable (t.getD i 0) = 2
          · rw [if_pos c2]; exact hrec _ (by omega)
          · rw [if_neg c2]
            by_cases c3 : phoneMaskerTable (t.getD i 0) = 3
            · rw [if_pos c3]; exact hrec _ (by omega)
            · rw [if_neg c3]
              obtain ⟨j, flag, a1, a2, a3⟩ :=
                digitLoop_spec phoneMaskerTable t (i + 10 - (i + 1)) (i + 1) (by omega)
              rw [a1]
              cases flag with
              | false =>
                simp only []
                obtain ⟨b1, _, _⟩ := a3 rfl
                exact hrec _ (by omega)
              | true =>
                simp only []
                obtain ⟨b1, b2⟩ := a2 rfl
                rw [copyAt_eq t (i + 3) (ascii "****") _ (by rw [b1]; push_cast; omega)
                  (by omega)]
                refine ⟨_, rfl, Or.inr ⟨i + 3, ?_⟩⟩
                exact maskedAt_overlay t (i + 3) 4 (ascii "****") rfl (by decide) (by omega)
                  (fun x x1 x2 => (phoneTable_digit _).mp (b2 x (by omega) (by omega)))

/-- C16: for every window that begins with 11 ASCII digits (`d = 0`), or with
a 3-byte prefix whose first byte is `+` or `%` followed by 11 ASCII digits
(`d = 3`), `SimplePhoneMasker` returns the window with the four bytes at the
offsets 3 to 6 of the digit run overwritten with `*` and every other byte
unchanged. -/
theorem C16_phone_masks_eleven_digits (t : List Nat) (d : Nat)
    (hd : d = 0 ∨ (d = 3 ∧ (t.getD 0 0 = 43 ∨ t.getD 0 0 = 37)))
    (hlen : d + 11 ≤ t.length)
    (hdig : ∀ j, j < 11 → IsDigit (t.getD (d + j) 0)) :
    ∃ t2, SimplePhoneMasker t = some t2 ∧ t2.length = t.length ∧
      ∀ j, t2.getD j 0 = if d + 3 ≤ j ∧ j < d + 7 then 42 else t.getD j 0 := by
  have hrun : ∀ x, d ≤ x → x < d + 10 → IsDigit (t.getD x 0) := by
    intro x h1 h2
    have := hdig (x - d) (by omega)
    rw [show d + (x - d) = x by omega] at this
    exact this
  have hhit : SimplePhoneMasker t = some (overlay t (d + 3) (d + 3 + 4) (ascii "****")) := by
    unfold SimplePhoneMasker
    rcases hd with h0 | ⟨h3, hp⟩
    · rw [h0] at hlen hrun ⊢
      exact phoneLoop_hit t t.length 0 hlen hrun
    · rw [h3] at hlen hrun ⊢
      rw [phoneLoop, if_neg (by omega), if_neg (by omega), getElem?_of_lt t 0 (by omega)]
      simp only []
      have hfuel : t.length = (t.length - 1) + 1 := by omega
      rcases hp with hp | hp
      · rw [hp, if_neg (by decide), if_pos (by decide), hfuel]
        exact phoneLoop_hit t (t.length - 1) 3 (by omega) hrun
      · rw [hp, if_neg (by decide), if_neg (by decide), if_pos (by decide), hfuel]
        exact phoneLoop_hit t (t.length - 1) 3 (by omega) hrun
  obtain ⟨_, m2, m3, m4⟩ := maskedAt_overlay t (d + 3) 4 (ascii "****") rfl (by decide)
    (by omega) (fun x x1 x2 => hrun x (by omega) (by omega))
  refine ⟨_, hhit, m2, ?_⟩
  intro j
  by_cases hj : d + 3 ≤ j ∧ j < d + 7
  · rw [if_pos hj]; exact (m3 j hj.1 (by omega)).2
  · rw [if_neg hj]; exact m4 j (by omega)

/-- Witness of C16: `+8612345678901a` becomes `+86123****8901a`. -/
theorem C16_phone_masks_eleven_digits_witness :
    SimplePhoneMasker (ascii "+8612345678901a") = some (ascii "+86123****8901a") ∧
    ∃ t2, SimplePhoneMasker (ascii "+8612345678901a") = some t2 ∧
      t2.length = (ascii "+8612345678901a").length ∧
      ∀ j, t2.getD j 0 =
        if 3 + 3 ≤ j ∧ j < 3 + 7 then 42 else (ascii "+8612345678901a").getD j 0 :=
  ⟨by decide, C16_phone_masks_eleven_digits (ascii "+8612345678901a") 3
    (Or.inr ⟨rfl, Or.inl (by decide)⟩) (by decide) (by decide)⟩

/-- C17 fails in the code: the window `1234567890a` holds no run of 11 digits,
and `SimplePhoneMasker` changes it to `123****890a`. The loop that follows the
first digit runs up to `l = i + 10` and so checks nine more digits, ten in all;
the eleventh byte only has to be there. -/
theorem C17_ten_digits_masked :
    ¬ HasDigitRun (ascii "1234567890a") 11 ∧
    SimplePhoneMasker (ascii "1234567890a") = some (ascii "123****890a") ∧
    ascii "123****890a" ≠ ascii "1234567890a" :=
  ⟨by decide, by decide, by decide⟩

/-! ## `SimpleIdMasker`: claims C18 and C19 -/

theorem idTable_x (c : Nat) : idMaskerTable c = 2 ↔ (c = 120 ∨ c = 88) := by
  unfold idMaskerTable
  constructor
  · intro h
    split_ifs at h
    all_goals first | assumption | omega
  · intro h
    rw [if_neg (by omega), if_pos h]

/-- The end of an iteration of `SimpleIdMasker` after 15 digits, the window
reaching at least that far: eight stars when two more digits and then a digit
or `x`/`X` follow, five stars otherwise, always from offset 6 of the run. -/
theorem idTail16_eq (t : List Nat) (s : Nat) (hs : s + 15 ≤ t.length) :
    idTail16 t (s + 15) =
      if s + 17 < t.length ∧ IsDigit (t.getD (s + 15) 0) ∧ IsDigit (t.getD (s + 16) 0) ∧
          (idMaskerTable (t.getD (s + 17) 0) = 1 ∨ idMaskerTable (t.getD (s + 17) 0) = 2) then
        some (overlay t (s + 6) (s + 6 + 8) (ascii "********"))
      else some (overlay t (s + 6) (s + 6 + 5) (ascii "*****")) := by
  have c5 : ∀ (i : Nat) (off : Int), off = ((s + 6 : Nat) : Int) →
      copyAt t off (ascii "*****") = some (overlay t (s + 6) (s + 6 + 5) (ascii "*****")) :=
    fun i off ho => copyAt_eq t (s + 6) (ascii "*****") off ho (by omega)
  have c8 : ∀ (off : Int), off = ((s + 6 : Nat) : Int) →
      copyAt t off (ascii "********") =
        some (overlay t (s + 6) (s + 6 + 8) (ascii "********")) :=
    fun off ho => copyAt_eq t (s + 6) (ascii "********") off ho (by omega)
  unfold idTail16
  by_cases h15 : s + 15 < t.length
  · rw [if_pos h15, getElem?_of_lt t _ h15]
    simp only []
    by_cases d15 : idMaskerTable (t.getD (s + 15) 0) ≠ 1
    · rw [if_pos d15, if_neg (fun h => d15 ((idTable_digit _).mpr h.2.1))]
      exact c5 0 _ (by push_cast; omega)
    · rw [if_neg d15]
      unfold idTail17
      by_cases h16 : s + 15 + 1 < t.length
      · rw [if_pos h16, getElem?_of_lt t _ h16]
        simp only []
        by_cases d16 : idMaskerTable (t.getD (s + 15 + 1) 0) ≠ 1
        · rw [if_pos d16, if_neg (fun h => d16 ((idTable_digit _).mpr h.2.2.1))]
          exact c5 0 _ (by push_cast; omega)
        · rw [if_neg d16]
          unfold idTail18
          by_cases h17 : s + 15 + 1 + 1 < t.length
          · rw [if_pos h17, getElem?_of_lt t _ h17]
            simp only []
            by_cases d17 : idMaskerTable (t.getD (s + 15 + 1 + 1) 0) = 1 ∨
                idMaskerTable (t.getD (s + 15 + 1 + 1) 0) = 2
            · rw [if_pos d17, if_pos ⟨h17, (idTable_digit _).mp (not_not.mp d15),
                (idTable_digit _).mp (not_not.mp d16), d17⟩]
              exact c8 _ (by push_cast; omega)
            · rw [if_neg d17, if_neg (fun h => d17 h.2.2.2)]
              exact c5 0 _ (by push_cast; omega)
          · rw [if_neg h17, if_neg (fun h => h17 h.1)]
            exact c5 0 _ (by push_cast; omega)
      · rw [if_neg h16, if_neg (fun h => h16 (by omega))]
        exact c5 0 _ (by push_cast; omega)
  · rw [if_neg h15, if_neg (fun h => h15 (by omega))]
    exact c5 0 _ (by push_cast; omega)

/-- An iteration of `SimpleIdMasker` that starts on 14 digits with one more
byte behind them. -/
theorem idLoop_run14 (t : List Nat) (fuel s : Nat) (hlen : s + 15 ≤ t.length)
    (hd : ∀ x, s ≤ x → x < s + 14 → IsDigit (t.getD x 0)) :
    idLoop t (fuel + 1) s =
      if idMaskerTable (t.getD (s + 14) 0) = 2 then
        some (overlay t (s + 6) (s + 6 + 5) (ascii "*****"))
      else if idMaskerTable (t.getD (s + 14) 0) = 1 then idTail16 t (s + 15)
      else idLoop t fuel (s + 15) := by
  rw [idLoop, if_neg (by omega), if_neg (by omega), getElem?_of_lt t s (by omega)]
  simp only []
  have h1 : idMaskerTable (t.getD s 0) = 1 := (idTable_digit _).mpr (hd s (le_refl _) (by omega))
  rw [if_neg (by omega), if_neg (by omega)]
  rw [digitLoop_true idMaskerTable t (s + 14 - (s + 1)) (s + 1) (by omega)
    (fun x a b => (idTable_digit _).mpr (hd x (by omega) (by omega)))]
  simp only []
  rw [show s + 1 + (s + 14 - (s + 1)) = s + 14 by omega, getElem?_of_lt t _ (by omega)]
  simp only []
  by_cases c2 : idMaskerTable (t.getD (s + 14) 0) = 2
  · rw [if_pos c2, if_pos c2]
    exact copyAt_eq t (s + 6) (ascii "*****") _ (by push_cast; omega) (by omega)
  · rw [if_neg c2, if_neg c2]

/-- The optional prefix of three bytes that starts with `%`: the loop of
`SimpleIdMasker` skips it. -/
theorem idMasker_start (t : List Nat) (d : Nat) (hd : d = 0 ∨ (d = 3 ∧ t.getD 0 0 = 37))
    (hlen : d + 15 ≤ t.length) :
    ∃ fuel, SimpleIdMasker t = idLoop t (fuel + 1) d := by
  unfold SimpleIdMasker
  rcases hd with h0 | ⟨h3, hp⟩
  · exact ⟨t.length, by rw [h0]⟩
  · refine ⟨t.length - 1, ?_⟩
    rw [h3] at hlen ⊢
    rw [idLoop, if_neg (by omega), if_neg (by omega), getElem?_of_lt t 0 (by omega)]
    simp only []
    rw [hp, if_neg (by decide), if_pos (by decide)]
    have hfuel : t.length = (t.length - 1) + 1 := by omega
    rw [← hfuel]

theorem stars_pointwise (t : List Nat) (s k : Nat) (stars : List Nat) (hk : stars.length = k)
    (hstar : ∀ c ∈ stars, c = 42) (hs : s + k ≤ t.length) :
    (overlay t s (s + stars.length) stars).length = t.length ∧
    ∀ j, (overlay t s (s + stars.length) stars).getD j 0 =
      if s ≤ j ∧ j < s + k then 42 else t.getD j 0 := by
  refine ⟨overlay_length _ _ _ _, ?_⟩
  intro j
  by_cases hj : s ≤ j ∧ j < s + k
  · rw [if_pos hj, overlay_inside t s _ stars j hj.1 (by omega) (by omega)]
    have hlt : j - s < stars.length := by omega
    rw [List.getD_eq_getElem?_getD, List.getElem?_eq_getElem hlt]
    exact hstar _ (List.getElem_mem hlt)
  · rw [if_neg hj]
    exact overlay_outside t s _ stars j (by rw [hk]; exact hj)

/-- C18: 15-character IDs. For every window that begins (`d = 0`), or begins
after a 3-byte prefix starting with `%` (`d = 3`), either with 14 ASCII digits
followed by `x` or `X` (`r = 14`), or with a run of `r` = 15, 16 or 17 ASCII
digits that is followed by the end of the window or by a byte that is not a
digit and, for `r = 17`, not `x` or `X`: `SimpleIdMasker` returns the window
with the offsets 6 to 10 of the run overwritten with `*` and nothing else
changed. -/
theorem C18_id_masks_fifteen (t : List Nat) (d r : Nat)
    (hd : d = 0 ∨ (d = 3 ∧ t.getD 0 0 = 37))
    (hdig : ∀ j, j < r → IsDigit (t.getD (d + j) 0))
    (hshape : (r = 14 ∧ d + 14 < t.length ∧ (t.getD (d + 14) 0 = 120 ∨ t.getD (d + 14) 0 = 88)) ∨
      ((r = 15 ∨ r = 16 ∨ r = 17) ∧ d + r ≤ t.length ∧
        (d + r = t.length ∨
          (¬ IsDigit (t.getD (d + r) 0) ∧
            (r = 17 → ¬ (t.getD (d + r) 0 = 120 ∨ t.getD (d + r) 0 = 88)))))) :
    ∃ t2, SimpleIdMasker t = some t2 ∧ t2.length = t.length ∧
      ∀ j, t2.getD j 0 = if d + 6 ≤ j ∧ j < d + 6 + 5 then 42 else t.getD j 0 := by
  have hr14 : 14 ≤ r := by omega
  have hl15 : d + 15 ≤ t.length := by omega
  have hrun : ∀ x, d ≤ x → x < d + r → IsDigit (t.getD x 0) := by
    intro x h1 h2
    have := hdig (x - d) (by omega)
    rw [show d + (x - d) = x by omega] at this
    exact this
  obtain ⟨fuel, hstart⟩ := idMasker_start t d hd hl15
  have hres : SimpleIdMasker t = some (overlay t (d + 6) (d + 6 + 5) (ascii "*****")) := by
    rw [hstart, idLoop_run14 t fuel d hl15 (fun x a b => hrun x a (by omega))]
    rcases hshape with ⟨h14, _, hx⟩ | ⟨hr, hlen, hend⟩
    · rw [if_pos ((idTable_x _).mpr hx)]
    · have d14 : idMaskerTable (t.getD (d + 14) 0) = 1 :=
        (idTable_digit _).mpr (hrun _ (by omega) (by omega))
      rw [if_neg (by omega), if_pos d14, idTail16_eq t d hl15]
      apply if_neg
      rintro ⟨c1, c2, c3, c4⟩
      rcases hend with he | ⟨he1, he2⟩
      · omega
      · rcases hr with hr | hr | hr
        · rw [hr] at he1; exact he1 c2
        · rw [hr] at he1; exact he1 c3
        · rw [hr] at he1 he2
          rcases c4 with c4 | c4
          · exact he1 ((idTable_digit _).mp c4)
          · exact he2 rfl ((idTable_x _).mp c4)
  obtain ⟨p1, p2⟩ := stars_pointwise t (d + 6) 5 (ascii "*****") rfl (by decide) (by omega)
  exact ⟨_, hres, p1, p2⟩

/-- Witness of C18: `12345678901234503`, a run of 17 digits up to the end of
the window, becomes `123456*****234503`. -/
theorem C18_id_masks_fifteen_witness :
    SimpleIdMasker (ascii "12345678901234503") = some (ascii "123456*****234503") ∧
    ∃ t2, SimpleIdMasker (ascii "12345678901234503") = some t2 ∧
      t2.length = (ascii "12345678901234503").length ∧
      ∀ j, t2.getD j 0 =
        if 0 + 6 ≤ j ∧ j < 0 + 6 + 5 then 42 else (ascii "12345678901234503").getD j 0 :=
  ⟨by decide, C18_id_masks_fifteen (ascii "12345678901234503") 0 17 (Or.inl rfl) (by decide)
    (Or.inr ⟨Or.inr (Or.inr rfl), by decide, Or.inl (by decide)⟩)⟩

/-- C19: 18-character IDs. For every window that begins (`d = 0`), or begins
after a 3-byte prefix starting with `%` (`d = 3`), with 17 ASCII digits
followed by a digit or by `x` or `X`: `SimpleIdMasker` returns the window with
the offsets 6 to 13 of the run overwritten with `*` and nothing else
changed. -/
theorem C19_id_masks_eighteen (t : List Nat) (d : Nat)
    (hd : d = 0 ∨ (d = 3 ∧ t.getD 0 0 = 37))
    (hdig : ∀ j, j < 17 → IsDigit (t.getD (d + j) 0))
    (hlen : d + 17 < t.length)
    (hlast : IsDigit (t.getD (d + 17) 0) ∨ t.getD (d + 17) 0 = 120 ∨ t.getD (d + 17) 0 = 88) :
    ∃ t2, SimpleIdMasker t = some t2 ∧ t2.length = t.length ∧
      ∀ j, t2.getD j 0 = if d + 6 ≤ j ∧ j < d + 6 + 8 then 42 else t.getD j 0 := by
  have hl15 : d + 15 ≤ t.length := by omega
  have hrun : ∀ x, d ≤ x → x < d + 17 → IsDigit (t.getD x 0) := by
    intro x h1 h2
    have := hdig (x - d) (by omega)
    rw [show d + (x - d) = x by omega] at this
    exact this
  obtain ⟨fuel, hstart⟩ := idMasker_start t d hd hl15
  have hres : SimpleIdMasker t = some (overlay t (d + 6) (d + 6 + 8) (ascii "********")) := by
    rw [hstart, idLoop_run14 t fuel d hl15 (fun x a b => hrun x a (by omega))]
    have d14 : idMaskerTable (t.getD (d + 14) 0) = 1 :=
      (idTable_digit _).mpr (hrun _ (by omega) (by omega))
    rw [if_neg (by omega), if_pos d14, idTail16_eq t d hl15]
    apply if_pos
    refine ⟨hlen, hrun _ (by omega) (by omega), hrun _ (by omega) (by omega), ?_⟩
    rcases hlast with h | h
    · exact Or.inl ((idTable_digit _).mpr h)
    · exact Or.inr ((idTable_x _).mpr h)
  obtain ⟨p1, p2⟩ := stars_pointwise t (d + 6) 8 (ascii "********") rfl (by decide) (by omega)
  exact ⟨_, hres, p1, p2⟩

/-- Witness of C19: `%22123456789012345678` becomes `%22123456********5678`. -/
theorem C19_id_masks_eighteen_witness :
    SimpleIdMasker (ascii "%22123456789012345678") = some (ascii "%22123456********5678") ∧
    ∃ t2, SimpleIdMasker (ascii "%22123456789012345678") = some t2 ∧
      t2.length = (ascii "%22123456789012345678").length ∧
      ∀ j, t2.getD j 0 =
        if 3 + 6 ≤ j ∧ j < 3 + 6 + 8 then 42 else (ascii "%22123456789012345678").getD j 0 :=
  ⟨by decide, C19_id_masks_eighteen (ascii "%22123456789012345678") 3
    (Or.inr ⟨rfl, by decide⟩) (by decide) (by decide) (Or.inl (by decide))⟩

/-! ## Claim C20: the redactors are total and overwrite digits only -/

theorem idTail16_total (t : List Nat) (s : Nat) (hs : s + 15 ≤ t.length)
    (hd : ∀ x, s ≤ x → x < s + 14 → IsDigit (t.getD x 0)) :
    ∃ t2, idTail16 t (s + 15) = some t2 ∧
      (MaskedAt t t2 (s + 6) 5 ∨ MaskedAt t t2 (s + 6) 8) := by
  rw [idTail16_eq t s hs]
  split
  · exact ⟨_, rfl, Or.inr (maskedAt_overlay t (s + 6) 8 (ascii "********") rfl (by decide)
      (by omega) (fun x x1 x2 => hd x (by omega) (by omega)))⟩
  · exact ⟨_, rfl, Or.inl (maskedAt_overlay t (s + 6) 5 (ascii "*****") rfl (by decide)
      (by omega) (fun x x1 x2 => hd x (by omega) (by omega)))⟩

/-- The loop of `SimpleIdMasker` returns, and what it returns is the window
itself or the window with five or eight digits overwritten. -/
theorem idLoop_total (t : List Nat) :
    ∀ (fuel i : Nat), 1 ≤ fuel → t.length + 1 ≤ fuel + i →
      ∃ t2, idLoop t fuel i = some t2 ∧
        (t2 = t ∨ ∃ s, MaskedAt t t2 s 5 ∨ MaskedAt t t2 s 8) := by
  intro fuel
  induction fuel with
  | zero => intro i h; omega
  | succ fuel ih =>
    intro i _ hf
    by_cases h1 : ¬ i < t.length
    · rw [idLoop, if_pos h1]; exact ⟨t, rfl, Or.inl rfl⟩
    · by_cases h2 : (t.length : Int) - (i : Int) < 15
      · rw [idLoop, if_neg h1, if_pos h2]; exact ⟨t, rfl, Or.inl rfl⟩
      · have hrec : ∀ i2, i + 1 ≤ i2 →
            ∃ t2, idLoop t fuel i2 = some t2 ∧
              (t2 = t ∨ ∃ s, MaskedAt t t2 s 5 ∨ MaskedAt t t2 s 8) :=
          fun i2 hi2 => ih i2 (by omega) (by omega)
        by_cases c1 : idMaskerTable (t.getD i 0) = 1
        · obtain ⟨j, flag, a1, a2, a3⟩ :=
            digitLoop_spec idMaskerTable t (i + 14 - (i + 1)) (i + 1) (by omega)
          cases flag with
          | false =>
            rw [idLoop, if_neg h1, if_neg h2, getElem?_of_lt t i (by omega)]
            simp only []
            rw [if_neg (by omega), if_neg (by omega), a1]
            simp only []
            obtain ⟨b1, _, _⟩ := a3 rfl
            exact hrec _ (by omega)
          | true =>
            obtain ⟨b1, b2⟩ := a2 rfl
            have hd : ∀ x, i ≤ x → x < i + 14 → IsDigit (t.getD x 0) := by
              intro x x1 x2
              by_cases hx : x = i
              · rw [hx]; exact (idTable_digit _).mp c1
              · exact (idTable_digit _).mp (b2 x (by omega) (by omega))
            rw [idLoop_run14 t fuel i (by omega) hd]
            by_cases c2 : idMaskerTable (t.getD (i + 14) 0) = 2
            · rw [if_pos c2]
              exact ⟨_, rfl, Or.inr ⟨i + 6, Or.inl (maskedAt_overlay t (i + 6) 5
                (ascii "*****") rfl (by decide) (by omega)
                (fun x x1 x2 => hd x (by omega) (by omega)))⟩⟩
            · rw [if_neg c2]
              by_cases c3 : idMaskerTable (t.getD (i + 14) 0) = 1
              · rw [if_pos c3]
                obtain ⟨t2, e1, e2⟩ := idTail16_total t i (by omega) hd
                exact ⟨t2, e1, Or.inr ⟨i + 6, e2⟩⟩
              · rw [if_neg c3]
                exact hrec _ (by omega)
        · rw [idLoop, if_neg h1, if_neg h2, getElem?_of_lt t i (by omega)]
          simp only []
          by_cases c0 : idMaskerTable (t.getD i 0) = 0 ∨ idMaskerTable (t.getD i 0) = 2
          · rw [if_pos c0]; exact hrec _ (by omega)
          · rw [if_neg c0]
            have c3 : idMaskerTable (t.getD i 0) = 3 := by
              have : idMaskerTable (t.getD i 0) ≤ 3 := by
                unfold idMaskerTable; split_ifs <;> omega
              omega
            rw [if_pos c3]; exact hrec _ (by omega)

/-- C20: the built-in redactors are total and digit-only. For every window,
`SimplePhoneMasker` and `SimpleIdMasker` return (no index leaves the window),
the window they return has the length of the one they got, and it is either
the same window or differs from it on one range of bytes (4 bytes for the
phone redactor, 5 or 8 for the ID redactor) that were all ASCII digits and are
all `*` afterwards. -/
theorem C20_redactors_total (t : List Nat) :
    (∃ t2, SimplePhoneMasker t = some t2 ∧ t2.length = t.length ∧
      (t2 = t ∨ ∃ s, MaskedAt t t2 s 4)) ∧
    (∃ t2, SimpleIdMasker t = some t2 ∧ t2.length = t.length ∧
      (t2 = t ∨ ∃ s, MaskedAt t t2 s 5 ∨ MaskedAt t t2 s 8)) := by
  constructor
  · obtain ⟨t2, a1, a2⟩ := phoneLoop_total t (t.length + 1) 0 (by omega) (by omega)
    refine ⟨t2, a1, ?_, a2⟩
    rcases a2 with h | ⟨s, h⟩
    · rw [h]
    · exact h.2.1
  · obtain ⟨t2, a1, a2⟩ := idLoop_total t (t.length + 1) 0 (by omega) (by omega)
    refine ⟨t2, a1, ?_, a2⟩
    rcases a2 with h | ⟨s, h | h⟩
    · rw [h]
    · exact h.2.1
    · exact h.2.1

/-! ## `DumpTrie`: the traversal -/

/-- The entries that `dumpTrie` visits at a node are the child links that
`getNextNode` follows. -/
theorem entries_iff (p : TrieNode) (hp : NodeRep p) (e : CharState) :
    e ∈ p.entries ↔ getNextNode p e.Char = some e.State := by
  rw [getNextNode_eq_some_iff p hp]
  unfold TrieNode.entries
  rw [List.mem_flatten]
  constructor
  · rintro ⟨l, hl, he⟩
    obtain ⟨s, hs, hls⟩ := List.getElem_of_mem hl
    have hs7 : s < SectionCount := by rw [← hp.1]; exact hs
    have hsec : p.sectionAt s = l := by
      unfold TrieNode.sectionAt
      rw [List.getD_eq_getElem?_getD, List.getElem?_eq_getElem hs, hls]
      rfl
    have hok := hp.2 s hs7
    rw [hsec] at hok
    obtain ⟨_, _, hres, _⟩ := hok.2.1 e he
    rw [hres, hsec]
    exact he
  · intro he
    refine ⟨_, ?_, he⟩
    unfold TrieNode.sectionAt
    have hlt : (charTable e.Char).toNat % SectionCount < p.Child.length := by
      rw [hp.1]; exact Nat.mod_lt _ (by decide)
    rw [List.getD_eq_getElem?_getD, List.getElem?_eq_getElem hlt]
    exact List.getElem_mem hlt

/-- A walk from the root is shorter than the number of nodes: the nodes it
passes have the depths 0, 1, 2, ... and so are all different. -/
theorem walk_length_lt {krMap nodes insAll insDone path birth}
    (h : TrieInv krMap nodes insAll insDone path birth) (w : List Nat) (k : Nat)
    (hw : walk nodes 0 w = some k) : w.length < nodes.length := by
  by_contra hc
  have hpre : ∀ j, j ≤ w.length → ∃ kj, walk nodes 0 (w.take j) = some kj ∧
      kj < nodes.length ∧ (nodeAt nodes kj).Depth = j := by
    intro j hj
    have hsplit : walk nodes 0 (w.take j ++ w.drop j) = some k := by
      rw [List.take_append_drop]; exact hw
    rw [walk_append] at hsplit
    cases hk : walk nodes 0 (w.take j) with
    | none => rw [hk] at hsplit; cases hsplit
    | some kj =>
      refine ⟨kj, rfl, (h.path_walk _ kj hk).1, ?_⟩
      rw [h.depth_walk _ kj hk, List.length_take]
      omega
  obtain ⟨x, hx, y, hy, hxy, hf⟩ :=
    Finset.exists_ne_map_eq_of_card_lt_of_maps_to
      (s := Finset.range (nodes.length + 1)) (t := Finset.range nodes.length)
      (f := fun j => (walk nodes 0 (w.take j)).getD 0)
      (by simp)
      (by
        intro j hj
        rw [Finset.mem_range] at hj ⊢
        obtain ⟨kj, a1, a2, _⟩ := hpre j (by omega)
        simp only [a1, Option.getD_some]
        exact a2)
  rw [Finset.mem_range] at hx hy
  obtain ⟨kx, a1, _, a3⟩ := hpre x (by omega)
  obtain ⟨ky, b1, _, b3⟩ := hpre y (by omega)
  simp only [a1, b1, Option.getD_some] at hf
  rw [hf] at a3
  exact hxy (by rw [← a3, b3])

theorem mapSet_nodup {β : Type} (m : List (List Nat × β)) (k : List Nat) (v : β)
    (h : (m.map Prod.fst).Nodup) : ((mapSet m k v).map Prod.fst).Nodup := by
  induction m with
  | nil => simp [mapSet]
  | cons a m ih =>
    obtain ⟨k1, v1⟩ := a
    simp only [List.map_cons, List.nodup_cons] at h
    simp only [mapSet]
    by_cases hk : k1 = k
    · rw [if_pos hk]
      simp only [List.map_cons, List.nodup_cons]
      rw [← hk]
      exact h
    · rw [if_neg hk]
      simp only [List.map_cons, List.nodup_cons]
      refine ⟨?_, ih h.2⟩
      rw [mapSet_keys]
      rintro (r | r)
      · exact hk r
      · exact h.1 r

/-- What `dumpTrie` adds to the map: the strings of the terminal nodes that can
be reached from node `n`; with enough fuel for the walks from `n` it returns. -/
theorem dumpTrie_spec {krMap nodes insAll insDone path birth}
    (h : TrieInv krMap nodes insAll insDone path birth) :
    ∀ (fuel n : Nat) (pfx : List Nat) (m : List (List Nat × Unit)), n < nodes.length →
      (∀ w k, walk nodes n w = some k → w.length < fuel) → (m.map Prod.fst).Nodup →
      ∃ m2, dumpTrie nodes fuel n pfx m = some m2 ∧ (m2.map Prod.fst).Nodup ∧
        ∀ s, s ∈ m2.map Prod.fst ↔
          (s ∈ m.map Prod.fst ∨ ∃ w k, walk nodes n w = some k ∧
            (nodeAt nodes k).End = true ∧ s = dumpKey (nodeAt nodes k) (pfx ++ w)) := by
  intro fuel
  induction fuel with
  | zero =>
    intro n pfx m _ hf _
    have := hf [] n rfl
    simp at this
  | succ fuel ih =>
    intro n pfx m hn hf hnd
    have hfold : ∀ (es : List CharState) (m1 : List (List Nat × Unit)),
        (∀ e ∈ es, getNextNode (nodeAt nodes n) e.Char = some e.State) →
        (m1.map Prod.fst).Nodup →
        ∃ m2, es.foldl
            (fun acc c =>
              match acc with
              | none => none
              | some m3 => dumpTrie nodes fuel c.State (pfx ++ [c.Char]) m3)
            (some m1) = some m2 ∧ (m2.map Prod.fst).Nodup ∧
          ∀ s, s ∈ m2.map Prod.fst ↔
            (s ∈ m1.map Prod.fst ∨ ∃ e ∈ es, ∃ w k, walk nodes e.State w = some k ∧
              (nodeAt nodes k).End = true ∧
              s = dumpKey (nodeAt nodes k) (pfx ++ [e.Char] ++ w)) := by
      intro es
      induction es with
      | nil =>
        intro m1 _ hnd1
        exact ⟨m1, rfl, hnd1, fun s => by simp⟩
      | cons e es ihes =>
        intro m1 hes hnd1
        have he := hes e (List.mem_cons_self _ _)
        obtain ⟨hk, _⟩ := h.hlink n e.Char e.State hn he
        obtain ⟨m3, c1, c2, c3⟩ := ih e.State (pfx ++ [e.Char]) m1 hk
          (by
            intro w k hw
            have := hf (e.Char :: w) k (by simp only [walk, he]; exact hw)
            simp only [List.length_cons] at this
            omega)
          hnd1
        obtain ⟨m2, d1, d2, d3⟩ := ihes m3 (fun x hx => hes x (List.mem_cons_of_mem _ hx)) c2
        refine ⟨m2, ?_, d2, ?_⟩
        · rw [List.foldl_cons]
          simp only []
          rw [c1]
          exact d1
        · intro s
          rw [d3 s, c3 s]
          constructor
          · rintro ((r | ⟨w, k, r⟩) | ⟨x, hx, r⟩)
            · exact Or.inl r
            · exact Or.inr ⟨e, List.mem_cons_self _ _, w, k, r⟩
            · exact Or.inr ⟨x, List.mem_cons_of_mem _ hx, r⟩
          · rintro (r | ⟨x, hx, r⟩)
            · exact Or.inl (Or.inl r)
            · rcases List.mem_cons.mp hx with r1 | r1
              · rw [r1] at r
                obtain ⟨w, k, r⟩ := r
                exact Or.inl (Or.inr ⟨w, k, r⟩)
              · exact Or.inr ⟨x, r1, r⟩
    have hnd1 : ((if (nodeAt nodes n).End = true then
        mapSet m (dumpKey (nodeAt nodes n) pfx) () else m).map Prod.fst).Nodup := by
      split
      · exact mapSet_nodup _ _ _ hnd
      · exact hnd
    obtain ⟨m2, e1, e2, e3⟩ := hfold (nodeAt nodes n).entries _
      (fun e he => (entries_iff _ (h.rep_all n) e).mp he) hnd1
    refine ⟨m2, ?_, e2, ?_⟩
    · rw [dumpTrie]
      exact e1
    · intro s
      rw [e3 s]
      constructor
      · rintro (r | ⟨e, he, w, k, r1, r2, r3⟩)
        · by_cases hend : (nodeAt nodes n).End = true
          · rw [if_pos hend, mapSet_keys] at r
            rcases r with r | r
            · exact Or.inr ⟨[], n, rfl, hend, by rw [List.append_nil]; exact r⟩
            · exact Or.inl r
          · rw [if_neg hend] at r
            exact Or.inl r
        · refine Or.inr ⟨e.Char :: w, k, ?_, r2, ?_⟩
          · simp only [walk, (entries_iff _ (h.rep_all n) e).mp he]
            exact r1
          · rw [r3, List.append_assoc]
            rfl
      · rintro (r | ⟨w, k, r1, r2, r3⟩)
        · left
          split
          · rw [mapSet_keys]; exact Or.inr r
          · exact r
        · cases w with
          | nil =>
            simp only [walk, Option.some.injEq] at r1
            rw [← r1] at r2 r3
            left
            rw [if_pos r2, mapSet_keys]
            left
            rw [r3, List.append_nil]
          | cons c w =>
            right
            simp only [walk] at r1
            cases hg : getNextNode (nodeAt nodes n) c with
            | none => rw [hg] at r1; cases r1
            | some c1 =>
              rw [hg] at r1
              simp only [] at r1
              refine ⟨⟨c, c1⟩, (entries_iff _ (h.rep_all n) ⟨c, c1⟩).mpr hg, w, k, r1, r2, ?_⟩
              rw [r3, List.append_assoc]
              rfl

/-! ## Claim C15: what `DumpTrie` lists -/

theorem strLt_total : ∀ (a b : List Nat), strLt b a = false → a ≠ b → strLt a b = true := by
  intro a
  induction a with
  | nil =>
    intro b _ hne
    cases b with
    | nil => exact absurd rfl hne
    | cons y ys => rfl
  | cons x xs ih =>
    intro b h hne
    cases b with
    | nil => simp [strLt] at h
    | cons y ys =>
      simp only [strLt, Bool.or_eq_false_iff, decide_eq_false_iff_not,
        Bool.and_eq_false_imp, decide_eq_true_eq] at h
      simp only [strLt, Bool.or_eq_true, decide_eq_true_eq, Bool.and_eq_true]
      by_cases hxy : x = y
      · right
        refine ⟨hxy, ih ys (h.2 hxy.symm) ?_⟩
        intro e
        exact hne (by rw [hxy, e])
      · left; omega

/-- The list `OrderedMapKeys` returns for a map is strictly ascending. -/
theorem OrderedMapKeys_sorted {β : Type} (m : List (List Nat × β))
    (hnd : (m.map Prod.fst).Nodup) :
    (OrderedMapKeys m).Pairwise (fun a b => strLt a b = true) := by
  unfold OrderedMapKeys
  have h1 : (List.insertionSort (fun a b => strLt b a = false) (m.map Prod.fst)).Pairwise
      (fun a b => strLt b a = false) :=
    @List.sorted_insertionSort _ (fun a b => strLt b a = false) _
      ⟨fun a b => by
        cases hab : strLt a b with
        | false => exact Or.inr rfl
        | true => exact Or.inl (strLt_asymm a b hab)⟩
      ⟨fun a b c h1 h2 => strLt_negtrans c a b h1 h2⟩ _
  have h2 : (List.insertionSort (fun a b => strLt b a = false) (m.map Prod.fst)).Nodup :=
    (List.perm_insertionSort _ _).nodup_iff.mpr hnd
  exact (h1.and h2).imp (fun hh => strLt_total _ _ hh.1 hh.2)

/-- A stem without `*` is the stem of each of its four decorated forms. -/
theorem stemOf_build (S : List Nat) (a b : Bool) (hS : ∀ c ∈ S, c ≠ 42) :
    stemOf ((if a then [42] else []) ++ S ++ (if b then [42] else [])) = S := by
  have hlast : ∀ (T : List Nat), (∀ c ∈ T, c ≠ 42) → T.getLast? ≠ some 42 := by
    intro T hT hx
    exact hT 42 (List.mem_of_getLast?_eq_some hx) rfl
  have hend : ∀ (T : List Nat), (∀ c ∈ T, c ≠ 42) →
      (if (T ++ (if b then [42] else [])).getLast? = some 42 then
        (T ++ (if b then [42] else [])).dropLast else T ++ (if b then [42] else [])) = T := by
    intro T hT
    cases b with
    | true => simp
    | false =>
      simp only [Bool.false_eq_true, if_false, List.append_nil]
      rw [if_neg (hlast T hT)]
  unfold stemOf
  simp only []
  cases a with
  | true =>
    simp only [if_true, List.singleton_append, List.cons_append, List.head?_cons, List.tail_cons]
    exact hend S hS
  | false =>
    simp only [Bool.false_eq_true, if_false, List.nil_append]
    cases S with
    | nil =>
      cases b with
      | true => simp
      | false => simp
    | cons x xs =>
      have hx : x ≠ 42 := hS x (List.mem_cons_self _ _)
      have hh : ¬ ((x :: xs ++ if b = true then [42] else []).head? = some 42) := by
        simp only [List.cons_append, List.head?_cons, Option.some.injEq]
        exact hx
      rw [if_neg hh]
      exact hend (x :: xs) hS

theorem dumpKey_canon (n : TrieNode) (w : List Nat) (reg : List (List Nat)) (key : List Nat)
    (hw : toLower w = toLower (stemOf key))
    (hs : n.AnyStart = true ↔ ∃ k2 ∈ reg, stemOf k2 = stemOf key ∧ hasLeadingStar k2 = true)
    (he : n.AnyEnd = true ↔ ∃ k2 ∈ reg, stemOf k2 = stemOf key ∧ hasTrailingStar k2 = true) :
    dumpKey n w = canonKey reg key := by
  unfold dumpKey canonKey
  simp only []
  rw [hw]
  by_cases h1 : n.AnyStart = true
  · by_cases h2 : n.AnyEnd = true
    · rw [if_pos h1, if_pos h2, if_pos (hs.mp h1), if_pos (he.mp h2)]; rfl
    · rw [if_pos h1, if_neg h2, if_pos (hs.mp h1), if_neg (fun x => h2 (he.mpr x))]
      simp
  · by_cases h2 : n.AnyEnd = true
    · rw [if_neg h1, if_pos h2, if_neg (fun x => h1 (hs.mpr x)), if_pos (he.mp h2)]; rfl
    · rw [if_neg h1, if_neg h2, if_neg (fun x => h1 (hs.mpr x)),
        if_neg (fun x => h2 (he.mpr x))]
      simp

theorem canonKey_congr (reg : List (List Nat)) (k k2 : List Nat) (h : stemOf k = stemOf k2) :
    canonKey reg k = canonKey reg k2 := by
  unfold canonKey
  rw [h]

theorem stemOf_canonKey (reg : List (List Nat)) (k : List Nat)
    (hk : ∀ c ∈ stemOf k, IsKeyByte c) : stemOf (canonKey reg k) = stemOf k := by
  have hS : ∀ c ∈ stemOf k, c ≠ 42 := by
    intro c hc
    have := hk c hc
    unfold IsKeyByte at this
    omega
  have h := stemOf_build (stemOf k)
    (decide (∃ k2 ∈ reg, stemOf k2 = stemOf k ∧ hasLeadingStar k2 = true))
    (decide (∃ k2 ∈ reg, stemOf k2 = stemOf k ∧ hasTrailingStar k2 = true)) hS
  simp only [decide_eq_true_eq] at h
  unfold canonKey
  rw [toLower_of_keyBytes _ hk]
  exact h

/-- What `DumpTrie` lists when no key has a byte that `setNextNode` does not
link: after a successful `MergeRules` that leaves in the registry only keys
whose stem consists of key bytes (lower-case letters, digits, `-`, `_`, `@`;
so `*` stands only first or last in a key), `DumpTrie()` returns a list `L`
that holds, for every registered key `k`, the canonical form of `k` (the stem,
with `*` in front iff some registered key with that stem has a leading `*` and
`*` behind iff some registered key with that stem has a trailing `*`) and
nothing else; `L` is strictly ascending, and the canonical form of `k` is its
only entry with the stem of `k`. -/
theorem dumpTrie_of_key_bytes (enum : List (List Nat × Rule) → List (List Nat × Rule))
    (henum : ∀ l, (enum l).Perm l) (cfg cfg1 : Cfg) (rules : List (List Nat × Rule))
    (hm : MergeRules enum cfg rules = MergeOutcome.ok cfg1)
    (hall : ∀ k ∈ registeredKeys cfg1.Rules, ∀ c ∈ stemOf k, IsKeyByte c) :
    ∃ L, DumpTrie cfg1 = some L ∧
      (∀ s, s ∈ L ↔
        ∃ k ∈ registeredKeys cfg1.Rules, s = canonKey (registeredKeys cfg1.Rules) k) ∧
      L.Pairwise (fun a b => strLt a b = true) ∧
      (∀ k ∈ registeredKeys cfg1.Rules, ∀ s ∈ L, stemOf s = stemOf k →
        s = canonKey (registeredKeys cfg1.Rules) k) := by
  obtain ⟨t, p, path, birth, ht, hroot, hinv, hstems, hreg, hlead, htrail, hnd, _⟩ :=
    MergeRules_trie enum henum cfg cfg1 rules hm
  have hlow : ∀ pk ∈ p, ∀ c ∈ pk.key, IsKeyByte c := by
    intro pk hpk
    obtain ⟨k1, a1, a2⟩ := hreg pk hpk
    rw [← a2]; exact hall k1 a1
  have hflags : ∀ pk ∈ p, ∀ key, stemOf key = pk.key →
      (pk.anyStart = true ↔ ∃ k2 ∈ registeredKeys cfg1.Rules,
        stemOf k2 = stemOf key ∧ hasLeadingStar k2 = true) ∧
      (pk.anyEnd = true ↔ ∃ k2 ∈ registeredKeys cfg1.Rules,
        stemOf k2 = stemOf key ∧ hasTrailingStar k2 = true) := by
    intro pk hpk key hkey
    constructor
    · constructor
      · intro hs
        obtain ⟨k2, a1, a2, a3⟩ := hlead pk hpk hs
        exact ⟨k2, a1, by rw [a2, hkey], a3⟩
      · rintro ⟨k2, a1, a2, a3⟩
        obtain ⟨pk2, b1, b2, b3, _⟩ := hstems k2 a1
        have : pk2 = pk := List.inj_on_of_nodup_map hnd b1 hpk (by rw [b2, a2, hkey])
        rw [← this]; exact b3 a3
    · constructor
      · intro hs
        obtain ⟨k2, a1, a2, a3⟩ := htrail pk hpk hs
        exact ⟨k2, a1, by rw [a2, hkey], a3⟩
      · rintro ⟨k2, a1, a2, a3⟩
        obtain ⟨pk2, b1, b2, _, b4⟩ := hstems k2 a1
        have : pk2 = pk := List.inj_on_of_nodup_map hnd b1 hpk (by rw [b2, a2, hkey])
        rw [← this]; exact b4 a3
  obtain ⟨m2, d1, d2, d3⟩ := dumpTrie_spec hinv t.Nodes.length 0 [] [] hinv.hlen
    (fun w k hw => walk_length_lt hinv w k hw) List.nodup_nil
  have hdump : DumpTrie cfg1 = some (OrderedMapKeys m2) := by
    unfold DumpTrie
    rw [ht]
    simp only []
    unfold Trie.DumpTrie
    rw [hroot, d1]
  have hmem : ∀ s, s ∈ OrderedMapKeys m2 ↔
      ∃ k ∈ registeredKeys cfg1.Rules, s = canonKey (registeredKeys cfg1.Rules) k := by
    intro s
    rw [mem_OrderedMapKeys, d3 s]
    constructor
    · rintro (r | ⟨w, k, r1, r2, r3⟩)
      · cases r
      · obtain ⟨hk, hpath⟩ := hinv.path_walk w k r1
        obtain ⟨pk, a1, a2, a3, a4, _⟩ := hinv.hend k hk r2
        obtain ⟨key, b1, b2⟩ := hreg pk a1
        obtain ⟨f1, f2⟩ := hflags pk a1 key b2
        refine ⟨key, b1, ?_⟩
        rw [r3, List.nil_append]
        apply dumpKey_canon
        · rw [← hpath, ← a2, b2]
        · rw [a3]; exact f1
        · rw [a4]; exact f2
    · rintro ⟨key, b1, b2⟩
      right
      obtain ⟨pk, a1, a2, _, _⟩ := hstems key b1
      obtain ⟨k, hk, hw, hend⟩ := hinv.hcomp pk a1 (hlow pk a1)
      have hpath : path k = pk.key := by
        rw [(hinv.path_walk _ k hw).2, toLower_of_keyBytes _ (hlow pk a1)]
      obtain ⟨g1, g2, _⟩ := terminal_flags hinv hnd hlow pk a1 k hk hend hpath
      obtain ⟨f1, f2⟩ := hflags pk a1 key a2.symm
      refine ⟨pk.key, k, hw, hend, ?_⟩
      rw [b2, List.nil_append]
      symm
      apply dumpKey_canon
      · rw [a2]
      · rw [g1]; exact f1
      · rw [g2]; exact f2
  refine ⟨OrderedMapKeys m2, hdump, hmem, OrderedMapKeys_sorted m2 d2, ?_⟩
  intro k hk s hs hst
  obtain ⟨k2, c1, c2⟩ := (hmem s).mp hs
  rw [c2]
  apply canonKey_congr
  rw [← hst, c2, stemOf_canonKey _ k2 (hall k2 c1)]

set_option maxRecDepth 100000 in
/-- With the keys `abc`, `*abc`, `abc*` and `*abc*` registered, `DumpTrie()`
returns the one entry `*abc*`. -/
theorem dumpTrie_of_key_bytes_witness :
    DumpTrie (cfgWith [ascii "abc", ascii "*abc", ascii "abc*", ascii "*abc*"]) =
      some [ascii "*abc*"] ∧
    ∃ L, DumpTrie (cfgWith [ascii "abc", ascii "*abc", ascii "abc*", ascii "*abc*"]) = some L ∧
      (∀ s, s ∈ L ↔
        ∃ k ∈ registeredKeys
            (cfgWith [ascii "abc", ascii "*abc", ascii "abc*", ascii "*abc*"]).Rules,
          s = canonKey (registeredKeys
            (cfgWith [ascii "abc", ascii "*abc", ascii "abc*", ascii "*abc*"]).Rules) k) ∧
      L.Pairwise (fun a b => strLt a b = true) ∧
      (∀ k ∈ registeredKeys
          (cfgWith [ascii "abc", ascii "*abc", ascii "abc*", ascii "*abc*"]).Rules,
        ∀ s ∈ L, stemOf s = stemOf k →
          s = canonKey (registeredKeys
            (cfgWith [ascii "abc", ascii "*abc", ascii "abc*", ascii "*abc*"]).Rules) k) :=
  ⟨by decide, dumpTrie_of_key_bytes id (fun l => List.Perm.refl l) Cfg.init
    (cfgWith [ascii "abc", ascii "*abc", ascii "abc*", ascii "*abc*"])
    (rulesWith [ascii "abc", ascii "*abc", ascii "abc*", ascii "*abc*"]) rfl (by decide)⟩

set_option maxRecDepth 100000 in
/-- C15 fails in the code: `MergeRules` accepts the key `a*b`, whose `*` is
neither first nor last. For the byte `*` the function `setNextNode` takes its
`default` branch, the one its comment calls never reached, and links no child,
so the nodes of the stem `a*b` hang off no path from the root, and `DumpTrie()`
lists the other key, `cd`, and no entry for `a*b`. -/
theorem C15_inner_star_not_dumped :
    MergeRules id Cfg.init (rulesWith [ascii "a*b", ascii "cd"]) =
      MergeOutcome.ok (cfgWith [ascii "a*b", ascii "cd"]) ∧
    ascii "a*b" ∈ registeredKeys (cfgWith [ascii "a*b", ascii "cd"]).Rules ∧
    DumpTrie (cfgWith [ascii "a*b", ascii "cd"]) = some [ascii "cd"] ∧
    canonKey (registeredKeys (cfgWith [ascii "a*b", ascii "cd"]).Rules) (ascii "a*b") ∉
      [ascii "cd"] ∧
    ∀ s ∈ [ascii "cd"], stemOf s ≠ stemOf (ascii "a*b") :=
  ⟨rfl, by decide, by decide, by decide, by decide⟩

/-! ## Claims C22 and C25: the rule of a terminal node -/

set_option maxRecDepth 100000 in
/-- C22 fails in the code: with the two valid keys `*ab` and `ab*` registered,
the flags of the stem `ab` are merged, `ParsedKey.Key` gives `*ab*`, which is
no key of `krMap`, and the terminal node of `ab` (node 2) gets the nil rule.
`Match` then reports a position with the nil rule and `Mask` panics on
`p.Rule.Length`: it returns the nil slice and `intercepted = true`, and no
byte is masked. -/
theorem C22_terminal_without_rule :
    ValidKey (ascii "*ab") ∧ ValidKey (ascii "ab*") ∧
    MergeRules id Cfg.init (rulesWith [ascii "*ab", ascii "ab*"]) =
      MergeOutcome.ok (cfgWith [ascii "*ab", ascii "ab*"]) ∧
    (cfgWith [ascii "*ab", ascii "ab*"]).Trie.map
        (fun t => (walk t.Nodes t.Root (ascii "ab"), (nodeAt t.Nodes 2).End,
          (nodeAt t.Nodes 2).Rule)) = some (some 2, true, none) ∧
    (cfgWith [ascii "*ab", ascii "ab*"]).Trie.bind
        (fun t => t.Match (ascii "ab:12345678900") (some DefaultKeyFilter) stillClock 2000) =
      some ([⟨0, 1, none⟩], false) ∧
    Mask (cfgWith [ascii "*ab", ascii "ab*"]) (some DefaultKeyFilter) stillClock
      (ascii "ab:12345678900") 2000 = ([], true) :=
  ⟨by decide, by decide, rfl, by decide, by decide, by decide⟩

set_option maxRecDepth 100000 in
/-- C25 fails in the code: for the map with the two rules `a` and `b` that
both hold the key `cell`, the rule attached to the terminal node of `cell`
(node 4) is the one enumerated last, `b` for one order of the map entries and
`a` for the other, so the two tries differ. -/
theorem C25_shared_key_order :
    sharedKeyRules.reverse.Perm sharedKeyRules ∧
    (ConstructTrie sharedKeyRules).map
        (fun t => (walk t.Nodes t.Root (ascii "cell"), (nodeAt t.Nodes 4).End,
          (nodeAt t.Nodes 4).Rule)) = some (some 4, true, some (ascii "b")) ∧
    (ConstructTrie sharedKeyRules.reverse).map
        (fun t => (walk t.Nodes t.Root (ascii "cell"), (nodeAt t.Nodes 4).End,
          (nodeAt t.Nodes 4).Rule)) = some (some 4, true, some (ascii "a")) ∧
    (ConstructTrie sharedKeyRules).map (fun t => t.Nodes.map (fun n => n.Rule)) ≠
      (ConstructTrie sharedKeyRules.reverse).map (fun t => t.Nodes.map (fun n => n.Rule)) :=
  ⟨List.reverse_perm _, by decide, by decide, by decide⟩

/-! ## Claim C21: the phone redactor applied twice -/

theorem phoneTable_range (c : Nat) :
    phoneMaskerTable c = 0 ∨ phoneMaskerTable c = 1 ∨ phoneMaskerTable c = 2 ∨
      phoneMaskerTable c = 3 := by
  unfold phoneMaskerTable
  split_ifs
  · right; left; rfl
  · right; right; left; rfl
  · right; right; right; rfl
  · left; rfl

/-- An iteration of `SimplePhoneMasker` with fewer than 11 bytes left returns. -/
theorem phoneLoop_short (t : List Nat) (F i : Nat) (h : ¬ i + 11 ≤ t.length) :
    phoneLoop t (F + 1) i = some t := by
  rw [phoneLoop]
  by_cases h1 : ¬ i < t.length
  · rw [if_pos h1]
  · rw [if_neg h1, if_pos (by omega)]

/-- An iteration of `SimplePhoneMasker` on a byte that is neither a digit nor
`+` nor `%`. -/
theorem phoneLoop_other (t : List Nat) (F i : Nat) (h : i + 11 ≤ t.length)
    (hc : phoneMaskerTable (t.getD i 0) = 0) : phoneLoop t (F + 1) i = phoneLoop t F (i + 1) := by
  rw [phoneLoop, if_neg (by omega), if_neg (by omega)]
  simp only [getElem?_of_lt t i (by omega), hc, if_true]

/-- An iteration of `SimplePhoneMasker` on `+` or `%`. -/
theorem phoneLoop_skip (t : List Nat) (F i : Nat) (h : i + 11 ≤ t.length)
    (hc : phoneMaskerTable (t.getD i 0) = 2 ∨ phoneMaskerTable (t.getD i 0) = 3) :
    phoneLoop t (F + 1) i = phoneLoop t F (i + 2 + 1) := by
  rw [phoneLoop, if_neg (by omega), if_neg (by omega)]
  rw [getElem?_of_lt t i (by omega)]
  simp only []
  rcases hc with hc | hc
  · rw [if_neg (by omega), if_pos hc]
  · rw [if_neg (by omega), if_neg (by omega), if_pos hc]

/-- An iteration of `SimplePhoneMasker` on a digit that is not followed by
nine more digits. -/
theorem phoneLoop_miss (t : List Nat) (F i j : Nat) (h : i + 11 ≤ t.length)
    (hc : phoneMaskerTable (t.getD i 0) = 1)
    (hd : digitLoop phoneMaskerTable t 9 (i + 1) = some (j, false)) :
    phoneLoop t (F + 1) i = phoneLoop t F (j + 1) := by
  have h9 : i + 10 - (i + 1) = 9 := by omega
  rw [phoneLoop, if_neg (by omega), if_neg (by omega)]
  rw [getElem?_of_lt t i (by omega)]
  simp only []
  rw [if_neg (by omega), if_neg (by omega), if_neg (by omega), h9, hd]

/-- When the inner loop stops early, it stops at the first byte that is not a
digit. -/
theorem digitLoop_false_inv (table : Nat → Nat) (t : List Nat) :
    ∀ (k i j : Nat), digitLoop table t k i = some (j, false) →
      i ≤ j ∧ j < i + k ∧ j < t.length ∧ table (t.getD j 0) ≠ 1 ∧
        ∀ x, i ≤ x → x < j → table (t.getD x 0) = 1 := by
  intro k
  induction k with
  | zero =>
    intro i j h
    simp only [digitLoop, Option.some.injEq, Prod.mk.injEq] at h
    cases h.2
  | succ k ih =>
    intro i j h
    rw [digitLoop] at h
    cases hc : t[i]? with
    | none => rw [hc] at h; cases h
    | some c =>
      rw [hc] at h
      simp only [] at h
      have hlt : i < t.length := by
        by_contra hx
        rw [List.getElem?_eq_none (by omega)] at hc; cases hc
      have hcd := getD_of_getElem? t i c hc
      by_cases hn : table c ≠ 1
      · rw [if_pos hn] at h
        simp only [Option.some.injEq, Prod.mk.injEq] at h
        rw [← h.1]
        exact ⟨le_refl _, by omega, hlt, by rw [hcd]; exact hn, fun x a b => (by omega)⟩
      · rw [if_neg hn] at h
        obtain ⟨a1, a2, a3, a4, a5⟩ := ih (i + 1) j h
        refine ⟨by omega, by omega, a3, a4, ?_⟩
        intro x x1 x2
        by_cases hx : x = i
        · rw [hx, hcd]; exact not_not.mp hn
        · exact a5 x (by omega) x2

/-- The inner loop stops at the first byte that is not a digit. -/
theorem digitLoop_false (table : Nat → Nat) (t : List Nat) :
    ∀ (k i j : Nat), i ≤ j → j < i + k → j < t.length → table (t.getD j 0) ≠ 1 →
      (∀ x, i ≤ x → x < j → table (t.getD x 0) = 1) →
      digitLoop table t k i = some (j, false) := by
  intro k
  induction k with
  | zero => intro i j h1 h2; omega
  | succ k ih =>
    intro i j h1 h2 h3 h4 h5
    rw [digitLoop, getElem?_of_lt t i (by omega)]
    simp only []
    by_cases hij : i = j
    · rw [hij, if_pos h4]
    · rw [if_neg (not_not.mpr (h5 i (le_refl _) (by omega)))]
      exact ih (i + 1) j (by omega) (by omega) h3 h4 (fun x a b => h5 x (by omega) b)

/-- The run of `SimplePhoneMasker` up to its rewrite: either nothing is
written, or the loop reaches an index `s` with ten digits and one more byte
behind them and writes the four stars at `s + 3`; `m` iterations are left at
`s`, and a window of the same length that agrees with `t` before `s + 3`
reaches `s` the same way. -/
theorem phoneLoop_reach (t : List Nat) :
    ∀ (F i : Nat) (r : List Nat), phoneLoop t F i = some r →
      r = t ∨ ∃ s m, i ≤ s ∧ s + 11 ≤ t.length ∧
        (∀ x, s ≤ x → x < s + 10 → IsDigit (t.getD x 0)) ∧
        r = overlay t (s + 3) (s + 3 + 4) (ascii "****") ∧ F + i ≤ m + s ∧ 1 ≤ m ∧
        ∀ t2 : List Nat, t2.length = t.length → (∀ x, x < s + 3 → t2.getD x 0 = t.getD x 0) →
          phoneLoop t2 F i = phoneLoop t2 m s := by
  intro F
  induction F with
  | zero => intro i r h; cases h
  | succ F ih =>
    intro i r h
    by_cases hs : i + 11 ≤ t.length
    · have hrec : ∀ i2, i + 1 ≤ i2 → phoneLoop t (F + 1) i = phoneLoop t F i2 →
          (∀ t2 : List Nat, t2.length = t.length → ∀ s, i2 ≤ s →
            (∀ x, x < s + 3 → t2.getD x 0 = t.getD x 0) →
            phoneLoop t2 (F + 1) i = phoneLoop t2 F i2) →
          r = t ∨ ∃ s m, i ≤ s ∧ s + 11 ≤ t.length ∧
            (∀ x, s ≤ x → x < s + 10 → IsDigit (t.getD x 0)) ∧
            r = overlay t (s + 3) (s + 3 + 4) (ascii "****") ∧ F + 1 + i ≤ m + s ∧ 1 ≤ m ∧
            ∀ t2 : List Nat, t2.length = t.length →
              (∀ x, x < s + 3 → t2.getD x 0 = t.getD x 0) →
              phoneLoop t2 (F + 1) i = phoneLoop t2 m s := by
        intro i2 hi2 heq hcong
        rw [heq] at h
        rcases ih i2 r h with h1 | ⟨s, m, a1, a2, a3, a4, a5, a6, a7⟩
        · exact Or.inl h1
        · refine Or.inr ⟨s, m, by omega, a2, a3, a4, by omega, a6, ?_⟩
          intro t2 hl hag
          rw [hcong t2 hl s a1 hag]
          exact a7 t2 hl hag
      rcases phoneTable_range (t.getD i 0) with c0 | c1 | c2 | c3
      · refine hrec (i + 1) (le_refl _) (phoneLoop_other t F i hs c0) ?_
        intro t2 hl s hs2 hag
        exact phoneLoop_other t2 F i (by omega) (by rw [hag i (by omega)]; exact c0)
      · obtain ⟨j, flag, d1, d2, d3⟩ := digitLoop_spec phoneMaskerTable t 9 (i + 1) (by omega)
        cases flag with
        | false =>
          obtain ⟨e1, e2, e3, e4, e5⟩ := digitLoop_false_inv phoneMaskerTable t 9 (i + 1) j d1
          refine hrec (j + 1) (by omega) (phoneLoop_miss t F i j hs c1 d1) ?_
          intro t2 hl s hs2 hag
          refine phoneLoop_miss t2 F i j (by omega) (by rw [hag i (by omega)]; exact c1) ?_
          refine digitLoop_false phoneMaskerTable t2 9 (i + 1) j e1 e2 (by omega)
            (by rw [hag j (by omega)]; exact e4) ?_
          intro x x1 x2
          rw [hag x (by omega)]
          exact e5 x x1 x2
        | true =>
          obtain ⟨f1, f2⟩ := d2 rfl
          have hd : ∀ x, i ≤ x → x < i + 10 → IsDigit (t.getD x 0) := by
            intro x x1 x2
            by_cases hx : x = i
            · rw [hx]; exact (phoneTable_digit _).mp c1
            · exact (phoneTable_digit _).mp (f2 x (by omega) (by omega))
          rw [phoneLoop_hit t F i hs hd] at h
          simp only [Option.some.injEq] at h
          exact Or.inr ⟨i, F + 1, le_refl _, hs, hd, h.symm, le_refl _, by omega,
            fun _ _ _ => rfl⟩
      · refine hrec (i + 2 + 1) (by omega) (phoneLoop_skip t F i hs (Or.inl c2)) ?_
        intro t2 hl s hs2 hag
        exact phoneLoop_skip t2 F i (by omega) (Or.inl (by rw [hag i (by omega)]; exact c2))
      · refine hrec (i + 2 + 1) (by omega) (phoneLoop_skip t F i hs (Or.inr c3)) ?_
        intro t2 hl s hs2 hag
        exact phoneLoop_skip t2 F i (by omega) (Or.inr (by rw [hag i (by omega)]; exact c3))
    · rw [phoneLoop_short t F i hs] at h
      simp only [Option.some.injEq] at h
      exact Or.inl h.symm

theorem getD_drop (t : List Nat) (q i : Nat) : (t.drop q).getD i 0 = t.getD (q + i) 0 := by
  rw [List.getD_eq_getElem?_getD, List.getD_eq_getElem?_getD, List.getElem?_drop]

/-- A run of `SimplePhoneMasker` on the bytes behind the offset `q` that
writes nothing goes the same way inside the whole window. -/
theorem phoneLoop_shift (t : List Nat) (q : Nat) (hq : q ≤ t.length) :
    ∀ (F i : Nat), phoneLoop (t.drop q) F i = some (t.drop q) →
      ∀ k, phoneLoop t (F + k) (q + i) = some t := by
  intro F
  induction F with
  | zero => intro i h; cases h
  | succ F ih =>
    intro i h k
    have hk : F + 1 + k = (F + k) + 1 := by omega
    rw [hk]
    have hl : (t.drop q).length = t.length - q := List.length_drop q t
    by_cases hs : i + 11 ≤ (t.drop q).length
    · have hs2 : q + i + 11 ≤ t.length := by omega
      have hg : (t.drop q).getD i 0 = t.getD (q + i) 0 := getD_drop t q i
      rcases phoneTable_range ((t.drop q).getD i 0) with c0 | c1 | c2 | c3
      · rw [phoneLoop_other _ F i hs c0] at h
        rw [phoneLoop_other t _ _ hs2 (by rw [← hg]; exact c0)]
        exact ih (i + 1) h k
      · obtain ⟨j, flag, d1, d2, d3⟩ :=
          digitLoop_spec phoneMaskerTable (t.drop q) 9 (i + 1) (by omega)
        cases flag with
        | false =>
          obtain ⟨e1, e2, e3, e4, e5⟩ :=
            digitLoop_false_inv phoneMaskerTable (t.drop q) 9 (i + 1) j d1
          rw [phoneLoop_miss _ F i j hs c1 d1] at h
          have hd2 : digitLoop phoneMaskerTable t 9 (q + i + 1) = some (q + j, false) := by
            refine digitLoop_false phoneMaskerTable t 9 (q + i + 1) (q + j) (by omega) (by omega)
              (by omega) (by rw [← getD_drop]; exact e4) ?_
            intro x x1 x2
            have := e5 (x - q) (by omega) (by omega)
            rw [getD_drop] at this
            rw [show x = q + (x - q) by omega]
            exact this
          rw [phoneLoop_miss t _ _ (q + j) hs2 (by rw [← hg]; exact c1) hd2]
          exact ih (j + 1) h k
        | true =>
          exfalso
          obtain ⟨f1, f2⟩ := d2 rfl
          have hd : ∀ x, i ≤ x → x < i + 10 → IsDigit ((t.drop q).getD x 0) := by
            intro x x1 x2
            by_cases hx : x = i
            · rw [hx]; exact (phoneTable_digit _).mp c1
            · exact (phoneTable_digit _).mp (f2 x (by omega) (by omega))
          rw [phoneLoop_hit _ F i hs hd] at h
          simp only [Option.some.injEq] at h
          have h3 := congrArg (fun l => l.getD (i + 3) 0) h
          simp only [] at h3
          rw [overlay_inside _ _ _ _ _ (le_refl _) (by omega) (by omega)] at h3
          have h4 := hd (i + 3) (by omega) (by omega)
          rw [← h3] at h4
          have e42 : ∀ d, (ascii "****").getD (i + 3 - (i + 3)) d = 42 := by
            intro d; rw [Nat.sub_self]; rfl
          rw [e42] at h4
          exact absurd h4 (by decide)
      · rw [phoneLoop_skip _ F i hs (Or.inl c2)] at h
        rw [phoneLoop_skip t _ _ hs2 (Or.inl (by rw [← hg]; exact c2))]
        exact ih (i + 2 + 1) h k
      · rw [phoneLoop_skip _ F i hs (Or.inr c3)] at h
        rw [phoneLoop_skip t _ _ hs2 (Or.inr (by rw [← hg]; exact c3))]
        exact ih (i + 2 + 1) h k
    · exact phoneLoop_short t _ _ (by omega)

/-- An iteration of `SimplePhoneMasker` on a `*` returns or goes on with the
next byte. -/
theorem phoneLoop_star (t : List Nat) (F i : Nat) (h : t.getD i 0 = 42) :
    phoneLoop t (F + 1) i = some t ∨ phoneLoop t (F + 1) i = phoneLoop t F (i + 1) := by
  by_cases hs : i + 11 ≤ t.length
  · exact Or.inr (phoneLoop_other t F i hs (by rw [h]; decide))
  · exact Or.inl (phoneLoop_short t F i hs)

/-- The second pass from the place of the rewrite on: the loop stops at the
first star, steps over the four stars and then runs on the bytes behind them. -/
theorem phoneLoop_second (t1 : List Nat) (s m : Nat) (hlen : s + 11 ≤ t1.length)
    (hm : t1.length + 1 ≤ m + s)
    (hd : ∀ x, s ≤ x → x < s + 3 → IsDigit (t1.getD x 0))
    (hstar : ∀ x, s + 3 ≤ x → x < s + 7 → t1.getD x 0 = 42)
    (hsuf : phoneLoop (t1.drop (s + 7)) ((t1.drop (s + 7)).length + 1) 0 =
      some (t1.drop (s + 7))) :
    phoneLoop t1 m s = some t1 := by
  obtain ⟨m4, hm4⟩ : ∃ m4, m = m4 + 1 + 1 + 1 + 1 + 1 := ⟨m - 5, by omega⟩
  have hl : (t1.drop (s + 7)).length = t1.length - (s + 7) := List.length_drop _ t1
  have h0 : digitLoop phoneMaskerTable t1 9 (s + 1) = some (s + 3, false) := by
    refine digitLoop_false phoneMaskerTable t1 9 (s + 1) (s + 3) (by omega) (by omega) (by omega)
      (by rw [hstar (s + 3) (by omega) (by omega)]; decide) ?_
    intro x x1 x2
    exact (phoneTable_digit _).mpr (hd x (by omega) (by omega))
  have h7 : phoneLoop t1 (m4 + 1) (s + 7) = some t1 := by
    have := phoneLoop_shift t1 (s + 7) (by omega) _ 0 hsuf (m4 + 1 - ((t1.drop (s + 7)).length + 1))
    rw [show (t1.drop (s + 7)).length + 1 + (m4 + 1 - ((t1.drop (s + 7)).length + 1)) = m4 + 1
      by omega] at this
    exact this
  rw [hm4, phoneLoop_miss t1 _ s (s + 3) hlen
    ((phoneTable_digit _).mpr (hd s (le_refl _) (by omega))) h0]
  rcases phoneLoop_star t1 (m4 + 1 + 1 + 1) (s + 3 + 1) (hstar _ (by omega) (by omega)) with r | r
  · exact r
  rw [r]
  rcases phoneLoop_star t1 (m4 + 1 + 1) (s + 3 + 1 + 1) (hstar _ (by omega) (by omega)) with r | r
  · exact r
  rw [r]
  rcases phoneLoop_star t1 (m4 + 1) (s + 3 + 1 + 1 + 1) (hstar _ (by omega) (by omega)) with r | r
  · exact r
  rw [r]
  exact h7

theorem ext_getD (l1 l2 : List Nat) (hl : l1.length = l2.length)
    (h : ∀ i, l1.getD i 0 = l2.getD i 0) : l1 = l2 := by
  apply List.ext_getElem hl
  intro n h1 h2
  have := h n
  rw [List.getD_eq_getElem?_getD, List.getD_eq_getElem?_getD, List.getElem?_eq_getElem h1,
    List.getElem?_eq_getElem h2] at this
  exact this

/-- C21: idempotence of the phone redactor. If `SimplePhoneMasker` writes
nothing to the window `t`, or writes its four `*` at the offsets `p..p+3` and
leaves the suffix `t[p+4..]` unchanged when applied to it, or `t` has at most
17 bytes, then the redactor returns on `t`, and applied to its own output it
returns that output unchanged: `SimplePhoneMasker(SimplePhoneMasker(t)) =
SimplePhoneMasker(t)`. -/
theorem C21_phone_idempotent (t : List Nat)
    (h : SimplePhoneMasker t = some t ∨
      (∃ p t1, SimplePhoneMasker t = some t1 ∧ MaskedAt t t1 p 4 ∧
        SimplePhoneMasker (t.drop (p + 4)) = some (t.drop (p + 4))) ∨
      t.length ≤ 17) :
    ∃ t1, SimplePhoneMasker t = some t1 ∧ SimplePhoneMasker t1 = some t1 ∧
      (SimplePhoneMasker t).bind SimplePhoneMasker = SimplePhoneMasker t := by
  have hfin : ∀ t1, SimplePhoneMasker t = some t1 → SimplePhoneMasker t1 = some t1 →
      ∃ t1, SimplePhoneMasker t = some t1 ∧ SimplePhoneMasker t1 = some t1 ∧
        (SimplePhoneMasker t).bind SimplePhoneMasker = SimplePhoneMasker t := by
    intro t1 h1 h2
    refine ⟨t1, h1, h2, ?_⟩
    rw [h1]
    exact h2
  obtain ⟨t2, ht2, _⟩ := phoneLoop_total t (t.length + 1) 0 (by omega) (by omega)
  have hM : SimplePhoneMasker t = some t2 := ht2
  rcases phoneLoop_reach t _ 0 t2 ht2 with h1 | ⟨s, m, _, a2, a3, a4, a5, a6, a7⟩
  · rw [h1] at hM
    exact hfin t hM hM
  · obtain ⟨hlen, hpt⟩ := stars_pointwise t (s + 3) 4 (ascii "****") rfl (by decide) (by omega)
    have hov : t2 = overlay t (s + 3) (s + 3 + (ascii "****").length) (ascii "****") := a4
    rw [← hov] at hlen hpt
    have hdrop : t2.drop (s + 7) = t.drop (s + 7) := by
      apply ext_getD
      · rw [List.length_drop, List.length_drop, hlen]
      · intro i
        rw [getD_drop, getD_drop, hpt, if_neg (by omega)]
    have hsuf : SimplePhoneMasker (t.drop (s + 7)) = some (t.drop (s + 7)) := by
      rcases h with hA | ⟨p, t1, hB1, hB2, hB3⟩ | hC
      · exfalso
        rw [hM] at hA
        simp only [Option.some.injEq] at hA
        have h3 := hpt (s + 3)
        rw [if_pos ⟨le_refl _, by omega⟩, hA] at h3
        have h4 := a3 (s + 3) (by omega) (by omega)
        rw [h3] at h4
        exact absurd h4 (by decide)
      · rw [hM] at hB1
        simp only [Option.some.injEq] at hB1
        rw [← hB1] at hB2
        obtain ⟨b1, _, b3, b4⟩ := hB2
        have hd3 := a3 (s + 3) (by omega) (by omega)
        have h3 := hpt (s + 3)
        rw [if_pos ⟨le_refl _, by omega⟩] at h3
        have hin : p ≤ s + 3 ∧ s + 3 < p + 4 := by
          by_contra hc
          have := b4 (s + 3) hc
          rw [h3] at this
          rw [← this] at hd3
          exact absurd hd3 (by decide)
        have hge : s + 3 ≤ p := by
          by_contra hc
          obtain ⟨c1, c2⟩ := b3 p (le_refl _) (by omega)
          have := hpt p
          rw [if_neg (by omega), c2] at this
          rw [← this] at c1
          exact absurd c1 (by decide)
        have hp : p = s + 3 := by omega
        rw [hp] at hB3
        exact hB3
      · exact phoneLoop_short _ _ 0 (by rw [List.length_drop]; omega)
    refine hfin t2 hM ?_
    show phoneLoop t2 (t2.length + 1) 0 = some t2
    rw [hlen, a7 t2 hlen (fun x hx => by rw [hpt, if_neg (by omega)])]
    refine phoneLoop_second t2 s m (by omega) (by omega) ?_ ?_ ?_
    · intro x x1 x2
      rw [hpt, if_neg (by omega)]
      exact a3 x x1 (by omega)
    · intro x x1 x2
      rw [hpt, if_pos ⟨x1, by omega⟩]
    · rw [hdrop]
      exact hsuf

set_option maxRecDepth 100000 in
/-- Witness of C21: in the 26-byte window `tel 13812345678 ok, thanks` the four
stars go to the offsets 7 to 10, the redactor leaves the suffix
`5678 ok, thanks` alone, and a second pass changes nothing. -/
theorem C21_phone_idempotent_witness :
    SimplePhoneMasker (ascii "tel 13812345678 ok, thanks") =
      some (ascii "tel 138****5678 ok, thanks") ∧
    SimplePhoneMasker (ascii "tel 138****5678 ok, thanks") =
      some (ascii "tel 138****5678 ok, thanks") ∧
    ∃ t1, SimplePhoneMasker (ascii "tel 13812345678 ok, thanks") = some t1 ∧
      SimplePhoneMasker t1 = some t1 ∧
      (SimplePhoneMasker (ascii "tel 13812345678 ok, thanks")).bind SimplePhoneMasker =
        SimplePhoneMasker (ascii "tel 13812345678 ok, thanks") :=
  ⟨by decide, by decide,
    C21_phone_idempotent (ascii "tel 13812345678 ok, thanks")
      (Or.inr (Or.inl ⟨7, overlay (ascii "tel 13812345678 ok, thanks") 7 (7 + 4) (ascii "****"),
        by decide,
        maskedAt_overlay (ascii "tel 13812345678 ok, thanks") 7 4 (ascii "****") rfl
          (by decide) (by decide) (by decide),
        by decide⟩))⟩

/-! ## The scanner under any filter and any clock -/

theorem filterPosition_some (b : List Nat) (f : Option KeyFilter) (p r : Position)
    (as ae : Bool) (h : filterPosition b f p as ae = some (some r)) :
    r = p ∧ ∀ g, f = some g → g b p.Start p.End as ae = some true := by
  unfold filterPosition at h
  cases f with
  | none =>
    simp only [Option.some.injEq] at h
    exact ⟨h.symm, fun g hg => (by cases hg)⟩
  | some g0 =>
    simp only [] at h
    cases hg : g0 b p.Start p.End as ae with
    | none => rw [hg] at h; cases h
    | some v =>
      rw [hg] at h
      cases v with
      | false => cases h
      | true =>
        simp only [Option.some.injEq] at h
        refine ⟨h.symm, ?_⟩
        intro g hgg
        simp only [Option.some.injEq] at hgg
        rw [← hgg]; exact hg

/-- A position that `testMatch` returns, when the scanner sits on the node
reached by the bytes `w` that follow the bytes `u`: it starts with `w`, it
covers the first `d` bytes of `w`, and it is a hit of a terminal node `k`
whose path those bytes are. -/
theorem testMatch_some {krMap nodes insAll insDone path birth}
    (h : TrieInv krMap nodes insAll insDone path birth) (b u w : List Nat) (cur : Nat)
    (f : Option KeyFilter) (hw : walk nodes 0 w = some cur) (hwne : w ≠ [])
    (hlen : (u ++ w).length < b.length) (r : Position)
    (htm : testMatch b nodes cur (((u ++ w).length : Int) - 1) f = some (some r)) :
    ∃ k d, 1 ≤ d ∧ d ≤ w.length ∧ k < nodes.length ∧ path k = toLower (w.take d) ∧
      HitOf nodes f b r k u.length (u.length + d - 1) ∧
      (k = cur ∨ (nodeAt nodes cur).LastEnd = some k) := by
  have hd := h.depth_walk w cur hw
  obtain ⟨hcur, hpc⟩ := h.path_walk w cur hw
  have hwl : 1 ≤ w.length := by
    cases w with
    | nil => exact absurd rfl hwne
    | cons x xs => simp
  rw [List.length_append] at hlen
  unfold testMatch at htm
  simp only [] at htm
  by_cases he : (nodeAt nodes cur).End = true
  · rw [if_pos he] at htm
    obtain ⟨e1, e2⟩ := filterPosition_some _ _ _ _ _ _ htm
    simp only [] at e2
    have s1 : (((u ++ w).length : Int) - 1 - ((nodeAt nodes cur).Depth : Int) + 1) =
        (u.length : Int) := by
      rw [hd, List.length_append]; push_cast; omega
    have s2 : (((u ++ w).length : Int) - 1) = ((u.length + w.length - 1 : Nat) : Int) := by
      rw [List.length_append]; push_cast; omega
    rw [s1, s2] at e2
    refine ⟨cur, w.length, hwl, le_refl _, hcur, by rw [List.take_length]; exact hpc, ?_,
      Or.inl rfl⟩
    refine ⟨by rw [e1]; exact s1, by rw [e1]; exact s2, by omega, by omega, he, by rw [e1], e2⟩
  · rw [if_neg he] at htm
    cases hle : (nodeAt nodes cur).LastEnd with
    | none => rw [hle] at htm; cases htm
    | some l =>
      rw [hle] at htm
      simp only [] at htm
      obtain ⟨a1, a2, ⟨t, a3⟩, a4⟩ := h.hlast cur l hcur hle
      have hdl : (nodeAt nodes l).Depth = (path l).length := h.hdepth l a1
      have hle2 : (path l).length ≤ w.length := by
        have := congrArg List.length a3
        rw [List.length_append, hpc, toLower_length] at this
        omega
      by_cases hae : (nodeAt nodes l).AnyEnd = true
      · simp only [hae, Bool.not_true, Bool.false_eq_true, if_false] at htm
        obtain ⟨e1, e2⟩ := filterPosition_some _ _ _ _ _ _ htm
        simp only [] at e2
        have s1 : (((u ++ w).length : Int) - 1 - ((nodeAt nodes cur).Depth : Int) + 1) =
            (u.length : Int) := by
          rw [hd, List.length_append]; push_cast; omega
        have s2 : (((u ++ w).length : Int) - 1 -
            (((nodeAt nodes cur).Depth : Int) - ((nodeAt nodes l).Depth : Int))) =
            ((u.length + (path l).length - 1 : Nat) : Int) := by
          rw [hd, hdl, List.length_append]; push_cast; omega
        rw [s1, s2] at e2
        have hpl : path l = toLower (w.take (path l).length) := by
          rw [toLower_take, ← hpc, a3, List.take_left]
        refine ⟨l, (path l).length, a4, hle2, a1, hpl, ?_, Or.inr rfl⟩
        refine ⟨by rw [e1]; exact s1, by rw [e1]; exact s2, by omega, by omega, a2, by rw [e1],
          by rw [hae]; exact e2⟩
      · simp only [hae, Bool.not_false, if_true] at htm
        cases htm

/-- The invariant of the scan, for any filter and any clock. With the scanner
on the node reached by the bytes `w` that follow the bytes `u`, the positions
it appends from there on are hits of terminal nodes on the bytes they cover,
none starts before the end of `u`, and each starts at least two bytes behind
the end of the one before. -/
theorem matchLoop_hits {krMap nodes insAll insDone path birth}
    (h : TrieInv krMap nodes insAll insDone path birth) (f : Option KeyFilter)
    (clock : Nat → Int) (maxTime : Int) (b : List Nat) :
    ∀ (rest u w : List Nat) (count checks cur : Nat) (result arr : List Position) (flag : Bool),
      b = u ++ w ++ rest → walk nodes 0 w = some cur →
      matchLoop nodes f clock maxTime b rest (u ++ w).length count checks cur result =
        some (arr, flag) →
      ∃ later, arr = result ++ later ∧
        (∀ p ∈ later, ∃ k s e, HitOf nodes f b p k s e ∧ u.length ≤ s ∧ k < nodes.length ∧
          path k = toLower (slice b s e)) ∧
        later.Pairwise (fun p q => p.End + 2 ≤ q.Start) := by
  intro rest
  induction rest with
  | nil =>
    intro u w count checks cur result arr flag _ _ hm
    simp only [matchLoop, Option.some.injEq, Prod.mk.injEq] at hm
    exact ⟨[], by rw [← hm.1, List.append_nil], fun p hp => (by cases hp), List.Pairwise.nil⟩
  | cons c rest ih =>
    intro u w count checks cur result arr flag hb hw hm
    have hroot : walk nodes 0 [] = some 0 := rfl
    have hb2 : b = (u ++ w ++ [c]) ++ [] ++ rest := by
      rw [hb, List.append_nil, List.append_assoc (u ++ w)]; rfl
    have hp2 : (u ++ w).length + 1 = ((u ++ w ++ [c]) ++ []).length := by
      rw [List.append_nil]
      exact (List.length_append (u ++ w) [c]).symm
    have hreset : ∀ (cnt chk : Nat) (res : List Position),
        matchLoop nodes f clock maxTime b rest ((u ++ w).length + 1) cnt chk 0 res =
          some (arr, flag) →
        ∃ later, arr = res ++ later ∧
          (∀ p ∈ later, ∃ k s e, HitOf nodes f b p k s e ∧ u.length + w.length + 1 ≤ s ∧
            k < nodes.length ∧ path k = toLower (slice b s e)) ∧
          later.Pairwise (fun p q => p.End + 2 ≤ q.Start) := by
      intro cnt chk res hr
      rw [hp2] at hr
      obtain ⟨later, a1, a2, a3⟩ := ih (u ++ w ++ [c]) [] cnt chk 0 res arr flag hb2 hroot hr
      refine ⟨later, a1, ?_, a3⟩
      intro p hp
      obtain ⟨k, s, e, b1, b2, b3⟩ := a2 p hp
      refine ⟨k, s, e, b1, ?_, b3⟩
      simp only [List.length_append, List.length_singleton] at b2
      exact b2
    rw [matchLoop] at hm
    split at hm
    · simp only [Option.some.injEq, Prod.mk.injEq] at hm
      exact ⟨[], by rw [← hm.1, List.append_nil], fun p hp => (by cases hp), List.Pairwise.nil⟩
    · simp only [] at hm
      cases hg : getNextNode (nodeAt nodes cur) c with
      | some n =>
        rw [hg] at hm
        simp only [] at hm
        have hb3 : b = u ++ (w ++ [c]) ++ rest := by
          rw [hb, ← List.append_assoc u, List.append_assoc (u ++ w)]; rfl
        have hp3 : (u ++ w).length + 1 = (u ++ (w ++ [c])).length := by
          rw [← List.append_assoc]
          exact (List.length_append (u ++ w) [c]).symm
        rw [hp3] at hm
        exact ih u (w ++ [c]) _ _ n result arr flag hb3 (walk_snoc nodes 0 cur n c w hw hg) hm
      | none =>
        rw [hg] at hm
        simp only [] at hm
        by_cases hd : (nodeAt nodes cur).Depth = 0
        · rw [if_pos hd] at hm
          obtain ⟨hw0, hc0⟩ := walk_nil_root h w cur hw hd
          rw [hc0] at hm
          obtain ⟨later, a1, a2, a3⟩ := hreset _ _ _ hm
          refine ⟨later, a1, ?_, a3⟩
          intro p hp
          obtain ⟨k, s, e, b1, b2, b3⟩ := a2 p hp
          exact ⟨k, s, e, b1, by omega, b3⟩
        · rw [if_neg hd] at hm
          have hwne : w ≠ [] := by
            intro hx
            rw [hx] at hw
            simp only [walk, Option.some.injEq] at hw
            have := h.hdepth 0 h.hlen
            rw [h.hroot] at this
            rw [← hw] at hd
            exact hd this
          have hlen : (u ++ w).length < b.length := by
            rw [hb]; simp only [List.length_append, List.length_cons]; omega
          cases htm : testMatch b nodes cur (((u ++ w).length : Int) - 1) f with
          | none => rw [htm] at hm; cases hm
          | some r0 =>
            rw [htm] at hm
            cases r0 with
            | none =>
              simp only [] at hm
              obtain ⟨later, a1, a2, a3⟩ := hreset _ _ _ hm
              refine ⟨later, a1, ?_, a3⟩
              intro p hp
              obtain ⟨k, s, e, b1, b2, b3⟩ := a2 p hp
              exact ⟨k, s, e, b1, by omega, b3⟩
            | some r =>
              simp only [] at hm
              obtain ⟨later, a1, a2, a3⟩ := hreset _ _ _ hm
              obtain ⟨k, d, d1, d2, d3, d4, d5, _⟩ :=
                testMatch_some h b u w cur f hw hwne hlen r htm
              refine ⟨r :: later, by rw [a1, List.append_assoc]; rfl, ?_, ?_⟩
              · intro p hp
                rcases List.mem_cons.mp hp with hp1 | hp1
                · rw [hp1]
                  refine ⟨k, u.length, u.length + d - 1, d5, le_refl _, d3, ?_⟩
                  rw [slice_take b u w (c :: rest) hb d d1 d2]
                  exact d4
                · obtain ⟨k2, s, e, b1, b2, b3⟩ := a2 p hp1
                  exact ⟨k2, s, e, b1, by omega, b3⟩
              · refine List.Pairwise.cons ?_ a3
                intro q hq
                obtain ⟨k2, s, e, b1, b2, _⟩ := a2 q hq
                rw [b1.1, d5.2.1]
                omega

/-! ## The scanner calls the filter inside the buffer -/

theorem filterPosition_guard (b : List Nat) (g : KeyFilter) (s e : Nat) (r : Option (List Nat))
    (as ae : Bool) (hse : s ≤ e) (he : e + 1 < b.length) :
    filterPosition b (some (guardFilter g)) ⟨(s : Int), (e : Int), r⟩ as ae =
      filterPosition b (some g) ⟨(s : Int), (e : Int), r⟩ as ae := by
  unfold filterPosition guardFilter
  simp only []
  rw [if_pos ⟨Int.natCast_nonneg _, Int.ofNat_le.mpr hse, by omega⟩]

theorem testMatch_guard {krMap nodes insAll insDone path birth}
    (h : TrieInv krMap nodes insAll insDone path birth) (b u w : List Nat) (cur : Nat)
    (g : KeyFilter) (hw : walk nodes 0 w = some cur) (hwne : w ≠ [])
    (hlen : (u ++ w).length < b.length) :
    testMatch b nodes cur (((u ++ w).length : Int) - 1) (some (guardFilter g)) =
      testMatch b nodes cur (((u ++ w).length : Int) - 1) (some g) := by
  have hd := h.depth_walk w cur hw
  obtain ⟨hcur, hpc⟩ := h.path_walk w cur hw
  have hwl : 1 ≤ w.length := by
    cases w with
    | nil => exact absurd rfl hwne
    | cons x xs => simp
  rw [List.length_append] at hlen
  unfold testMatch
  simp only []
  have s1 : (((u ++ w).length : Int) - 1 - ((nodeAt nodes cur).Depth : Int) + 1) =
      (u.length : Int) := by
    rw [hd, List.length_append]; push_cast; omega
  by_cases he : (nodeAt nodes cur).End = true
  · rw [if_pos he, if_pos he]
    have s2 : (((u ++ w).length : Int) - 1) = ((u.length + w.length - 1 : Nat) : Int) := by
      rw [List.length_append]; push_cast; omega
    rw [s1, s2]
    exact filterPosition_guard b g _ _ _ _ _ (by omega) (by omega)
  · rw [if_neg he, if_neg he]
    cases hle : (nodeAt nodes cur).LastEnd with
    | none => rfl
    | some l =>
      simp only []
      obtain ⟨a1, a2, ⟨t, a3⟩, a4⟩ := h.hlast cur l hcur hle
      have hdl : (nodeAt nodes l).Depth = (path l).length := h.hdepth l a1
      have hle2 : (path l).length ≤ w.length := by
        have := congrArg List.length a3
        rw [List.length_append, hpc, toLower_length] at this
        omega
      have s2 : (((u ++ w).length : Int) - 1 -
          (((nodeAt nodes cur).Depth : Int) - ((nodeAt nodes l).Depth : Int))) =
          ((u.length + (path l).length - 1 : Nat) : Int) := by
        rw [hd, hdl, List.length_append]; push_cast; omega
      rw [s1, s2]
      by_cases hae : (nodeAt nodes l).AnyEnd = true
      · simp only [hae, Bool.not_true, Bool.false_eq_true, if_false]
        exact filterPosition_guard b g _ _ _ _ _ (by omega) (by omega)
      · simp only [hae, Bool.not_false, if_true]

/-- The scan with a filter behind the bounds check goes as the scan with the
filter itself: no call of the filter fails the check. -/
theorem matchLoop_guard {krMap nodes insAll insDone path birth}
    (h : TrieInv krMap nodes insAll insDone path birth) (g : KeyFilter)
    (clock : Nat → Int) (maxTime : Int) (b : List Nat) :
    ∀ (rest u w : List Nat) (count checks cur : Nat) (result : List Position),
      b = u ++ w ++ rest → walk nodes 0 w = some cur →
      matchLoop nodes (some (guardFilter g)) clock maxTime b rest (u ++ w).length count checks cur
          result =
        matchLoop nodes (some g) clock maxTime b rest (u ++ w).length count checks cur result := by
  intro rest
  induction rest with
  | nil =>
    intro u w count checks cur result _ _
    simp only [matchLoop]
  | cons c rest ih =>
    intro u w count checks cur result hb hw
    have hroot : walk nodes 0 [] = some 0 := rfl
    have hb2 : b = (u ++ w ++ [c]) ++ [] ++ rest := by
      rw [hb, List.append_nil, List.append_assoc (u ++ w)]; rfl
    have hp2 : (u ++ w).length + 1 = ((u ++ w ++ [c]) ++ []).length := by
      rw [List.append_nil]
      exact (List.length_append (u ++ w) [c]).symm
    have hreset : ∀ (cnt chk : Nat) (res : List Position),
        matchLoop nodes (some (guardFilter g)) clock maxTime b rest ((u ++ w).length + 1) cnt chk 0
            res =
          matchLoop nodes (some g) clock maxTime b rest ((u ++ w).length + 1) cnt chk 0 res := by
      intro cnt chk res
      rw [hp2]
      exact ih (u ++ w ++ [c]) [] cnt chk 0 res hb2 hroot
    simp only [matchLoop]
    by_cases hx : count = 128 ∧ exceeded clock maxTime (checks + 1) = true
    · rw [if_pos hx, if_pos hx]
    · rw [if_neg hx, if_neg hx]
      cases hg : getNextNode (nodeAt nodes cur) c with
      | some n =>
        simp only []
        have hb3 : b = u ++ (w ++ [c]) ++ rest := by
          rw [hb, ← List.append_assoc u, List.append_assoc (u ++ w)]; rfl
        have hp3 : (u ++ w).length + 1 = (u ++ (w ++ [c])).length := by
          rw [← List.append_assoc]
          exact (List.length_append (u ++ w) [c]).symm
        rw [hp3]
        exact ih u (w ++ [c]) _ _ n result hb3 (walk_snoc nodes 0 cur n c w hw hg)
      | none =>
        simp only []
        by_cases hd : (nodeAt nodes cur).Depth = 0
        · rw [if_pos hd, if_pos hd]
          obtain ⟨_, hc0⟩ := walk_nil_root h w cur hw hd
          rw [hc0]
          exact hreset _ _ _
        · rw [if_neg hd, if_neg hd]
          have hwne : w ≠ [] := by
            intro hx
            rw [hx] at hw
            simp only [walk, Option.some.injEq] at hw
            have := h.hdepth 0 h.hlen
            rw [h.hroot] at this
            rw [← hw] at hd
            exact hd this
          have hlen : (u ++ w).length < b.length := by
            rw [hb]; simp only [List.length_append, List.length_cons]; omega
          rw [testMatch_guard h b u w cur g hw hwne hlen]
          cases testMatch b nodes cur (((u ++ w).length : Int) - 1) (some g) with
          | none => rfl
          | some r0 =>
            cases r0 with
            | none => exact hreset _ _ _
            | some r => exact hreset _ _ _

/-! ## Claims C26 and C27: what `Match` reports -/

theorem parsed_keyBytes (rules : List (List Nat × Rule)) (p : List ParsedKey)
    (hp : parsedKeys rules = some p) (hvalid : ∀ k ∈ registeredKeys rules, ValidKey k) :
    ∀ pk ∈ p, pk.key ≠ [] ∧ ∀ c ∈ pk.key, IsKeyByte c := by
  intro pk hpk
  obtain ⟨_, a2, _⟩ := parsedKeys_spec rules p hp
  obtain ⟨key, b1, b2⟩ := a2 pk hpk
  have := hvalid key b1
  unfold ValidKey at this
  rw [b2] at this
  exact this

/-- C26: every reported hit is a genuine, in-bounds occurrence. For every trie
built by `ConstructTrie` from valid keys, every filter (or none), every clock
and every buffer `b`, each position returned by `Match` has
`0 ≤ Start ≤ End` and `End + 1 < len(b)`, the bytes `b[Start..End]` equal up
to ASCII letter case the stem of a registered key, the terminal node of that
stem carries the rule of the position, and the filter accepted the position
with the flags of that node. Moreover the scanner calls the filter only with
`0 ≤ start ≤ end` and `b[end+1]` inside the buffer: a bounds check in front of
the filter changes nothing. -/
theorem C26_hits_genuine (rules : List (List Nat × Rule)) (t : Trie)
    (ht : ConstructTrie rules = some t) (hvalid : ∀ k ∈ registeredKeys rules, ValidKey k)
    (clock : Nat → Int) (maxTime : Int) (b : List Nat) :
    (∀ (f : Option KeyFilter) (arr : List Position) (flag : Bool),
      t.Match b f clock maxTime = some (arr, flag) → ∀ p ∈ arr,
        ∃ s e key k, HitOf t.Nodes f b p k s e ∧ key ∈ registeredKeys rules ∧
          toLower (slice b s e) = stemOf key ∧ walk t.Nodes t.Root (stemOf key) = some k) ∧
    ∀ g : KeyFilter,
      t.Match b (some (guardFilter g)) clock maxTime = t.Match b (some g) clock maxTime := by
  obtain ⟨p, path, birth, hp, hroot, hinv⟩ := ConstructTrie_inv rules t ht
  constructor
  · intro f arr flag hm q hq
    unfold Trie.Match at hm
    obtain ⟨later, a1, a2, _⟩ :=
      matchLoop_hits hinv f clock maxTime b b [] [] 0 0 0 [] arr flag rfl rfl hm
    rw [List.nil_append] at a1
    rw [a1] at hq
    obtain ⟨k, s, e, b1, _, b3, b4⟩ := a2 q hq
    obtain ⟨pk, c1, c2, _⟩ := hinv.hend k b3 b1.2.2.2.2.1
    obtain ⟨_, s2, _⟩ := parsedKeys_spec rules p hp
    obtain ⟨key, d1, d2⟩ := s2 pk c1
    have hkb := parsed_keyBytes rules p hp hvalid
    have hlow : toLower pk.key = pk.key := toLower_of_keyBytes pk.key (hkb pk c1).2
    have hpath : path k = stemOf key := by rw [← c2, hlow, d2]
    refine ⟨s, e, key, k, b1, d1, by rw [← b4]; exact hpath, ?_⟩
    rw [hroot, ← hpath]
    exact hinv.hreach (fun pk hpk => (hkb pk hpk).2) k b3
  · intro g
    unfold Trie.Match
    exact matchLoop_guard hinv g clock maxTime b b [] [] 0 0 0 [] rfl rfl

/-- C27: the positions returned by `Match` are listed in strictly increasing
buffer order and never overlap. For every trie built by `ConstructTrie`, every
filter, clock and buffer: each position starts at least two bytes behind the
end of every position listed before it, in particular of the one just before
it (`q.Start ≥ p.End + 2`), and no position ends before it starts. -/
theorem C27_positions_ordered (rules : List (List Nat × Rule)) (t : Trie)
    (ht : ConstructTrie rules = some t) (f : Option KeyFilter) (clock : Nat → Int)
    (maxTime : Int) (b : List Nat) (arr : List Position) (flag : Bool)
    (hm : t.Match b f clock maxTime = some (arr, flag)) :
    arr.Pairwise (fun p q => q.Start ≥ p.End + 2) ∧
    arr.Chain' (fun p q => q.Start ≥ p.End + 2) ∧
    ∀ p ∈ arr, 0 ≤ p.Start ∧ p.Start ≤ p.End := by
  obtain ⟨p, path, birth, hp, hroot, hinv⟩ := ConstructTrie_inv rules t ht
  unfold Trie.Match at hm
  obtain ⟨later, a1, a2, a3⟩ :=
    matchLoop_hits hinv f clock maxTime b b [] [] 0 0 0 [] arr flag rfl rfl hm
  rw [List.nil_append] at a1
  rw [← a1] at a2 a3
  have hpw : arr.Pairwise (fun p q => q.Start ≥ p.End + 2) := a3
  refine ⟨hpw, List.Pairwise.chain' hpw, ?_⟩
  intro q hq
  obtain ⟨k, s, e, b1, _⟩ := a2 q hq
  rw [b1.1, b1.2.1]
  exact ⟨Int.natCast_nonneg _, Int.ofNat_le.mpr b1.2.2.1⟩

set_option maxRecDepth 100000 in
/-- Witness of C26: the trie of the test configuration on the buffer
`cell:12345678900 `, where `Match` reports the position `[0, 3]` of the key
`cell`. -/
theorem C26_hits_genuine_witness :
    ConstructTrie testRegistry = some testTrie ∧
    (∀ k ∈ registeredKeys testRegistry, ValidKey k) ∧
    testTrie.Match (ascii "cell:12345678900 ") (some DefaultKeyFilter) stillClock 2000 =
      some ([⟨0, 3, some (ascii "phone")⟩], false) ∧
    ((∀ (f : Option KeyFilter) (arr : List Position) (flag : Bool),
      testTrie.Match (ascii "cell:12345678900 ") f stillClock 2000 = some (arr, flag) →
        ∀ p ∈ arr, ∃ s e key k, HitOf testTrie.Nodes f (ascii "cell:12345678900 ") p k s e ∧
          key ∈ registeredKeys testRegistry ∧
          toLower (slice (ascii "cell:12345678900 ") s e) = stemOf key ∧
          walk testTrie.Nodes testTrie.Root (stemOf key) = some k) ∧
    ∀ g : KeyFilter,
      testTrie.Match (ascii "cell:12345678900 ") (some (guardFilter g)) stillClock 2000 =
        testTrie.Match (ascii "cell:12345678900 ") (some g) stillClock 2000) :=
  ⟨by decide, by decide, by decide,
    C26_hits_genuine testRegistry testTrie (by decide) (by decide) stillClock 2000
      (ascii "cell:12345678900 ")⟩

set_option maxRecDepth 100000 in
/-- Witness of C27: the two positions `Match` reports on the buffer `twoHits`
in the test configuration. -/
theorem C27_positions_ordered_witness :
    ConstructTrie testRegistry = some testTrie ∧
    testTrie.Match twoHits (some DefaultKeyFilter) stillClock 2000 =
      some ([⟨0, 3, some (ascii "phone")⟩, ⟨138, 141, some (ascii "phone")⟩], false) ∧
    ([⟨0, 3, some (ascii "phone")⟩, ⟨138, 141, some (ascii "phone")⟩] :
        List Position).Pairwise (fun p q => q.Start ≥ p.End + 2) ∧
    ([⟨0, 3, some (ascii "phone")⟩, ⟨138, 141, some (ascii "phone")⟩] :
        List Position).Chain' (fun p q => q.Start ≥ p.End + 2) ∧
    ∀ p ∈ ([⟨0, 3, some (ascii "phone")⟩, ⟨138, 141, some (ascii "phone")⟩] : List Position),
      0 ≤ p.Start ∧ p.Start ≤ p.End :=
  ⟨by decide, by decide,
    C27_positions_ordered testRegistry testTrie (by decide) (some DefaultKeyFilter) stillClock
      2000 twoHits _ false (by decide)⟩

/-! ## Claim C23: the byte that has no child -/

set_option maxRecDepth 100000 in
/-- C23 fails in the code: with the keys `a@` and `cd`, the scan of `a@cd:`
sits on the node of `a@` when it meets `c`, which has no child there. The key
`cd` starts at that byte, between the splitters `@` and `:`, and alone in
`cd:` it is reported; in `a@cd:` nothing is reported, because `c` is consumed
by the reset and the scan goes on from the root with `d`. -/
theorem C23_counterexample :
    ConstructTrie atRules = some atTrie ∧
    walk atTrie.Nodes atTrie.Root (ascii "a@") = some 2 ∧
    getNextNode (nodeAt atTrie.Nodes 2) 99 = none ∧
    walk atTrie.Nodes atTrie.Root (ascii "cd") = some 4 ∧
    (nodeAt atTrie.Nodes 4).End = true ∧
    StartSide (ascii "a@cd:") 2 false ∧ EndSide (ascii "a@cd:") 3 false ∧
    atTrie.Match (ascii "cd:") (some DefaultKeyFilter) stillClock 2000 =
      some ([⟨0, 1, some (ascii "r")⟩], false) ∧
    atTrie.Match (ascii "a@cd:") (some DefaultKeyFilter) stillClock 2000 = some ([], false) :=
  ⟨by decide, by decide, by decide, by decide, by decide, by decide, by decide, by decide,
    by decide⟩

/-- C23, amended: in `Match`, when the byte `c` at index `pos` has no child
under the current non-root node (reached by the bytes `w` behind the bytes
`u`), the scanner attempts an emission for the match ending at `pos - 1`,
resets to the root and consumes the mismatching byte: the scan goes on from
the root at index `pos + 1`. So every position in the result was found
before, or is the one just attempted (it starts at the start of `w` and ends
before `pos`), or starts behind `pos`: no position starts at the mismatching
byte. -/
theorem C23_mismatch_consumed (rules : List (List Nat × Rule)) (t : Trie)
    (ht : ConstructTrie rules = some t) (f : Option KeyFilter) (clock : Nat → Int)
    (maxTime : Int) (b u w rest : List Nat) (c cur count checks : Nat)
    (result : List Position) (hb : b = u ++ w ++ c :: rest)
    (hw : walk t.Nodes t.Root w = some cur) (hwne : w ≠ [])
    (hnone : getNextNode (nodeAt t.Nodes cur) c = none)
    (hgo : ¬ (count = 128 ∧ exceeded clock maxTime (checks + 1) = true)) :
    matchLoop t.Nodes f clock maxTime b (c :: rest) (u ++ w).length count checks cur result =
      (testMatch b t.Nodes cur (((u ++ w).length : Int) - 1) f).bind
        (fun r => matchLoop t.Nodes f clock maxTime b rest ((u ++ w).length + 1)
          ((if count = 128 then 0 else count) + 1) (if count = 128 then checks + 1 else checks)
          0 (result ++ r.toList)) ∧
    ∀ arr flag,
      matchLoop t.Nodes f clock maxTime b (c :: rest) (u ++ w).length count checks cur result =
        some (arr, flag) →
      ∀ p ∈ arr, p ∈ result ∨
        (p.Start = (u.length : Int) ∧ p.End < ((u ++ w).length : Int)) ∨
        ((u ++ w).length : Int) + 1 ≤ p.Start := by
  obtain ⟨pl, path, birth, hp, hroot, hinv⟩ := ConstructTrie_inv rules t ht
  rw [hroot] at hw
  have hd : (nodeAt t.Nodes cur).Depth ≠ 0 := by
    rw [hinv.depth_walk w cur hw]
    intro hx
    exact hwne (List.length_eq_zero.mp hx)
  have hlen : (u ++ w).length < b.length := by
    rw [hb]; simp only [List.length_append, List.length_cons]; omega
  have hstep :
      matchLoop t.Nodes f clock maxTime b (c :: rest) (u ++ w).length count checks cur result =
        (testMatch b t.Nodes cur (((u ++ w).length : Int) - 1) f).bind
          (fun r => matchLoop t.Nodes f clock maxTime b rest ((u ++ w).length + 1)
            ((if count = 128 then 0 else count) + 1) (if count = 128 then checks + 1 else checks)
            0 (result ++ r.toList)) := by
    rw [matchLoop, if_neg hgo]
    simp only [hnone, if_neg hd]
    cases testMatch b t.Nodes cur (((u ++ w).length : Int) - 1) f with
    | none => rfl
    | some r0 =>
      cases r0 with
      | none => simp only [Option.some_bind, Option.toList_none, List.append_nil]
      | some r => simp only [Option.some_bind, Option.toList_some]
  refine ⟨hstep, ?_⟩
  intro arr flag hm p hpa
  rw [hstep] at hm
  have hb2 : b = (u ++ w ++ [c]) ++ [] ++ rest := by
    rw [hb, List.append_nil, List.append_assoc (u ++ w)]; rfl
  have hp2 : (u ++ w).length + 1 = ((u ++ w ++ [c]) ++ []).length := by
    rw [List.append_nil]
    exact (List.length_append (u ++ w) [c]).symm
  cases htm : testMatch b t.Nodes cur (((u ++ w).length : Int) - 1) f with
  | none => rw [htm] at hm; cases hm
  | some r0 =>
    rw [htm] at hm
    simp only [Option.some_bind] at hm
    rw [hp2] at hm
    obtain ⟨later, a1, a2, _⟩ :=
      matchLoop_hits hinv f clock maxTime b rest (u ++ w ++ [c]) [] _ _ 0 _ arr flag hb2 rfl hm
    rw [a1] at hpa
    rcases List.mem_append.mp hpa with h1 | h1
    · rcases List.mem_append.mp h1 with h2 | h2
      · exact Or.inl h2
      · right; left
        cases r0 with
        | none => cases h2
        | some r =>
          simp only [Option.toList_some, List.mem_singleton] at h2
          obtain ⟨k, d, d1, d2, _, _, d5, _⟩ := testMatch_some hinv b u w cur f hw hwne hlen r htm
          rw [h2, d5.1, d5.2.1, List.length_append]
          exact ⟨rfl, by omega⟩
    · right; right
      obtain ⟨k, s, e, b1, b2, _⟩ := a2 p h1
      rw [b1.1]
      simp only [List.length_append, List.length_singleton] at b2 ⊢
      omega

set_option maxRecDepth 100000 in
/-- Witness of C23: the scan of `a@cd:` with the keys `a@` and `cd`, at the
byte `c` (index 2) on the node of `a@`. -/
theorem C23_mismatch_consumed_witness :
    ConstructTrie atRules = some atTrie ∧
    atTrie.Match (ascii "a@cd:") (some DefaultKeyFilter) stillClock 2000 =
      matchLoop atTrie.Nodes (some DefaultKeyFilter) stillClock 2000 (ascii "a@cd:") (ascii "cd:")
        2 2 0 2 [] ∧
    (matchLoop atTrie.Nodes (some DefaultKeyFilter) stillClock 2000 (ascii "a@cd:")
        (99 :: ascii "d:") ([] ++ ascii "a@").length 2 0 2 [] =
      (testMatch (ascii "a@cd:") atTrie.Nodes 2 ((([] ++ ascii "a@").length : Int) - 1)
          (some DefaultKeyFilter)).bind
        (fun r => matchLoop atTrie.Nodes (some DefaultKeyFilter) stillClock 2000 (ascii "a@cd:")
          (ascii "d:") (([] ++ ascii "a@").length + 1)
          ((if 2 = 128 then 0 else 2) + 1) (if 2 = 128 then 0 + 1 else 0)
          0 ([] ++ r.toList)) ∧
    ∀ arr flag,
      matchLoop atTrie.Nodes (some DefaultKeyFilter) stillClock 2000 (ascii "a@cd:")
          (99 :: ascii "d:") ([] ++ ascii "a@").length 2 0 2 [] = some (arr, flag) →
      ∀ p ∈ arr, p ∈ ([] : List Position) ∨
        (p.Start = (([] : List Nat).length : Int) ∧
          p.End < ((([] : List Nat) ++ ascii "a@").length : Int)) ∨
        ((([] : List Nat) ++ ascii "a@").length : Int) + 1 ≤ p.Start) :=
  ⟨by decide, by decide,
    C23_mismatch_consumed atRules atTrie (by decide) (some DefaultKeyFilter) stillClock 2000
      (ascii "a@cd:") [] (ascii "a@") (ascii "d:") 99 2 2 0 [] (by decide) (by decide)
      (by decide) (by decide) (by decide)⟩

/-! ## Claim C24: the order of insertion and the `LastEnd` pointers -/

theorem strLt_append_left (p a b : List Nat) : strLt (p ++ a) (p ++ b) = strLt a b := by
  induction p with
  | nil => rfl
  | cons x xs ih =>
    show strLt (x :: (xs ++ a)) (x :: (xs ++ b)) = strLt a b
    simp only [strLt, ih, lt_self_iff_false, decide_False, Bool.false_or, decide_True,
      Bool.true_and]

/-- A key one byte longer than its stem is the stem with `*` in front or
behind. -/
theorem key_one_star (k : List Nat) (h : k.length = (stemOf k).length + 1) :
    k = 42 :: stemOf k ∨ k = stemOf k ++ [42] := by
  unfold stemOf at h ⊢
  simp only [] at h ⊢
  by_cases h1 : k.head? = some 42
  · rw [if_pos h1] at h ⊢
    have hk : k = 42 :: k.tail := by
      cases k with
      | nil => cases h1
      | cons x xs =>
        simp only [List.head?_cons, Option.some.injEq] at h1
        rw [h1]; rfl
    by_cases h2 : k.tail.getLast? = some 42
    · rw [if_pos h2] at h
      exfalso
      have hl : 0 < k.length := by rw [hk]; simp
      have ht : k.tail ≠ [] := by
        intro hx; rw [hx] at h2; cases h2
      have hl2 : 0 < k.tail.length := List.length_pos.mpr ht
      simp only [List.length_dropLast, List.length_tail] at h hl2
      omega
    · rw [if_neg h2]
      exact Or.inl hk
  · rw [if_neg h1] at h ⊢
    by_cases h2 : k.getLast? = some 42
    · rw [if_pos h2]
      right
      have hne : k ≠ [] := by
        intro hx; rw [hx] at h2; cases h2
      have := List.dropLast_append_getLast hne
      rw [List.getLast?_eq_getLast _ hne, Option.some.injEq] at h2
      rw [h2] at this
      exact this.symm
    · rw [if_neg h2] at h
      omega

/-- A key with at most one wildcard sorts before every valid key whose stem
extends its own stem. -/
theorem keyLess_of_one_star (kP k1 : List Nat) (hvP : ValidKey kP) (hv1 : ValidKey k1)
    (x : List Nat) (hx : x ≠ []) (hext : stemOf k1 = stemOf kP ++ x)
    (hone : kP.length ≤ (stemOf kP).length + 1) : keyLess kP k1 = true := by
  obtain ⟨_, _, b3, b4⟩ := stemOf_length k1
  obtain ⟨_, _, c3, _⟩ := stemOf_length kP
  have hxl : 0 < x.length := List.length_pos.mpr hx
  have hl1 : (stemOf k1).length = (stemOf kP).length + x.length := by
    rw [hext, List.length_append]
  unfold keyLess
  by_cases h : kP.length < k1.length
  · rw [if_pos h]
  · rw [if_neg h, if_neg (by omega)]
    have e1 : stemOf k1 = k1 := b4 (by omega)
    have hx1 : x.length = 1 := by omega
    obtain ⟨c, hc⟩ := List.length_eq_one.mp hx1
    have hkc : IsKeyByte c := hv1.2 c (by rw [hext, hc]; simp)
    have hc42 : 42 < c := by unfold IsKeyByte at hkc; omega
    rw [← e1, hext, hc]
    rcases key_one_star kP (by omega) with r | r
    · have r2 : strLt kP (stemOf kP ++ [c]) = strLt (42 :: stemOf kP) (stemOf kP ++ [c]) := by
        rw [← r]
      rw [r2]
      obtain ⟨y, ys, hs⟩ := List.exists_cons_of_ne_nil hvP.1
      have hy : IsKeyByte y := hvP.2 y (by rw [hs]; exact List.mem_cons_self _ _)
      unfold IsKeyByte at hy
      rw [hs]
      simp only [List.cons_append, strLt, Bool.or_eq_true, decide_eq_true_eq]
      left; omega
    · have r2 : strLt kP (stemOf kP ++ [c]) = strLt (stemOf kP ++ [42]) (stemOf kP ++ [c]) := by
        rw [← r]
      rw [r2, strLt_append_left]
      simp only [strLt, Bool.or_eq_true, decide_eq_true_eq]
      left; exact hc42

/-- A stem that is registered by a key with at most one wildcard is listed
before every stem that extends it. -/
theorem stem_index_lt_one (rules : List (List Nat × Rule)) (p : List ParsedKey)
    (h : parsedKeys rules = some p) (hall : ∀ k ∈ registeredKeys rules, ValidKey k)
    (kP : List Nat) (hkP : kP ∈ registeredKeys rules)
    (hone : kP.length ≤ (stemOf kP).length + 1)
    (a j : Nat) (qP q3 : ParsedKey) (h1 : p[a]? = some qP) (h2 : p[j]? = some q3)
    (hqP : qP.key = stemOf kP) (x : List Nat) (hx : x ≠ []) (hext : q3.key = qP.key ++ x) :
    a < j := by
  by_contra hc
  have hxl : 0 < x.length := List.length_pos.mpr hx
  have hne : a ≠ j := by
    intro e
    rw [e, h2] at h1
    simp only [Option.some.injEq] at h1
    rw [h1] at hext
    have := congrArg List.length hext
    rw [List.length_append] at this
    omega
  obtain ⟨k1, b1, b2, b3⟩ := parsedKeys_order rules p h j a q3 qP h2 h1 (by omega)
  have := keyLess_of_one_star kP k1 (hall kP hkP) (hall k1 b1) x hx
    (by rw [b2, hext, hqP]) hone
  rw [b3 kP hkP hqP.symm] at this
  cases this

/-- When the stem `P` is listed before every stem that extends it, every node
below the terminal node of `P` reaches that node by `LastEnd` pointers. -/
theorem lastEnd_chain_reaches {krMap nodes p path birth}
    (h : TrieInv krMap nodes p p path birth)
    (hkb : ∀ pk ∈ p, ∀ c ∈ pk.key, IsKeyByte c)
    (a : Nat) (qP : ParsedKey) (ha : p[a]? = some qP) (hPne : qP.key ≠ [])
    (nP : Nat) (hnP : nP < nodes.length) (hpathP : path nP = qP.key)
    (hord : ∀ j q3, p[j]? = some q3 → (∃ x, x ≠ [] ∧ q3.key = qP.key ++ x) → a < j) :
    ∀ (fuel i : Nat), i < nodes.length → (∃ x, x ≠ [] ∧ path i = qP.key ++ x) →
      (path i).length ≤ fuel + qP.key.length → nP ∈ lastEndChain nodes fuel i := by
  intro fuel
  induction fuel with
  | zero =>
    intro i _ hx hl
    exfalso
    obtain ⟨x, x1, x2⟩ := hx
    have := List.length_pos.mpr x1
    rw [x2, List.length_append] at hl
    omega
  | succ fuel ih =>
    intro i hi hx hl
    obtain ⟨x, x1, x2⟩ := hx
    have hxl := List.length_pos.mpr x1
    have hpl : (path i).length = qP.key.length + x.length := by
      rw [x2, List.length_append]
    have hi0 : i ≠ 0 := by
      intro e
      rw [e, h.hroot] at hpl
      simp only [List.length_nil] at hpl
      omega
    obtain ⟨pk, b1, t, b2⟩ := h.hbirth i hi hi0
    have hpk : pk ∈ p := List.get?_mem b1
    rw [toLower_of_keyBytes _ (hkb pk hpk), x2, List.append_assoc] at b2
    have hab : a < birth i := by
      refine hord (birth i) pk (by rw [← List.get?_eq_getElem?]; exact b1) ⟨x ++ t, ?_, b2⟩
      intro e
      exact x1 (List.append_eq_nil.mp e).1
    obtain ⟨l, c1, c2⟩ := h.hlast2 i a qP hi hi0 hab
      (by rw [List.get?_eq_getElem?]; exact ha) hPne
      (hkb qP (List.getElem?_mem ha)) ⟨x, x2⟩ (by omega)
    obtain ⟨d1, _, ⟨t2, d3⟩, _⟩ := h.hlast i l hi c1
    have d5 := h.hlast3 i l hi c1
    obtain ⟨t1, e1⟩ := prefix_of_longer qP.key x (path l) t2 (by rw [← x2, d3]) c2
    rw [lastEndChain, c1]
    simp only []
    by_cases ht : t1 = []
    · rw [ht, List.append_nil, ← hpathP] at e1
      have w1 := h.hreach hkb l d1
      have w2 := h.hreach hkb nP hnP
      rw [e1, w2, Option.some.injEq] at w1
      rw [w1]
      exact List.mem_cons_self _ _
    · exact List.mem_cons_of_mem _ (ih l d1 ⟨t1, ht, e1⟩ (by omega))

/-- C24, amended: in every trie built by `ConstructTrie` from valid keys, the
keys are inserted in the order of their length with the wildcards counted,
then in string order. If `P` and `K` are registered stems, `P` is a strict
prefix of `K`, `P` carries a trailing wildcard (`anyEnd`) and `P` is
registered by a key with at most one wildcard (`P`, `*P` or `P*`), then the
terminal node of `P` is reached from the terminal node of `K` by following
`LastEnd` pointers. -/
theorem C24_lastEnd_chain (rules : List (List Nat × Rule)) (t : Trie)
    (ht : ConstructTrie rules = some t) (hvalid : ∀ k ∈ registeredKeys rules, ValidKey k)
    (kP kK k2 x : List Nat) (hP : kP ∈ registeredKeys rules) (hK : kK ∈ registeredKeys rules)
    (hx : x ≠ []) (hext : stemOf kK = stemOf kP ++ x)
    (hk2 : k2 ∈ registeredKeys rules) (hk2s : stemOf k2 = stemOf kP)
    (hstar : hasTrailingStar k2 = true)
    (hone : kP.length ≤ (stemOf kP).length + 1) :
    ∃ nP nK, walk t.Nodes t.Root (stemOf kP) = some nP ∧ (nodeAt t.Nodes nP).End = true ∧
      (nodeAt t.Nodes nP).AnyEnd = true ∧
      walk t.Nodes t.Root (stemOf kK) = some nK ∧ (nodeAt t.Nodes nK).End = true ∧
      ReachedByLastEnd t.Nodes nK nP := by
  obtain ⟨p, path, birth, hp, hroot, hinv⟩ := ConstructTrie_inv rules t ht
  obtain ⟨s1, _, _, _, hnd⟩ := parsedKeys_spec rules p hp
  have hkb := parsed_keyBytes rules p hp hvalid
  obtain ⟨qP, f1, f2, _, f4⟩ := s1 k2 hk2
  rw [hk2s] at f2
  obtain ⟨qK, g1, g2, _, _⟩ := s1 kK hK
  obtain ⟨nP, m1, m2, m3⟩ := hinv.hcomp qP f1 (hkb qP f1).2
  obtain ⟨nK, n1, n2, n3⟩ := hinv.hcomp qK g1 (hkb qK g1).2
  have hpP : path nP = qP.key := by
    rw [(hinv.path_walk _ nP m2).2, toLower_of_keyBytes _ (hkb qP f1).2]
  have hpK : path nK = qK.key := by
    rw [(hinv.path_walk _ nK n2).2, toLower_of_keyBytes _ (hkb qK g1).2]
  obtain ⟨a, ha⟩ := List.mem_iff_getElem?.mp f1
  have hflags := terminal_flags hinv hnd (fun pk hpk => (hkb pk hpk).2) qP f1 nP m1 m3 hpP
  refine ⟨nP, nK, by rw [hroot, ← f2]; exact m2, m3, by rw [hflags.2.1]; exact f4 hstar,
    by rw [hroot, ← g2]; exact n2, n3, ?_⟩
  unfold ReachedByLastEnd
  refine lastEnd_chain_reaches hinv (fun pk hpk => (hkb pk hpk).2) a qP ha (hkb qP f1).1 nP m1
    hpP ?_ _ nK n1 ⟨x, hx, by rw [hpK, g2, hext, f2]⟩ ?_
  · intro j q3 hj hq3
    obtain ⟨y, y1, y2⟩ := hq3
    exact stem_index_lt_one rules p hp hvalid kP hP hone a j qP q3 ha hj f2 y y1 y2
  · rw [hinv.hdepth nK n1]
    omega

set_option maxRecDepth 100000 in
/-- Witness of C24: the keys `ab*`, `abc` and `abcd`; the terminal node of
`ab` (node 2) is reached from the terminal node of `abcd` (node 4). -/
theorem C24_lastEnd_chain_witness :
    ConstructTrie chainRules = some chainTrie ∧
    (∀ k ∈ registeredKeys chainRules, ValidKey k) ∧
    walk chainTrie.Nodes chainTrie.Root (ascii "ab") = some 2 ∧
    walk chainTrie.Nodes chainTrie.Root (ascii "abcd") = some 4 ∧
    lastEndChain chainTrie.Nodes 4 4 = [3, 2] ∧
    ∃ nP nK, walk chainTrie.Nodes chainTrie.Root (stemOf (ascii "ab*")) = some nP ∧
      (nodeAt chainTrie.Nodes nP).End = true ∧ (nodeAt chainTrie.Nodes nP).AnyEnd = true ∧
      walk chainTrie.Nodes chainTrie.Root (stemOf (ascii "abcd")) = some nK ∧
      (nodeAt chainTrie.Nodes nK).End = true ∧ ReachedByLastEnd chainTrie.Nodes nK nP :=
  ⟨by decide, by decide, by decide, by decide, by decide,
    C24_lastEnd_chain chainRules chainTrie (by decide) (by decide) (ascii "ab*") (ascii "abcd")
      (ascii "ab*") (ascii "cd") (by decide) (by decide) (by decide) (by decide) (by decide)
      (by decide) (by decide) (by decide)⟩

set_option maxRecDepth 100000 in
/-- C24 fails in the code: with the valid keys `*ab*` and `abc` the key `abc`
(3 bytes) is inserted before `*ab*` (4 bytes), although its stem is the longer
one. The stem `ab` is a strict prefix of the stem `abc` and carries `anyEnd`,
but the terminal node of `abc` (node 3) was created before the node of `ab`
(node 2) became terminal: its `LastEnd` is nil and no pointer leads to
node 2. -/
theorem C24_counterexample :
    ConstructTrie starRules = some starTrie ∧
    (∀ k ∈ registeredKeys starRules, ValidKey k) ∧
    ascii "*ab*" ∈ registeredKeys starRules ∧ ascii "abc" ∈ registeredKeys starRules ∧
    stemOf (ascii "abc") = stemOf (ascii "*ab*") ++ ascii "c" ∧
    hasTrailingStar (ascii "*ab*") = true ∧
    parsedKeys starRules = some [⟨ascii "abc", false, false⟩, ⟨ascii "ab", true, true⟩] ∧
    walk starTrie.Nodes starTrie.Root (ascii "ab") = some 2 ∧
    (nodeAt starTrie.Nodes 2).End = true ∧ (nodeAt starTrie.Nodes 2).AnyEnd = true ∧
    walk starTrie.Nodes starTrie.Root (ascii "abc") = some 3 ∧
    (nodeAt starTrie.Nodes 3).End = true ∧ (nodeAt starTrie.Nodes 3).LastEnd = none ∧
    ¬ ReachedByLastEnd starTrie.Nodes 3 2 :=
  ⟨by decide, by decide, by decide, by decide, by decide, by decide, by decide, by decide,
    by decide, by decide, by decide, by decide, by decide, by decide⟩

end GoMasking
